import Mathlib

/-!
# Bencode codec of `ftor` (src/bencode.cpp): shallow embedding and properties

Bytes are natural numbers (a `char` read through `peek`/`get` is its unsigned
value `0..255`); a `std::string` is a `List Nat`; `long` is an `Int` kept in
the signed 64-bit range by the extraction operator; `std::size_t` is a `Nat`
below `2^64`.  A `std::map<std::string, Bencode>` is the list of its entries
in ascending key order, which is how the map stores and iterates them.
-/

namespace Ftor

/-! ## Byte constants and `std::string` comparison -/

/-- A `std::string`: its bytes in order. -/
abbrev Str := List Nat

def ch_minus : Nat := 45
def ch_0 : Nat := 48
def ch_9 : Nat := 57
def ch_colon : Nat := 58
def ch_d : Nat := 100
def ch_e : Nat := 101
def ch_i : Nat := 105
def ch_l : Nat := 108

/-- The bytes of a string literal, to write inputs down readably. -/
def bytes (s : String) : Str := s.toList.map Char.toNat

/-- The bytes `'0'..'9'`. -/
def isDigit (c : Nat) : Bool := decide (ch_0 ≤ c) && decide (c ≤ ch_9)

/-- The `operator<` of `std::string`: bytewise lexicographic order, a proper prefix
being smaller. -/
def strLt : Str → Str → Bool
  | [], [] => false
  | [], _ :: _ => true
  | _ :: _, [] => false
  | a :: as, b :: bs => if a < b then true else if b < a then false else strLt as bs

/-! ## The value type -/

/-- The variant `std::variant<std::monostate, std::string, long, List, Dict>`
held by a `Bencode`. -/
inductive Bencode where
  | null : Bencode
  | str (value : Str) : Bencode
  | int (value : Int) : Bencode
  | list (value : List Bencode) : Bencode
  | dict (value : List (Str × Bencode)) : Bencode

/-- The enumeration `Bencode::ValueType`. -/
inductive ValueType where
  | kNull | kString | kInteger | kList | kDictionary
  deriving DecidableEq, Repr

/-- The method `Bencode::Type`. -/
def Bencode.Type : Bencode → ValueType
  | .null => .kNull
  | .str _ => .kString
  | .int _ => .kInteger
  | .list _ => .kList
  | .dict _ => .kDictionary

/-- The map `std::map::operator[]` followed by assignment (`m[key] = value`): the entry
is put at its place in key order, replacing an entry with an equal key. -/
def mapAssign {α : Type} (key : Str) (value : α) : List (Str × α) → List (Str × α)
  | [] => [(key, value)]
  | (k, v) :: rest =>
    if strLt key k then (key, value) :: (k, v) :: rest
    else if strLt k key then (k, v) :: mapAssign key value rest
    else (key, value) :: rest


/-! ## Decimal formatting (`std::format` with the default format) -/

/-- Decimal digits of `n`, most significant first, put in front of `acc`;
`fuel` bounds the number of digits. -/
def decimalAux : Nat → Nat → List Nat → List Nat
  | 0, _, acc => acc
  | fuel + 1, n, acc =>
    if n / 10 = 0 then (ch_0 + n % 10) :: acc
    else decimalAux fuel (n / 10) ((ch_0 + n % 10) :: acc)

/-- The call `std::format` on an unsigned integer `n`: the decimal digits of `n`
without leading zeros, `"0"` for zero. -/
def formatNat (n : Nat) : Str := decimalAux (n + 1) n []

/-- The call `std::format` on a `long`: a `'-'` for a negative number, then the
decimal digits of its magnitude. -/
def formatInt (n : Int) : Str :=
  if n < 0 then ch_minus :: formatNat n.natAbs else formatNat n.natAbs

/-! ## Encoder -/

/-- The enumeration `Bencode::DumpError::ExceptionID`. -/
inductive DumpErrorID where
  | kNull
  deriving DecidableEq, Repr

/-- The `kString` case of `Bencode::Dump`:
`std::format` of `get_string().length()`, a colon and `get_string()`. -/
def DumpString (s : Str) : Str := formatNat s.length ++ ch_colon :: s

mutual
/-- The method `Bencode::Dump`. -/
def Bencode.Dump : Bencode → Except DumpErrorID Str
  | .null => .error .kNull
  | .str s => .ok (DumpString s)
  | .int n => .ok (ch_i :: formatInt n ++ [ch_e])
  | .list l =>
    match DumpElems l with
    | .ok body => .ok (ch_l :: body ++ [ch_e])
    | .error e => .error e
  | .dict d =>
    match DumpItems d with
    | .ok body => .ok (ch_d :: body ++ [ch_e])
    | .error e => .error e
/-- The loop `for (const Bencode& elem : *this) output += elem.Dump();`. -/
def DumpElems : List Bencode → Except DumpErrorID Str
  | [] => .ok []
  | elem :: rest =>
    match elem.Dump with
    | .error e => .error e
    | .ok x =>
      match DumpElems rest with
      | .ok y => .ok (x ++ y)
      | .error e => .error e
/-- The loop over `items()`: `output += Bencode(key).Dump(); output += value.Dump();`
(`Bencode(key)` is a String, so its `Dump` is `DumpString key`). -/
def DumpItems : List (Str × Bencode) → Except DumpErrorID Str
  | [] => .ok []
  | (key, value) :: rest =>
    match value.Dump with
    | .error e => .error e
    | .ok x =>
      match DumpItems rest with
      | .ok y => .ok (DumpString key ++ x ++ y)
      | .error e => .error e
end

/-! ## The input stream

`std::istream` over a byte buffer, as far as the decoder uses it.  `rest` is
the unread input and `fail` is the `failbit` left by a formatted extraction
that could not produce a value.  `eofbit` needs no field: it is only ever set
when `rest` is empty, and every operation the decoder uses (`peek`, `get`,
`ignore`, `read`) does the same on an exhausted stream with and without it. -/

structure IStream where
  rest : List Nat
  fail : Bool
  deriving DecidableEq, Repr

/-- The call `input.peek()`: `none` is `EOF`, also returned when the stream has failed. -/
def IStream.peek (s : IStream) : Option Nat :=
  if s.fail then none else s.rest.head?

/-- The call `input.ignore()`: drops one byte, nothing on a failed stream. -/
def IStream.ignore (s : IStream) : IStream :=
  if s.fail then s else { s with rest := s.rest.tail }

/-- The call `input.get()`: the next byte (`none` is `EOF`) and the stream after it. -/
def IStream.get (s : IStream) : Option Nat × IStream :=
  (s.peek, s.ignore)

/-- The call `input.read(buf, n)` followed by `input.gcount()`: the bytes read, at most
`n`, and the stream after them; reading less than `n` sets `failbit`. -/
def IStream.read (s : IStream) (n : Nat) : Str × IStream :=
  if s.fail then ([], s)
  else (s.rest.take n, { rest := s.rest.drop n, fail := decide (s.rest.length < n) })

/-- The leading decimal digits of the input, and what follows them. -/
def spanDigits : List Nat → List Nat × List Nat
  | [] => ([], [])
  | c :: cs =>
    if isDigit c then ((spanDigits cs).1.cons c, (spanDigits cs).2) else ([], c :: cs)

/-- The number written by a sequence of decimal digits. -/
def digitsValue (ds : List Nat) : Nat :=
  ds.foldl (fun acc d => 10 * acc + (d - ch_0)) 0

/-- The value `ULONG_MAX` of a 64-bit `std::size_t`. -/
def SIZE_MAX : Nat := 2 ^ 64 - 1
/-- The value `LONG_MAX` of a 64-bit `long`. -/
def LONG_MAX : Int := 2 ^ 63 - 1
/-- The value `LONG_MIN` of a 64-bit `long`. -/
def LONG_MIN : Int := -(2 ^ 63)

/-- The extraction `input >> string_length` for a `std::size_t`, on a good stream whose next
byte is a digit (the only way `ParseString` calls it, so that neither
whitespace nor a sign is skipped): all the digits are consumed; when their value
does not fit 64 bits the result is `SIZE_MAX` and `failbit` is set (`num_get`,
[facet.num.get.virtuals] stage 3); without a digit the result is `0` and
`failbit` is set.  On a failed stream nothing is read (the variable keeps its
indeterminate value, `0` here). -/
def IStream.extractSizeT (s : IStream) : Nat × IStream :=
  let ds := (spanDigits s.rest).1
  let r := (spanDigits s.rest).2
  if s.fail then (0, s)
  else if ds = [] then (0, { rest := r, fail := true })
  else if SIZE_MAX < digitsValue ds then (SIZE_MAX, { rest := r, fail := true })
  else (digitsValue ds, { rest := r, fail := false })

/-- The extraction `input >> number` for a `long`, on a good stream whose next byte is `'-'`
or a digit (the only way `ParseInteger` calls it): an optional `'-'` and all
the digits after it are consumed; without a digit the result is `0` and
`failbit` is set; a value outside the 64-bit range gives `LONG_MAX` or
`LONG_MIN` and sets `failbit`.  On a failed stream nothing is read (the
variable keeps its indeterminate value, `0` here). -/
def IStream.extractLong (s : IStream) : Int × IStream :=
  let negative := decide (s.rest.head? = some ch_minus)
  let body := if negative then s.rest.tail else s.rest
  let ds := (spanDigits body).1
  let r := (spanDigits body).2
  if s.fail then (0, s)
  else if ds = [] then (0, { rest := r, fail := true })
  else if negative then
    if (2 ^ 63 : Nat) < digitsValue ds then (LONG_MIN, { rest := r, fail := true })
    else (-(digitsValue ds : Int), { rest := r, fail := false })
  else
    if (2 ^ 63 - 1 : Nat) < digitsValue ds then (LONG_MAX, { rest := r, fail := true })
    else ((digitsValue ds : Int), { rest := r, fail := false })

/-! ## Decoder -/

/-- The enumeration `Bencode::ParseError::ExceptionID`. -/
inductive ParseErrorID where
  | kUnexpectedEOF
  | kLeading0
  | kTooMuchData
  | kMissingPostfix
  | kBadPrefix
  | kNegativeStringLength
  | kStringMissingColon
  | kIntegerEmpty
  | kIntegerNonDecimal
  | kDictKeyNotString
  | kDictIncompletePair
  | kDictDuplicateKeys
  | kDictBadOrder
  deriving DecidableEq, Repr

/-- What a decoding function does: it returns, it throws a `ParseError`, or the
recursion bound of the embedding was too small (`Parse` never ends so, see
`Parse_ne_outOfFuel`). -/
inductive Outcome (α : Type) where
  | ok (value : α) : Outcome α
  | throw (id : ParseErrorID) : Outcome α
  | outOfFuel : Outcome α

/-- The algorithm `std::is_sorted(first, last)` with `operator<`: no element is smaller than
the one before it. -/
def is_sorted : List Str → Bool
  | [] => true
  | [_] => true
  | a :: b :: rest => if strLt b a then false else is_sorted (b :: rest)

/-- The algorithm `std::adjacent_find(first, last)`: the position of the first element equal
to its successor, `none` for `last`. -/
def adjacent_find : List Str → Option Nat
  | [] => none
  | [_] => none
  | a :: b :: rest =>
    if a = b then some 0 else (adjacent_find (b :: rest)).map (· + 1)

/-- The second half of `Bencode::ParseString`, from `if (input.get() != ':')`
on, with the `string_length` found by the first half.  The buffer of
`string_length` bytes is taken to be obtained; `Allocating.ParseStringPayload`
has its construction. -/
def ParseStringPayload (string_length : Nat) (input : IStream) :
    Outcome (Bencode × IStream) :=
  if input.get.1 ≠ some ch_colon then .throw .kStringMissingColon
  else
    let chunk := input.get.2.read string_length
    if chunk.1.length ≠ string_length then .throw .kUnexpectedEOF
    else .ok (.str chunk.1, chunk.2)

/-- The function `Bencode::ParseString`. -/
def ParseString (input : IStream) : Outcome (Bencode × IStream) :=
  if input.peek = some ch_minus then .throw .kNegativeStringLength
  else if input.peek = some ch_0 then
    let input := input.ignore
    match input.peek with
    | some c =>
      if isDigit c then .throw .kLeading0 else ParseStringPayload 0 input
    | none => ParseStringPayload 0 input
  else
    ParseStringPayload input.extractSizeT.1 input.extractSizeT.2

/-- The function `Bencode::ParseInteger`. -/
def ParseInteger (input : IStream) : Outcome (Bencode × IStream) :=
  let input := input.ignore
  match input.peek with
  | none => .throw .kUnexpectedEOF
  | some c =>
    if c = ch_e then .throw .kIntegerEmpty
    else if c = ch_minus ∨ isDigit c then
      let number := input.extractLong
      if number.2.peek = none then .throw .kUnexpectedEOF
      else if number.2.peek ≠ some ch_e then .throw .kMissingPostfix
      else .ok (.int number.1, number.2.ignore)
    else .throw .kIntegerNonDecimal

/-- The `while (input.peek() != 'e')` loop of `Bencode::ParseList` and the
statements after it; `elems` is the list built so far and `ParseRecursive` the
decoder of one element. -/
def ParseListLoop (ParseRecursive : IStream → Outcome (Bencode × IStream)) :
    Nat → IStream → List Bencode → Outcome (Bencode × IStream)
  | 0, _, _ => .outOfFuel
  | fuel + 1, input, elems =>
    if input.peek ≠ some ch_e then
      match ParseRecursive input with
      | .ok (elem, input) => ParseListLoop ParseRecursive fuel input (elems ++ [elem])
      | .throw id => .throw id
      | .outOfFuel => .outOfFuel
    else .ok (.list elems, input.ignore)

/-- The function `Bencode::ParseList`. -/
def ParseList (ParseRecursive : IStream → Outcome (Bencode × IStream))
    (fuel : Nat) (input : IStream) : Outcome (Bencode × IStream) :=
  ParseListLoop ParseRecursive fuel input.ignore []

/-- The `while (input.peek() != 'e')` loop of `Bencode::ParseDictionary` and the
statements after it; `dict` is the map and `key_list` the keys read so far. -/
def ParseDictLoop (ParseRecursive : IStream → Outcome (Bencode × IStream)) :
    Nat → IStream → List (Str × Bencode) → List Str → Outcome (Bencode × IStream)
  | 0, _, _, _ => .outOfFuel
  | fuel + 1, input, dict, key_list =>
    if input.peek ≠ some ch_e then
      match ParseRecursive input with
      | .ok (.str key, input) =>
        if input.peek = some ch_e then .throw .kDictIncompletePair
        else
          match ParseRecursive input with
          | .ok (value, input) =>
            ParseDictLoop ParseRecursive fuel input (mapAssign key value dict)
              (key_list ++ [key])
          | .throw id => .throw id
          | .outOfFuel => .outOfFuel
      | .ok (_, _) => .throw .kDictKeyNotString
      | .throw id => .throw id
      | .outOfFuel => .outOfFuel
    else if !is_sorted key_list then .throw .kDictBadOrder
    else if (adjacent_find key_list).isSome then .throw .kDictDuplicateKeys
    else .ok (.dict dict, input.ignore)

/-- The function `Bencode::ParseDictionary`. -/
def ParseDictionary (ParseRecursive : IStream → Outcome (Bencode × IStream))
    (fuel : Nat) (input : IStream) : Outcome (Bencode × IStream) :=
  ParseDictLoop ParseRecursive fuel input.ignore [] []

/-- The function `Bencode::ParseRecursive`; `fuel` bounds the nesting depth and the number of
elements of a container. -/
def ParseRecursive : Nat → IStream → Outcome (Bencode × IStream)
  | 0, _ => .outOfFuel
  | fuel + 1, input =>
    match input.peek with
    | none => .throw .kUnexpectedEOF
    | some c =>
      if isDigit c ∨ c = ch_minus then ParseString input
      else if c = ch_i then ParseInteger input
      else if c = ch_l then ParseList (ParseRecursive fuel) fuel input
      else if c = ch_d then ParseDictionary (ParseRecursive fuel) fuel input
      else .throw .kBadPrefix

/-- The function `Bencode::Parse` on a stream holding the bytes `input`. -/
def Parse (input : List Nat) : Outcome Bencode :=
  let stream : IStream := { rest := input, fail := false }
  if stream.peek = none then .ok .null
  else
    match ParseRecursive (input.length + 1) stream with
    | .ok (root_elem, stream) =>
      if stream.peek ≠ none then .throw .kTooMuchData else .ok root_elem
    | .throw id => .throw id
    | .outOfFuel => .outOfFuel

/-! ## Values a C++ program can hold -/

/-- Strictly ascending keys: the order invariant of `std::map`. -/
def keysAscending : List Str → Bool
  | [] => true
  | [_] => true
  | a :: b :: rest => strLt a b && keysAscending (b :: rest)

mutual
/-- No Null anywhere inside the value. -/
def Bencode.NullFree : Bencode → Bool
  | .null => false
  | .str _ => true
  | .int _ => true
  | .list l => NullFreeElems l
  | .dict d => NullFreeItems d
/-- No Null inside the elements of a list. -/
def NullFreeElems : List Bencode → Bool
  | [] => true
  | elem :: rest => elem.NullFree && NullFreeElems rest
/-- No Null inside the values of a dictionary. -/
def NullFreeItems : List (Str × Bencode) → Bool
  | [] => true
  | (_, value) :: rest => value.NullFree && NullFreeItems rest
end

mutual
/-- The value is one the C++ type can hold: every `long` is in the signed
64-bit range, every `std::string` has a length that fits `std::size_t`, and
every `std::map` has its keys in strictly ascending order. -/
def Bencode.Representable : Bencode → Bool
  | .null => true
  | .str s => decide (s.length ≤ SIZE_MAX)
  | .int n => decide (LONG_MIN ≤ n) && decide (n ≤ LONG_MAX)
  | .list l => RepresentableElems l
  | .dict d => keysAscending (d.map Prod.fst) && RepresentableItems d
/-- Every element of a list is representable. -/
def RepresentableElems : List Bencode → Bool
  | [] => true
  | elem :: rest => elem.Representable && RepresentableElems rest
/-- Every key and value of a dictionary is representable. -/
def RepresentableItems : List (Str × Bencode) → Bool
  | [] => true
  | (key, value) :: rest =>
    decide (key.length ≤ SIZE_MAX) && value.Representable && RepresentableItems rest
end

/-- The map after the assignments `m[key] = value` for the entries of `d`, in
order. -/
def assignAll (m d : List (Str × Bencode)) : List (Str × Bencode) :=
  d.foldl (fun acc kv => mapAssign kv.1 kv.2 acc) m

/-! ## The encodings the decoder accepts -/

/-- The text `body` is an integer body that `input >> number` reads as `n`: an
optional `'-'`, then one or more decimal digits (leading zeros allowed) whose
value, with the sign, is in the signed 64-bit range. -/
def IntBody (n : Int) (body : Str) : Prop :=
  ∃ ds : List Nat, ds ≠ [] ∧ (∀ d ∈ ds, isDigit d = true) ∧
    ((body = ds ∧ digitsValue ds ≤ 2 ^ 63 - 1 ∧ n = (digitsValue ds : Int)) ∨
     (body = ch_minus :: ds ∧ digitsValue ds ≤ 2 ^ 63 ∧ n = -(digitsValue ds : Int)))

mutual
/-- The bytes `b` are a bencoding of `v` in the grammar of the decoder: strings,
lists and dictionaries are laid out as `Dump` writes them, dictionary keys are
strictly ascending, and an integer is `'i'`, an integer body, `'e'`. -/
def Encoding : Bencode → Str → Prop
  | .null, _ => False
  | .str s, b => s.length ≤ SIZE_MAX ∧ b = DumpString s
  | .int n, b => ∃ body, IntBody n body ∧ b = ch_i :: (body ++ [ch_e])
  | .list l, b => ∃ body, EncodingElems l body ∧ b = ch_l :: (body ++ [ch_e])
  | .dict d, b => ∃ body, EncodingItems d body ∧ keysAscending (d.map Prod.fst) = true ∧
      b = ch_d :: (body ++ [ch_e])
/-- The concatenated encodings of the elements of a list. -/
def EncodingElems : List Bencode → Str → Prop
  | [], b => b = []
  | elem :: rest, b => ∃ x y, Encoding elem x ∧ EncodingElems rest y ∧ b = x ++ y
/-- The concatenated encodings of the entries of a dictionary: each key as a
string, then its value. -/
def EncodingItems : List (Str × Bencode) → Str → Prop
  | [], b => b = []
  | (key, value) :: rest, b => ∃ x y, key.length ≤ SIZE_MAX ∧ Encoding value x ∧
      EncodingItems rest y ∧ b = DumpString key ++ (x ++ y)
end

/-- What a successful run of a decoder guarantees: the stream was and stays
good, and the bytes consumed are an encoding of the value returned. -/
def SoundDecoder (rec : IStream → Outcome (Bencode × IStream)) : Prop :=
  ∀ s v s', rec s = .ok (v, s') →
    s.fail = false ∧ s'.fail = false ∧ ∃ b, Encoding v b ∧ s.rest = b ++ s'.rest

/-! ## Inputs cut into the pieces the decoder reads -/

/-- The bytes of a run of dictionary entries, each given by its key and the
bytes of its value: the key written as a string, then the value. -/
def pairsBytes : List (Str × Str) → Str
  | [] => []
  | (key, value) :: rest => DumpString key ++ (value ++ pairsBytes rest)

/-- The bytes are those of one value that decodes: they are not empty and
`Parse` succeeds on them. -/
def Decodes (b : Str) : Prop := b ≠ [] ∧ ∃ v, Parse b = .ok v

/-- Every key fits a `std::string` and every value decodes. -/
def PairsDecode (pairs : List (Str × Str)) : Prop :=
  ∀ p ∈ pairs, p.1.length ≤ SIZE_MAX ∧ Decodes p.2

/-- The bytes of a run of list elements. -/
def elemsBytes : List Str → Str
  | [] => []
  | elem :: rest => elem ++ elemsBytes rest

/-- An open container around a position where the decoder reads a value: a list
after some elements, a dictionary after some entries (the value read next is a
key), or a dictionary after some entries and the key of the next one. -/
inductive Frame where
  | inList (elems : List Str) : Frame
  | inDictKey (pairs : List (Str × Str)) : Frame
  | inDictValue (pairs : List (Str × Str)) (key : Str) : Frame

/-- The bytes of the input from the start of the container to the position. -/
def Frame.bytes : Frame → Str
  | .inList elems => ch_l :: elemsBytes elems
  | .inDictKey pairs => ch_d :: pairsBytes pairs
  | .inDictValue pairs key => ch_d :: (pairsBytes pairs ++ DumpString key)

/-- What was read in the container before the position decodes. -/
def Frame.Decodes : Frame → Prop
  | .inList elems => ∀ e ∈ elems, Ftor.Decodes e
  | .inDictKey pairs => PairsDecode pairs
  | .inDictValue pairs key => PairsDecode pairs ∧ key.length ≤ SIZE_MAX

/-- The bytes before a position nested in the given containers, outermost
first. -/
def contextBytes : List Frame → Str
  | [] => []
  | frame :: inner => frame.bytes ++ contextBytes inner

/-! ## Inputs in which every integer is written canonically -/

/-- The integer body at the head of the bytes has no leading zero and is not a
negative zero: no `'0'` stands in front of another digit or right after the
sign. -/
def canonicalIntBody : List Nat → Bool
  | c0 :: c1 :: _ =>
    if c0 = ch_0 then !isDigit c1
    else if c0 = ch_minus ∧ c1 = ch_0 then false
    else true
  | _ => true

/-- The values of a container, read one after the other up to its `'e'`, all
satisfy `canonical`; `ParseRecursive` finds where each one ends. -/
def CanonicalLoop (canonical : IStream → Bool)
    (ParseRecursive : IStream → Outcome (Bencode × IStream)) : Nat → IStream → Bool
  | 0, _ => true
  | g + 1, input =>
    if input.peek = some ch_e then true
    else
      match ParseRecursive input with
      | .ok (_, next) => canonical input && CanonicalLoop canonical ParseRecursive g next
      | _ => true

/-- Every integer of the value at the head of the input, at any depth, is
written canonically. -/
def IntegersCanonical : Nat → IStream → Bool
  | 0, _ => true
  | fuel + 1, input =>
    match input.peek with
    | none => true
    | some c =>
      if c = ch_i then canonicalIntBody input.ignore.rest
      else if c = ch_l ∨ c = ch_d then
        CanonicalLoop (IntegersCanonical fuel) (ParseRecursive fuel) fuel input.ignore
      else true

/-- Every integer in the input is written without leading zeros and not as
negative zero. -/
def CanonicalIntegers (b : Str) : Bool :=
  IntegersCanonical (b.length + 1) ⟨b, false⟩

/-! ## The reference serializer of the specification

Written after the words of the specification, to be compared with `Dump`. -/

/-- The decimal numeral of `n` without leading zeros, `"0"` for zero. -/
def refDecimal (n : Nat) : Str :=
  if n = 0 then [ch_0] else ((Nat.digits 10 n).map (fun d => ch_0 + d)).reverse

/-- A string: its length in decimal, `':'`, its bytes. -/
def refString (s : Str) : Str := refDecimal s.length ++ ch_colon :: s

/-- An entry, given by its key and the encoding of its value, does not come
after another in ascending bytewise lexicographic order of the keys. -/
abbrev keyNotAfter (a b : Str × Str) : Prop :=
  ¬ List.Lex (fun x y : Nat => x < y) b.1 a.1

/-- Each entry in turn: the key as a string, then the encoding of its value. -/
def refEntries : List (Str × Str) → Str
  | [] => []
  | (key, x) :: rest => refString key ++ (x ++ refEntries rest)

mutual
/-- The reference encoding of a value, `none` when it holds a Null: an Integer
is `'i'`, its decimal numeral with `'-'` in front when negative, `'e'`; a List
is `'l'`, the encodings of its elements in order, `'e'`; a Dictionary is `'d'`,
its entries in ascending key order, `'e'`. -/
def refEncode : Bencode → Option Str
  | .null => none
  | .str s => some (refString s)
  | .int n =>
    some (ch_i :: ((if n < 0 then ch_minus :: refDecimal n.natAbs else refDecimal n.natAbs)
      ++ [ch_e]))
  | .list l =>
    match refEncodeElems l with
    | some body => some (ch_l :: (body ++ [ch_e]))
    | none => none
  | .dict d =>
    match refEncodeItems d with
    | some kvs =>
      some (ch_d :: (refEntries (kvs.insertionSort keyNotAfter) ++ [ch_e]))
    | none => none
/-- The reference encodings of the elements of a list, concatenated. -/
def refEncodeElems : List Bencode → Option Str
  | [] => some []
  | elem :: rest =>
    match refEncode elem with
    | none => none
    | some x =>
      match refEncodeElems rest with
      | some y => some (x ++ y)
      | none => none
/-- The entries of a dictionary, each value replaced by its reference encoding. -/
def refEncodeItems : List (Str × Bencode) → Option (List (Str × Str))
  | [] => some []
  | (key, value) :: rest =>
    match refEncode value with
    | none => none
    | some x =>
      match refEncodeItems rest with
      | some kvs => some ((key, x) :: kvs)
      | none => none
end

/-! ## The interface of `Bencode`

A method that can throw returns an `Except Fault`; a method that changes the
value returns the value after the call first, also when the call throws. -/

/-- How a call of the interface ends when it does not return: with the
`std::bad_variant_access` of `std::get`, with a `std::out_of_range`, or in
undefined behaviour, where the C++ standard gives the call no meaning. -/
inductive Fault where
  | bad_variant_access
  | out_of_range
  | undefined
  deriving DecidableEq, Repr

/-- The lookup `std::map::find`: the value stored under `key`, if any. -/
def mapFind {α : Type} (key : Str) : List (Str × α) → Option α
  | [] => none
  | (k, v) :: rest => if k = key then some v else mapFind key rest

/-- The removal `std::map::erase(key)`: the map without the entry of `key`. -/
def mapErase {α : Type} (key : Str) : List (Str × α) → List (Str × α)
  | [] => []
  | (k, v) :: rest => if k = key then mapErase key rest else (k, v) :: mapErase key rest

/-- The method `Bencode::push_back`: a Null value first becomes the empty list;
`std::get<List>` throws on every other tag. -/
def Bencode.push_back (self elem : Bencode) : Bencode × Except Fault Unit :=
  match self with
  | .null => (.list [elem], .ok ())
  | .list l => (.list (l ++ [elem]), .ok ())
  | _ => (self, .error .bad_variant_access)

/-- The method `Bencode::get_string`. -/
def Bencode.get_string : Bencode → Except Fault Str
  | .str s => .ok s
  | _ => .error .bad_variant_access

/-- The method `Bencode::get_int`. -/
def Bencode.get_int : Bencode → Except Fault Int
  | .int n => .ok n
  | _ => .error .bad_variant_access

/-- The method `Bencode::size`. -/
def Bencode.size : Bencode → Nat
  | .null => 0
  | .str _ => 1
  | .int _ => 1
  | .list l => l.length
  | .dict d => d.length

/-- The method `Bencode::empty`. -/
def Bencode.empty : Bencode → Bool
  | .null => true
  | .str _ => false
  | .int _ => false
  | .list l => l.isEmpty
  | .dict d => d.isEmpty

/-- The method `Bencode::contains`. -/
def Bencode.contains (self : Bencode) (key : Str) : Bool :=
  match self with
  | .dict d => (mapFind key d).isSome
  | _ => false

/-- The method `Bencode::at(std::size_t)`: `std::vector::at` checks the index. -/
def Bencode.atIdx (self : Bencode) (idx : Nat) : Except Fault Bencode :=
  match self with
  | .list l =>
    match l[idx]? with
    | some elem => .ok elem
    | none => .error .out_of_range
  | _ => .error .bad_variant_access

/-- The method `Bencode::at(const std::string&)`: `std::map::at` throws on a
missing key. -/
def Bencode.atKey (self : Bencode) (key : Str) : Except Fault Bencode :=
  match self with
  | .dict d =>
    match mapFind key d with
    | some value => .ok value
    | none => .error .out_of_range
  | _ => .error .bad_variant_access

/-- The method `Bencode::operator[](std::size_t)`: the index is compared with
`size()` before the unchecked `data[idx]`. -/
def Bencode.indexIdx (self : Bencode) (idx : Nat) : Except Fault Bencode :=
  match self with
  | .list l =>
    if idx ≥ self.size then .error .out_of_range
    else
      match l[idx]? with
      | some elem => .ok elem
      | none => .error .undefined
  | _ => .error .bad_variant_access

/-- The method `Bencode::operator[](const std::string&)`: a Null value first
becomes the empty dictionary; `std::map::operator[]` inserts a Null under a
missing key.  The result is the value the returned reference designates. -/
def Bencode.indexKey (self : Bencode) (key : Str) : Bencode × Except Fault Bencode :=
  match self with
  | .null => (.dict [(key, .null)], .ok .null)
  | .dict d =>
    match mapFind key d with
    | some value => (self, .ok value)
    | none => (.dict (mapAssign key .null d), .ok .null)
  | _ => (self, .error .bad_variant_access)

/-- The statement `self[key] = value`: `operator[](const std::string&)` and an
assignment through the reference it returns. -/
def Bencode.assignKey (self : Bencode) (key : Str) (value : Bencode) :
    Bencode × Except Fault Unit :=
  match self with
  | .null => (.dict [(key, value)], .ok ())
  | .dict d => (.dict (mapAssign key value d), .ok ())
  | _ => (self, .error .bad_variant_access)

/-- The method `Bencode::erase(const std::string&)`; the result is the number of
entries removed. -/
def Bencode.eraseKey (self : Bencode) (key : Str) : Bencode × Except Fault Nat :=
  match self with
  | .dict d => (.dict (mapErase key d), .ok (if (mapFind key d).isSome then 1 else 0))
  | _ => (self, .error .bad_variant_access)

/-- The method `Bencode::erase(std::size_t)`.  The iterator `data.begin() + idx`
is compared with `data.end()` only for equality; forming it for an `idx`
above the size is undefined behaviour. -/
def Bencode.eraseIdx (self : Bencode) (idx : Nat) : Bencode × Except Fault Unit :=
  match self with
  | .list l =>
    if l.length < idx then (self, .error .undefined)
    else if idx = l.length then (self, .error .out_of_range)
    else (.list (l.eraseIdx idx), .ok ())
  | _ => (self, .error .bad_variant_access)

/-- The method `Bencode::clear`. -/
def Bencode.clear : Bencode → Bencode
  | .null => .null
  | .str _ => .str []
  | .int _ => .int 0
  | .list _ => .list []
  | .dict _ => .dict []

/-- The values met by a loop from `begin()` to `end()`: the elements of a list,
the keys of a dictionary in the order of the map. -/
def Bencode.iterate : Bencode → Except Fault (List Bencode)
  | .list l => .ok l
  | .dict d => .ok (d.map (fun entry => .str entry.1))
  | _ => .error .bad_variant_access

/-- The pairs met by a loop over `items()`: the entries of the dictionary in the
order of the map. -/
def Bencode.items : Bencode → Except Fault (List (Str × Bencode))
  | .dict d => .ok d
  | _ => .error .bad_variant_access

/-- The first loop of `Bencode::Bencode(std::initializer_list<Bencode>)`, over
an `init` of even size: every element at an even position is a string. -/
def construct_dict : List Bencode → Bool
  | key :: _ :: rest => decide (key.Type = .kString) && construct_dict rest
  | _ => true

/-- The second loop of that constructor: `data[key] = value` for each pair of
`init`, in the order of `init`. -/
def initDict : List Bencode → List (Str × Bencode) → List (Str × Bencode)
  | .str key :: value :: rest, data => initDict rest (mapAssign key value data)
  | _, data => data

/-- The constructor `Bencode::Bencode(std::initializer_list<Bencode>)`. -/
def Bencode.ofInitializerList (init : List Bencode) : Bencode :=
  if init.length % 2 = 1 then .list init
  else if construct_dict init then .dict (initDict init [])
  else .list init

mutual
/-- Every dictionary in the value, at any depth, has strictly ascending keys. -/
def Bencode.DictsOrdered : Bencode → Bool
  | .null => true
  | .str _ => true
  | .int _ => true
  | .list l => DictsOrderedElems l
  | .dict d => keysAscending (d.map Prod.fst) && DictsOrderedItems d
/-- The same for the elements of a list. -/
def DictsOrderedElems : List Bencode → Bool
  | [] => true
  | elem :: rest => elem.DictsOrdered && DictsOrderedElems rest
/-- The same for the values of a dictionary. -/
def DictsOrderedItems : List (Str × Bencode) → Bool
  | [] => true
  | (_, value) :: rest => value.DictsOrdered && DictsOrderedItems rest
end

/-! ## The arithmetic of `Metainfo`

The lengths are C++ `long` values of 64 bits.  An addition or subtraction of
`long` values that leaves the range is taken to wrap, as the conversion of a
`std::size_t` to `long` does. -/

/-- The `long` with the same residue modulo `2 ^ 64` as `x`. -/
def toLong (x : Int) : Int := (x + 2 ^ 63) % 2 ^ 64 - 2 ^ 63

/-- The position of the leading binary digit of `n` by repeated halving, 0 for
`n = 0`; `fuel` bounds the number of digits. -/
def floorLog2Aux : Nat → Nat → Nat
  | 0, _ => 0
  | fuel + 1, n => if n < 2 then 0 else floorLog2Aux fuel (n / 2) + 1

/-- The position of the leading binary digit of `n`: the greatest `k` with
`2 ^ k ≤ n`, and 0 for `n = 0`. -/
def floorLog2 (n : Nat) : Nat := floorLog2Aux n n

/-- The value of the `double` nearest to the natural number `n` (below
`2 ^ 1024`), ties going to the even significand: the conversion of an
integer to `double`.  A `double` holds 53 significant bits. -/
def roundToDouble (n : Nat) : Nat :=
  let e := floorLog2 n - 52
  let q := n / 2 ^ e
  let r := n % 2 ^ e
  if 2 ^ e < 2 * r ∨ (2 * r = 2 ^ e ∧ q % 2 = 1) then (q + 1) * 2 ^ e else q * 2 ^ e

/-- The significand and exponent of the `double` nearest to the quotient
`a / b` of two positive integers below `2 ^ 64`, ties going to the even
significand: the division of two `double` values that hold `a` and `b`.  The
result `(m, e)` stands for `m * 2 ^ e / 2 ^ 128`. -/
def divDouble (a b : Nat) : Nat × Nat :=
  let n := a * 2 ^ 128 / b
  let sticky := a * 2 ^ 128 % b
  let e := floorLog2 n - 52
  let q := n / 2 ^ e
  let r := n % 2 ^ e
  if 2 ^ e < 2 * r ∨ (2 * r = 2 ^ e ∧ (0 < sticky ∨ q % 2 = 1)) then (q + 1, e) else (q, e)

/-- The expression `ceil(total_length_ / (double)piece_length_)` for a
`piece_length_` of at least 1: both operands are converted to `double`, the
quotient is rounded to a `double`, and `ceil` of it is taken. -/
def ceilQuotient (total_length_ piece_length_ : Int) : Int :=
  let a := roundToDouble total_length_.natAbs
  let b := roundToDouble piece_length_.natAbs
  let m := (divDouble a b).1
  let e := (divDouble a b).2
  if total_length_ = 0 then 0
  else if total_length_ < 0 then -((m * 2 ^ e / 2 ^ 128 : Nat) : Int)
  else ((m * 2 ^ e + (2 ^ 128 - 1)) / 2 ^ 128 : Nat)

/-! ## The torrent description `Metainfo` -/

/-- The enumeration `Metainfo::MetainfoError::ExceptionID`. -/
inductive MetainfoErrorID where
  | kTopLevelNotDict
  | kMissingAnnounce
  | kAnnounceNotString
  | kMissingInfo
  | kInfoNotDict
  | kMissingName
  | kNameNotString
  | kMissingPieceLength
  | kPieceLengthNotInt
  | kPieceLengthInvalid
  | kMissingLengthAndFiles
  | kBothLengthAndFiles
  | kLengthNotInt
  | kLengthInvalid
  | kFilesNotList
  | kFilesEmpty
  | kFileNotDict
  | kFileMissingLength
  | kFileLengthNotInt
  | kFileMissingPath
  | kFilePathNotList
  | kFilePathEmpty
  | kSubPathNotString
  | kMissingPieces
  | kPiecesNotString
  | kPiecesInvalid
  | kPiecesLengthMismatch
  deriving DecidableEq, Repr

/-- How the construction of a `Metainfo` ends when it does not return: with the
`ParseError` of the decoder, with a `MetainfoError`, with a fault of the
`Bencode` interface or of an unchecked `std::vector` access, or at the
recursion bound of the embedding. -/
inductive Raised where
  | parseError (id : ParseErrorID)
  | metainfoError (id : MetainfoErrorID)
  | fault (f : Fault)
  | outOfFuel
  deriving DecidableEq, Repr

/-- The struct `Piece`. -/
structure Piece where
  hash : List Nat
  length : Int
  deriving DecidableEq, Repr

/-- The struct `File`. -/
structure File where
  path : Str
  length : Int
  pieces : List Piece
  deriving DecidableEq, Repr

/-- The data members of the class `Metainfo`. -/
structure Metainfo where
  top_ : Bencode
  announce_ : Str
  info_ : Bencode
  name_ : Str
  file_list_ : List File
  piece_length_ : Int
  piece_list_ : List Piece
  total_length_ : Int

/-- A call of the `Bencode` interface inside the construction. -/
def access {α : Type} : Except Fault α → Except Raised α
  | .ok value => .ok value
  | .error f => .error (.fault f)

/-- The byte `'/'`. -/
def ch_slash : Nat := 47

/-- The function `Metainfo::parse_announce`; the result is `announce_`. -/
def parse_announce (top_ : Bencode) : Except Raised Str := do
  if !top_.contains (bytes "announce") then
    throw (.metainfoError .kMissingAnnounce)
  if (← access (top_.atKey (bytes "announce"))).Type ≠ .kString then
    throw (.metainfoError .kAnnounceNotString)
  access (← access (top_.atKey (bytes "announce"))).get_string

/-- The function `Metainfo::parse_info`; the result is `info_`. -/
def parse_info (top_ : Bencode) : Except Raised Bencode := do
  if !top_.contains (bytes "info") then
    throw (.metainfoError .kMissingInfo)
  if (← access (top_.atKey (bytes "info"))).Type ≠ .kDictionary then
    throw (.metainfoError .kInfoNotDict)
  access (top_.atKey (bytes "info"))

/-- The function `Metainfo::parse_name`; the result is `name_`. -/
def parse_name (info_ : Bencode) : Except Raised Str := do
  if !info_.contains (bytes "name") then
    throw (.metainfoError .kMissingName)
  if (← access (info_.atKey (bytes "name"))).Type ≠ .kString then
    throw (.metainfoError .kNameNotString)
  access (← access (info_.atKey (bytes "name"))).get_string

/-- The function `Metainfo::parse_piece_length`; the result is `piece_length_`. -/
def parse_piece_length (info_ : Bencode) : Except Raised Int := do
  if !info_.contains (bytes "piece length") then
    throw (.metainfoError .kMissingPieceLength)
  if (← access (info_.atKey (bytes "piece length"))).Type ≠ .kInteger then
    throw (.metainfoError .kPieceLengthNotInt)
  let piece_length_ ← access (← access (info_.atKey (bytes "piece length"))).get_int
  if piece_length_ < 1 then
    throw (.metainfoError .kPieceLengthInvalid)
  pure piece_length_

/-- The function `Metainfo::parse_single_file`; the result is `file_list_` and
`total_length_`. -/
def parse_single_file (info_ : Bencode) (name_ : Str) : Except Raised (List File × Int) := do
  if (← access (info_.atKey (bytes "length"))).Type ≠ .kInteger then
    throw (.metainfoError .kLengthNotInt)
  let length ← access (← access (info_.atKey (bytes "length"))).get_int
  if length < 1 then
    throw (.metainfoError .kLengthInvalid)
  pure ([⟨name_, length, []⟩], length)

/-- The loop over `file.at("path")` in `Metainfo::parse_file_list`; `path` is
the path built so far. -/
def parse_sub_paths : List Bencode → Str → Except Raised Str
  | [], path => pure path
  | sub_path :: rest, path => do
    if sub_path.Type ≠ .kString then
      throw (.metainfoError .kSubPathNotString)
    parse_sub_paths rest (path ++ ((← access sub_path.get_string) ++ [ch_slash]))

/-- The body of the loop over `info_.at("files")` in
`Metainfo::parse_file_list`, for one `file`; the result is the entry added to
`file_list_` and the new `total_length_`. -/
def parse_file (file : Bencode) (total_length_ : Int) : Except Raised (File × Int) := do
  if file.Type ≠ .kDictionary then
    throw (.metainfoError .kFileNotDict)
  if !file.contains (bytes "length") then
    throw (.metainfoError .kFileMissingLength)
  if (← access (file.atKey (bytes "length"))).Type ≠ .kInteger then
    throw (.metainfoError .kFileLengthNotInt)
  let length ← access (← access (file.atKey (bytes "length"))).get_int
  let total_length_ := toLong (total_length_ + length)
  if !file.contains (bytes "path") then
    throw (.metainfoError .kFileMissingPath)
  if (← access (file.atKey (bytes "path"))).Type ≠ .kList then
    throw (.metainfoError .kFilePathNotList)
  if (← access (file.atKey (bytes "path"))).empty then
    throw (.metainfoError .kFilePathEmpty)
  let path ← parse_sub_paths (← access (← access (file.atKey (bytes "path"))).iterate) []
  pure (⟨path.dropLast, length, []⟩, total_length_)

/-- The loop over `info_.at("files")` in `Metainfo::parse_file_list`. -/
def parse_files : List Bencode → List File → Int → Except Raised (List File × Int)
  | [], file_list_, total_length_ => pure (file_list_, total_length_)
  | file :: rest, file_list_, total_length_ => do
    let parsed ← parse_file file total_length_
    parse_files rest (file_list_ ++ [parsed.1]) parsed.2

/-- The function `Metainfo::parse_file_list`; the result is `file_list_` and
`total_length_`. -/
def parse_file_list (info_ : Bencode) : Except Raised (List File × Int) := do
  if (← access (info_.atKey (bytes "files"))).Type ≠ .kList then
    throw (.metainfoError .kFilesNotList)
  if (← access (info_.atKey (bytes "files"))).empty then
    throw (.metainfoError .kFilesEmpty)
  parse_files (← access (← access (info_.atKey (bytes "files"))).iterate) [] 0

/-- The loop `for (auto it = pieces.begin(); it != pieces.end(); it += 20)` of the
constructor, which runs once for each of its `count` chunks of 20 bytes: a
`Piece` with that hash and the length 0 is appended for each. -/
def make_pieces : Nat → Str → List Piece
  | 0, _ => []
  | count + 1, pieces => ⟨pieces.take 20, 0⟩ :: make_pieces count (pieces.drop 20)

/-- The statements of the constructor that set the piece lengths: `piece_length_`
for every piece but the last, and for the last
`total_length_ - (piece_list_.size()-1) * piece_length_`, which is computed
over `std::size_t` and converted to `long`. -/
def set_piece_lengths (piece_list_ : List Piece) (piece_length_ total_length_ : Int) :
    List Piece :=
  let final_length :=
    toLong (total_length_ - ((piece_list_.length : Int) - 1) * piece_length_)
  (piece_list_.take (piece_list_.length - 1)).map (fun piece => ⟨piece.hash, piece_length_⟩)
    ++ (piece_list_.drop (piece_list_.length - 1)).map (fun piece => ⟨piece.hash, final_length⟩)

/-- The loop `while (file_length_sum > 0)` of the constructor; `pieces` is
`file.pieces`.  The access `piece_list_[piece_idx]` is unchecked: past the end
it is undefined behaviour.  The result is `piece_idx`, `file_length_sum` and
`file.pieces` after the loop; `fuel` bounds the number of iterations. -/
def attribute_loop (piece_list_ : List Piece) :
    Nat → Nat → Int → List Piece → Except Raised (Nat × Int × List Piece)
  | 0, _, _, _ => .error .outOfFuel
  | fuel + 1, piece_idx, file_length_sum, pieces =>
    if file_length_sum > 0 then
      match piece_list_[piece_idx]? with
      | some piece =>
        attribute_loop piece_list_ fuel (piece_idx + 1)
          (toLong (file_length_sum - piece.length)) (pieces ++ [piece])
      | none => .error (.fault .undefined)
    else .ok (piece_idx, file_length_sum, pieces)

/-- The loop `for (File& file : file_list_)` of the constructor; `done` holds the
files already given their pieces.  The index `piece_idx-1` is computed over
`std::size_t`, and the access `piece_list_[piece_idx-1]` is unchecked. -/
def attribute_pieces (piece_list_ : List Piece) :
    List File → Nat → Int → List File → Except Raised (List File)
  | [], _, _, done => pure done
  | file :: rest, piece_idx, file_length_sum, done => do
    let pieces ←
      if file_length_sum < 0 then
        match piece_list_[(piece_idx + (2 ^ 64 - 1)) % 2 ^ 64]? with
        | some piece => pure (file.pieces ++ [piece])
        | none => throw (.fault .undefined)
      else pure file.pieces
    let state ← attribute_loop piece_list_ (piece_list_.length + 1) piece_idx
      (toLong (file_length_sum + file.length)) pieces
    attribute_pieces piece_list_ rest state.1 state.2.1
      (done ++ [⟨file.path, file.length, state.2.2⟩])

/-- The statements of the constructor `Metainfo::Metainfo` from
`if (!info_.contains("pieces"))` to its end; `files` holds `file_list_` and
`total_length_` as the functions before left them.  The result is
`file_list_` and `piece_list_`. -/
def parse_pieces (info_ : Bencode) (piece_length_ : Int) (files : List File × Int) :
    Except Raised (List File × List Piece) := do
  if !info_.contains (bytes "pieces") then
    throw (.metainfoError .kMissingPieces)
  if (← access (info_.atKey (bytes "pieces"))).Type ≠ .kString then
    throw (.metainfoError .kPiecesNotString)
  let pieces ← access (← access (info_.atKey (bytes "pieces"))).get_string
  if pieces.length = 0 ∨ pieces.length % 20 ≠ 0 then
    throw (.metainfoError .kPiecesInvalid)
  let piece_list_ := make_pieces (pieces.length / 20) pieces
  if ceilQuotient files.2 piece_length_ ≠ (roundToDouble piece_list_.length : Int) then
    throw (.metainfoError .kPiecesLengthMismatch)
  let piece_list_ := set_piece_lengths piece_list_ piece_length_ files.2
  let file_list_ ← attribute_pieces piece_list_ files.1 0 0 []
  pure (file_list_, piece_list_)

/-- The body of the constructor `Metainfo::Metainfo`, after `top_` has been
initialised with the decoded document. -/
def Metainfo.ofDocument (top_ : Bencode) : Except Raised Metainfo := do
  if top_.Type ≠ .kDictionary then
    throw (.metainfoError .kTopLevelNotDict)
  let announce_ ← parse_announce top_
  let info_ ← parse_info top_
  let name_ ← parse_name info_
  let piece_length_ ← parse_piece_length info_
  if !info_.contains (bytes "length") && !info_.contains (bytes "files") then
    throw (.metainfoError .kMissingLengthAndFiles)
  if info_.contains (bytes "length") && info_.contains (bytes "files") then
    throw (.metainfoError .kBothLengthAndFiles)
  let files ←
    if info_.contains (bytes "length") then parse_single_file info_ name_
    else parse_file_list info_
  let pieces ← parse_pieces info_ piece_length_ files
  pure ⟨top_, announce_, info_, name_, pieces.1, piece_length_, pieces.2, files.2⟩

/-- The constructor `Metainfo::Metainfo` on a stream holding the bytes `input`. -/
def Metainfo.construct (input : Str) : Except Raised Metainfo :=
  match Parse input with
  | .ok top_ => Metainfo.ofDocument top_
  | .throw id => .error (.parseError id)
  | .outOfFuel => .error .outOfFuel

/-! ## The order of the validation checks, as the specification lists them

Each check is a condition on the decoded document; `firstFailingCheck` is the
first one of the list, in the order of the specification, that fails. -/

/-- The value under `key` of a dictionary, `none` for a missing key and for a
value that is no dictionary. -/
def specField (v : Bencode) (key : Str) : Option Bencode :=
  match v with
  | .dict d => mapFind key d
  | _ => none

/-- The field is there and has the tag `t`. -/
def specHasType (t : ValueType) (v : Option Bencode) : Bool :=
  match v with
  | some value => decide (value.Type = t)
  | none => false

/-- The integer of an Integer field, 0 otherwise. -/
def specInt (v : Option Bencode) : Int :=
  match v with
  | some (.int n) => n
  | _ => 0

/-- The bytes of a String field, none otherwise. -/
def specStr (v : Option Bencode) : Str :=
  match v with
  | some (.str s) => s
  | _ => []

/-- The elements of a List field, none otherwise. -/
def specList (v : Option Bencode) : List Bencode :=
  match v with
  | some (.list l) => l
  | _ => []

/-- The checks on one element of `files`, in the order of the specification,
each with whether it fails. -/
def specFileChecks (file : Bencode) : List (MetainfoErrorID × Bool) :=
  [(.kFileNotDict, decide (file.Type ≠ .kDictionary)),
   (.kFileMissingLength, (specField file (bytes "length")).isNone),
   (.kFileLengthNotInt, !specHasType .kInteger (specField file (bytes "length"))),
   (.kFileMissingPath, (specField file (bytes "path")).isNone),
   (.kFilePathNotList, !specHasType .kList (specField file (bytes "path"))),
   (.kFilePathEmpty, (specList (specField file (bytes "path"))).isEmpty),
   (.kSubPathNotString,
     (specList (specField file (bytes "path"))).any (fun sub => decide (sub.Type ≠ .kString)))]

/-- The total length of the content: `info.length`, or without it the sum of
the lengths of the files, as a `long`. -/
def specTotalLength (info : Bencode) : Int :=
  match specField info (bytes "length") with
  | some length => specInt (some length)
  | none =>
    (specList (specField info (bytes "files"))).foldl
      (fun total file => toLong (total + specInt (specField file (bytes "length")))) 0

/-- The value under `info`, Null without it. -/
def specInfo (top : Bencode) : Bencode := (specField top (bytes "info")).getD .null

/-- The checks of the specification on a document, in its order, each with
whether it fails. -/
def specChecks (top : Bencode) : List (MetainfoErrorID × Bool) :=
  let info := specInfo top
  let pieces := specStr (specField info (bytes "pieces"))
  [(.kTopLevelNotDict, decide (top.Type ≠ .kDictionary)),
   (.kMissingAnnounce, (specField top (bytes "announce")).isNone),
   (.kAnnounceNotString, !specHasType .kString (specField top (bytes "announce"))),
   (.kMissingInfo, (specField top (bytes "info")).isNone),
   (.kInfoNotDict, !specHasType .kDictionary (specField top (bytes "info"))),
   (.kMissingName, (specField info (bytes "name")).isNone),
   (.kNameNotString, !specHasType .kString (specField info (bytes "name"))),
   (.kMissingPieceLength, (specField info (bytes "piece length")).isNone),
   (.kPieceLengthNotInt, !specHasType .kInteger (specField info (bytes "piece length"))),
   (.kPieceLengthInvalid, decide (specInt (specField info (bytes "piece length")) < 1)),
   (.kMissingLengthAndFiles,
     (specField info (bytes "length")).isNone && (specField info (bytes "files")).isNone),
   (.kBothLengthAndFiles,
     (specField info (bytes "length")).isSome && (specField info (bytes "files")).isSome)]
  ++ (if (specField info (bytes "length")).isSome then
      [(.kLengthNotInt, !specHasType .kInteger (specField info (bytes "length"))),
       (.kLengthInvalid, decide (specInt (specField info (bytes "length")) < 1))]
    else
      [(.kFilesNotList, !specHasType .kList (specField info (bytes "files"))),
       (.kFilesEmpty, (specList (specField info (bytes "files"))).isEmpty)]
      ++ (specList (specField info (bytes "files"))).flatMap specFileChecks)
  ++ [(.kMissingPieces, (specField info (bytes "pieces")).isNone),
      (.kPiecesNotString, !specHasType .kString (specField info (bytes "pieces"))),
      (.kPiecesInvalid, decide (pieces.length = 0 ∨ pieces.length % 20 ≠ 0)),
      (.kPiecesLengthMismatch,
        decide (ceilQuotient (specTotalLength info)
          (specInt (specField info (bytes "piece length")))
            ≠ (roundToDouble (pieces.length / 20) : Int)))]

/-- The first check of the specification that fails on the document, `none`
when none fails. -/
def firstFailingCheck (top : Bencode) : Option MetainfoErrorID :=
  ((specChecks top).find? (fun check => check.2)).map (fun check => check.1)

/-- The path of a file: its segments, each followed by `'/'`, without the last
byte. -/
def specPath (file : Bencode) : Str :=
  ((specList (specField file (bytes "path"))).flatMap
    (fun sub => specStr (some sub) ++ [ch_slash])).dropLast

/-- The files of a document before pieces are attributed to them. -/
def specFiles (info : Bencode) : List File :=
  match specField info (bytes "length") with
  | some length => [⟨specStr (specField info (bytes "name")), specInt (some length), []⟩]
  | none =>
    (specList (specField info (bytes "files"))).map
      (fun file => ⟨specPath file, specInt (specField file (bytes "length")), []⟩)

/-- The piece list of a document that passes the checks: the 20-byte chunks of
`info.pieces` with their lengths set. -/
def specPieces (info : Bencode) : List Piece :=
  set_piece_lengths
    (make_pieces ((specStr (specField info (bytes "pieces"))).length / 20)
      (specStr (specField info (bytes "pieces"))))
    (specInt (specField info (bytes "piece length"))) (specTotalLength info)

/-- The document on which no check fails and the constructor does not return:
two files of the lengths 10 and -5, a piece length of 5 and one piece. -/
def negativeLengthDocument : Bencode :=
  .dict [(bytes "announce", .str (bytes "x")),
    (bytes "info", .dict [
      (bytes "files", .list [
        .dict [(bytes "length", .int 10), (bytes "path", .list [.str (bytes "a")])],
        .dict [(bytes "length", .int (-5)), (bytes "path", .list [.str (bytes "b")])]]),
      (bytes "name", .str (bytes "n")),
      (bytes "piece length", .int 5),
      (bytes "pieces", .str (List.replicate 20 97))])]

/-- The bencoding of that document. -/
def negativeLengthTorrent : Str :=
  bytes ("d8:announce1:x4:infod5:filesld6:lengthi10e4:pathl1:aeed6:lengthi-5e4:pathl1:beee" ++
    "4:name1:n12:piece lengthi5e6:pieces20:aaaaaaaaaaaaaaaaaaaaee")

/-! ## Documents that pass the first checks -/

/-- Every check that the specification lists before the check `id` passes on
the document.  The enumeration `MetainfoErrorID` lists the checks in the order
of the specification. -/
def checksPassBefore (id : MetainfoErrorID) (top : Bencode) : Prop :=
  ∀ check ∈ specChecks top, check.1.toCtorIdx < id.toCtorIdx → check.2 = false

/-- A single-file torrent of 7 bytes in pieces of 5 bytes, with the two hashes
twenty bytes `a` and twenty bytes `b`. -/
def twoPieceDocument : Bencode :=
  .dict [(bytes "announce", .str (bytes "x")),
    (bytes "info", .dict [(bytes "length", .int 7), (bytes "name", .str (bytes "n")),
      (bytes "piece length", .int 5),
      (bytes "pieces", .str (List.replicate 20 97 ++ List.replicate 20 98))])]

/-- The elements of `files` of `pathsDocument`: a file of 7 bytes with the path
segments `dir`, `sub`, `a.txt` and a file of 8 bytes with the one segment `b`. -/
def pathsFiles : List Bencode :=
  [.dict [(bytes "length", .int 7),
      (bytes "path", .list [.str (bytes "dir"), .str (bytes "sub"), .str (bytes "a.txt")])],
    .dict [(bytes "length", .int 8), (bytes "path", .list [.str (bytes "b")])]]

/-- A torrent of the two files `pathsFiles` in three pieces of 5 bytes. -/
def pathsDocument : Bencode :=
  .dict [(bytes "announce", .str (bytes "x")),
    (bytes "info", .dict [(bytes "files", .list pathsFiles), (bytes "name", .str (bytes "n")),
      (bytes "piece length", .int 5), (bytes "pieces", .str (List.replicate 60 97))])]

/-- A torrent of four files of the lengths 7, -2, 0 and 5 in two pieces of 5
bytes. -/
def nonPositiveLengthDocument : Bencode :=
  .dict [(bytes "announce", .str (bytes "x")),
    (bytes "info", .dict [
      (bytes "files", .list [
        .dict [(bytes "length", .int 7), (bytes "path", .list [.str (bytes "a")])],
        .dict [(bytes "length", .int (-2)), (bytes "path", .list [.str (bytes "b")])],
        .dict [(bytes "length", .int 0), (bytes "path", .list [.str (bytes "c")])],
        .dict [(bytes "length", .int 5), (bytes "path", .list [.str (bytes "d")])]]),
      (bytes "name", .str (bytes "n")),
      (bytes "piece length", .int 5),
      (bytes "pieces", .str (List.replicate 40 97))])]

/-- The bencoding of `nonPositiveLengthDocument`. -/
def nonPositiveLengthTorrent : Str :=
  bytes ("d8:announce1:x4:infod5:filesld6:lengthi7e4:pathl1:aeed6:lengthi-2e4:pathl1:bee" ++
    "d6:lengthi0e4:pathl1:ceed6:lengthi5e4:pathl1:deee" ++
    "4:name1:n12:piece lengthi5e6:pieces40:aaaaaaaaaaaaaaaaaaaaaaaaaaaaaaaaaaaaaaaaee")

/-- The sum of the lengths of the pieces before piece `j`. -/
def pieceOffset (piece_list : List Piece) (j : Nat) : Int :=
  ((piece_list.take j).map (fun piece => piece.length)).sum

/-- The pieces of `piece_list`, in their order, whose byte range intersects the
range of `length` bytes from `start` on; piece `j` has the range of its own
length from `starts j` on.  Two ranges intersect when the greater of their
starts is below the smaller of their ends. -/
def piecesInRange (starts : Nat → Int) (piece_list : List Piece) (start length : Int) :
    List Piece :=
  ((piece_list.enum).filter (fun jp =>
    decide (max (starts jp.1) start < min (starts jp.1 + jp.2.length) (start + length)))).map
    Prod.snd

/-- A torrent of three files of 2, 2 and 7 bytes in three pieces of 5 bytes:
the first two files lie inside the first piece, the third file starts in it. -/
def smallFilesDocument : Bencode :=
  .dict [(bytes "announce", .str (bytes "x")),
    (bytes "info", .dict [
      (bytes "files", .list [
        .dict [(bytes "length", .int 2), (bytes "path", .list [.str (bytes "a")])],
        .dict [(bytes "length", .int 2), (bytes "path", .list [.str (bytes "b")])],
        .dict [(bytes "length", .int 7), (bytes "path", .list [.str (bytes "c")])]]),
      (bytes "name", .str (bytes "n")),
      (bytes "piece length", .int 5),
      (bytes "pieces", .str (List.replicate 20 97 ++ List.replicate 20 98 ++ List.replicate 20 99))])]

/-- The bencoding of `smallFilesDocument`. -/
def smallFilesTorrent : Str :=
  bytes ("d8:announce1:x4:infod5:filesld6:lengthi2e4:pathl1:aeed6:lengthi2e4:pathl1:bee" ++
    "d6:lengthi7e4:pathl1:ceee4:name1:n12:piece lengthi5e6:pieces60:" ++
    "aaaaaaaaaaaaaaaaaaaabbbbbbbbbbbbbbbbbbbbccccccccccccccccccccee")

/-- The piece lists of files that follow one another from the offset `start`
on, concatenated in file order, without the first piece of each file whose
start offset is no multiple of `piece_length`. -/
def withoutOverlaps (piece_length : Int) : List File → Int → List Piece
  | [], _ => []
  | file :: rest, start =>
    (if start % piece_length = 0 then file.pieces else file.pieces.drop 1) ++
      withoutOverlaps piece_length rest (start + file.length)

/-- The number of files, among files that follow one another from the offset
`start` on, whose start offset is no multiple of `piece_length`.  From the
offset 0 on the first file is none of them. -/
def overlapCount (piece_length : Int) : List File → Int → Nat
  | [], _ => 0
  | file :: rest, start =>
    (if start % piece_length = 0 then 0 else 1) +
      overlapCount piece_length rest (start + file.length)

/-- The quotient `total_length / piece_length` rounded up to an integer,
computed exactly over the integers, for a `piece_length` of at least 1. -/
def specCeilQuotient (total_length piece_length : Int) : Int :=
  (total_length + piece_length - 1) / piece_length

/-- A single-file torrent of `3 * (2 ^ 60 + 127)` bytes in four pieces of
`2 ^ 60 + 127` bytes: three pieces hold the content. -/
def roundedQuotientDocument : Bencode :=
  .dict [(bytes "announce", .str (bytes "x")),
    (bytes "info", .dict [
      (bytes "length", .int 3458764513820541309),
      (bytes "name", .str (bytes "n")),
      (bytes "piece length", .int 1152921504606847103),
      (bytes "pieces", .str (List.replicate 80 97))])]

/-- The bencoding of `roundedQuotientDocument`. -/
def roundedQuotientTorrent : Str :=
  bytes ("d8:announce1:x4:infod6:lengthi3458764513820541309e4:name1:n" ++
    "12:piece lengthi1152921504606847103e6:pieces80:" ++
    "aaaaaaaaaaaaaaaaaaaaaaaaaaaaaaaaaaaaaaaaaaaaaaaaaaaaaaaaaaaaaaaaaaaaaaaaaaaaaaaaee")

/-! ## The info hash

`Metainfo::calculate_info_hash` and `Metainfo::get_info_hash` are declared in
`metainfo.h`; the digest they use is SHA-1 (FIPS 180-4), over 32-bit words. -/

/-- The rotation of a 32-bit word to the left by `n` bits, `n` from 1 to 31. -/
def rotl32 (x n : Nat) : Nat := ((x <<< n) ||| (x >>> (32 - n))) % 2 ^ 32

/-- The four bytes of a 32-bit word, the most significant first. -/
def be32 (w : Nat) : Str := [w / 2 ^ 24 % 256, w / 2 ^ 16 % 256, w / 2 ^ 8 % 256, w % 256]

/-- The 32-bit word of four bytes, the most significant first. -/
def word32 (bs : Str) : Nat := bs.foldl (fun acc b => acc * 256 + b % 256) 0

/-- The padded message of SHA-1: the byte `0x80`, zero bytes up to 56 modulo
64, and the length of the message in bits as 64 bits, the most significant
byte first. -/
def sha1_pad (message : Str) : Str :=
  message ++ [128] ++ List.replicate ((119 - message.length % 64) % 64) 0 ++
    be32 (8 * message.length / 2 ^ 32 % 2 ^ 32) ++ be32 (8 * message.length % 2 ^ 32)

/-- The message schedule of SHA-1: `count` more words, each the rotation by one
bit of the exclusive or of the words 3, 8, 14 and 16 places before it. -/
def sha1_schedule : Nat → List Nat → List Nat
  | 0, w => w
  | count + 1, w =>
    sha1_schedule count (w ++ [rotl32 ((w.getD (w.length - 3) 0) ^^^ (w.getD (w.length - 8) 0)
      ^^^ (w.getD (w.length - 14) 0) ^^^ (w.getD (w.length - 16) 0)) 1])

/-- The working variables `a`, `b`, `c`, `d`, `e` of SHA-1 and the five words
of the hash value. -/
structure Sha1State where
  a : Nat
  b : Nat
  c : Nat
  d : Nat
  e : Nat

/-- Round `t` of SHA-1 with the word `w` of the message schedule. -/
def sha1_round (s : Sha1State) (t w : Nat) : Sha1State :=
  let f :=
    if t < 20 then (s.b &&& s.c) ||| ((s.b ^^^ (2 ^ 32 - 1)) &&& s.d)
    else if t < 40 then s.b ^^^ s.c ^^^ s.d
    else if t < 60 then (s.b &&& s.c) ||| (s.b &&& s.d) ||| (s.c &&& s.d)
    else s.b ^^^ s.c ^^^ s.d
  let k :=
    if t < 20 then 0x5A827999 else if t < 40 then 0x6ED9EBA1
    else if t < 60 then 0x8F1BBCDC else 0xCA62C1D6
  ⟨(rotl32 s.a 5 + f + s.e + k + w) % 2 ^ 32, s.a, rotl32 s.b 30, s.c, s.d⟩

/-- The 80 rounds of SHA-1 on the words of a message schedule, from round `t`
on. -/
def sha1_rounds : List Nat → Nat → Sha1State → Sha1State
  | [], _, s => s
  | w :: rest, t, s => sha1_rounds rest (t + 1) (sha1_round s t w)

/-- The hash value after one more block of 64 bytes. -/
def sha1_block (h : Sha1State) (block : Str) : Sha1State :=
  let w := sha1_schedule 64 ((List.range 16).map (fun i => word32 ((block.drop (4 * i)).take 4)))
  let s := sha1_rounds w 0 h
  ⟨(h.a + s.a) % 2 ^ 32, (h.b + s.b) % 2 ^ 32, (h.c + s.c) % 2 ^ 32, (h.d + s.d) % 2 ^ 32,
    (h.e + s.e) % 2 ^ 32⟩

/-- The hash value after the first `count` blocks of 64 bytes of `padded`. -/
def sha1_blocks : Nat → Str → Sha1State → Sha1State
  | 0, _, h => h
  | count + 1, padded, h => sha1_blocks count (padded.drop 64) (sha1_block h (padded.take 64))

/-- Modelled from the spec: the SHA-1 digest primitive, which the specification
consumes from a collaborator and no file under src defines.  It is the
function of FIPS 180-4 on a message of bytes; the digest has 20 bytes. -/
def SHA1 (message : Str) : Str :=
  let h := sha1_blocks ((sha1_pad message).length / 64) (sha1_pad message)
    ⟨0x67452301, 0xEFCDAB89, 0x98BADCFE, 0x10325476, 0xC3D2E1F0⟩
  be32 h.a ++ be32 h.b ++ be32 h.c ++ be32 h.d ++ be32 h.e

/-- Modelled from the spec: `Metainfo::calculate_info_hash` and
`Metainfo::get_info_hash` are declared in `metainfo.h` and defined nowhere, and
the constructor does not call them.  The specification: the info hash is "the
20-byte digest (SHA-1) of the canonical encoding of the `info` sub-document
exactly as decoded".  The canonical encoding is `Dump`; when `info_` holds a
Null, `Dump` throws and so does this. -/
def Metainfo.get_info_hash (m : Metainfo) : Except DumpErrorID Str :=
  match m.info_.Dump with
  | .ok text => .ok (SHA1 text)
  | .error id => .error id

/-- The member function `Metainfo::get_announce`. -/
def Metainfo.get_announce (m : Metainfo) : Str := m.announce_

/-- The member function `Metainfo::get_name`. -/
def Metainfo.get_name (m : Metainfo) : Str := m.name_

/-- The member function `Metainfo::get_file_list`. -/
def Metainfo.get_file_list (m : Metainfo) : List File := m.file_list_

/-- The member function `Metainfo::get_piece_list`. -/
def Metainfo.get_piece_list (m : Metainfo) : List Piece := m.piece_list_

/-- The member function `Metainfo::get_total_length`. -/
def Metainfo.get_total_length (m : Metainfo) : Int := m.total_length_

/-- A single-file document with the value `length` under `length`, the name
`n`, a piece length of 5 and two pieces. -/
def singleFileDocument (length : Bencode) : Bencode :=
  .dict [(bytes "announce", .str (bytes "x")),
    (bytes "info", .dict [(bytes "length", length), (bytes "name", .str (bytes "n")),
      (bytes "piece length", .int 5),
      (bytes "pieces", .str (List.replicate 40 97))])]

/-- A single-file torrent of 7 bytes in two pieces of 5 bytes with the value
`announce` under `announce`. -/
def announceDocument (announce : Bencode) : Bencode :=
  .dict [(bytes "announce", announce),
    (bytes "info", .dict [(bytes "length", .int 7), (bytes "name", .str (bytes "n")),
      (bytes "piece length", .int 5),
      (bytes "pieces", .str (List.replicate 40 97))])]

/-- The exceptions of the standard library thrown by the construction of a
`std::string` of a given length. -/
inductive LibraryError where
  | length_error
  | bad_alloc
  deriving DecidableEq, Repr

/-- What the construction of a `std::string` depends on outside the program:
the constant `std::string::max_size()` of the standard library in use, and
whether the storage of a given number of bytes is obtained (it always is for
the short lengths that need no allocation). -/
structure Allocator where
  max_size : Nat
  obtains : Nat → Bool

/-- The construction `std::string string(string_length, '\0')`: the length is
checked against `max_size()` first, then the storage is obtained. -/
def Allocator.construct (heap : Allocator) (string_length : Nat) : Except LibraryError Unit :=
  if heap.max_size < string_length then .error .length_error
  else if heap.obtains string_length then .ok ()
  else .error .bad_alloc

/-- The second half of `Bencode::ParseString`, from `if (input.get() != ':')`
on, with the `string_length` found by the first half. -/
def Allocating.ParseStringPayload (heap : Allocator) (string_length : Nat) (input : IStream) :
    Except LibraryError (Outcome (Bencode × IStream)) :=
  if input.get.1 ≠ some ch_colon then .ok (.throw .kStringMissingColon)
  else
    match heap.construct string_length with
    | .error e => .error e
    | .ok _ =>
      let chunk := input.get.2.read string_length
      if chunk.1.length ≠ string_length then .ok (.throw .kUnexpectedEOF)
      else .ok (.ok (.str chunk.1, chunk.2))

/-- The function `Bencode::ParseString`. -/
def Allocating.ParseString (heap : Allocator) (input : IStream) :
    Except LibraryError (Outcome (Bencode × IStream)) :=
  if input.peek = some ch_minus then .ok (.throw .kNegativeStringLength)
  else if input.peek = some ch_0 then
    let input := input.ignore
    match input.peek with
    | some c =>
      if isDigit c then .ok (.throw .kLeading0)
      else Allocating.ParseStringPayload heap 0 input
    | none => Allocating.ParseStringPayload heap 0 input
  else
    Allocating.ParseStringPayload heap input.extractSizeT.1 input.extractSizeT.2

/-- The `while (input.peek() != 'e')` loop of `Bencode::ParseList` and the
statements after it; `elems` is the list built so far and `ParseRecursive` the
decoder of one element. -/
def Allocating.ParseListLoop
    (ParseRecursive : IStream → Except LibraryError (Outcome (Bencode × IStream))) :
    Nat → IStream → List Bencode → Except LibraryError (Outcome (Bencode × IStream))
  | 0, _, _ => .ok .outOfFuel
  | fuel + 1, input, elems =>
    if input.peek ≠ some ch_e then
      match ParseRecursive input with
      | .ok (.ok (elem, input)) =>
        Allocating.ParseListLoop ParseRecursive fuel input (elems ++ [elem])
      | .ok (.throw id) => .ok (.throw id)
      | .ok .outOfFuel => .ok .outOfFuel
      | .error e => .error e
    else .ok (.ok (.list elems, input.ignore))

/-- The function `Bencode::ParseList`. -/
def Allocating.ParseList
    (ParseRecursive : IStream → Except LibraryError (Outcome (Bencode × IStream)))
    (fuel : Nat) (input : IStream) : Except LibraryError (Outcome (Bencode × IStream)) :=
  Allocating.ParseListLoop ParseRecursive fuel input.ignore []

/-- The `while (input.peek() != 'e')` loop of `Bencode::ParseDictionary` and the
statements after it; `dict` is the map and `key_list` the keys read so far. -/
def Allocating.ParseDictLoop
    (ParseRecursive : IStream → Except LibraryError (Outcome (Bencode × IStream))) :
    Nat → IStream → List (Str × Bencode) → List Str →
      Except LibraryError (Outcome (Bencode × IStream))
  | 0, _, _, _ => .ok .outOfFuel
  | fuel + 1, input, dict, key_list =>
    if input.peek ≠ some ch_e then
      match ParseRecursive input with
      | .ok (.ok (.str key, input)) =>
        if input.peek = some ch_e then .ok (.throw .kDictIncompletePair)
        else
          match ParseRecursive input with
          | .ok (.ok (value, input)) =>
            Allocating.ParseDictLoop ParseRecursive fuel input (mapAssign key value dict)
              (key_list ++ [key])
          | .ok (.throw id) => .ok (.throw id)
          | .ok .outOfFuel => .ok .outOfFuel
          | .error e => .error e
      | .ok (.ok (_, _)) => .ok (.throw .kDictKeyNotString)
      | .ok (.throw id) => .ok (.throw id)
      | .ok .outOfFuel => .ok .outOfFuel
      | .error e => .error e
    else if !is_sorted key_list then .ok (.throw .kDictBadOrder)
    else if (adjacent_find key_list).isSome then .ok (.throw .kDictDuplicateKeys)
    else .ok (.ok (.dict dict, input.ignore))

/-- The function `Bencode::ParseDictionary`. -/
def Allocating.ParseDictionary
    (ParseRecursive : IStream → Except LibraryError (Outcome (Bencode × IStream)))
    (fuel : Nat) (input : IStream) : Except LibraryError (Outcome (Bencode × IStream)) :=
  Allocating.ParseDictLoop ParseRecursive fuel input.ignore [] []

/-- The function `Bencode::ParseRecursive`; `fuel` bounds the nesting depth and
the number of elements of a container. -/
def Allocating.ParseRecursive (heap : Allocator) :
    Nat → IStream → Except LibraryError (Outcome (Bencode × IStream))
  | 0, _ => .ok .outOfFuel
  | fuel + 1, input =>
    match input.peek with
    | none => .ok (.throw .kUnexpectedEOF)
    | some c =>
      if isDigit c ∨ c = ch_minus then Allocating.ParseString heap input
      else if c = ch_i then .ok (ParseInteger input)
      else if c = ch_l then
        Allocating.ParseList (Allocating.ParseRecursive heap fuel) fuel input
      else if c = ch_d then
        Allocating.ParseDictionary (Allocating.ParseRecursive heap fuel) fuel input
      else .ok (.throw .kBadPrefix)

/-- The function `Bencode::Parse` on a stream holding the bytes `input`. -/
def Allocating.Parse (heap : Allocator) (input : List Nat) :
    Except LibraryError (Outcome Bencode) :=
  let stream : IStream := { rest := input, fail := false }
  if stream.peek = none then .ok (.ok .null)
  else
    match Allocating.ParseRecursive heap (input.length + 1) stream with
    | .ok (.ok (root_elem, stream)) =>
      if stream.peek ≠ none then .ok (.throw .kTooMuchData) else .ok (.ok root_elem)
    | .ok (.throw id) => .ok (.throw id)
    | .ok .outOfFuel => .ok .outOfFuel
    | .error e => .error e

/-- A standard library with `max_size()` of `2 ^ 62 - 1` and a heap that
gives up to `2 ^ 32` bytes at a time. -/
def smallHeap : Allocator := ⟨2 ^ 62 - 1, fun n => decide (n ≤ 2 ^ 32)⟩

/-! ## Lemmas: string order -/

theorem strLt_irrefl (a : Str) : strLt a a = false := by
  induction a with
  | nil => rfl
  | cons x xs ih => simp [strLt, ih]

theorem strLt_asymm : ∀ (a b : Str), strLt a b = true → strLt b a = false
  | [], [], h => by simp [strLt] at h
  | [], _ :: _, _ => by simp [strLt]
  | _ :: _, [], h => by simp [strLt] at h
  | x :: xs, y :: ys, h => by
    simp only [strLt] at h ⊢
    by_cases hxy : x < y
    · have : ¬ y < x := by omega
      simp [this, hxy]
    · by_cases hyx : y < x
      · simp [hxy, hyx] at h
      · simp only [hxy, hyx, if_false] at h ⊢
        exact strLt_asymm xs ys h

theorem strLt_trans : ∀ (a b c : Str), strLt a b = true → strLt b c = true →
    strLt a c = true
  | [], _, [], _, h2 => by cases ‹Str› <;> simp [strLt] at h2
  | [], _, _ :: _, _, _ => by simp [strLt]
  | _ :: _, [], _, h1, _ => by simp [strLt] at h1
  | _ :: _, _ :: _, [], _, h2 => by simp [strLt] at h2
  | x :: xs, y :: ys, z :: zs, h1, h2 => by
    simp only [strLt] at h1 h2 ⊢
    by_cases hxy : x < y
    · by_cases hyz : y < z
      · have : x < z := by omega
        simp [this]
      · by_cases hzy : z < y
        · simp [hyz, hzy] at h2
        · have : x < z := by omega
          simp [this]
    · by_cases hyx : y < x
      · simp [hxy, hyx] at h1
      · have hxe : x = y := by omega
        subst hxe
        simp only [hxy, if_false] at h1
        by_cases hyz : x < z
        · simp [hyz]
        · by_cases hzy : z < x
          · simp [hyz, hzy] at h2
          · simp only [hyz, hzy, if_false] at h2 ⊢
            exact strLt_trans xs ys zs h1 h2

theorem strLt_total : ∀ (a b : Str), strLt a b = false → strLt b a = false → a = b
  | [], [], _, _ => rfl
  | [], _ :: _, h, _ => by simp [strLt] at h
  | _ :: _, [], _, h => by simp [strLt] at h
  | x :: xs, y :: ys, h1, h2 => by
    simp only [strLt] at h1 h2
    by_cases hxy : x < y
    · simp [hxy] at h1
    · by_cases hyx : y < x
      · simp [hyx] at h2
      · simp only [hxy, hyx, if_false] at h1 h2
        have hxe : x = y := by omega
        rw [hxe, strLt_total xs ys h1 h2]

theorem strLt_ne (a b : Str) (h : strLt a b = true) : a ≠ b := by
  intro hab
  subst hab
  rw [strLt_irrefl] at h
  exact Bool.noConfusion h

/-- The `operator<` of `std::string` is the lexicographic order of the bytes. -/
theorem strLt_iff_lex : ∀ (a b : Str),
    strLt a b = true ↔ List.Lex (fun x y : Nat => x < y) a b
  | [], [] => by
    simp only [strLt, Bool.false_eq_true, false_iff]
    intro h; cases h
  | [], _ :: _ => by
    simp only [strLt, true_iff]
    exact List.Lex.nil
  | _ :: _, [] => by
    simp only [strLt, Bool.false_eq_true, false_iff]
    intro h; cases h
  | x :: xs, y :: ys => by
    have ih := strLt_iff_lex xs ys
    simp only [strLt]
    constructor
    · intro h
      by_cases hxy : x < y
      · exact List.Lex.rel hxy
      · by_cases hyx : y < x
        · simp [hxy, hyx] at h
        · simp only [hxy, hyx, if_false] at h
          have : x = y := by omega
          subst this
          exact List.Lex.cons (ih.1 h)
    · intro h
      cases h with
      | cons hlt => simp [ih.2 hlt]
      | rel hxy => simp [hxy]

theorem keyNotAfter_iff (a b : Str × Str) : keyNotAfter a b ↔ strLt b.1 a.1 = false := by
  simp only [keyNotAfter, ← strLt_iff_lex]
  simp

/-! ## Lemmas: decimal digits -/

theorem isDigit_iff (c : Nat) : isDigit c = true ↔ 48 ≤ c ∧ c ≤ 57 := by
  simp [isDigit, ch_0, ch_9]

theorem isDigit_ne_e (c : Nat) (h : isDigit c = true) : c ≠ ch_e := by
  rw [isDigit_iff] at h
  simp only [ch_e]; omega

theorem digitsValue_append_one (ds : List Nat) (d : Nat) :
    digitsValue (ds ++ [d]) = 10 * digitsValue ds + (d - ch_0) := by
  simp [digitsValue, List.foldl_append]

/-- What `decimalAux` puts in front of `acc`: digits that write `n`, starting
with `'0'` only for `n = 0`. -/
theorem decimalAux_spec : ∀ (fuel n : Nat) (acc : List Nat), n < fuel →
    ∃ ds, decimalAux fuel n acc = ds ++ acc ∧ ds ≠ [] ∧ (∀ d ∈ ds, isDigit d = true) ∧
      digitsValue ds = n ∧ (ds.head? = some ch_0 → n = 0)
  | 0, _, _, h => by omega
  | fuel + 1, n, acc, h => by
    by_cases hn : n / 10 = 0
    · refine ⟨[ch_0 + n % 10], ?_, by simp, ?_, ?_, ?_⟩
      · simp [decimalAux, hn]
      · intro d hd
        simp only [List.mem_singleton] at hd
        subst hd
        rw [isDigit_iff]; simp only [ch_0]; omega
      · simp only [digitsValue, List.foldl, ch_0]; omega
      · simp only [List.head?, Option.some.injEq, ch_0]; omega
    · obtain ⟨ds, h1, h2, h3, h4, h5⟩ :=
        decimalAux_spec fuel (n / 10) ((ch_0 + n % 10) :: acc) (by omega)
      refine ⟨ds ++ [ch_0 + n % 10], ?_, by simp, ?_, ?_, ?_⟩
      · simp [decimalAux, hn, h1]
      · intro d hd
        rcases List.mem_append.1 hd with hd | hd
        · exact h3 d hd
        · simp only [List.mem_singleton] at hd
          subst hd
          rw [isDigit_iff]; simp only [ch_0]; omega
      · rw [digitsValue_append_one, h4]; simp only [ch_0]; omega
      · intro hh
        cases ds with
        | nil => exact absurd rfl h2
        | cons x xs =>
          simp only [List.cons_append, List.head?] at hh h5
          exact absurd (h5 hh) hn

theorem formatNat_spec (n : Nat) :
    formatNat n ≠ [] ∧ (∀ d ∈ formatNat n, isDigit d = true) ∧
      digitsValue (formatNat n) = n ∧ ((formatNat n).head? = some ch_0 → n = 0) := by
  obtain ⟨ds, h1, h2, h3, h4, h5⟩ := decimalAux_spec (n + 1) n [] (by omega)
  have : formatNat n = ds := by simp [formatNat, h1]
  rw [this]
  exact ⟨h2, h3, h4, h5⟩

theorem formatNat_zero : formatNat 0 = [ch_0] := rfl

theorem spanDigits_append (ds : List Nat) (c : Nat) (r : List Nat)
    (hds : ∀ d ∈ ds, isDigit d = true) (hc : isDigit c = false) :
    spanDigits (ds ++ c :: r) = (ds, c :: r) := by
  induction ds with
  | nil => simp [spanDigits, hc]
  | cons x xs ih =>
    have hx : isDigit x = true := hds x (List.mem_cons_self _ _)
    have ih := ih (fun d hd => hds d (List.mem_cons_of_mem _ hd))
    simp [spanDigits, hx, ih]

/-- The two parts of `spanDigits` make up the input, the first is all digits and
the second does not start with one. -/
theorem spanDigits_spec (xs : List Nat) :
    (spanDigits xs).1 ++ (spanDigits xs).2 = xs ∧
      (∀ d ∈ (spanDigits xs).1, isDigit d = true) ∧
      (∀ c r, (spanDigits xs).2 = c :: r → isDigit c = false) := by
  induction xs with
  | nil => simp [spanDigits]
  | cons x xs ih =>
    by_cases hx : isDigit x = true
    · simp only [spanDigits, hx, if_true, List.cons_append, ih.1, true_and]
      refine ⟨?_, ih.2.2⟩
      intro d hd
      rcases List.mem_cons.1 hd with hd | hd
      · rw [hd]; exact hx
      · exact ih.2.1 d hd
    · simp only [spanDigits, hx]
      simp only [Bool.false_eq_true, if_false, List.nil_append, List.not_mem_nil,
        IsEmpty.forall_iff, implies_true, true_and]
      intro c r h
      simp only [List.cons.injEq] at h
      rw [← h.1]
      simpa using hx

/-- Appending input after a non-empty remainder does not change what
`spanDigits` takes. -/
theorem spanDigits_extend (xs t : List Nat) (h : (spanDigits xs).2 ≠ []) :
    spanDigits (xs ++ t) = ((spanDigits xs).1, (spanDigits xs).2 ++ t) := by
  induction xs with
  | nil => simp [spanDigits] at h
  | cons x xs ih =>
    by_cases hx : isDigit x = true
    · simp only [spanDigits, hx, if_true] at h
      simp [spanDigits, hx, ih h]
    · simp [spanDigits, hx]

/-! ## Lemmas: decoding an encoded string or integer -/

theorem extractSizeT_formatNat (n : Nat) (r : List Nat) (hn : n ≤ SIZE_MAX) :
    IStream.extractSizeT ⟨formatNat n ++ ch_colon :: r, false⟩
      = (n, ⟨ch_colon :: r, false⟩) := by
  obtain ⟨h1, h2, h3, _⟩ := formatNat_spec n
  have hsp := spanDigits_append (formatNat n) ch_colon r h2 (by decide)
  have hlt : ¬ SIZE_MAX < n := by omega
  simp [IStream.extractSizeT, hsp, h1, h3, hlt]

theorem ParseStringPayload_exact (s : Str) (r : List Nat) :
    ParseStringPayload s.length ⟨ch_colon :: (s ++ r), false⟩
      = .ok (.str s, ⟨r, false⟩) := by
  simp [ParseStringPayload, IStream.get, IStream.peek, IStream.ignore, IStream.read]

theorem ParseString_DumpString (s : Str) (r : List Nat) (hs : s.length ≤ SIZE_MAX) :
    ParseString ⟨DumpString s ++ r, false⟩ = .ok (.str s, ⟨r, false⟩) := by
  obtain ⟨h1, h2, h3, h4⟩ := formatNat_spec s.length
  have hpay := ParseStringPayload_exact s r
  by_cases h0 : s.length = 0
  · have hs0 : s = [] := List.length_eq_zero.1 h0
    subst hs0
    simp only [List.length_nil, List.nil_append] at hpay
    have hpk : IStream.peek ⟨DumpString [] ++ r, false⟩ = some ch_0 := rfl
    have hig : IStream.ignore ⟨DumpString [] ++ r, false⟩ = ⟨ch_colon :: r, false⟩ := rfl
    have hpk2 : IStream.peek ⟨ch_colon :: r, false⟩ = some ch_colon := rfl
    have hnd : isDigit ch_colon = false := by decide
    have hne : ch_0 ≠ ch_minus := by decide
    simp only [ParseString, hpk, hig, hpk2, hnd, hpay, Option.some.injEq, hne, if_false,
      if_true, Bool.false_eq_true]
  · cases hf : formatNat s.length with
    | nil => exact absurd hf h1
    | cons d ds =>
      have hd : isDigit d = true := h2 d (by rw [hf]; exact List.mem_cons_self _ _)
      have hd0 : d ≠ ch_0 := by
        intro hh
        apply h0
        apply h4
        rw [hf, hh]; rfl
      have hdm : d ≠ ch_minus := by
        rw [isDigit_iff] at hd
        simp only [ch_minus]; omega
      have hex := extractSizeT_formatNat s.length (s ++ r) hs
      have hrest : DumpString s ++ r = formatNat s.length ++ ch_colon :: (s ++ r) := by
        simp [DumpString]
      rw [hrest]
      have hpk : IStream.peek ⟨formatNat s.length ++ ch_colon :: (s ++ r), false⟩
          = some d := by
        simp [IStream.peek, hf]
      simp only [ParseString, hpk, Option.some.injEq, hdm, hd0, if_false, hex, hpay]

theorem IntBody_head (n : Int) (body : Str) (h : IntBody n body) :
    ∃ c t, body = c :: t ∧ c ≠ ch_e ∧ (c = ch_minus ∨ isDigit c = true) := by
  obtain ⟨ds, hne, hds, h | h⟩ := h
  · cases ds with
    | nil => exact absurd rfl hne
    | cons d ds =>
      have hd : isDigit d = true := hds d (List.mem_cons_self _ _)
      exact ⟨d, ds, h.1, isDigit_ne_e d hd, Or.inr hd⟩
  · exact ⟨ch_minus, ds, h.1, by decide, Or.inl rfl⟩

theorem extractLong_IntBody (n : Int) (body : Str) (r : List Nat) (h : IntBody n body) :
    IStream.extractLong ⟨body ++ ch_e :: r, false⟩ = (n, ⟨ch_e :: r, false⟩) := by
  obtain ⟨ds, hne, hds, ⟨hb, hrange, hn⟩ | ⟨hb, hrange, hn⟩⟩ := h
  · have hsp := spanDigits_append ds ch_e r hds (by decide)
    cases ds with
    | nil => exact absurd rfl hne
    | cons d ds =>
      have hd : isDigit d = true := hds d (List.mem_cons_self _ _)
      have hdm : ¬ (some d = some ch_minus) := by
        rw [isDigit_iff] at hd
        simp only [ch_minus, Option.some.injEq]; omega
      have hlt : ¬ (2 ^ 63 - 1 : Nat) < digitsValue (d :: ds) := by omega
      subst hb
      simp only [List.cons_append] at hsp ⊢
      simp only [IStream.extractLong, List.head?, hdm, decide_False, Bool.false_eq_true,
        if_false, hsp]
      rw [if_neg hne, if_neg hlt, hn]
  · have hsp := spanDigits_append ds ch_e r hds (by decide)
    have hlt : ¬ (2 ^ 63 : Nat) < digitsValue ds := by omega
    subst hb
    simp only [List.cons_append]
    simp only [IStream.extractLong, List.head?, decide_True, if_true, List.tail, hsp]
    rw [if_neg hne, if_neg hlt, hn]
    simp

theorem ParseInteger_IntBody (n : Int) (body : Str) (r : List Nat) (h : IntBody n body) :
    ParseInteger ⟨ch_i :: (body ++ ch_e :: r), false⟩ = .ok (.int n, ⟨r, false⟩) := by
  have hex := extractLong_IntBody n body r h
  obtain ⟨c, t, hct, hce, hc⟩ := IntBody_head n body h
  have hig : IStream.ignore ⟨ch_i :: (body ++ ch_e :: r), false⟩
      = ⟨body ++ ch_e :: r, false⟩ := by
    simp [IStream.ignore]
  have hpk : IStream.peek ⟨body ++ ch_e :: r, false⟩ = some c := by
    simp [IStream.peek, hct]
  have hpk2 : IStream.peek ⟨ch_e :: r, false⟩ = some ch_e := rfl
  have hig2 : IStream.ignore ⟨ch_e :: r, false⟩ = ⟨r, false⟩ := rfl
  simp only [ParseInteger, hig, hpk, hce, if_false, hc, if_true, hex, hpk2, hig2]
  simp

theorem IntBody_formatInt (n : Int) (hlo : LONG_MIN ≤ n) (hhi : n ≤ LONG_MAX) :
    IntBody n (formatInt n) := by
  obtain ⟨h1, h2, h3, _⟩ := formatNat_spec n.natAbs
  simp only [LONG_MIN, LONG_MAX] at hlo hhi
  refine ⟨formatNat n.natAbs, h1, h2, ?_⟩
  by_cases hneg : n < 0
  · right
    refine ⟨by simp [formatInt, hneg], by rw [h3]; omega, by rw [h3]; omega⟩
  · left
    refine ⟨by simp [formatInt, hneg], by rw [h3]; omega, by rw [h3]; omega⟩

/-! ## Lemmas: the key checks of `ParseDictionary` on ascending keys -/

theorem keysAscending_head (a : Str) (ks : List Str) (h : keysAscending (a :: ks) = true) :
    ∀ b ∈ ks, strLt a b = true := by
  induction ks generalizing a with
  | nil => intro b hb; cases hb
  | cons k ks ih =>
    simp only [keysAscending, Bool.and_eq_true] at h
    intro b hb
    rcases List.mem_cons.1 hb with hb | hb
    · rw [hb]; exact h.1
    · exact strLt_trans a k b h.1 (ih k h.2 b hb)

theorem keysAscending_tail (a : Str) (ks : List Str) (h : keysAscending (a :: ks) = true) :
    keysAscending ks = true := by
  cases ks with
  | nil => rfl
  | cons k ks =>
    simp only [keysAscending, Bool.and_eq_true] at h
    exact h.2

theorem is_sorted_of_keysAscending (ks : List Str) (h : keysAscending ks = true) :
    is_sorted ks = true := by
  induction ks with
  | nil => rfl
  | cons a ks ih =>
    cases ks with
    | nil => rfl
    | cons b ks =>
      simp only [keysAscending, Bool.and_eq_true] at h
      simp [is_sorted, strLt_asymm a b h.1, ih h.2]

theorem adjacent_find_of_keysAscending (ks : List Str) (h : keysAscending ks = true) :
    adjacent_find ks = none := by
  induction ks with
  | nil => rfl
  | cons a ks ih =>
    cases ks with
    | nil => rfl
    | cons b ks =>
      simp only [keysAscending, Bool.and_eq_true] at h
      simp [adjacent_find, strLt_ne a b h.1, ih h.2]

theorem mapAssign_last (key : Str) (value : Bencode) (m : List (Str × Bencode))
    (h : ∀ p ∈ m, strLt p.1 key = true) : mapAssign key value m = m ++ [(key, value)] := by
  induction m with
  | nil => rfl
  | cons p m ih =>
    obtain ⟨k, v⟩ := p
    have hk : strLt k key = true := h (k, v) (List.mem_cons_self _ _)
    have ih := ih (fun q hq => h q (List.mem_cons_of_mem _ hq))
    simp [mapAssign, strLt_asymm k key hk, hk, ih]

theorem keysAscending_append_lt (pre : List Str) (k : Str) (ks : List Str)
    (h : keysAscending (pre ++ k :: ks) = true) : ∀ p ∈ pre, strLt p k = true := by
  induction pre with
  | nil => intro p hp; cases hp
  | cons a pre ih =>
    intro p hp
    rcases List.mem_cons.1 hp with hp | hp
    · rw [hp]
      exact keysAscending_head a (pre ++ k :: ks) h k (by simp)
    · exact ih (keysAscending_tail a _ h) p hp

theorem assignAll_ascending (d pre : List (Str × Bencode))
    (h : keysAscending ((pre ++ d).map Prod.fst) = true) : assignAll pre d = pre ++ d := by
  induction d generalizing pre with
  | nil => simp [assignAll]
  | cons kv d ih =>
    obtain ⟨k, v⟩ := kv
    have hlt : ∀ p ∈ pre, strLt p.1 k = true := by
      intro p hp
      have h2 : keysAscending (pre.map Prod.fst ++ k :: d.map Prod.fst) = true := by
        simpa using h
      exact keysAscending_append_lt _ k _ h2 p.1 (List.mem_map_of_mem _ hp)
    have hstep : assignAll pre ((k, v) :: d) = assignAll (pre ++ [(k, v)]) d := by
      simp [assignAll, mapAssign_last k v pre hlt]
    rw [hstep, ih (pre ++ [(k, v)]) (by simpa using h)]
    simp

/-! ## Lemmas: decoding an encoded value -/

theorem DumpString_head (s : Str) :
    ∃ c t, DumpString s = c :: t ∧ isDigit c = true := by
  obtain ⟨h1, h2, _, _⟩ := formatNat_spec s.length
  cases hf : formatNat s.length with
  | nil => exact absurd hf h1
  | cons d ds =>
    exact ⟨d, ds ++ ch_colon :: s, by simp [DumpString, hf],
      h2 d (by rw [hf]; exact List.mem_cons_self _ _)⟩

theorem ParseRecursive_DumpString (s : Str) (r : List Nat) (fuel : Nat)
    (hs : s.length ≤ SIZE_MAX) :
    ParseRecursive (fuel + 1) ⟨DumpString s ++ r, false⟩ = .ok (.str s, ⟨r, false⟩) := by
  obtain ⟨c, t, hct, hc⟩ := DumpString_head s
  have hpk : IStream.peek ⟨DumpString s ++ r, false⟩ = some c := by
    simp [IStream.peek, hct]
  simp only [ParseRecursive, hpk, hc, true_or, if_true]
  exact ParseString_DumpString s r hs

theorem ParseListLoop_done (rec : IStream → Outcome (Bencode × IStream)) (g : Nat)
    (r : List Nat) (acc : List Bencode) :
    ParseListLoop rec (g + 1) ⟨ch_e :: r, false⟩ acc = .ok (.list acc, ⟨r, false⟩) := by
  simp [ParseListLoop, IStream.peek, IStream.ignore]

theorem ParseListLoop_step (rec : IStream → Outcome (Bencode × IStream)) (g : Nat)
    (c : Nat) (t : List Nat) (acc : List Bencode) (hc : c ≠ ch_e) :
    ParseListLoop rec (g + 1) ⟨c :: t, false⟩ acc =
      match rec ⟨c :: t, false⟩ with
      | .ok (elem, input) => ParseListLoop rec g input (acc ++ [elem])
      | .throw id => .throw id
      | .outOfFuel => .outOfFuel := by
  simp [ParseListLoop, IStream.peek, hc]

theorem ParseDictLoop_done (rec : IStream → Outcome (Bencode × IStream)) (g : Nat)
    (r : List Nat) (m : List (Str × Bencode)) (ks : List Str) :
    ParseDictLoop rec (g + 1) ⟨ch_e :: r, false⟩ m ks =
      if !is_sorted ks then .throw .kDictBadOrder
      else if (adjacent_find ks).isSome then .throw .kDictDuplicateKeys
      else .ok (.dict m, ⟨r, false⟩) := by
  simp [ParseDictLoop, IStream.peek, IStream.ignore]

/-- One turn of the dictionary loop on a key and a value that decode. -/
theorem ParseDictLoop_step (rec : IStream → Outcome (Bencode × IStream)) (g : Nat)
    (c : Nat) (t : List Nat) (c2 : Nat) (t2 r2 : List Nat) (key : Str) (value : Bencode)
    (m : List (Str × Bencode)) (ks : List Str) (hc : c ≠ ch_e) (hc2 : c2 ≠ ch_e)
    (hkey : rec ⟨c :: t, false⟩ = .ok (.str key, ⟨c2 :: t2, false⟩))
    (hval : rec ⟨c2 :: t2, false⟩ = .ok (value, ⟨r2, false⟩)) :
    ParseDictLoop rec (g + 1) ⟨c :: t, false⟩ m ks =
      ParseDictLoop rec g ⟨r2, false⟩ (mapAssign key value m) (ks ++ [key]) := by
  simp [ParseDictLoop, IStream.peek, hc, hc2, hkey, hval]

mutual
/-- Decoding an encoding of a value gives the value back and stops right after
the encoding, whatever follows it. -/
theorem ParseRecursive_Encoding : ∀ (v : Bencode) (b : Str), Encoding v b →
    (∃ c t, b = c :: t ∧ c ≠ ch_e) ∧
    ∀ (fuel : Nat) (r : List Nat), b.length ≤ fuel →
      ParseRecursive fuel ⟨b ++ r, false⟩ = .ok (v, ⟨r, false⟩)
  | .null, _, h => by simp [Encoding] at h
  | .str s, b, h => by
    simp only [Encoding] at h
    obtain ⟨hr, hd⟩ := h
    subst hd
    obtain ⟨c, t, hct, hc⟩ := DumpString_head s
    refine ⟨⟨c, t, hct, isDigit_ne_e c hc⟩, ?_⟩
    intro fuel r hf
    cases fuel with
    | zero => rw [hct] at hf; simp at hf
    | succ f => exact ParseRecursive_DumpString s r f hr
  | .int n, b, h => by
    simp only [Encoding] at h
    obtain ⟨body, hbody, hd⟩ := h
    subst hd
    refine ⟨⟨ch_i, body ++ [ch_e], rfl, by decide⟩, ?_⟩
    intro fuel r hf
    cases fuel with
    | zero => simp at hf
    | succ f =>
      have hrest : (ch_i :: (body ++ [ch_e])) ++ r = ch_i :: (body ++ ch_e :: r) := by simp
      rw [hrest]
      have hpk : IStream.peek ⟨ch_i :: (body ++ ch_e :: r), false⟩ = some ch_i := rfl
      have h1 : ¬ (isDigit ch_i = true ∨ ch_i = ch_minus) := by decide
      simp only [ParseRecursive, hpk, h1, if_false, if_true]
      exact ParseInteger_IntBody n body r hbody
  | .list l, b, h => by
    simp only [Encoding] at h
    obtain ⟨body, hbody, hd⟩ := h
    subst hd
    obtain ⟨hlen, hloop⟩ := ParseRecursive_EncodingElems l body hbody
    refine ⟨⟨ch_l, body ++ [ch_e], rfl, by decide⟩, ?_⟩
    intro fuel r hf
    cases fuel with
    | zero => simp at hf
    | succ f =>
      simp only [List.length_cons, List.length_append, List.length_singleton] at hf
      have hrest : (ch_l :: (body ++ [ch_e])) ++ r = ch_l :: (body ++ ch_e :: r) := by simp
      rw [hrest]
      have hpk : IStream.peek ⟨ch_l :: (body ++ ch_e :: r), false⟩ = some ch_l := rfl
      have h1 : ¬ (isDigit ch_l = true ∨ ch_l = ch_minus) := by decide
      have h2 : ch_l ≠ ch_i := by decide
      have hig : IStream.ignore ⟨ch_l :: (body ++ ch_e :: r), false⟩
          = ⟨body ++ ch_e :: r, false⟩ := rfl
      simp only [ParseRecursive, hpk, h1, h2, if_false, if_true, ParseList, hig]
      have := hloop f f [] r (by omega) (by omega)
      simpa using this
  | .dict d, b, h => by
    simp only [Encoding] at h
    obtain ⟨body, hbody, hasc, hd⟩ := h
    subst hd
    obtain ⟨hlen, hloop⟩ := ParseRecursive_EncodingItems d body hbody
    refine ⟨⟨ch_d, body ++ [ch_e], rfl, by decide⟩, ?_⟩
    intro fuel r hf
    cases fuel with
    | zero => simp at hf
    | succ f =>
      simp only [List.length_cons, List.length_append, List.length_singleton] at hf
      have hrest : (ch_d :: (body ++ [ch_e])) ++ r = ch_d :: (body ++ ch_e :: r) := by simp
      rw [hrest]
      have hpk : IStream.peek ⟨ch_d :: (body ++ ch_e :: r), false⟩ = some ch_d := rfl
      have h1 : ¬ (isDigit ch_d = true ∨ ch_d = ch_minus) := by decide
      have h2 : ch_d ≠ ch_i := by decide
      have h3 : ch_d ≠ ch_l := by decide
      have hig : IStream.ignore ⟨ch_d :: (body ++ ch_e :: r), false⟩
          = ⟨body ++ ch_e :: r, false⟩ := rfl
      simp only [ParseRecursive, hpk, h1, h2, h3, if_false, if_true, ParseDictionary, hig]
      rw [hloop f f [] [] r (by omega) (by omega)]
      simp only [List.nil_append, is_sorted_of_keysAscending _ hasc,
        adjacent_find_of_keysAscending _ hasc, Bool.not_true, Bool.false_eq_true, if_false,
        Option.isSome_none]
      rw [assignAll_ascending d [] (by simpa using hasc)]
      simp
/-- The list loop on encodings of the elements followed by `'e'`. -/
theorem ParseRecursive_EncodingElems : ∀ (l : List Bencode) (body : Str),
    EncodingElems l body →
    l.length ≤ body.length ∧
    ∀ (fuel g : Nat) (acc : List Bencode) (r : List Nat), body.length ≤ fuel → l.length < g →
      ParseListLoop (ParseRecursive fuel) g ⟨body ++ ch_e :: r, false⟩ acc
        = .ok (.list (acc ++ l), ⟨r, false⟩)
  | [], body, h => by
    simp only [EncodingElems] at h
    subst h
    refine ⟨by simp, ?_⟩
    intro fuel g acc r _ hg
    cases g with
    | zero => simp at hg
    | succ g => simpa using ParseListLoop_done (ParseRecursive fuel) g r acc
  | elem :: rest, body, h => by
    simp only [EncodingElems] at h
    obtain ⟨x, y, hx, hy, hd⟩ := h
    subst hd
    obtain ⟨⟨c, t, hct, hc⟩, hv⟩ := ParseRecursive_Encoding elem x hx
    obtain ⟨hlen, hloop⟩ := ParseRecursive_EncodingElems rest y hy
    have hxl : 1 ≤ x.length := by rw [hct]; simp
    refine ⟨by simp only [List.length_cons, List.length_append]; omega, ?_⟩
    intro fuel g acc r hf hg
    simp only [List.length_append] at hf
    simp only [List.length_cons] at hg
    cases g with
    | zero => omega
    | succ g =>
      have hrest : (x ++ y) ++ ch_e :: r = c :: (t ++ (y ++ ch_e :: r)) := by
        rw [hct]; simp
      rw [hrest, ParseListLoop_step _ g c _ acc hc]
      have hv2 := hv fuel (y ++ ch_e :: r) (by omega)
      rw [hct] at hv2
      simp only [List.cons_append] at hv2
      rw [hv2]
      simp only
      rw [hloop fuel g (acc ++ [elem]) r (by omega) (by omega)]
      simp
/-- The dictionary loop on encodings of the entries followed by `'e'`. -/
theorem ParseRecursive_EncodingItems : ∀ (d : List (Str × Bencode)) (body : Str),
    EncodingItems d body →
    d.length ≤ body.length ∧
    ∀ (fuel g : Nat) (m : List (Str × Bencode)) (ks : List Str) (r : List Nat),
      body.length ≤ fuel → d.length < g →
      ParseDictLoop (ParseRecursive fuel) g ⟨body ++ ch_e :: r, false⟩ m ks
        = if !is_sorted (ks ++ d.map Prod.fst) then .throw .kDictBadOrder
          else if (adjacent_find (ks ++ d.map Prod.fst)).isSome then
            .throw .kDictDuplicateKeys
          else .ok (.dict (assignAll m d), ⟨r, false⟩)
  | [], body, h => by
    simp only [EncodingItems] at h
    subst h
    refine ⟨by simp, ?_⟩
    intro fuel g m ks r _ hg
    cases g with
    | zero => simp at hg
    | succ g => simpa [assignAll] using ParseDictLoop_done (ParseRecursive fuel) g r m ks
  | (key, value) :: rest, body, h => by
    simp only [EncodingItems] at h
    obtain ⟨x, y, hk, hx, hy, hd⟩ := h
    subst hd
    obtain ⟨⟨c, t, hct, hc⟩, hv⟩ := ParseRecursive_Encoding value x hx
    obtain ⟨hlen, hloop⟩ := ParseRecursive_EncodingItems rest y hy
    obtain ⟨kc, kt, hkct, hkc⟩ := DumpString_head key
    have hxl : 1 ≤ x.length := by rw [hct]; simp
    refine ⟨by simp only [List.length_cons, List.length_append]; omega, ?_⟩
    intro fuel g m ks r hf hg
    simp only [List.length_append] at hf
    simp only [List.length_cons] at hg
    cases g with
    | zero => omega
    | succ g =>
      cases fuel with
      | zero => omega
      | succ f =>
        have hkey := ParseRecursive_DumpString key (c :: (t ++ (y ++ ch_e :: r))) f hk
        rw [hkct] at hkey
        simp only [List.cons_append] at hkey
        have hv2 := hv (f + 1) (y ++ ch_e :: r) (by omega)
        rw [hct] at hv2
        simp only [List.cons_append] at hv2
        have hrest : (DumpString key ++ (x ++ y)) ++ ch_e :: r
            = kc :: (kt ++ c :: (t ++ (y ++ ch_e :: r))) := by
          rw [hct, hkct]; simp
        rw [hrest, ParseDictLoop_step _ g kc _ c _ _ key value m ks
          (isDigit_ne_e kc hkc) hc hkey hv2]
        rw [hloop (f + 1) g (mapAssign key value m) (ks ++ [key]) r (by omega) (by omega)]
        simp [assignAll]
end

mutual
/-- What `Dump` writes for a Null-free representable value is an encoding of it. -/
theorem Encoding_of_Dump : ∀ (v : Bencode) (b : Str), v.Representable = true →
    v.Dump = .ok b → Encoding v b
  | .null, _, _, hd => by simp [Bencode.Dump] at hd
  | .str s, b, hr, hd => by
    simp only [Bencode.Dump, Except.ok.injEq] at hd
    simp only [Bencode.Representable, decide_eq_true_eq] at hr
    exact ⟨hr, hd.symm⟩
  | .int n, b, hr, hd => by
    simp only [Bencode.Dump, Except.ok.injEq] at hd
    simp only [Bencode.Representable, Bool.and_eq_true, decide_eq_true_eq] at hr
    exact ⟨formatInt n, IntBody_formatInt n hr.1 hr.2, by rw [← hd]; simp⟩
  | .list l, b, hr, hd => by
    simp only [Bencode.Representable] at hr
    cases hde : DumpElems l with
    | error e => simp [Bencode.Dump, hde] at hd
    | ok body =>
      simp only [Bencode.Dump, hde, Except.ok.injEq] at hd
      exact ⟨body, EncodingElems_of_Dump l body hr hde, by rw [← hd]; simp⟩
  | .dict d, b, hr, hd => by
    simp only [Bencode.Representable, Bool.and_eq_true] at hr
    cases hde : DumpItems d with
    | error e => simp [Bencode.Dump, hde] at hd
    | ok body =>
      simp only [Bencode.Dump, hde, Except.ok.injEq] at hd
      exact ⟨body, EncodingItems_of_Dump d body hr.2 hde, hr.1, by rw [← hd]; simp⟩
theorem EncodingElems_of_Dump : ∀ (l : List Bencode) (body : Str),
    RepresentableElems l = true → DumpElems l = .ok body → EncodingElems l body
  | [], body, _, hd => by
    simp only [DumpElems, Except.ok.injEq] at hd
    exact hd.symm
  | elem :: rest, body, hr, hd => by
    simp only [RepresentableElems, Bool.and_eq_true] at hr
    cases hx : elem.Dump with
    | error e => simp [DumpElems, hx] at hd
    | ok x =>
      cases hy : DumpElems rest with
      | error e => simp [DumpElems, hx, hy] at hd
      | ok y =>
        simp only [DumpElems, hx, hy, Except.ok.injEq] at hd
        exact ⟨x, y, Encoding_of_Dump elem x hr.1 hx, EncodingElems_of_Dump rest y hr.2 hy,
          hd.symm⟩
theorem EncodingItems_of_Dump : ∀ (d : List (Str × Bencode)) (body : Str),
    RepresentableItems d = true → DumpItems d = .ok body → EncodingItems d body
  | [], body, _, hd => by
    simp only [DumpItems, Except.ok.injEq] at hd
    exact hd.symm
  | (key, value) :: rest, body, hr, hd => by
    simp only [RepresentableItems, Bool.and_eq_true, decide_eq_true_eq] at hr
    cases hx : value.Dump with
    | error e => simp [DumpItems, hx] at hd
    | ok x =>
      cases hy : DumpItems rest with
      | error e => simp [DumpItems, hx, hy] at hd
      | ok y =>
        simp only [DumpItems, hx, hy, Except.ok.injEq] at hd
        exact ⟨x, y, hr.1.1, Encoding_of_Dump value x hr.1.2 hx,
          EncodingItems_of_Dump rest y hr.2 hy, by rw [← hd]; simp⟩
end

/-! ## Lemmas: what the decoder accepts -/

theorem digitsValue_foldl_ge (cs : List Nat) (a : Nat) :
    a ≤ cs.foldl (fun acc d => 10 * acc + (d - ch_0)) a := by
  induction cs generalizing a with
  | nil => simp
  | cons c cs ih =>
    simp only [List.foldl]
    exact le_trans (by omega) (ih (10 * a + (c - ch_0)))

theorem digitsValue_pos (c : Nat) (cs : List Nat) (hc : isDigit c = true) (h0 : c ≠ ch_0) :
    1 ≤ digitsValue (c :: cs) := by
  rw [isDigit_iff] at hc
  simp only [ch_0] at h0
  have := digitsValue_foldl_ge cs (10 * 0 + (c - ch_0))
  simp only [digitsValue, List.foldl]
  refine le_trans ?_ this
  simp only [ch_0]; omega

/-- Digits without a leading zero are what `decimalAux` writes for their value. -/
theorem decimalAux_digitsValue (ds : List Nat) : ds ≠ [] → (∀ d ∈ ds, isDigit d = true) →
    ds.head? ≠ some ch_0 → ∀ (fuel : Nat) (acc : List Nat), digitsValue ds < fuel →
    decimalAux fuel (digitsValue ds) acc = ds ++ acc := by
  induction ds using List.reverseRecOn with
  | nil => intro h; exact absurd rfl h
  | append_singleton pre d ih =>
    intro _ hds hhead fuel acc hf
    have hd : isDigit d = true := hds d (by simp)
    rw [isDigit_iff] at hd
    rw [digitsValue_append_one] at hf ⊢
    cases fuel with
    | zero => omega
    | succ f =>
      cases pre with
      | nil =>
        have h1 : (10 * digitsValue [] + (d - ch_0)) / 10 = 0 := by
          simp only [digitsValue, List.foldl, ch_0]; omega
        have h2 : ch_0 + (10 * digitsValue [] + (d - ch_0)) % 10 = d := by
          simp only [digitsValue, List.foldl, ch_0]; omega
        simp only [decimalAux, h1, if_true, h2, List.nil_append, List.singleton_append]
      | cons c cs =>
        have hc : isDigit c = true := hds c (by simp)
        have hc0 : c ≠ ch_0 := by
          intro hh
          apply hhead
          simp [hh]
        have hpos := digitsValue_pos c cs hc hc0
        have h1 : (10 * digitsValue (c :: cs) + (d - ch_0)) / 10 = digitsValue (c :: cs) := by
          simp only [ch_0]; omega
        have h1n : ¬ ((10 * digitsValue (c :: cs) + (d - ch_0)) / 10 = 0) := by
          rw [h1]; omega
        have h2 : ch_0 + (10 * digitsValue (c :: cs) + (d - ch_0)) % 10 = d := by
          simp only [ch_0]; omega
        simp only [decimalAux]
        rw [if_neg h1n, h1, h2]
        rw [ih (by simp) (fun x hx => hds x (by simp at hx ⊢; tauto))
          (by simpa using hc0) f (d :: acc) (by simp only [ch_0] at hf; omega)]
        simp

theorem formatNat_digitsValue (ds : List Nat) (hne : ds ≠ [])
    (hds : ∀ d ∈ ds, isDigit d = true) (hhead : ds.head? ≠ some ch_0) :
    formatNat (digitsValue ds) = ds := by
  have := decimalAux_digitsValue ds hne hds hhead (digitsValue ds + 1) [] (by omega)
  simpa [formatNat] using this

theorem ParseStringPayload_sound (n : Nat) (s : IStream) (v : Bencode) (s' : IStream)
    (h : ParseStringPayload n s = .ok (v, s')) :
    s.fail = false ∧ s'.fail = false ∧
      ∃ str, v = .str str ∧ str.length = n ∧ s.rest = ch_colon :: (str ++ s'.rest) := by
  obtain ⟨rest, fail⟩ := s
  cases fail with
  | true => simp [ParseStringPayload, IStream.get, IStream.peek] at h
  | false =>
    cases rest with
    | nil => simp [ParseStringPayload, IStream.get, IStream.peek] at h
    | cons c cs =>
      by_cases hc : c = ch_colon
      · subst hc
        by_cases hlen : cs.length < n
        · simp [ParseStringPayload, IStream.get, IStream.peek, IStream.ignore,
            IStream.read, hlen] at h
        · have hlen2 : (cs.take n).length = n := by
            rw [List.length_take]; omega
          simp only [ParseStringPayload, IStream.get, IStream.peek, IStream.ignore,
            IStream.read, List.head?, List.tail, Bool.false_eq_true, if_false, ne_eq,
            not_true_eq_false, hlen2, Outcome.ok.injEq, Prod.mk.injEq] at h
          obtain ⟨hv, hs⟩ := h
          subst hs
          refine ⟨rfl, by simpa using hlen, cs.take n, hv.symm, hlen2, ?_⟩
          simp
      · simp [ParseStringPayload, IStream.get, IStream.peek, hc] at h

theorem extractSizeT_sound (s : IStream) (h : (s.extractSizeT).2.fail = false) :
    s.fail = false ∧ ∃ ds, ds ≠ [] ∧ (∀ d ∈ ds, isDigit d = true) ∧
      s.rest = ds ++ (s.extractSizeT).2.rest ∧ (s.extractSizeT).1 = digitsValue ds ∧
      digitsValue ds ≤ SIZE_MAX := by
  obtain ⟨rest, fail⟩ := s
  obtain ⟨hsp1, hsp2, _⟩ := spanDigits_spec rest
  cases fail with
  | true => simp [IStream.extractSizeT] at h
  | false =>
    by_cases hds : (spanDigits rest).1 = []
    · simp [IStream.extractSizeT, hds] at h
    · by_cases hmax : SIZE_MAX < digitsValue (spanDigits rest).1
      · simp [IStream.extractSizeT, hds, hmax] at h
      · refine ⟨rfl, (spanDigits rest).1, hds, hsp2, ?_, ?_, by omega⟩
        · simp [IStream.extractSizeT, hds, hmax, hsp1]
        · simp [IStream.extractSizeT, hds, hmax]

theorem ParseString_sound (s : IStream) (v : Bencode) (s' : IStream)
    (h : ParseString s = .ok (v, s')) :
    s.fail = false ∧ s'.fail = false ∧
      ∃ str, v = .str str ∧ str.length ≤ SIZE_MAX ∧ s.rest = DumpString str ++ s'.rest := by
  by_cases hm : s.peek = some ch_minus
  · simp [ParseString, hm] at h
  · by_cases h0 : s.peek = some ch_0
    · obtain ⟨rest, fail⟩ := s
      cases fail with
      | true => simp [IStream.peek] at h0
      | false =>
        cases rest with
        | nil => simp [IStream.peek] at h0
        | cons c cs =>
          have hc : c = ch_0 := by simpa [IStream.peek] using h0
          subst hc
          have hig : IStream.ignore ⟨ch_0 :: cs, false⟩ = ⟨cs, false⟩ := rfl
          have hne : ¬ (some ch_0 = some ch_minus) := by decide
          simp only [ParseString, h0, hne, if_false, if_true, hig] at h
          have hpay : ParseStringPayload 0 ⟨cs, false⟩ = .ok (v, s') := by
            cases cs with
            | nil => simpa [IStream.peek] using h
            | cons c2 cs2 =>
              by_cases hd : isDigit c2 = true
              · simp [IStream.peek, hd] at h
              · simpa [IStream.peek, hd] using h
          obtain ⟨_, hf, str, hv, hlen, hrest⟩ := ParseStringPayload_sound 0 _ v s' hpay
          have hnil : str = [] := List.length_eq_zero.1 hlen
          subst hnil
          simp only at hrest
          refine ⟨rfl, hf, [], hv, by simp, ?_⟩
          rw [hrest]
          rfl
    · simp only [ParseString, hm, h0, if_false] at h
      obtain ⟨hf1, hf2, str, hv, hlen, hrest⟩ := ParseStringPayload_sound _ _ v s' h
      obtain ⟨hsf, ds, hne, hds, hsrest, hval, hmax⟩ := extractSizeT_sound s hf1
      have hhead : ds.head? ≠ some ch_0 := by
        intro hh
        apply h0
        cases ds with
        | nil => exact absurd rfl hne
        | cons d ds =>
          simp only [List.head?, Option.some.injEq] at hh
          simp [IStream.peek, hsf, hsrest, hh]
      refine ⟨hsf, hf2, str, hv, by rw [hlen, hval]; exact hmax, ?_⟩
      rw [hsrest, hrest, DumpString, hlen, hval, formatNat_digitsValue ds hne hds hhead]
      simp

theorem peek_eq_some (s : IStream) (c : Nat) (h : s.peek = some c) :
    s.fail = false ∧ ∃ t, s.rest = c :: t := by
  obtain ⟨rest, fail⟩ := s
  cases fail with
  | true => simp [IStream.peek] at h
  | false =>
    cases rest with
    | nil => simp [IStream.peek] at h
    | cons x xs =>
      simp only [IStream.peek, Bool.false_eq_true, if_false, List.head?,
        Option.some.injEq] at h
      exact ⟨rfl, xs, by rw [h]⟩

theorem extractLong_sound (s : IStream) (h : (s.extractLong).2.fail = false) :
    s.fail = false ∧ ∃ body, IntBody (s.extractLong).1 body ∧
      s.rest = body ++ (s.extractLong).2.rest := by
  obtain ⟨rest, fail⟩ := s
  cases fail with
  | true => simp [IStream.extractLong] at h
  | false =>
    refine ⟨rfl, ?_⟩
    by_cases hneg : rest.head? = some ch_minus
    · obtain ⟨hsp1, hsp2, _⟩ := spanDigits_spec rest.tail
      have hrest : rest = ch_minus :: rest.tail := by
        cases rest with
        | nil => simp at hneg
        | cons x xs => simp at hneg; simp [hneg]
      by_cases hds : (spanDigits rest.tail).1 = []
      · simp [IStream.extractLong, hneg, hds] at h
      · by_cases hmax : (2 ^ 63 : Nat) < digitsValue (spanDigits rest.tail).1
        · simp only [IStream.extractLong, hneg, decide_True, if_true, hds,
            Bool.false_eq_true, if_false, hmax] at h
          exact absurd h (by decide)
        · simp only [IStream.extractLong, hneg, decide_True, if_true, hds,
            Bool.false_eq_true, if_false, hmax]
          refine ⟨ch_minus :: (spanDigits rest.tail).1,
            ⟨(spanDigits rest.tail).1, hds, hsp2, Or.inr ⟨rfl, by omega, rfl⟩⟩, ?_⟩
          rw [List.cons_append, hsp1]
          exact hrest
    · obtain ⟨hsp1, hsp2, _⟩ := spanDigits_spec rest
      by_cases hds : (spanDigits rest).1 = []
      · simp [IStream.extractLong, hneg, hds] at h
      · by_cases hmax : (2 ^ 63 - 1 : Nat) < digitsValue (spanDigits rest).1
        · simp only [IStream.extractLong, hneg, decide_False, Bool.false_eq_true, if_false,
            hds, hmax, if_true] at h
          exact absurd h (by decide)
        · simp only [IStream.extractLong, hneg, decide_False, Bool.false_eq_true, if_false,
            hds, hmax]
          exact ⟨(spanDigits rest).1,
            ⟨(spanDigits rest).1, hds, hsp2, Or.inl ⟨rfl, by omega, rfl⟩⟩, hsp1.symm⟩

theorem ParseInteger_sound (s : IStream) (v : Bencode) (s' : IStream)
    (hpk : s.peek = some ch_i) (h : ParseInteger s = .ok (v, s')) :
    s.fail = false ∧ s'.fail = false ∧ ∃ n body, v = .int n ∧ IntBody n body ∧
      s.rest = ch_i :: (body ++ ch_e :: s'.rest) := by
  obtain ⟨hsf, t, hst⟩ := peek_eq_some s ch_i hpk
  obtain ⟨rest, fail⟩ := s
  simp only at hsf hst
  subst hsf hst
  have hig : IStream.ignore ⟨ch_i :: t, false⟩ = ⟨t, false⟩ := rfl
  simp only [ParseInteger, hig] at h
  cases hp : IStream.peek ⟨t, false⟩ with
  | none => simp [hp] at h
  | some c =>
    simp only [hp] at h
    by_cases hce : c = ch_e
    · simp [hce] at h
    · by_cases hc : c = ch_minus ∨ isDigit c = true
      · simp only [hce, if_false, hc, if_true] at h
        by_cases hp2 : (IStream.extractLong ⟨t, false⟩).2.peek = some ch_e
        · have hn : ¬ (some ch_e = none) := by simp
          simp only [hp2, hn, ne_eq, not_true_eq_false, if_false, Outcome.ok.injEq,
            Prod.mk.injEq] at h
          obtain ⟨hf2, r, hr⟩ := peek_eq_some _ ch_e hp2
          obtain ⟨_, body, hbody, hrest⟩ := extractLong_sound ⟨t, false⟩ hf2
          obtain ⟨hv, hs⟩ := h
          have hs2 : s'.rest = r ∧ s'.fail = false := by
            rw [← hs]; simp [IStream.ignore, hf2, hr]
          refine ⟨rfl, hs2.2, _, body, hv.symm, hbody, ?_⟩
          simp only at hrest
          rw [hs2.1]
          simp only [List.cons.injEq, true_and]
          rw [← hr]
          exact hrest
        · by_cases hp3 : (IStream.extractLong ⟨t, false⟩).2.peek = none
          · simp [hp3] at h
          · simp [hp2, hp3] at h
      · simp [hce, hc] at h

theorem keysAscending_of_checks (ks : List Str) (h1 : is_sorted ks = true)
    (h2 : adjacent_find ks = none) : keysAscending ks = true := by
  induction ks with
  | nil => rfl
  | cons a ks ih =>
    cases ks with
    | nil => rfl
    | cons b ks =>
      by_cases hba : strLt b a = true
      · simp [is_sorted, hba] at h1
      · by_cases hab : a = b
        · simp [adjacent_find, hab] at h2
        · simp only [is_sorted, hba, Bool.false_eq_true, if_false] at h1
          simp only [adjacent_find, hab, if_false, Option.map_eq_none'] at h2
          have hlt : strLt a b = true := by
            by_contra hcon
            exact hab (strLt_total a b (by simpa using hcon) (by simpa using hba))
          simp [keysAscending, hlt, ih h1 h2]

theorem ParseListLoop_sound (rec : IStream → Outcome (Bencode × IStream))
    (hrec : SoundDecoder rec) : ∀ (g : Nat) (s : IStream) (acc : List Bencode)
    (v : Bencode) (s' : IStream), ParseListLoop rec g s acc = .ok (v, s') →
    s.fail = false ∧ s'.fail = false ∧ ∃ l body, v = .list (acc ++ l) ∧
      EncodingElems l body ∧ s.rest = body ++ ch_e :: s'.rest := by
  intro g
  induction g with
  | zero => intro s acc v s' h; simp [ParseListLoop] at h
  | succ g ih =>
    intro s acc v s' h
    by_cases hp : s.peek = some ch_e
    · obtain ⟨hsf, t, hst⟩ := peek_eq_some s ch_e hp
      simp only [ParseListLoop, hp, ne_eq, not_true_eq_false, if_false, Outcome.ok.injEq,
        Prod.mk.injEq] at h
      obtain ⟨hv, hs⟩ := h
      have hs2 : s'.rest = t ∧ s'.fail = false := by
        rw [← hs]; simp [IStream.ignore, hsf, hst]
      refine ⟨hsf, hs2.2, [], [], by simpa using hv.symm, rfl, ?_⟩
      rw [hst, hs2.1]; rfl
    · cases hr : rec s with
      | throw id => simp [ParseListLoop, hp, hr] at h
      | outOfFuel => simp [ParseListLoop, hp, hr] at h
      | ok p =>
        obtain ⟨elem, s1⟩ := p
        simp only [ParseListLoop, hp, ne_eq, not_false_eq_true, if_true, hr] at h
        obtain ⟨hsf, hs1f, x, hx, hsx⟩ := hrec s elem s1 hr
        obtain ⟨_, hs'f, l, body, hv, hl, hs1⟩ := ih s1 (acc ++ [elem]) v s' h
        refine ⟨hsf, hs'f, elem :: l, x ++ body, by simpa using hv, ⟨x, body, hx, hl, rfl⟩, ?_⟩
        rw [hsx, hs1]; simp

theorem ParseDictLoop_sound (rec : IStream → Outcome (Bencode × IStream))
    (hrec : SoundDecoder rec) : ∀ (g : Nat) (s : IStream) (m : List (Str × Bencode))
    (ks : List Str) (v : Bencode) (s' : IStream),
    ParseDictLoop rec g s m ks = .ok (v, s') →
    s.fail = false ∧ s'.fail = false ∧ ∃ d body, v = .dict (assignAll m d) ∧
      EncodingItems d body ∧ s.rest = body ++ ch_e :: s'.rest ∧
      is_sorted (ks ++ d.map Prod.fst) = true ∧ adjacent_find (ks ++ d.map Prod.fst) = none := by
  intro g
  induction g with
  | zero => intro s m ks v s' h; simp [ParseDictLoop] at h
  | succ g ih =>
    intro s m ks v s' h
    by_cases hp : s.peek = some ch_e
    · obtain ⟨hsf, t, hst⟩ := peek_eq_some s ch_e hp
      simp only [ParseDictLoop, hp, ne_eq, not_true_eq_false, if_false] at h
      by_cases hsorted : is_sorted ks = true
      · cases hadj : adjacent_find ks with
        | some i => simp [hsorted, hadj] at h
        | none =>
          simp only [hsorted, Bool.not_true, Bool.false_eq_true, if_false, hadj,
            Option.isSome_none, Outcome.ok.injEq, Prod.mk.injEq] at h
          obtain ⟨hv, hs⟩ := h
          have hs2 : s'.rest = t ∧ s'.fail = false := by
            rw [← hs]; simp [IStream.ignore, hsf, hst]
          refine ⟨hsf, hs2.2, [], [], by simpa [assignAll] using hv.symm, rfl, ?_,
            by simpa using hsorted, by simpa using hadj⟩
          rw [hst, hs2.1]; rfl
      · simp [hsorted] at h
    · cases hr : rec s with
      | throw id => simp [ParseDictLoop, hp, hr] at h
      | outOfFuel => simp [ParseDictLoop, hp, hr] at h
      | ok p =>
        obtain ⟨kv, s1⟩ := p
        obtain ⟨hsf, hs1f, kb, hkb, hskb⟩ := hrec s kv s1 hr
        cases kv with
        | null => simp [ParseDictLoop, hp, hr] at h
        | int n => simp [ParseDictLoop, hp, hr] at h
        | list l => simp [ParseDictLoop, hp, hr] at h
        | dict d => simp [ParseDictLoop, hp, hr] at h
        | str key =>
          simp only [Encoding] at hkb
          obtain ⟨hklen, hkbeq⟩ := hkb
          by_cases hp1 : s1.peek = some ch_e
          · simp [ParseDictLoop, hp, hr, hp1] at h
          · cases hr2 : rec s1 with
            | throw id => simp [ParseDictLoop, hp, hr, hp1, hr2] at h
            | outOfFuel => simp [ParseDictLoop, hp, hr, hp1, hr2] at h
            | ok p2 =>
              obtain ⟨value, s2⟩ := p2
              simp only [ParseDictLoop, hp, ne_eq, not_false_eq_true, if_true, hr, hp1,
                if_false, hr2] at h
              obtain ⟨_, hs2f, x, hx, hsx⟩ := hrec s1 value s2 hr2
              obtain ⟨_, hs'f, d, body, hv, hd, hs2, hsort, hadj⟩ :=
                ih s2 (mapAssign key value m) (ks ++ [key]) v s' h
              refine ⟨hsf, hs'f, (key, value) :: d, DumpString key ++ (x ++ body),
                by simpa [assignAll] using hv, ⟨x, body, hklen, hx, hd, rfl⟩, ?_,
                by simpa using hsort, by simpa using hadj⟩
              rw [hskb, hkbeq, hsx, hs2]; simp

theorem ParseRecursive_sound : ∀ (fuel : Nat), SoundDecoder (ParseRecursive fuel) := by
  intro fuel
  induction fuel with
  | zero => intro s v s' h; simp [ParseRecursive] at h
  | succ f ih =>
    intro s v s' h
    cases hp : s.peek with
    | none => simp [ParseRecursive, hp] at h
    | some c =>
      obtain ⟨hsf, t, hst⟩ := peek_eq_some s c hp
      simp only [ParseRecursive, hp] at h
      by_cases h1 : isDigit c = true ∨ c = ch_minus
      · simp only [h1, if_true] at h
        obtain ⟨_, hs'f, str, hv, hlen, hrest⟩ := ParseString_sound s v s' h
        exact ⟨hsf, hs'f, DumpString str, by rw [hv]; exact ⟨hlen, rfl⟩, hrest⟩
      · by_cases h2 : c = ch_i
        · simp only [h1, if_false, h2, if_true] at h
          obtain ⟨_, hs'f, n, body, hv, hbody, hrest⟩ :=
            ParseInteger_sound s v s' (by rw [hp, h2]) h
          refine ⟨hsf, hs'f, ch_i :: (body ++ [ch_e]), by rw [hv]; exact ⟨body, hbody, rfl⟩, ?_⟩
          rw [hrest]; simp
        · have hig : s.ignore = ⟨t, false⟩ := by
            obtain ⟨rest, fail⟩ := s
            simp only at hsf hst
            subst hsf hst
            rfl
          by_cases h3 : c = ch_l
          · simp only [h1, if_false, h2, h3, if_true, ParseList, hig] at h
            obtain ⟨_, hs'f, l, body, hv, hl, hrest⟩ :=
              ParseListLoop_sound _ ih f _ [] v s' h
            refine ⟨hsf, hs'f, ch_l :: (body ++ [ch_e]),
              by rw [hv]; exact ⟨body, by simpa using hl, rfl⟩, ?_⟩
            simp only at hrest
            rw [hst, hrest, h3]; simp
          · by_cases h4 : c = ch_d
            · simp only [h1, if_false, h2, h3, h4, if_true, ParseDictionary, hig] at h
              obtain ⟨_, hs'f, d, body, hv, hd, hrest, hsort, hadj⟩ :=
                ParseDictLoop_sound _ ih f _ [] [] v s' h
              simp only [List.nil_append] at hsort hadj
              have hasc := keysAscending_of_checks _ hsort hadj
              rw [assignAll_ascending d [] (by simpa using hasc)] at hv
              refine ⟨hsf, hs'f, ch_d :: (body ++ [ch_e]),
                by rw [hv]; exact ⟨body, by simpa using hd, hasc, rfl⟩, ?_⟩
              simp only at hrest
              rw [hst, hrest, h4]; simp
            · simp [h1, h2, h3, h4] at h

/-- On a non-empty input `Parse` succeeds exactly on the encodings, with the
value encoded. -/
theorem Parse_ok_iff (b : Str) (v : Bencode) (hb : b ≠ []) :
    Parse b = .ok v ↔ Encoding v b := by
  have hpk : ¬ (IStream.peek ⟨b, false⟩ = none) := by
    cases b with
    | nil => exact absurd rfl hb
    | cons c t => simp [IStream.peek]
  constructor
  · intro h
    simp only [Parse, hpk, if_false] at h
    cases hr : ParseRecursive (b.length + 1) ⟨b, false⟩ with
    | throw id => simp [hr] at h
    | outOfFuel => simp [hr] at h
    | ok p =>
      obtain ⟨w, s'⟩ := p
      simp only [hr] at h
      obtain ⟨_, hs'f, enc, henc, hrest⟩ := ParseRecursive_sound _ _ w s' hr
      by_cases hp2 : s'.peek = none
      · simp only [hp2, ne_eq, not_true_eq_false, if_false, Outcome.ok.injEq] at h
        have hnil : s'.rest = [] := by
          obtain ⟨rest, fail⟩ := s'
          simp only at hs'f
          subst hs'f
          cases rest with
          | nil => rfl
          | cons c t => simp [IStream.peek] at hp2
        simp only [hnil, List.append_nil] at hrest
        rw [← h, hrest]
        exact henc
      · simp [hp2] at h
  · intro h
    obtain ⟨_, hpr⟩ := ParseRecursive_Encoding v b h
    have := hpr (b.length + 1) [] (by omega)
    simp only [List.append_nil] at this
    have hpk2 : IStream.peek ⟨[], false⟩ = none := rfl
    simp only [Parse, hpk, if_false, this, hpk2, ne_eq, not_true_eq_false]

mutual
/-- A value with an encoding holds no Null and is representable. -/
theorem Encoding_valid : ∀ (v : Bencode) (b : Str), Encoding v b →
    v.NullFree = true ∧ v.Representable = true
  | .null, _, h => by simp [Encoding] at h
  | .str s, _, h => by
    simp only [Encoding] at h
    simp [Bencode.NullFree, Bencode.Representable, h.1]
  | .int n, _, h => by
    simp only [Encoding] at h
    obtain ⟨body, ⟨ds, _, _, hb | hb⟩, _⟩ := h
    · simp only [Bencode.NullFree, Bencode.Representable, LONG_MIN, LONG_MAX, true_and,
        Bool.and_eq_true, decide_eq_true_eq]
      omega
    · simp only [Bencode.NullFree, Bencode.Representable, LONG_MIN, LONG_MAX, true_and,
        Bool.and_eq_true, decide_eq_true_eq]
      omega
  | .list l, _, h => by
    simp only [Encoding] at h
    obtain ⟨body, hbody, _⟩ := h
    simpa [Bencode.NullFree, Bencode.Representable] using EncodingElems_valid l body hbody
  | .dict d, _, h => by
    simp only [Encoding] at h
    obtain ⟨body, hbody, hasc, _⟩ := h
    simpa [Bencode.NullFree, Bencode.Representable, hasc] using
      EncodingItems_valid d body hbody
theorem EncodingElems_valid : ∀ (l : List Bencode) (body : Str), EncodingElems l body →
    NullFreeElems l = true ∧ RepresentableElems l = true
  | [], _, _ => by simp [NullFreeElems, RepresentableElems]
  | elem :: rest, _, h => by
    simp only [EncodingElems] at h
    obtain ⟨x, y, hx, hy, _⟩ := h
    have h1 := Encoding_valid elem x hx
    have h2 := EncodingElems_valid rest y hy
    simp [NullFreeElems, RepresentableElems, h1, h2]
theorem EncodingItems_valid : ∀ (d : List (Str × Bencode)) (body : Str),
    EncodingItems d body → NullFreeItems d = true ∧ RepresentableItems d = true
  | [], _, _ => by simp [NullFreeItems, RepresentableItems]
  | (key, value) :: rest, _, h => by
    simp only [EncodingItems] at h
    obtain ⟨x, y, hk, hx, hy, _⟩ := h
    have h1 := Encoding_valid value x hx
    have h2 := EncodingItems_valid rest y hy
    simp [NullFreeItems, RepresentableItems, h1, h2, hk]
end

mutual
/-- The encoder `Dump` succeeds exactly on the values that hold no Null. -/
theorem Dump_ok_iff_NullFree : ∀ (v : Bencode),
    (∃ b, v.Dump = .ok b) ↔ v.NullFree = true
  | .null => by simp [Bencode.Dump, Bencode.NullFree]
  | .str s => by simp [Bencode.Dump, Bencode.NullFree]
  | .int n => by simp [Bencode.Dump, Bencode.NullFree]
  | .list l => by
    have := DumpElems_ok_iff_NullFree l
    simp only [Bencode.NullFree, ← this]
    cases hde : DumpElems l with
    | error e => simp [Bencode.Dump, hde]
    | ok body => simp [Bencode.Dump, hde]
  | .dict d => by
    have := DumpItems_ok_iff_NullFree d
    simp only [Bencode.NullFree, ← this]
    cases hde : DumpItems d with
    | error e => simp [Bencode.Dump, hde]
    | ok body => simp [Bencode.Dump, hde]
theorem DumpElems_ok_iff_NullFree : ∀ (l : List Bencode),
    (∃ b, DumpElems l = .ok b) ↔ NullFreeElems l = true
  | [] => by simp [DumpElems, NullFreeElems]
  | elem :: rest => by
    have h1 := Dump_ok_iff_NullFree elem
    have h2 := DumpElems_ok_iff_NullFree rest
    simp only [NullFreeElems, Bool.and_eq_true, ← h1, ← h2]
    cases hx : elem.Dump with
    | error e => simp [DumpElems, hx]
    | ok x =>
      cases hy : DumpElems rest with
      | error e => simp [DumpElems, hx, hy]
      | ok y => simp [DumpElems, hx, hy]
theorem DumpItems_ok_iff_NullFree : ∀ (d : List (Str × Bencode)),
    (∃ b, DumpItems d = .ok b) ↔ NullFreeItems d = true
  | [] => by simp [DumpItems, NullFreeItems]
  | (key, value) :: rest => by
    have h1 := Dump_ok_iff_NullFree value
    have h2 := DumpItems_ok_iff_NullFree rest
    simp only [NullFreeItems, Bool.and_eq_true, ← h1, ← h2]
    cases hx : value.Dump with
    | error e => simp [DumpItems, hx]
    | ok x =>
      cases hy : DumpItems rest with
      | error e => simp [DumpItems, hx, hy]
      | ok y => simp [DumpItems, hx, hy]
end

/-! ## Lemmas: errors inside containers -/

theorem Decodes_encoding (b : Str) (h : Decodes b) : ∃ v, Encoding v b := by
  obtain ⟨hb, v, hv⟩ := h
  exact ⟨v, (Parse_ok_iff b v hb).1 hv⟩

theorem Encoding_head (v : Bencode) (b : Str) (h : Encoding v b) :
    ∃ c t, b = c :: t ∧ c ≠ ch_e :=
  (ParseRecursive_Encoding v b h).1

theorem ParseListLoop_throw (rec : IStream → Outcome (Bencode × IStream)) (g : Nat)
    (s : IStream) (acc : List Bencode) (id : ParseErrorID) (hp : s.peek ≠ some ch_e)
    (hr : rec s = .throw id) : ParseListLoop rec (g + 1) s acc = .throw id := by
  simp [ParseListLoop, hp, hr]

theorem ParseDictLoop_throw_key (rec : IStream → Outcome (Bencode × IStream)) (g : Nat)
    (s : IStream) (m : List (Str × Bencode)) (ks : List Str) (id : ParseErrorID)
    (hp : s.peek ≠ some ch_e) (hr : rec s = .throw id) :
    ParseDictLoop rec (g + 1) s m ks = .throw id := by
  simp [ParseDictLoop, hp, hr]

theorem ParseDictLoop_throw_value (rec : IStream → Outcome (Bencode × IStream)) (g : Nat)
    (s s1 : IStream) (key : Str) (m : List (Str × Bencode)) (ks : List Str)
    (id : ParseErrorID) (hp : s.peek ≠ some ch_e) (hk : rec s = .ok (.str key, s1))
    (hp1 : s1.peek ≠ some ch_e) (hr : rec s1 = .throw id) :
    ParseDictLoop rec (g + 1) s m ks = .throw id := by
  simp [ParseDictLoop, hp, hk, hp1, hr]

theorem ParseDictLoop_incomplete (rec : IStream → Outcome (Bencode × IStream)) (g : Nat)
    (s s1 : IStream) (key : Str) (m : List (Str × Bencode)) (ks : List Str)
    (hp : s.peek ≠ some ch_e) (hk : rec s = .ok (.str key, s1))
    (hp1 : s1.peek = some ch_e) :
    ParseDictLoop rec (g + 1) s m ks = .throw .kDictIncompletePair := by
  simp [ParseDictLoop, hp, hk, hp1]

theorem peek_append_ne_e (x y : Str) (hx : ∃ c t, x = c :: t ∧ c ≠ ch_e) :
    IStream.peek ⟨x ++ y, false⟩ ≠ some ch_e := by
  obtain ⟨c, t, hct, hc⟩ := hx
  simp [IStream.peek, hct, hc]

theorem peek_ne_e_of_head (y : Str) (hy : y.head? ≠ some ch_e) :
    IStream.peek ⟨y, false⟩ ≠ some ch_e := by
  simpa [IStream.peek] using hy

theorem elemsBytes_length (elems : List Str) (h : ∀ e ∈ elems, Decodes e) :
    elems.length ≤ (elemsBytes elems).length := by
  induction elems with
  | nil => simp
  | cons e rest ih =>
    obtain ⟨v, hv⟩ := Decodes_encoding e (h e (List.mem_cons_self _ _))
    obtain ⟨c, t, hct, _⟩ := Encoding_head v e hv
    have := ih (fun x hx => h x (List.mem_cons_of_mem _ hx))
    simp only [elemsBytes, List.length_cons, List.length_append, hct]
    omega

theorem pairsBytes_length (pairs : List (Str × Str)) (h : PairsDecode pairs) :
    pairs.length ≤ (pairsBytes pairs).length := by
  induction pairs with
  | nil => simp
  | cons p rest ih =>
    obtain ⟨key, value⟩ := p
    obtain ⟨v, hv⟩ := Decodes_encoding value (h (key, value) (List.mem_cons_self _ _)).2
    obtain ⟨c, t, hct, _⟩ := Encoding_head v value hv
    have := ih (fun x hx => h x (List.mem_cons_of_mem _ hx))
    simp only [pairsBytes, List.length_cons, List.length_append, hct]
    omega

/-- The list loop runs through elements that decode and goes on with what is
left of its budget at the bytes after them. -/
theorem ParseListLoop_elems (elems : List Str) (h : ∀ e ∈ elems, Decodes e)
    (fuel g : Nat) (tail : Str) (hf : (elemsBytes elems).length ≤ fuel) :
    ∀ (acc : List Bencode), ∃ acc',
      ParseListLoop (ParseRecursive fuel) (elems.length + g)
          ⟨elemsBytes elems ++ tail, false⟩ acc
        = ParseListLoop (ParseRecursive fuel) g ⟨tail, false⟩ acc' := by
  induction elems with
  | nil => intro acc; exact ⟨acc, by simp [elemsBytes]⟩
  | cons e rest ih =>
    intro acc
    obtain ⟨v, hv⟩ := Decodes_encoding e (h e (List.mem_cons_self _ _))
    obtain ⟨⟨c, t, hct, hc⟩, hpr⟩ := ParseRecursive_Encoding v e hv
    simp only [elemsBytes, List.length_append] at hf
    obtain ⟨acc', hacc⟩ := ih (fun x hx => h x (List.mem_cons_of_mem _ hx)) (by omega)
      (acc ++ [v])
    refine ⟨acc', ?_⟩
    have hrun := hpr fuel (elemsBytes rest ++ tail) (by omega)
    have hrest : elemsBytes (e :: rest) ++ tail = c :: (t ++ (elemsBytes rest ++ tail)) := by
      simp [elemsBytes, hct]
    have hlen : (e :: rest).length + g = (rest.length + g) + 1 := by
      simp only [List.length_cons]; omega
    rw [hct] at hrun
    simp only [List.cons_append] at hrun
    rw [hrest, hlen, ParseListLoop_step _ _ c _ acc hc, hrun]
    exact hacc

/-- The dictionary loop runs through entries that decode and goes on at the
bytes after them, with their keys added to the keys read. -/
theorem ParseDictLoop_pairs (pairs : List (Str × Str)) (h : PairsDecode pairs)
    (fuel g : Nat) (tail : Str) (hf : (pairsBytes pairs).length ≤ fuel) :
    ∀ (m : List (Str × Bencode)) (ks : List Str), ∃ m',
      ParseDictLoop (ParseRecursive fuel) (pairs.length + g)
          ⟨pairsBytes pairs ++ tail, false⟩ m ks
        = ParseDictLoop (ParseRecursive fuel) g ⟨tail, false⟩ m'
            (ks ++ pairs.map Prod.fst) := by
  induction pairs with
  | nil => intro m ks; exact ⟨m, by simp [pairsBytes]⟩
  | cons p rest ih =>
    intro m ks
    obtain ⟨key, value⟩ := p
    obtain ⟨hk, hdec⟩ := h (key, value) (List.mem_cons_self _ _)
    obtain ⟨v, hv⟩ := Decodes_encoding value hdec
    simp only at hk
    obtain ⟨⟨c, t, hct, hc⟩, hpr⟩ := ParseRecursive_Encoding v value hv
    obtain ⟨kc, kt, hkct, hkc⟩ := DumpString_head key
    simp only [pairsBytes, List.length_append] at hf
    obtain ⟨m', hm'⟩ := ih (fun x hx => h x (List.mem_cons_of_mem _ hx)) (by omega)
      (mapAssign key v m) (ks ++ [key])
    refine ⟨m', ?_⟩
    have hrun := hpr fuel (pairsBytes rest ++ tail) (by omega)
    rw [hct] at hrun
    simp only [List.cons_append] at hrun
    cases fuel with
    | zero => rw [hkct] at hf; simp at hf
    | succ f =>
      have hkey := ParseRecursive_DumpString key (c :: (t ++ (pairsBytes rest ++ tail))) f hk
      rw [hkct] at hkey
      simp only [List.cons_append] at hkey
      have hrest : pairsBytes ((key, value) :: rest) ++ tail
          = kc :: (kt ++ c :: (t ++ (pairsBytes rest ++ tail))) := by
        simp [pairsBytes, hct, hkct]
      have hlen : ((key, value) :: rest).length + g = (rest.length + g) + 1 := by
        simp only [List.length_cons]; omega
      rw [hrest, hlen, ParseDictLoop_step _ _ kc _ c _ _ key v m ks
        (isDigit_ne_e kc hkc) hc hkey hrun]
      simpa using hm'

theorem ParseRecursive_list (f : Nat) (rest : Str) :
    ParseRecursive (f + 1) ⟨ch_l :: rest, false⟩
      = ParseListLoop (ParseRecursive f) f ⟨rest, false⟩ [] := rfl

theorem ParseRecursive_dict (f : Nat) (rest : Str) :
    ParseRecursive (f + 1) ⟨ch_d :: rest, false⟩
      = ParseDictLoop (ParseRecursive f) f ⟨rest, false⟩ [] [] := rfl

theorem ParseRecursive_eof (f : Nat) :
    ParseRecursive (f + 1) ⟨[], false⟩ = .throw .kUnexpectedEOF := rfl

/-- An error at a position inside a container is the error of the container. -/
theorem throw_in_frame (frame : Frame) (hwf : frame.Decodes) (y : Str) (id : ParseErrorID)
    (hy : y.head? ≠ some ch_e)
    (herr : ∀ fuel, y.length < fuel → ParseRecursive fuel ⟨y, false⟩ = .throw id) :
    ∀ fuel, (frame.bytes ++ y).length < fuel →
      ParseRecursive fuel ⟨frame.bytes ++ y, false⟩ = .throw id := by
  intro fuel hf
  cases fuel with
  | zero => omega
  | succ f =>
    have hpy := peek_ne_e_of_head y hy
    cases frame with
    | inList elems =>
      simp only [Frame.Decodes] at hwf
      simp only [Frame.bytes, List.cons_append, List.length_cons, List.length_append] at hf ⊢
      have hlen := elemsBytes_length elems hwf
      obtain ⟨g, hg⟩ : ∃ g, f = elems.length + (g + 1) := ⟨f - elems.length - 1, by omega⟩
      obtain ⟨acc', hacc⟩ := ParseListLoop_elems elems hwf f (g + 1) y (by omega) []
      rw [ParseRecursive_list]
      conv => lhs; arg 2; rw [hg]
      rw [hacc]
      exact ParseListLoop_throw _ g _ acc' id hpy (herr f (by omega))
    | inDictKey pairs =>
      simp only [Frame.Decodes] at hwf
      simp only [Frame.bytes, List.cons_append, List.length_cons, List.length_append] at hf ⊢
      have hlen := pairsBytes_length pairs hwf
      obtain ⟨g, hg⟩ : ∃ g, f = pairs.length + (g + 1) := ⟨f - pairs.length - 1, by omega⟩
      obtain ⟨m', hm'⟩ := ParseDictLoop_pairs pairs hwf f (g + 1) y (by omega) [] []
      rw [ParseRecursive_dict]
      conv => lhs; arg 2; rw [hg]
      rw [hm']
      exact ParseDictLoop_throw_key _ g _ m' _ id hpy (herr f (by omega))
    | inDictValue pairs key =>
      simp only [Frame.Decodes] at hwf
      obtain ⟨hwf, hk⟩ := hwf
      simp only [Frame.bytes, List.cons_append, List.length_cons, List.length_append,
        List.append_assoc] at hf ⊢
      have hlen := pairsBytes_length pairs hwf
      obtain ⟨kc, kt, hkct, hkc⟩ := DumpString_head key
      have hkl : 1 ≤ (DumpString key).length := by rw [hkct]; simp
      obtain ⟨g, hg⟩ : ∃ g, f = pairs.length + (g + 1) := ⟨f - pairs.length - 1, by omega⟩
      obtain ⟨m', hm'⟩ :=
        ParseDictLoop_pairs pairs hwf f (g + 1) (DumpString key ++ y) (by omega) [] []
      rw [ParseRecursive_dict]
      conv => lhs; arg 2; rw [hg]
      rw [hm']
      cases f with
      | zero => omega
      | succ f0 =>
        exact ParseDictLoop_throw_value _ g _ ⟨y, false⟩ key m' _ id
          (peek_append_ne_e _ _ ⟨kc, kt, hkct, isDigit_ne_e kc hkc⟩)
          (ParseRecursive_DumpString key y f0 hk) hpy (herr (f0 + 1) (by omega))

theorem contextBytes_head (ctx : List Frame) (y : Str) (hy : y.head? ≠ some ch_e) :
    (contextBytes ctx ++ y).head? ≠ some ch_e := by
  cases ctx with
  | nil => simpa [contextBytes] using hy
  | cons frame inner =>
    cases frame <;> simp [contextBytes, Frame.bytes, ch_l, ch_d, ch_e]

/-- An error at a position nested in containers is the error of the outermost
one. -/
theorem throw_in_context (ctx : List Frame) (hwf : ∀ frame ∈ ctx, frame.Decodes) (y : Str)
    (id : ParseErrorID) (hy : y.head? ≠ some ch_e)
    (herr : ∀ fuel, y.length < fuel → ParseRecursive fuel ⟨y, false⟩ = .throw id) :
    ∀ fuel, (contextBytes ctx ++ y).length < fuel →
      ParseRecursive fuel ⟨contextBytes ctx ++ y, false⟩ = .throw id := by
  induction ctx with
  | nil => simpa [contextBytes] using herr
  | cons frame inner ih =>
    have hinner := ih (fun fr hfr => hwf fr (List.mem_cons_of_mem _ hfr))
    have := throw_in_frame frame (hwf frame (List.mem_cons_self _ _))
      (contextBytes inner ++ y) id (contextBytes_head inner y hy) hinner
    simpa [contextBytes] using this

/-- The same for `Parse`, on an input that is not empty. -/
theorem Parse_throw_in_context (ctx : List Frame) (hwf : ∀ frame ∈ ctx, frame.Decodes)
    (y : Str) (id : ParseErrorID) (hy : y.head? ≠ some ch_e)
    (herr : ∀ fuel, y.length < fuel → ParseRecursive fuel ⟨y, false⟩ = .throw id)
    (hne : contextBytes ctx ++ y ≠ []) :
    Parse (contextBytes ctx ++ y) = .throw id := by
  have hrun := throw_in_context ctx hwf y id hy herr ((contextBytes ctx ++ y).length + 1)
    (by omega)
  have hpk : ¬ (IStream.peek ⟨contextBytes ctx ++ y, false⟩ = none) := by
    cases hcy : contextBytes ctx ++ y with
    | nil => exact absurd hcy hne
    | cons c t => simp [IStream.peek]
  simp only [Parse, hpk, if_false, hrun]

/-! ## Lemmas: the recursion bound of `Parse` is never reached -/

theorem ParseStringPayload_ne_outOfFuel (n : Nat) (s : IStream) :
    ParseStringPayload n s ≠ .outOfFuel := by
  unfold ParseStringPayload
  split
  · simp
  · dsimp only
    split <;> simp

theorem ParseString_ne_outOfFuel (s : IStream) : ParseString s ≠ .outOfFuel := by
  unfold ParseString
  split
  · simp
  · split
    · dsimp only
      split
      · split
        · simp
        · exact ParseStringPayload_ne_outOfFuel _ _
      · exact ParseStringPayload_ne_outOfFuel _ _
    · exact ParseStringPayload_ne_outOfFuel _ _

theorem ParseInteger_ne_outOfFuel (s : IStream) : ParseInteger s ≠ .outOfFuel := by
  unfold ParseInteger
  dsimp only
  split
  · simp
  · split
    · simp
    · split
      · split
        · simp
        · split <;> simp
      · simp

theorem SoundDecoder_shorter (rec : IStream → Outcome (Bencode × IStream))
    (hrec : SoundDecoder rec) (s : IStream) (v : Bencode) (s' : IStream)
    (h : rec s = .ok (v, s')) : s'.rest.length < s.rest.length := by
  obtain ⟨_, _, b, hb, hrest⟩ := hrec s v s' h
  obtain ⟨c, t, hct, _⟩ := Encoding_head v b hb
  rw [hrest, hct]
  simp only [List.cons_append, List.length_cons, List.length_append]
  omega

theorem ParseListLoop_ne_outOfFuel (rec : IStream → Outcome (Bencode × IStream))
    (hrec : SoundDecoder rec) : ∀ (g : Nat) (s : IStream) (acc : List Bencode),
    (∀ s1 : IStream, s1.rest.length ≤ s.rest.length → rec s1 ≠ .outOfFuel) →
    s.rest.length < g → ParseListLoop rec g s acc ≠ .outOfFuel := by
  intro g
  induction g with
  | zero => intro s acc _ hg; omega
  | succ g ih =>
    intro s acc hno hg
    by_cases hp : s.peek = some ch_e
    · simp [ParseListLoop, hp]
    · cases hr : rec s with
      | throw id => simp [ParseListLoop, hp, hr]
      | outOfFuel => exact absurd hr (hno s (le_refl _))
      | ok p =>
        obtain ⟨elem, s1⟩ := p
        have hlt := SoundDecoder_shorter rec hrec s elem s1 hr
        simp only [ParseListLoop, hp, ne_eq, not_false_eq_true, if_true, hr]
        exact ih s1 (acc ++ [elem]) (fun s2 h2 => hno s2 (by omega)) (by omega)

theorem ParseDictLoop_ne_outOfFuel (rec : IStream → Outcome (Bencode × IStream))
    (hrec : SoundDecoder rec) : ∀ (g : Nat) (s : IStream) (m : List (Str × Bencode))
    (ks : List Str),
    (∀ s1 : IStream, s1.rest.length ≤ s.rest.length → rec s1 ≠ .outOfFuel) →
    s.rest.length < g → ParseDictLoop rec g s m ks ≠ .outOfFuel := by
  intro g
  induction g with
  | zero => intro s m ks _ hg; omega
  | succ g ih =>
    intro s m ks hno hg
    by_cases hp : s.peek = some ch_e
    · simp only [ParseDictLoop, hp, ne_eq, not_true_eq_false, if_false]
      split
      · simp
      · split <;> simp
    · cases hr : rec s with
      | throw id => simp [ParseDictLoop, hp, hr]
      | outOfFuel => exact absurd hr (hno s (le_refl _))
      | ok p =>
        obtain ⟨kv, s1⟩ := p
        have hlt := SoundDecoder_shorter rec hrec s kv s1 hr
        cases kv with
        | null => simp [ParseDictLoop, hp, hr]
        | int n => simp [ParseDictLoop, hp, hr]
        | list l => simp [ParseDictLoop, hp, hr]
        | dict d => simp [ParseDictLoop, hp, hr]
        | str key =>
          by_cases hp1 : s1.peek = some ch_e
          · simp [ParseDictLoop, hp, hr, hp1]
          · cases hr2 : rec s1 with
            | throw id => simp [ParseDictLoop, hp, hr, hp1, hr2]
            | outOfFuel => exact absurd hr2 (hno s1 (by omega))
            | ok p2 =>
              obtain ⟨value, s2⟩ := p2
              have hlt2 := SoundDecoder_shorter rec hrec s1 value s2 hr2
              simp only [ParseDictLoop, hp, ne_eq, not_false_eq_true, if_true, hr, hp1,
                if_false, hr2]
              exact ih s2 _ _ (fun s3 h3 => hno s3 (by omega)) (by omega)

theorem ParseRecursive_ne_outOfFuel : ∀ (fuel : Nat) (s : IStream),
    s.rest.length < fuel → ParseRecursive fuel s ≠ .outOfFuel := by
  intro fuel
  induction fuel with
  | zero => intro s h; omega
  | succ f ih =>
    intro s hlen
    cases hp : s.peek with
    | none => simp [ParseRecursive, hp]
    | some c =>
      obtain ⟨hsf, t, hst⟩ := peek_eq_some s c hp
      have hig : s.ignore = ⟨t, false⟩ := by
        obtain ⟨rest, fail⟩ := s
        simp only at hsf hst
        subst hsf hst
        rfl
      have htl : t.length < f := by
        rw [hst] at hlen
        simpa using hlen
      simp only [ParseRecursive, hp]
      split
      · exact ParseString_ne_outOfFuel s
      · split
        · exact ParseInteger_ne_outOfFuel s
        · split
          · simp only [ParseList, hig]
            exact ParseListLoop_ne_outOfFuel _ (ParseRecursive_sound f) f _ []
              (fun s1 h1 => ih s1 (by simp only at h1; omega)) htl
          · split
            · simp only [ParseDictionary, hig]
              exact ParseDictLoop_ne_outOfFuel _ (ParseRecursive_sound f) f _ [] []
                (fun s1 h1 => ih s1 (by simp only at h1; omega)) htl
            · simp

/-- The decoder `Parse` always returns or throws: the recursion bound it starts with is
enough for every input. -/
theorem Parse_ne_outOfFuel (input : Str) : Parse input ≠ .outOfFuel := by
  unfold Parse
  simp only
  split
  · simp
  · have := ParseRecursive_ne_outOfFuel (input.length + 1) ⟨input, false⟩ (by simp)
    cases hr : ParseRecursive (input.length + 1) ⟨input, false⟩ with
    | outOfFuel => exact absurd hr this
    | throw id => simp
    | ok p =>
      obtain ⟨v, s'⟩ := p
      simp only
      split <;> simp

/-! ## Lemmas: canonical integers and re-encoding -/

theorem formatNat_single (d : Nat) (hd : isDigit d = true) :
    formatNat (digitsValue [d]) = [d] := by
  by_cases h0 : d = ch_0
  · subst h0; rfl
  · exact formatNat_digitsValue [d] (by simp) (by simpa using hd) (by simpa using h0)

theorem formatInt_of_canonical (n : Int) (body r : Str) (h : IntBody n body)
    (hc : canonicalIntBody (body ++ ch_e :: r) = true) : formatInt n = body := by
  obtain ⟨ds, hne, hds, ⟨hb, _, hn⟩ | ⟨hb, _, hn⟩⟩ := h
  · have hnn : ¬ (n < 0) := by omega
    have hnat : n.natAbs = digitsValue ds := by omega
    rw [hb] at hc ⊢
    simp only [formatInt, hnn, if_false, hnat]
    cases ds with
    | nil => exact absurd rfl hne
    | cons d ds' =>
      have hd : isDigit d = true := hds d (List.mem_cons_self _ _)
      cases ds' with
      | nil => exact formatNat_single d hd
      | cons d2 ds2 =>
        have hd2 : isDigit d2 = true := hds d2 (by simp)
        have h0 : d ≠ ch_0 := by
          intro hh
          simp [canonicalIntBody, hh, hd2] at hc
        exact formatNat_digitsValue _ hne hds (by simpa using h0)
  · rw [hb] at hc ⊢
    cases ds with
    | nil => exact absurd rfl hne
    | cons d ds' =>
      have hd : isDigit d = true := hds d (List.mem_cons_self _ _)
      have h0 : d ≠ ch_0 := by
        intro hh
        simp [canonicalIntBody, hh, ch_minus, ch_0] at hc
      have hpos := digitsValue_pos d ds' hd h0
      have hneg : n < 0 := by omega
      have hnat : n.natAbs = digitsValue (d :: ds') := by omega
      simp only [formatInt, hneg, if_true, hnat]
      rw [formatNat_digitsValue _ hne hds (by simpa using h0)]

theorem canonicalIntBody_formatInt (n : Int) (r : Str) :
    canonicalIntBody (formatInt n ++ ch_e :: r) = true := by
  obtain ⟨h1, h2, _, h4⟩ := formatNat_spec n.natAbs
  cases hf : formatNat n.natAbs with
  | nil => exact absurd hf h1
  | cons d ds =>
    have hd : isDigit d = true := h2 d (by rw [hf]; exact List.mem_cons_self _ _)
    have hdm : d ≠ ch_minus := by
      rw [isDigit_iff] at hd
      simp only [ch_minus]; omega
    by_cases hneg : n < 0
    · have h0 : d ≠ ch_0 := by
        intro hh
        have := h4 (by rw [hf, hh]; rfl)
        omega
      simp only [ch_0] at h0
      simp [formatInt, hneg, hf, canonicalIntBody, h0, ch_minus, ch_0]
    · cases ds with
      | nil =>
        simp [formatInt, hneg, hf, canonicalIntBody, hdm, isDigit, ch_e, ch_0, ch_9]
      | cons d2 ds2 =>
        have h0 : d ≠ ch_0 := by
          intro hh
          have hz := h4 (by rw [hf, hh]; rfl)
          rw [hz, formatNat_zero] at hf
          simp at hf
        simp [formatInt, hneg, hf, canonicalIntBody, h0, hdm]

theorem IntegersCanonical_DumpString (s : Str) (r : Str) (fuel : Nat) :
    IntegersCanonical fuel ⟨DumpString s ++ r, false⟩ = true := by
  cases fuel with
  | zero => rfl
  | succ f =>
    obtain ⟨c, t, hct, hc⟩ := DumpString_head s
    rw [isDigit_iff] at hc
    have h1 : c ≠ ch_i := by simp only [ch_i]; omega
    have h2 : ¬ (c = ch_l ∨ c = ch_d) := by simp only [ch_l, ch_d]; omega
    simp [IntegersCanonical, IStream.peek, hct, h1, h2]

theorem CanonicalLoop_step (canonical : IStream → Bool)
    (rec : IStream → Outcome (Bencode × IStream)) (g : Nat) (s next : IStream) (v : Bencode)
    (hp : s.peek ≠ some ch_e) (hr : rec s = .ok (v, next)) :
    CanonicalLoop canonical rec (g + 1) s
      = (canonical s && CanonicalLoop canonical rec g next) := by
  simp [CanonicalLoop, hp, hr]

theorem IntegersCanonical_list (f : Nat) (rest : Str) :
    IntegersCanonical (f + 1) ⟨ch_l :: rest, false⟩
      = CanonicalLoop (IntegersCanonical f) (ParseRecursive f) f ⟨rest, false⟩ := rfl

theorem IntegersCanonical_dict (f : Nat) (rest : Str) :
    IntegersCanonical (f + 1) ⟨ch_d :: rest, false⟩
      = CanonicalLoop (IntegersCanonical f) (ParseRecursive f) f ⟨rest, false⟩ := rfl

theorem IntegersCanonical_int (f : Nat) (rest : Str) :
    IntegersCanonical (f + 1) ⟨ch_i :: rest, false⟩ = canonicalIntBody rest := rfl

theorem EncodingItems_length (d : List (Str × Bencode)) : ∀ (body : Str),
    EncodingItems d body → 2 * d.length ≤ body.length := by
  induction d with
  | nil => intro body _; simp
  | cons p rest ih =>
    intro body h
    obtain ⟨key, value⟩ := p
    simp only [EncodingItems] at h
    obtain ⟨x, y, _, hx, hy, hb⟩ := h
    obtain ⟨c, t, hct, _⟩ := Encoding_head value x hx
    obtain ⟨kc, kt, hkct, _⟩ := DumpString_head key
    have := ih y hy
    subst hb
    simp only [List.length_cons, List.length_append, hct, hkct]
    omega

mutual
/-- An encoding whose integers are canonical is what `Dump` writes. -/
theorem Dump_of_canonical : ∀ (v : Bencode) (b : Str), Encoding v b →
    ∀ (fuel : Nat) (r : Str), b.length ≤ fuel →
      IntegersCanonical fuel ⟨b ++ r, false⟩ = true → v.Dump = .ok b
  | .null, _, h => by simp [Encoding] at h
  | .str s, b, h => by
    intro _ _ _ _
    simp only [Encoding] at h
    rw [h.2]
    rfl
  | .int n, b, h => by
    intro fuel r hf hc
    simp only [Encoding] at h
    obtain ⟨body, hbody, hb⟩ := h
    subst hb
    cases fuel with
    | zero => simp at hf
    | succ f =>
      have hrest : (ch_i :: (body ++ [ch_e])) ++ r = ch_i :: (body ++ ch_e :: r) := by simp
      rw [hrest, IntegersCanonical_int] at hc
      have := formatInt_of_canonical n body r hbody hc
      simp [Bencode.Dump, this]
  | .list l, b, h => by
    intro fuel r hf hc
    simp only [Encoding] at h
    obtain ⟨body, hbody, hb⟩ := h
    subst hb
    have hlen := (ParseRecursive_EncodingElems l body hbody).1
    cases fuel with
    | zero => simp at hf
    | succ f =>
      simp only [List.length_cons, List.length_append, List.length_singleton] at hf
      have hrest : (ch_l :: (body ++ [ch_e])) ++ r = ch_l :: (body ++ ch_e :: r) := by simp
      rw [hrest, IntegersCanonical_list] at hc
      have := DumpElems_of_canonical l body hbody f f r (by omega) (by omega) hc
      simp [Bencode.Dump, this]
  | .dict d, b, h => by
    intro fuel r hf hc
    simp only [Encoding] at h
    obtain ⟨body, hbody, _, hb⟩ := h
    subst hb
    have hlen := EncodingItems_length d body hbody
    cases fuel with
    | zero => simp at hf
    | succ f =>
      simp only [List.length_cons, List.length_append, List.length_singleton] at hf
      have hrest : (ch_d :: (body ++ [ch_e])) ++ r = ch_d :: (body ++ ch_e :: r) := by simp
      rw [hrest, IntegersCanonical_dict] at hc
      have := DumpItems_of_canonical d body hbody f f r (by omega) (by omega) hc
      simp [Bencode.Dump, this]
theorem DumpElems_of_canonical : ∀ (l : List Bencode) (body : Str), EncodingElems l body →
    ∀ (fuel g : Nat) (r : Str), body.length ≤ fuel → l.length < g →
      CanonicalLoop (IntegersCanonical fuel) (ParseRecursive fuel) g
        ⟨body ++ ch_e :: r, false⟩ = true → DumpElems l = .ok body
  | [], body, h => by
    intro _ _ _ _ _ _
    simp only [EncodingElems] at h
    subst h
    rfl
  | elem :: rest, body, h => by
    intro fuel g r hf hg hc
    simp only [EncodingElems] at h
    obtain ⟨x, y, hx, hy, hb⟩ := h
    subst hb
    obtain ⟨hhead, hpr⟩ := ParseRecursive_Encoding elem x hx
    simp only [List.length_append] at hf
    simp only [List.length_cons] at hg
    cases g with
    | zero => omega
    | succ g =>
      have hrun := hpr fuel (y ++ ch_e :: r) (by omega)
      have hrest : (x ++ y) ++ ch_e :: r = x ++ (y ++ ch_e :: r) := by simp
      rw [hrest, CanonicalLoop_step _ _ g _ _ elem (peek_append_ne_e _ _ hhead) hrun,
        Bool.and_eq_true] at hc
      have h1 := Dump_of_canonical elem x hx fuel (y ++ ch_e :: r) (by omega) hc.1
      have h2 := DumpElems_of_canonical rest y hy fuel g r (by omega) (by omega) hc.2
      simp [DumpElems, h1, h2]
theorem DumpItems_of_canonical : ∀ (d : List (Str × Bencode)) (body : Str),
    EncodingItems d body →
    ∀ (fuel g : Nat) (r : Str), body.length ≤ fuel → 2 * d.length < g →
      CanonicalLoop (IntegersCanonical fuel) (ParseRecursive fuel) g
        ⟨body ++ ch_e :: r, false⟩ = true → DumpItems d = .ok body
  | [], body, h => by
    intro _ _ _ _ _ _
    simp only [EncodingItems] at h
    subst h
    rfl
  | (key, value) :: rest, body, h => by
    intro fuel g r hf hg hc
    simp only [EncodingItems] at h
    obtain ⟨x, y, hk, hx, hy, hb⟩ := h
    subst hb
    obtain ⟨hhead, hpr⟩ := ParseRecursive_Encoding value x hx
    obtain ⟨kc, kt, hkct, hkc⟩ := DumpString_head key
    have hkl : 1 ≤ (DumpString key).length := by rw [hkct]; simp
    simp only [List.length_append] at hf
    simp only [List.length_cons] at hg
    cases g with
    | zero => omega
    | succ g =>
      cases g with
      | zero => omega
      | succ g =>
        cases fuel with
        | zero => omega
        | succ f =>
          have hkey := ParseRecursive_DumpString key (x ++ (y ++ ch_e :: r)) f hk
          have hrun := hpr (f + 1) (y ++ ch_e :: r) (by omega)
          have hrest : (DumpString key ++ (x ++ y)) ++ ch_e :: r
              = DumpString key ++ (x ++ (y ++ ch_e :: r)) := by simp
          rw [hrest, CanonicalLoop_step _ _ (g + 1) _ _ (.str key)
              (peek_append_ne_e _ _ ⟨kc, kt, hkct, isDigit_ne_e kc hkc⟩) hkey,
            CanonicalLoop_step _ _ g _ _ value (peek_append_ne_e _ _ hhead) hrun,
            Bool.and_eq_true, Bool.and_eq_true] at hc
          have h1 := Dump_of_canonical value x hx (f + 1) (y ++ ch_e :: r) (by omega) hc.2.1
          have h2 := DumpItems_of_canonical rest y hy (f + 1) g r (by omega) (by omega) hc.2.2
          simp [DumpItems, h1, h2]
end

mutual
/-- In what `Dump` writes every integer is canonical. -/
theorem canonical_of_Dump : ∀ (v : Bencode) (b : Str), v.Representable = true →
    v.Dump = .ok b → ∀ (fuel : Nat) (r : Str), b.length ≤ fuel →
      IntegersCanonical fuel ⟨b ++ r, false⟩ = true
  | .null, _, _, hd => by simp [Bencode.Dump] at hd
  | .str s, b, _, hd => by
    intro fuel r _
    simp only [Bencode.Dump, Except.ok.injEq] at hd
    subst hd
    exact IntegersCanonical_DumpString s r fuel
  | .int n, b, _, hd => by
    intro fuel r hf
    simp only [Bencode.Dump, Except.ok.injEq] at hd
    subst hd
    cases fuel with
    | zero => rfl
    | succ f =>
      have hrest : (ch_i :: formatInt n ++ [ch_e]) ++ r
          = ch_i :: (formatInt n ++ ch_e :: r) := by simp
      rw [hrest, IntegersCanonical_int]
      exact canonicalIntBody_formatInt n r
  | .list l, b, hr, hd => by
    intro fuel r hf
    simp only [Bencode.Representable] at hr
    cases hde : DumpElems l with
    | error e => simp [Bencode.Dump, hde] at hd
    | ok body =>
      simp only [Bencode.Dump, hde, Except.ok.injEq] at hd
      subst hd
      cases fuel with
      | zero => rfl
      | succ f =>
        simp only [List.cons_append, List.length_cons, List.length_append,
          List.length_singleton] at hf
        have hrest : (ch_l :: body ++ [ch_e]) ++ r = ch_l :: (body ++ ch_e :: r) := by simp
        rw [hrest, IntegersCanonical_list]
        exact canonical_of_DumpElems l body hr hde f f r (by omega)
  | .dict d, b, hr, hd => by
    intro fuel r hf
    simp only [Bencode.Representable, Bool.and_eq_true] at hr
    cases hde : DumpItems d with
    | error e => simp [Bencode.Dump, hde] at hd
    | ok body =>
      simp only [Bencode.Dump, hde, Except.ok.injEq] at hd
      subst hd
      cases fuel with
      | zero => rfl
      | succ f =>
        simp only [List.cons_append, List.length_cons, List.length_append,
          List.length_singleton] at hf
        have hrest : (ch_d :: body ++ [ch_e]) ++ r = ch_d :: (body ++ ch_e :: r) := by simp
        rw [hrest, IntegersCanonical_dict]
        exact canonical_of_DumpItems d body hr.2 hde f f r (by omega)
theorem canonical_of_DumpElems : ∀ (l : List Bencode) (body : Str),
    RepresentableElems l = true → DumpElems l = .ok body →
    ∀ (fuel g : Nat) (r : Str), body.length ≤ fuel →
      CanonicalLoop (IntegersCanonical fuel) (ParseRecursive fuel) g
        ⟨body ++ ch_e :: r, false⟩ = true
  | [], body, _, hd => by
    intro fuel g r _
    simp only [DumpElems, Except.ok.injEq] at hd
    subst hd
    cases g with
    | zero => rfl
    | succ g => simp [CanonicalLoop, IStream.peek]
  | elem :: rest, body, hr, hd => by
    intro fuel g r hf
    simp only [RepresentableElems, Bool.and_eq_true] at hr
    cases hx : elem.Dump with
    | error e => simp [DumpElems, hx] at hd
    | ok x =>
      cases hy : DumpElems rest with
      | error e => simp [DumpElems, hx, hy] at hd
      | ok y =>
        simp only [DumpElems, hx, hy, Except.ok.injEq] at hd
        subst hd
        simp only [List.length_append] at hf
        cases g with
        | zero => rfl
        | succ g =>
          obtain ⟨hhead, hpr⟩ := ParseRecursive_Encoding elem x
            (Encoding_of_Dump elem x hr.1 hx)
          have hrun := hpr fuel (y ++ ch_e :: r) (by omega)
          have hrest : (x ++ y) ++ ch_e :: r = x ++ (y ++ ch_e :: r) := by simp
          rw [hrest, CanonicalLoop_step _ _ g _ _ elem (peek_append_ne_e _ _ hhead) hrun,
            canonical_of_Dump elem x hr.1 hx fuel (y ++ ch_e :: r) (by omega),
            canonical_of_DumpElems rest y hr.2 hy fuel g r (by omega)]
          rfl
theorem canonical_of_DumpItems : ∀ (d : List (Str × Bencode)) (body : Str),
    RepresentableItems d = true → DumpItems d = .ok body →
    ∀ (fuel g : Nat) (r : Str), body.length ≤ fuel →
      CanonicalLoop (IntegersCanonical fuel) (ParseRecursive fuel) g
        ⟨body ++ ch_e :: r, false⟩ = true
  | [], body, _, hd => by
    intro fuel g r _
    simp only [DumpItems, Except.ok.injEq] at hd
    subst hd
    cases g with
    | zero => rfl
    | succ g => simp [CanonicalLoop, IStream.peek]
  | (key, value) :: rest, body, hr, hd => by
    intro fuel g r hf
    simp only [RepresentableItems, Bool.and_eq_true, decide_eq_true_eq] at hr
    cases hx : value.Dump with
    | error e => simp [DumpItems, hx] at hd
    | ok x =>
      cases hy : DumpItems rest with
      | error e => simp [DumpItems, hx, hy] at hd
      | ok y =>
        simp only [DumpItems, hx, hy, Except.ok.injEq] at hd
        subst hd
        simp only [List.length_append] at hf
        obtain ⟨kc, kt, hkct, hkc⟩ := DumpString_head key
        have hkl : 1 ≤ (DumpString key).length := by rw [hkct]; simp
        have hrest : (DumpString key ++ x ++ y) ++ ch_e :: r
            = DumpString key ++ (x ++ (y ++ ch_e :: r)) := by simp
        rw [hrest]
        cases g with
        | zero => rfl
        | succ g =>
          cases fuel with
          | zero => omega
          | succ f =>
            have hkey := ParseRecursive_DumpString key (x ++ (y ++ ch_e :: r)) f hr.1.1
            rw [CanonicalLoop_step _ _ g _ _ (.str key)
                (peek_append_ne_e _ _ ⟨kc, kt, hkct, isDigit_ne_e kc hkc⟩) hkey,
              IntegersCanonical_DumpString]
            cases g with
            | zero => rfl
            | succ g =>
              obtain ⟨hhead, hpr⟩ := ParseRecursive_Encoding value x
                (Encoding_of_Dump value x hr.1.2 hx)
              have hrun := hpr (f + 1) (y ++ ch_e :: r) (by omega)
              rw [CanonicalLoop_step _ _ g _ _ value (peek_append_ne_e _ _ hhead) hrun,
                canonical_of_Dump value x hr.1.2 hx (f + 1) (y ++ ch_e :: r) (by omega),
                canonical_of_DumpItems rest y hr.2 hy (f + 1) g r (by omega)]
              rfl
end

/-! ## Lemmas: `Dump` and the reference serializer -/

theorem digitsValue_reverse_digits (L : List Nat) :
    digitsValue ((L.map (fun d => ch_0 + d)).reverse) = Nat.ofDigits 10 L := by
  induction L with
  | nil => rfl
  | cons d L ih =>
    simp only [List.map_cons, List.reverse_cons, digitsValue_append_one, ih, Nat.ofDigits_cons]
    simp only [ch_0]
    omega

theorem formatNat_eq_refDecimal (n : Nat) : formatNat n = refDecimal n := by
  by_cases hn : n = 0
  · subst hn; rfl
  · simp only [refDecimal, hn, if_false]
    have hval : digitsValue (((Nat.digits 10 n).map (fun d => ch_0 + d)).reverse) = n := by
      rw [digitsValue_reverse_digits, Nat.ofDigits_digits]
    have hnil : Nat.digits 10 n ≠ [] := by
      intro h
      exact hn (Nat.digits_eq_nil_iff_eq_zero.1 h)
    have hdig : ∀ d ∈ ((Nat.digits 10 n).map (fun d => ch_0 + d)).reverse,
        isDigit d = true := by
      intro d hd
      simp only [List.mem_reverse, List.mem_map] at hd
      obtain ⟨x, hx, rfl⟩ := hd
      have := Nat.digits_lt_base (by norm_num : 1 < 10) hx
      rw [isDigit_iff]
      simp only [ch_0]; omega
    have hhead : (((Nat.digits 10 n).map (fun d => ch_0 + d)).reverse).head? ≠ some ch_0 := by
      have hlast := Nat.getLast_digit_ne_zero 10 hn
      rw [← List.dropLast_append_getLast hnil]
      simp only [List.map_append, List.map_cons, List.map_nil, List.reverse_append,
        List.reverse_cons, List.reverse_nil, List.nil_append, List.singleton_append,
        List.head?_cons, ne_eq, Option.some.injEq, ch_0]
      omega
    have := formatNat_digitsValue _ (by simpa using hnil) hdig hhead
    rw [hval] at this
    exact this

theorem DumpString_eq_refString (s : Str) : DumpString s = refString s := by
  simp [DumpString, refString, formatNat_eq_refDecimal]

theorem keysAscending_pairwise (ks : List Str) (h : keysAscending ks = true) :
    ks.Pairwise (fun a b => strLt a b = true) := by
  induction ks with
  | nil => exact List.Pairwise.nil
  | cons k ks ih =>
    exact List.Pairwise.cons (keysAscending_head k ks h) (ih (keysAscending_tail k ks h))

mutual
/-- On a representable value the reference serializer gives what `Dump` writes. -/
theorem refEncode_of_Dump : ∀ (v : Bencode) (b : Str), v.Representable = true →
    v.Dump = .ok b → refEncode v = some b
  | .null, _, _, hd => by simp [Bencode.Dump] at hd
  | .str s, b, _, hd => by
    simp only [Bencode.Dump, Except.ok.injEq] at hd
    simp [refEncode, ← hd, DumpString_eq_refString]
  | .int n, b, _, hd => by
    simp only [Bencode.Dump, Except.ok.injEq] at hd
    by_cases hneg : n < 0
    · simp [refEncode, ← hd, formatInt, hneg, formatNat_eq_refDecimal]
    · simp [refEncode, ← hd, formatInt, hneg, formatNat_eq_refDecimal]
  | .list l, b, hr, hd => by
    simp only [Bencode.Representable] at hr
    cases hde : DumpElems l with
    | error e => simp [Bencode.Dump, hde] at hd
    | ok body =>
      simp only [Bencode.Dump, hde, Except.ok.injEq] at hd
      simp [refEncode, refEncodeElems_of_Dump l body hr hde, ← hd]
  | .dict d, b, hr, hd => by
    simp only [Bencode.Representable, Bool.and_eq_true] at hr
    cases hde : DumpItems d with
    | error e => simp [Bencode.Dump, hde] at hd
    | ok body =>
      simp only [Bencode.Dump, hde, Except.ok.injEq] at hd
      obtain ⟨kvs, hkvs, hkeys, hbody⟩ := refEncodeItems_of_Dump d body hr.2 hde
      have hsorted : List.Sorted keyNotAfter kvs := by
        have hp := keysAscending_pairwise _ hr.1
        rw [← hkeys, List.pairwise_map] at hp
        exact hp.imp (fun {a b} hab => (keyNotAfter_iff a b).2 (strLt_asymm a.1 b.1 hab))
      simp [refEncode, hkvs, hsorted.insertionSort_eq, hbody, ← hd]
theorem refEncodeElems_of_Dump : ∀ (l : List Bencode) (body : Str),
    RepresentableElems l = true → DumpElems l = .ok body → refEncodeElems l = some body
  | [], body, _, hd => by
    simp only [DumpElems, Except.ok.injEq] at hd
    simp [refEncodeElems, hd]
  | elem :: rest, body, hr, hd => by
    simp only [RepresentableElems, Bool.and_eq_true] at hr
    cases hx : elem.Dump with
    | error e => simp [DumpElems, hx] at hd
    | ok x =>
      cases hy : DumpElems rest with
      | error e => simp [DumpElems, hx, hy] at hd
      | ok y =>
        simp only [DumpElems, hx, hy, Except.ok.injEq] at hd
        simp [refEncodeElems, refEncode_of_Dump elem x hr.1 hx,
          refEncodeElems_of_Dump rest y hr.2 hy, hd]
theorem refEncodeItems_of_Dump : ∀ (d : List (Str × Bencode)) (body : Str),
    RepresentableItems d = true → DumpItems d = .ok body →
    ∃ kvs, refEncodeItems d = some kvs ∧ kvs.map Prod.fst = d.map Prod.fst ∧
      refEntries kvs = body
  | [], body, _, hd => by
    simp only [DumpItems, Except.ok.injEq] at hd
    exact ⟨[], rfl, rfl, hd⟩
  | (key, value) :: rest, body, hr, hd => by
    simp only [RepresentableItems, Bool.and_eq_true, decide_eq_true_eq] at hr
    cases hx : value.Dump with
    | error e => simp [DumpItems, hx] at hd
    | ok x =>
      cases hy : DumpItems rest with
      | error e => simp [DumpItems, hx, hy] at hd
      | ok y =>
        simp only [DumpItems, hx, hy, Except.ok.injEq] at hd
        obtain ⟨kvs, hkvs, hkeys, hbody⟩ := refEncodeItems_of_Dump rest y hr.2 hy
        refine ⟨(key, x) :: kvs, ?_, by simp [hkeys], ?_⟩
        · simp [refEncodeItems, refEncode_of_Dump value x hr.1.2 hx, hkvs]
        · simp [refEntries, hbody, ← hd, DumpString_eq_refString]
end

/-! ## Lemmas: a map does not depend on the order of insertion -/

theorem pairwise_keysAscending (ks : List Str)
    (h : ks.Pairwise (fun a b => strLt a b = true)) : keysAscending ks = true := by
  induction ks with
  | nil => rfl
  | cons k ks ih =>
    cases ks with
    | nil => rfl
    | cons k2 ks2 =>
      have h1 := List.pairwise_cons.1 h
      simp [keysAscending, h1.1 k2 (List.mem_cons_self _ _), ih h1.2]

theorem mapAssign_perm (key : Str) (value : Bencode) (m : List (Str × Bencode))
    (h : key ∉ m.map Prod.fst) : (mapAssign key value m).Perm ((key, value) :: m) := by
  induction m with
  | nil => exact List.Perm.refl _
  | cons p m ih =>
    obtain ⟨k, v⟩ := p
    have hne : key ≠ k := fun hh => h (by simp [hh])
    have hrest : key ∉ m.map Prod.fst := fun hh => h (by simp at hh ⊢; tauto)
    by_cases h1 : strLt key k = true
    · simp [mapAssign, h1]
    · by_cases h2 : strLt k key = true
      · simp only [mapAssign, h1, Bool.false_eq_true, if_false, h2, if_true]
        exact ((ih hrest).cons (k, v)).trans (List.Perm.swap _ _ _)
      · exact absurd (strLt_total key k (by simpa using h1) (by simpa using h2)) hne

theorem mapAssign_pairwise (key : Str) (value : Bencode) (m : List (Str × Bencode))
    (h : key ∉ m.map Prod.fst)
    (hm : (m.map Prod.fst).Pairwise (fun a b => strLt a b = true)) :
    ((mapAssign key value m).map Prod.fst).Pairwise (fun a b => strLt a b = true) := by
  induction m with
  | nil => simp [mapAssign]
  | cons p m ih =>
    obtain ⟨k, v⟩ := p
    have hne : key ≠ k := fun hh => h (by simp [hh])
    have hrest : key ∉ m.map Prod.fst := fun hh => h (by simp at hh ⊢; tauto)
    simp only [List.map_cons, List.pairwise_cons] at hm
    by_cases h1 : strLt key k = true
    · simp only [mapAssign, h1, if_true, List.map_cons, List.pairwise_cons]
      refine ⟨?_, hm⟩
      intro b hb
      rcases List.mem_cons.1 hb with hb | hb
      · rw [hb]; exact h1
      · exact strLt_trans key k b h1 (hm.1 b hb)
    · by_cases h2 : strLt k key = true
      · simp only [mapAssign, h1, Bool.false_eq_true, if_false, h2, if_true, List.map_cons,
          List.pairwise_cons]
        refine ⟨?_, ih hrest hm.2⟩
        intro b hb
        have hmem : b ∈ ((key, value) :: m).map Prod.fst :=
          ((mapAssign_perm key value m hrest).map Prod.fst).subset hb
        simp only [List.map_cons, List.mem_cons] at hmem
        rcases hmem with hmem | hmem
        · rw [hmem]; exact h2
        · exact hm.1 b hmem
      · exact absurd (strLt_total key k (by simpa using h1) (by simpa using h2)) hne

/-- Inserting entries with distinct keys one after the other gives a map that
holds exactly these entries, in ascending key order. -/
theorem assignAll_perm_pairwise (es : List (Str × Bencode)) :
    ∀ (pre : List (Str × Bencode)), ((pre ++ es).map Prod.fst).Nodup →
    (pre.map Prod.fst).Pairwise (fun a b => strLt a b = true) →
    (assignAll pre es).Perm (pre ++ es) ∧
      ((assignAll pre es).map Prod.fst).Pairwise (fun a b => strLt a b = true) := by
  induction es with
  | nil => intro pre _ hp; simpa [assignAll] using hp
  | cons e es ih =>
    intro pre hnd hp
    obtain ⟨k, v⟩ := e
    have hk : k ∉ pre.map Prod.fst := by
      intro hmem
      simp only [List.map_append, List.map_cons] at hnd
      have := (List.nodup_append.1 hnd).2.2
      exact this hmem (List.mem_cons_self _ _)
    have hperm := mapAssign_perm k v pre hk
    have hperm2 : (mapAssign k v pre ++ es).Perm (pre ++ (k, v) :: es) :=
      (hperm.append_right es).trans (List.perm_middle.symm)
    have hnd2 : ((mapAssign k v pre ++ es).map Prod.fst).Nodup :=
      ((hperm2.map Prod.fst).nodup_iff).2 hnd
    obtain ⟨h1, h2⟩ := ih (mapAssign k v pre) hnd2 (mapAssign_pairwise k v pre hk hp)
    have hstep : assignAll pre ((k, v) :: es) = assignAll (mapAssign k v pre) es := by
      simp [assignAll]
    rw [hstep]
    exact ⟨h1.trans hperm2, h2⟩

theorem NullFreeItems_iff (d : List (Str × Bencode)) :
    NullFreeItems d = true ↔ ∀ kv ∈ d, kv.2.NullFree = true := by
  induction d with
  | nil => simp [NullFreeItems]
  | cons p d ih =>
    obtain ⟨k, v⟩ := p
    simp [NullFreeItems, ih]

theorem RepresentableItems_iff (d : List (Str × Bencode)) :
    RepresentableItems d = true ↔
      ∀ kv ∈ d, kv.1.length ≤ SIZE_MAX ∧ kv.2.Representable = true := by
  induction d with
  | nil => simp [RepresentableItems]
  | cons p d ih =>
    obtain ⟨k, v⟩ := p
    simp [RepresentableItems, ih, and_assoc]

theorem refEncodeItems_map (d : List (Str × Bencode))
    (h : ∀ kv ∈ d, ∃ x, refEncode kv.2 = some x) :
    refEncodeItems d = some (d.map (fun kv => (kv.1, (refEncode kv.2).getD []))) := by
  induction d with
  | nil => rfl
  | cons p d ih =>
    obtain ⟨k, v⟩ := p
    obtain ⟨x, hx⟩ := h (k, v) (List.mem_cons_self _ _)
    simp only at hx
    simp [refEncodeItems, hx, ih (fun kv hkv => h kv (List.mem_cons_of_mem _ hkv))]

/-- Sorting by key gives the same list for two arrangements of entries with
distinct keys. -/
theorem insertionSort_perm_eq (l1 l2 : List (Str × Str)) (hp : l1.Perm l2)
    (hnd : (l1.map Prod.fst).Nodup) :
    l1.insertionSort keyNotAfter = l2.insertionSort keyNotAfter := by
  haveI : IsTotal (Str × Str) keyNotAfter :=
    ⟨fun a b => by
      rw [keyNotAfter_iff, keyNotAfter_iff]
      by_cases h : strLt b.1 a.1 = true
      · exact Or.inr (strLt_asymm _ _ h)
      · exact Or.inl (by simpa using h)⟩
  haveI : IsTrans (Str × Str) keyNotAfter :=
    ⟨fun a b c hab hbc => by
      rw [keyNotAfter_iff] at hab hbc ⊢
      by_contra hca
      have hca : strLt c.1 a.1 = true := by simpa using hca
      by_cases hlt : strLt a.1 b.1 = true
      · have := strLt_trans _ _ _ hca hlt
        rw [hbc] at this
        exact Bool.noConfusion this
      · have heq := strLt_total a.1 b.1 (by simpa using hlt) hab
        rw [heq] at hca
        rw [hbc] at hca
        exact Bool.noConfusion hca⟩
  haveI : IsAntisymm (Str × Str) (fun a b => strLt a.1 b.1 = true) :=
    ⟨fun a b hab hba => by
      have := strLt_asymm _ _ hab
      rw [hba] at this
      exact Bool.noConfusion this⟩
  have strict : ∀ l : List (Str × Str), (l.map Prod.fst).Nodup →
      List.Sorted keyNotAfter l →
      List.Sorted (fun a b : Str × Str => strLt a.1 b.1 = true) l := by
    intro l hnd hs
    have hnd2 : l.Pairwise (fun a b => a.1 ≠ b.1) := by
      have : (l.map Prod.fst).Pairwise (fun a b => a ≠ b) := hnd
      rwa [List.pairwise_map] at this
    refine (List.Pairwise.and hs hnd2).imp ?_
    intro a b hab
    by_contra hcon
    exact hab.2 (strLt_total a.1 b.1 (by simpa using hcon) ((keyNotAfter_iff a b).1 hab.1))
  have hs1 := List.sorted_insertionSort keyNotAfter l1
  have hs2 := List.sorted_insertionSort keyNotAfter l2
  have hp1 := List.perm_insertionSort keyNotAfter l1
  have hp2 := List.perm_insertionSort keyNotAfter l2
  have hnd1 := ((hp1.map Prod.fst).nodup_iff).2 hnd
  have hnd2 := (((hp2.trans hp.symm).map Prod.fst).nodup_iff).2 hnd
  exact List.eq_of_perm_of_sorted (hp1.trans (hp.trans hp2.symm)) (strict _ hnd1 hs1)
    (strict _ hnd2 hs2)

/-! ## Claims about the codec -/

/-- C1: for every value without Null (its integers in the signed 64-bit range,
its dictionaries ordered as `std::map` keeps them), `Dump` succeeds and `Parse`
of the bytes written returns the value. -/
theorem C1_parse_of_dump (v : Bencode) (hn : v.NullFree = true)
    (hr : v.Representable = true) : ∃ b, v.Dump = .ok b ∧ Parse b = .ok v := by
  obtain ⟨b, hb⟩ := (Dump_ok_iff_NullFree v).2 hn
  have henc := Encoding_of_Dump v b hr hb
  obtain ⟨⟨c, t, hct, _⟩, _⟩ := ParseRecursive_Encoding v b henc
  exact ⟨b, hb, (Parse_ok_iff b v (by rw [hct]; simp)).2 henc⟩

/-- C1 at a list holding the dictionary with `bar: 2, foo: hello` and the list
`[ [], -89, bar ]`. -/
theorem C1_parse_of_dump_witness :
    ∃ b, (Bencode.list [.dict [(bytes "bar", .int 2), (bytes "foo", .str (bytes "hello"))],
        .list [.list [], .int (-89), .str (bytes "bar")]]).Dump = .ok b ∧
      Parse b = .ok (Bencode.list
        [.dict [(bytes "bar", .int 2), (bytes "foo", .str (bytes "hello"))],
         .list [.list [], .int (-89), .str (bytes "bar")]]) :=
  C1_parse_of_dump _ (by decide) (by decide)

/-- C2 fails as stated: `"i007e"` decodes to the Integer 7, which `Dump` writes
as `"i7e"`. -/
theorem C2_counterexample :
    Parse (bytes "i007e") = .ok (.int 7) ∧
      (Bencode.int 7).Dump = .ok (bytes "i7e") ∧ bytes "i7e" ≠ bytes "i007e" :=
  ⟨rfl, rfl, by decide⟩

/-- C2 amended: for every non-empty input on which `Parse` succeeds, `Dump` of
the value succeeds and writes bytes that decode to the same value; they are the
input, byte for byte, exactly when every integer of the input is written
without leading zeros and not as negative zero. -/
theorem C2_dump_of_parse (b : Str) (v : Bencode) (hb : b ≠ []) (h : Parse b = .ok v) :
    ∃ b', v.Dump = .ok b' ∧ Parse b' = .ok v ∧ (b' = b ↔ CanonicalIntegers b = true) := by
  have henc := (Parse_ok_iff b v hb).1 h
  obtain ⟨hn, hr⟩ := Encoding_valid v b henc
  obtain ⟨b', hb'⟩ := (Dump_ok_iff_NullFree v).2 hn
  have henc' := Encoding_of_Dump v b' hr hb'
  obtain ⟨c, t, hct, _⟩ := Encoding_head v b' henc'
  refine ⟨b', hb', (Parse_ok_iff b' v (by rw [hct]; simp)).2 henc', ?_⟩
  constructor
  · intro heq
    subst heq
    have := canonical_of_Dump v b' hr hb' (b'.length + 1) [] (by omega)
    simpa [CanonicalIntegers] using this
  · intro hc
    have hc2 : IntegersCanonical (b.length + 1) ⟨b ++ [], false⟩ = true := by
      simpa [CanonicalIntegers] using hc
    have := Dump_of_canonical v b henc (b.length + 1) [] (by omega) hc2
    rw [hb'] at this
    exact Except.ok.inj this

/-- C2 amended at `"d1:ai007ee"`, whose integer has leading zeros. -/
theorem C2_dump_of_parse_witness :
    ∃ b', (Bencode.dict [(bytes "a", .int 7)]).Dump = .ok b' ∧
      Parse b' = .ok (.dict [(bytes "a", .int 7)]) ∧
      (b' = bytes "d1:ai007ee" ↔ CanonicalIntegers (bytes "d1:ai007ee") = true) :=
  C2_dump_of_parse (bytes "d1:ai007ee") (.dict [(bytes "a", .int 7)]) (by decide) rfl

/-- C3: for every value without Null, encoding, decoding and encoding again
gives the bytes of the first encoding. -/
theorem C3_canonicalization_idempotent (v : Bencode) (hn : v.NullFree = true)
    (hr : v.Representable = true) :
    ∃ b, v.Dump = .ok b ∧ ∃ w, Parse b = .ok w ∧ w.Dump = .ok b := by
  obtain ⟨b, hb⟩ := (Dump_ok_iff_NullFree v).2 hn
  have henc := Encoding_of_Dump v b hr hb
  obtain ⟨⟨c, t, hct, _⟩, _⟩ := ParseRecursive_Encoding v b henc
  exact ⟨b, hb, v, (Parse_ok_iff b v (by rw [hct]; simp)).2 henc, hb⟩

/-- C3 at the dictionary with the empty key for `[]` and the key `a` for `-1`. -/
theorem C3_canonicalization_idempotent_witness :
    ∃ b, (Bencode.dict [([], .list []), (bytes "a", .int (-1))]).Dump = .ok b ∧
      ∃ w, Parse b = .ok w ∧ w.Dump = .ok b :=
  C3_canonicalization_idempotent _ (by decide) (by decide)

/-- C4: on a value without Null, `Dump` writes what the reference serializer
of the specification writes; and a dictionary filled with entries of distinct
keys, in whatever order, is written as the reference writes these entries in
ascending bytewise key order. -/
theorem C4_dump_is_reference (v : Bencode) (es : List (Str × Bencode))
    (hn : v.NullFree = true) (hr : v.Representable = true)
    (hnd : (es.map Prod.fst).Nodup) (hen : NullFreeItems es = true)
    (her : RepresentableItems es = true) :
    (∃ b, v.Dump = .ok b ∧ refEncode v = some b) ∧
      (∃ b, (Bencode.dict (assignAll [] es)).Dump = .ok b ∧
        refEncode (.dict es) = some b) := by
  constructor
  · obtain ⟨b, hb⟩ := (Dump_ok_iff_NullFree v).2 hn
    exact ⟨b, hb, refEncode_of_Dump v b hr hb⟩
  · obtain ⟨hperm, hpw⟩ := assignAll_perm_pairwise es [] (by simpa using hnd)
      (by simp)
    simp only [List.nil_append] at hperm
    have hmn : NullFreeItems (assignAll [] es) = true :=
      (NullFreeItems_iff _).2 (fun kv hkv =>
        (NullFreeItems_iff es).1 hen kv (hperm.subset hkv))
    have hmr : RepresentableItems (assignAll [] es) = true :=
      (RepresentableItems_iff _).2 (fun kv hkv =>
        (RepresentableItems_iff es).1 her kv (hperm.subset hkv))
    have hdn : (Bencode.dict (assignAll [] es)).NullFree = true := by
      simpa [Bencode.NullFree] using hmn
    have hdr : (Bencode.dict (assignAll [] es)).Representable = true := by
      simp [Bencode.Representable, pairwise_keysAscending _ hpw, hmr]
    obtain ⟨b, hb⟩ := (Dump_ok_iff_NullFree _).2 hdn
    refine ⟨b, hb, ?_⟩
    have href := refEncode_of_Dump _ b hdr hb
    have henc : ∀ kv ∈ es, ∃ x, refEncode kv.2 = some x := by
      intro kv hkv
      obtain ⟨x, hx⟩ := (Dump_ok_iff_NullFree kv.2).2 ((NullFreeItems_iff es).1 hen kv hkv)
      exact ⟨x, refEncode_of_Dump kv.2 x ((RepresentableItems_iff es).1 her kv hkv).2 hx⟩
    have henc2 : ∀ kv ∈ assignAll [] es, ∃ x, refEncode kv.2 = some x :=
      fun kv hkv => henc kv (hperm.subset hkv)
    have hsort := insertionSort_perm_eq
      (es.map (fun kv => (kv.1, (refEncode kv.2).getD [])))
      ((assignAll [] es).map (fun kv => (kv.1, (refEncode kv.2).getD [])))
      (hperm.symm.map _) (by simpa [List.map_map, Function.comp_def] using hnd)
    rw [← href]
    simp only [refEncode, refEncodeItems_map es henc, refEncodeItems_map _ henc2, hsort]

/-- C4 at a nested value, and at the entries `foo`, `bar`, `a` inserted in this
order. -/
theorem C4_dump_is_reference_witness :
    (∃ b, (Bencode.list [.int (-89), .dict [(bytes "bar", .int 0), (bytes "foo", .str [])]]).Dump
        = .ok b ∧
      refEncode (Bencode.list [.int (-89), .dict [(bytes "bar", .int 0), (bytes "foo", .str [])]])
        = some b) ∧
      (∃ b, (Bencode.dict (assignAll [] [(bytes "foo", .str (bytes "hello")),
          (bytes "bar", .int 2), (bytes "a", .list [])])).Dump = .ok b ∧
        refEncode (.dict [(bytes "foo", .str (bytes "hello")), (bytes "bar", .int 2),
          (bytes "a", .list [])]) = some b) :=
  C4_dump_is_reference _ _ (by decide) (by decide) (by decide) (by decide) (by decide)

/-- C5 fails as stated: the list `[Null]` has the tag List, and `Dump` fails on it. -/
theorem C5_counterexample :
    (Bencode.list [.null]).Dump = .error .kNull ∧
      Bencode.Type (Bencode.list [.null]) = .kList := ⟨rfl, rfl⟩

/-- C5 amended: `Dump` fails, with `kNull`, exactly on the values that hold a
Null at any depth, and succeeds on all others. -/
theorem C5_dump_fails_iff_null_inside (v : Bencode) :
    (v.Dump = .error .kNull ↔ v.NullFree = false) ∧
      ((∃ b, v.Dump = .ok b) ↔ v.NullFree = true) := by
  refine ⟨?_, Dump_ok_iff_NullFree v⟩
  have h := Dump_ok_iff_NullFree v
  cases hd : v.Dump with
  | ok b =>
    have : v.NullFree = true := h.1 ⟨b, hd⟩
    simp [this]
  | error e =>
    cases e
    have : ¬ (v.NullFree = true) := fun hn => by
      obtain ⟨b, hb⟩ := h.2 hn
      rw [hd] at hb
      cases hb
    simpa using this

/-- The root dictionary `'d' k1 v1 ... kn vn 'e'` of entries that decode: what
`Parse` returns is decided by the two checks on the keys in the order read. -/
theorem Parse_dict_of_pairs (pairs : List (Str × Str)) (h : PairsDecode pairs) :
    ∃ m, Parse (ch_d :: (pairsBytes pairs ++ [ch_e]))
      = if !is_sorted (pairs.map Prod.fst) then .throw .kDictBadOrder
        else if (adjacent_find (pairs.map Prod.fst)).isSome then .throw .kDictDuplicateKeys
        else .ok (.dict m) := by
  have hlen := pairsBytes_length pairs h
  obtain ⟨m, hm⟩ := ParseDictLoop_pairs pairs h ((pairsBytes pairs).length + 2)
    ((pairsBytes pairs).length + 2 - pairs.length - 1 + 1) [ch_e] (by omega) [] []
  have hg : pairs.length + ((pairsBytes pairs).length + 2 - pairs.length - 1 + 1)
      = (pairsBytes pairs).length + 2 := by omega
  rw [hg, ParseDictLoop_done] at hm
  refine ⟨m, ?_⟩
  have hpk : ¬ (IStream.peek ⟨ch_d :: (pairsBytes pairs ++ [ch_e]), false⟩ = none) := by
    simp [IStream.peek]
  have hfuel : (ch_d :: (pairsBytes pairs ++ [ch_e])).length + 1
      = ((pairsBytes pairs).length + 2) + 1 := by simp
  have hpk2 : IStream.peek ⟨[], false⟩ = none := rfl
  simp only [List.nil_append] at hm
  by_cases h1 : is_sorted (pairs.map Prod.fst) = true
  · cases h2 : adjacent_find (pairs.map Prod.fst) with
    | none =>
      simp only [h1, h2, Bool.not_true, Bool.false_eq_true, if_false,
        Option.isSome_none] at hm ⊢
      simp only [Parse, hpk, if_false, hfuel, ParseRecursive_dict, hm, hpk2, ne_eq,
        not_true_eq_false]
    | some i =>
      simp only [h1, h2, Bool.not_true, Bool.false_eq_true, if_false, Option.isSome_some,
        if_true] at hm ⊢
      simp only [Parse, hpk, if_false, hfuel, ParseRecursive_dict, hm]
  · simp only [h1, Bool.not_false, if_true] at hm ⊢
    simp only [Parse, hpk, if_false, hfuel, ParseRecursive_dict, hm]

theorem is_sorted_false_of_descent (ks : List Str) : ∀ (i : Nat) (a b : Str),
    ks[i]? = some a → ks[i + 1]? = some b → strLt b a = true → is_sorted ks = false := by
  induction ks with
  | nil => intro i a b h; simp at h
  | cons k ks ih =>
    intro i a b ha hb hlt
    cases ks with
    | nil => simp at hb
    | cons k2 ks2 =>
      cases i with
      | zero =>
        simp only [List.getElem?_cons_zero, Option.some.injEq, zero_add,
          List.getElem?_cons_succ] at ha hb
        subst ha hb
        simp [is_sorted, hlt]
      | succ j =>
        rw [List.getElem?_cons_succ] at ha hb
        have := ih j a b ha hb hlt
        simp [is_sorted, this]

theorem is_sorted_of_no_descent (ks : List Str)
    (h : ∀ (i : Nat) (a b : Str), ks[i]? = some a → ks[i + 1]? = some b → strLt b a = false) :
    is_sorted ks = true := by
  by_contra hcon
  induction ks with
  | nil => simp [is_sorted] at hcon
  | cons k ks ih =>
    cases ks with
    | nil => simp [is_sorted] at hcon
    | cons k2 ks2 =>
      have h0 := h 0 k k2 (by simp) (by simp)
      simp only [is_sorted, h0, Bool.false_eq_true, if_false] at hcon
      exact ih (fun i a b ha hb => h (i + 1) a b (by simpa using ha) (by simpa using hb)) hcon

theorem nodup_of_keysAscending (ks : List Str) (h : keysAscending ks = true) : ks.Nodup := by
  induction ks with
  | nil => exact List.nodup_nil
  | cons k ks ih =>
    refine List.nodup_cons.2 ⟨?_, ih (keysAscending_tail k ks h)⟩
    intro hmem
    have := keysAscending_head k ks h k hmem
    rw [strLt_irrefl] at this
    exact Bool.noConfusion this

/-- C6: a root dictionary whose keys are well-formed strings and whose values
decode is rejected with `kDictBadOrder` when some key is smaller than the key
read right before it, whether or not keys repeat. -/
theorem C6_misordered_keys (pairs : List (Str × Str))
    (hkeys : ∀ p ∈ pairs, p.1.length ≤ SIZE_MAX)
    (hvals : ∀ p ∈ pairs, p.2 ≠ [] ∧ ∃ v, Parse p.2 = .ok v)
    (hbad : ∃ (i : Nat) (a b : Str), (pairs.map Prod.fst)[i]? = some a ∧
      (pairs.map Prod.fst)[i + 1]? = some b ∧ strLt b a = true) :
    Parse (ch_d :: (pairsBytes pairs ++ [ch_e])) = .throw .kDictBadOrder := by
  obtain ⟨m, hm⟩ := Parse_dict_of_pairs pairs (fun p hp => ⟨hkeys p hp, hvals p hp⟩)
  obtain ⟨i, a, b, ha, hb, hlt⟩ := hbad
  rw [hm, is_sorted_false_of_descent _ i a b ha hb hlt]
  rfl

/-- C6 at `"d3:fooi2e3:bar5:helloe"`, and at `"d1:bi1e1:bi2e1:ai3ee"` where a
key also repeats. -/
theorem C6_misordered_keys_witness :
    Parse (ch_d :: (pairsBytes [(bytes "foo", bytes "i2e"), (bytes "bar", bytes "5:hello")]
        ++ [ch_e])) = .throw .kDictBadOrder ∧
      Parse (ch_d :: (pairsBytes [(bytes "b", bytes "i1e"), (bytes "b", bytes "i2e"),
        (bytes "a", bytes "i3e")] ++ [ch_e])) = .throw .kDictBadOrder :=
  ⟨C6_misordered_keys _ (by decide)
      (by intro p hp; simp at hp; rcases hp with rfl | rfl <;> exact ⟨by decide, _, rfl⟩)
      ⟨0, bytes "foo", bytes "bar", rfl, rfl, by decide⟩,
    C6_misordered_keys _ (by decide)
      (by intro p hp; simp at hp; rcases hp with rfl | rfl | rfl <;> exact ⟨by decide, _, rfl⟩)
      ⟨1, bytes "b", bytes "a", rfl, rfl, by decide⟩⟩

/-- C7: a root dictionary whose keys are well-formed strings and whose values
decode is rejected with `kDictDuplicateKeys` when no key is smaller than the key
read right before it and the keys are not pairwise distinct. -/
theorem C7_duplicate_keys (pairs : List (Str × Str))
    (hkeys : ∀ p ∈ pairs, p.1.length ≤ SIZE_MAX)
    (hvals : ∀ p ∈ pairs, p.2 ≠ [] ∧ ∃ v, Parse p.2 = .ok v)
    (hord : ∀ (i : Nat) (a b : Str), (pairs.map Prod.fst)[i]? = some a →
      (pairs.map Prod.fst)[i + 1]? = some b → strLt b a = false)
    (hdup : ¬ (pairs.map Prod.fst).Nodup) :
    Parse (ch_d :: (pairsBytes pairs ++ [ch_e])) = .throw .kDictDuplicateKeys := by
  obtain ⟨m, hm⟩ := Parse_dict_of_pairs pairs (fun p hp => ⟨hkeys p hp, hvals p hp⟩)
  have hsorted := is_sorted_of_no_descent _ hord
  cases hadj : adjacent_find (pairs.map Prod.fst) with
  | none =>
    exact absurd (nodup_of_keysAscending _ (keysAscending_of_checks _ hsorted hadj)) hdup
  | some i =>
    rw [hm, hsorted, hadj]
    rfl

/-- C7 at `"d3:fooi2e3:foo5:helloe"`. -/
theorem C7_duplicate_keys_witness :
    Parse (ch_d :: (pairsBytes [(bytes "foo", bytes "i2e"), (bytes "foo", bytes "5:hello")]
        ++ [ch_e])) = .throw .kDictDuplicateKeys :=
  C7_duplicate_keys _ (by decide)
    (by intro p hp; simp at hp; rcases hp with rfl | rfl <;> exact ⟨by decide, _, rfl⟩)
    (by
      intro i a b ha hb
      match i with
      | 0 =>
        simp only [List.map, List.getElem?_cons_zero, Option.some.injEq, zero_add,
          List.getElem?_cons_succ] at ha hb
        subst ha hb
        decide
      | j + 1 => simp at hb)
    (by decide)

theorem contextBytes_append (ctx inner : List Frame) :
    contextBytes (ctx ++ inner) = contextBytes ctx ++ contextBytes inner := by
  induction ctx with
  | nil => rfl
  | cons frame rest ih => simp [contextBytes, ih]

/-- A dictionary in which `'e'` follows a key: the decoder throws
`kDictIncompletePair`, whatever comes after. -/
theorem ParseRecursive_key_then_e (pairs : List (Str × Str)) (hpairs : PairsDecode pairs)
    (key : Str) (hkey : key.length ≤ SIZE_MAX) (rest : Str) :
    ∀ fuel, (ch_d :: (pairsBytes pairs ++ (DumpString key ++ ch_e :: rest))).length < fuel →
      ParseRecursive fuel ⟨ch_d :: (pairsBytes pairs ++ (DumpString key ++ ch_e :: rest)), false⟩
        = .throw .kDictIncompletePair := by
  intro fuel hf
  simp only [List.length_cons, List.length_append] at hf
  have hlen := pairsBytes_length pairs hpairs
  obtain ⟨kc, kt, hkct, hkc⟩ := DumpString_head key
  cases fuel with
  | zero => omega
  | succ f =>
    obtain ⟨g, hg⟩ : ∃ g, f = pairs.length + (g + 1) := ⟨f - pairs.length - 1, by omega⟩
    obtain ⟨m', hm'⟩ := ParseDictLoop_pairs pairs hpairs f (g + 1)
      (DumpString key ++ ch_e :: rest) (by omega) [] []
    rw [ParseRecursive_dict]
    conv => lhs; arg 2; rw [hg]
    rw [hm']
    cases f with
    | zero => omega
    | succ f0 =>
      exact ParseDictLoop_incomplete _ g _ ⟨ch_e :: rest, false⟩ key m' _
        (peek_append_ne_e _ _ ⟨kc, kt, hkct, isDigit_ne_e kc hkc⟩)
        (ParseRecursive_DumpString key (ch_e :: rest) f0 hkey) rfl

/-- C8 fails as stated when the input ends after the key: `"d3:foo"` gives
`kUnexpectedEOF`, not `kDictIncompletePair`. -/
theorem C8_counterexample :
    Parse (bytes "d3:foo") = .throw .kUnexpectedEOF ∧
      Parse (bytes "d3:foo") ≠ .throw .kDictIncompletePair :=
  ⟨rfl, fun h => by cases h⟩

/-- C8 amended: at any depth of nesting, in a dictionary whose earlier entries
decode, a well-formed string key followed by `'e'` makes `Parse` fail with
`kDictIncompletePair` whatever follows, and a key at which the input ends makes
it fail with `kUnexpectedEOF`. -/
theorem C8_key_without_value (ctx : List Frame) (hctx : ∀ frame ∈ ctx, frame.Decodes)
    (pairs : List (Str × Str)) (hpairs : PairsDecode pairs)
    (key : Str) (hkey : key.length ≤ SIZE_MAX) :
    (∀ rest : Str,
      Parse (contextBytes ctx ++ ch_d :: (pairsBytes pairs ++ (DumpString key ++ ch_e :: rest)))
        = .throw .kDictIncompletePair) ∧
    Parse (contextBytes ctx ++ ch_d :: (pairsBytes pairs ++ DumpString key))
      = .throw .kUnexpectedEOF := by
  constructor
  · intro rest
    exact Parse_throw_in_context ctx hctx _ _ (by simp [ch_d, ch_e])
      (ParseRecursive_key_then_e pairs hpairs key hkey rest) (by simp)
  · have hwf : ∀ frame ∈ ctx ++ [Frame.inDictValue pairs key], frame.Decodes := by
      intro frame hmem
      rcases List.mem_append.1 hmem with hmem | hmem
      · exact hctx frame hmem
      · simp only [List.mem_singleton] at hmem
        subst hmem
        exact ⟨hpairs, hkey⟩
    have := Parse_throw_in_context (ctx ++ [Frame.inDictValue pairs key]) hwf []
      .kUnexpectedEOF (by simp)
      (by
        intro fuel hf
        cases fuel with
        | zero => simp at hf
        | succ f => exact ParseRecursive_eof f)
      (by simp [contextBytes_append, contextBytes, Frame.bytes])
    simpa [contextBytes_append, contextBytes, Frame.bytes] using this

/-- C8 amended at `"li1ed1:ale3:foo"` followed by `'e'` and any bytes, and at the
same input ending after the key. -/
theorem C8_key_without_value_witness :
    (∀ rest : Str,
      Parse (contextBytes [Frame.inList [bytes "i1e"]] ++
        ch_d :: (pairsBytes [(bytes "a", bytes "le")] ++ (DumpString (bytes "foo") ++
          ch_e :: rest))) = .throw .kDictIncompletePair) ∧
    Parse (contextBytes [Frame.inList [bytes "i1e"]] ++
        ch_d :: (pairsBytes [(bytes "a", bytes "le")] ++ DumpString (bytes "foo")))
      = .throw .kUnexpectedEOF :=
  C8_key_without_value [Frame.inList [bytes "i1e"]]
    (by
      intro frame hmem
      simp only [List.mem_singleton] at hmem
      subst hmem
      intro e he
      simp only [List.mem_singleton] at he
      subst he
      exact ⟨by decide, _, rfl⟩)
    [(bytes "a", bytes "le")]
    (by
      intro p hp
      simp only [List.mem_singleton] at hp
      subst hp
      exact ⟨by decide, by decide, _, rfl⟩)
    (bytes "foo") (by decide)

/-- C9: bytes after a complete encoding make `Parse` fail with `kTooMuchData`. -/
theorem C9_trailing_bytes (b t : Str) (v : Bencode) (hb : b ≠ []) (ht : t ≠ [])
    (h : Parse b = .ok v) : Parse (b ++ t) = .throw .kTooMuchData := by
  have henc := (Parse_ok_iff b v hb).1 h
  obtain ⟨_, hpr⟩ := ParseRecursive_Encoding v b henc
  have hrun := hpr ((b ++ t).length + 1) t (by simp; omega)
  have hpk : ¬ (IStream.peek ⟨b ++ t, false⟩ = none) := by
    cases b with
    | nil => exact absurd rfl hb
    | cons c r => simp [IStream.peek]
  have hpk2 : IStream.peek ⟨t, false⟩ ≠ none := by
    cases t with
    | nil => exact absurd rfl ht
    | cons c r => simp [IStream.peek]
  simp only [Parse, hpk, if_false, hrun]
  rw [if_pos hpk2]

/-- C9 at `"11:Hello world"` followed by `"3:foo"`. -/
theorem C9_trailing_bytes_witness :
    Parse (bytes "11:Hello world" ++ bytes "3:foo") = .throw .kTooMuchData :=
  C9_trailing_bytes (bytes "11:Hello world") (bytes "3:foo") (.str (bytes "Hello world"))
    (by decide) (by decide) rfl

/-- C10: `Parse` returns Null on the empty input and on no other input. -/
theorem C10_null_iff_empty (b : Str) : Parse b = .ok .null ↔ b = [] := by
  constructor
  · intro h
    by_contra hb
    have := (Parse_ok_iff b .null hb).1 h
    simp [Encoding] at this
  · intro h
    subst h
    rfl

/-! ## Claims about string lengths and integer bodies -/

/-- A string length written as `'0'` and then a digit: `kLeading0`, whatever follows. -/
theorem ParseRecursive_leading0 (d : Nat) (hd : isDigit d = true) (rest : Str) :
    ∀ fuel, (ch_0 :: d :: rest).length < fuel →
      ParseRecursive fuel ⟨ch_0 :: d :: rest, false⟩ = .throw .kLeading0 := by
  intro fuel hf
  cases fuel with
  | zero => simp at hf
  | succ f =>
    have hpk : IStream.peek ⟨ch_0 :: d :: rest, false⟩ = some ch_0 := rfl
    have hig : IStream.ignore ⟨ch_0 :: d :: rest, false⟩ = ⟨d :: rest, false⟩ := rfl
    have hpk2 : IStream.peek ⟨d :: rest, false⟩ = some d := rfl
    have h0 : isDigit ch_0 = true := by decide
    have hne : ch_0 ≠ ch_minus := by decide
    simp only [ParseRecursive, ParseString, hpk, hig, hpk2, h0, hd, true_or, if_true,
      Option.some.injEq, hne, if_false]

/-- C11: at a value position of any nesting depth, the byte `'0'` followed by a
decimal digit makes `Parse` fail with `kLeading0` whatever bytes follow, while
`"0:"` decodes to the empty String. -/
theorem C11_leading_zero (ctx : List Frame) (hctx : ∀ frame ∈ ctx, frame.Decodes)
    (d : Nat) (hd : isDigit d = true) (rest : Str) :
    Parse (contextBytes ctx ++ ch_0 :: d :: rest) = .throw .kLeading0 ∧
      Parse (bytes "0:") = .ok (.str []) :=
  ⟨Parse_throw_in_context ctx hctx _ _ (by simp [ch_0, ch_e])
    (ParseRecursive_leading0 d hd rest) (by simp), rfl⟩

/-- C11 at `"01:f"` inside the list `"li1e"`, where `'0'` is followed by `'1'`. -/
theorem C11_leading_zero_witness :
    Parse (contextBytes [Frame.inList [bytes "i1e"]] ++ ch_0 :: 49 :: bytes ":f")
        = .throw .kLeading0 ∧
      Parse (bytes "0:") = .ok (.str []) :=
  C11_leading_zero [Frame.inList [bytes "i1e"]]
    (by
      intro frame hmem
      simp only [List.mem_singleton] at hmem
      subst hmem
      intro e he
      simp only [List.mem_singleton] at he
      subst he
      exact ⟨by decide, _, rfl⟩)
    49 (by decide) (bytes ":f")

/-- A length prefix in the range of `std::size_t`, `':'` and fewer bytes than
the length: `kUnexpectedEOF`. -/
theorem ParseString_truncated (n : Nat) (hn1 : 1 ≤ n) (hn : n ≤ SIZE_MAX) (payload : Str)
    (hshort : payload.length < n) :
    ParseString ⟨formatNat n ++ ch_colon :: payload, false⟩ = .throw .kUnexpectedEOF := by
  obtain ⟨h1, h2, h3, h4⟩ := formatNat_spec n
  cases hf : formatNat n with
  | nil => exact absurd hf h1
  | cons d ds =>
    have hd : isDigit d = true := h2 d (by rw [hf]; exact List.mem_cons_self _ _)
    have hd0 : d ≠ ch_0 := by
      intro hh
      have : n = 0 := h4 (by rw [hf, hh]; rfl)
      omega
    have hdm : d ≠ ch_minus := by
      rw [isDigit_iff] at hd
      simp only [ch_minus]; omega
    have hex := extractSizeT_formatNat n payload hn
    rw [hf] at hex
    have hpk : IStream.peek ⟨(d :: ds) ++ ch_colon :: payload, false⟩ = some d := rfl
    have hlen : ¬ (min n payload.length = n) := by omega
    simp only [ParseString, hpk, Option.some.injEq, hdm, hd0, if_false, hex]
    simp [ParseStringPayload, IStream.get, IStream.peek, IStream.ignore, IStream.read, hlen]

/-- A length `n` with `1 ≤ n < 2^64` written without leading zero and `':'`, in
a run in which the buffer of `n` bytes is obtained: `Parse` fails with
`kUnexpectedEOF` when fewer than `n` bytes follow and returns the String of the
bytes that follow when there are exactly `n` of them. -/
theorem Parse_string_payload (n : Nat) (hn1 : 1 ≤ n) (hn : n ≤ SIZE_MAX) (payload : Str) :
    (payload.length < n →
      Parse (formatNat n ++ ch_colon :: payload) = .throw .kUnexpectedEOF) ∧
    (payload.length = n →
      Parse (formatNat n ++ ch_colon :: payload) = .ok (.str payload)) := by
  obtain ⟨h1, h2, _, _⟩ := formatNat_spec n
  have hne : formatNat n ++ ch_colon :: payload ≠ [] := by simp
  constructor
  · intro hshort
    have := Parse_throw_in_context [] (by simp) (formatNat n ++ ch_colon :: payload)
      .kUnexpectedEOF
      (by
        cases hf : formatNat n with
        | nil => exact absurd hf h1
        | cons d ds =>
          have hd : isDigit d = true := h2 d (by rw [hf]; exact List.mem_cons_self _ _)
          have := isDigit_ne_e d hd
          simp [this])
      (by
        intro fuel hfuel
        cases fuel with
        | zero => simp at hfuel
        | succ f =>
          cases hf : formatNat n with
          | nil => exact absurd hf h1
          | cons d ds =>
            have hd : isDigit d = true := h2 d (by rw [hf]; exact List.mem_cons_self _ _)
            have hpk : IStream.peek ⟨(d :: ds) ++ ch_colon :: payload, false⟩ = some d := rfl
            simp only [ParseRecursive, hpk, hd, true_or, if_true]
            rw [← hf]
            exact ParseString_truncated n hn1 hn payload hshort)
      (by simp [contextBytes])
    simpa [contextBytes] using this
  · intro hexact
    subst hexact
    exact (Parse_ok_iff _ _ hne).2 ⟨hn, rfl⟩

/-- The construction of the buffer succeeds for a length up to `max_size()`
whose storage is obtained. -/
theorem construct_obtained (heap : Allocator) (n : Nat) (hmax : n ≤ heap.max_size)
    (hobt : heap.obtains n = true) : heap.construct n = .ok () := by
  have : ¬ heap.max_size < n := by omega
  simp [Allocator.construct, this, hobt]

/-- The construction of the buffer throws `std::length_error` for a length
above `max_size()`. -/
theorem construct_length_error (heap : Allocator) (n : Nat) (hmax : heap.max_size < n) :
    heap.construct n = .error .length_error := by
  simp [Allocator.construct, hmax]

/-- The second half of `ParseString` with the construction of the buffer:
an exception of the construction past the `':'`, and else what
`ParseStringPayload` gives. -/
theorem ParseStringPayload_construct (heap : Allocator) (n : Nat) (s : IStream) :
    Allocating.ParseStringPayload heap n s =
      if s.get.1 ≠ some ch_colon then .ok (ParseStringPayload n s)
      else
        match heap.construct n with
        | .error e => .error e
        | .ok _ => .ok (ParseStringPayload n s) := by
  unfold Allocating.ParseStringPayload ParseStringPayload
  by_cases hc : s.get.1 ≠ some ch_colon
  · rw [if_pos hc, if_pos hc, if_pos hc]
  · rw [if_neg hc, if_neg hc, if_neg hc]
    cases heap.construct n with
    | error e => rfl
    | ok u =>
      dsimp only
      split <;> rfl

/-- The second half of `ParseString` with the construction of the buffer throws
an exception of the standard library or does what `ParseStringPayload` does. -/
theorem ParseStringPayload_agrees (heap : Allocator) (n : Nat) (s : IStream) :
    (∃ e, Allocating.ParseStringPayload heap n s = .error e) ∨
      Allocating.ParseStringPayload heap n s = .ok (ParseStringPayload n s) := by
  rw [ParseStringPayload_construct]
  by_cases hc : s.get.1 ≠ some ch_colon
  · rw [if_pos hc]
    exact Or.inr rfl
  · rw [if_neg hc]
    cases heap.construct n with
    | error e => exact Or.inl ⟨e, rfl⟩
    | ok u => exact Or.inr rfl

/-- The function `ParseString` with the construction of the buffer throws an
exception of the standard library or does what `ParseString` does. -/
theorem ParseString_agrees (heap : Allocator) (s : IStream) :
    (∃ e, Allocating.ParseString heap s = .error e) ∨
      Allocating.ParseString heap s = .ok (ParseString s) := by
  unfold Allocating.ParseString ParseString
  by_cases hm : s.peek = some ch_minus
  · rw [if_pos hm, if_pos hm]
    exact Or.inr rfl
  · rw [if_neg hm, if_neg hm]
    by_cases h0 : s.peek = some ch_0
    · rw [if_pos h0, if_pos h0]
      dsimp only
      cases hp : s.ignore.peek with
      | none => exact ParseStringPayload_agrees heap 0 _
      | some c =>
        dsimp only
        by_cases hd : isDigit c = true
        · rw [if_pos hd, if_pos hd]
          exact Or.inr rfl
        · rw [if_neg hd, if_neg hd]
          exact ParseStringPayload_agrees heap 0 _
    · rw [if_neg h0, if_neg h0]
      exact ParseStringPayload_agrees heap _ _

/-- The loop of `ParseList` over a decoder of one element that throws an
exception of the standard library or does what `rec` does. -/
theorem ParseListLoop_agrees
    (rec2 : IStream → Except LibraryError (Outcome (Bencode × IStream)))
    (rec : IStream → Outcome (Bencode × IStream))
    (hrec : ∀ s, (∃ e, rec2 s = .error e) ∨ rec2 s = .ok (rec s)) :
    ∀ (fuel : Nat) (s : IStream) (elems : List Bencode),
      (∃ e, Allocating.ParseListLoop rec2 fuel s elems = .error e) ∨
        Allocating.ParseListLoop rec2 fuel s elems = .ok (ParseListLoop rec fuel s elems) := by
  intro fuel
  induction fuel with
  | zero => intro s elems; exact Or.inr rfl
  | succ fuel ih =>
    intro s elems
    rw [Allocating.ParseListLoop, ParseListLoop]
    by_cases hp : s.peek ≠ some ch_e
    · rw [if_pos hp, if_pos hp]
      rcases hrec s with ⟨e, he⟩ | hok
      · rw [he]
        exact Or.inl ⟨e, rfl⟩
      · rw [hok]
        cases hr : rec s with
        | ok value =>
          obtain ⟨elem, s1⟩ := value
          exact ih s1 (elems ++ [elem])
        | throw id => exact Or.inr rfl
        | outOfFuel => exact Or.inr rfl
    · rw [if_neg hp, if_neg hp]
      exact Or.inr rfl

/-- The loop of `ParseDictionary` over a decoder of one element that throws an
exception of the standard library or does what `rec` does. -/
theorem ParseDictLoop_agrees
    (rec2 : IStream → Except LibraryError (Outcome (Bencode × IStream)))
    (rec : IStream → Outcome (Bencode × IStream))
    (hrec : ∀ s, (∃ e, rec2 s = .error e) ∨ rec2 s = .ok (rec s)) :
    ∀ (fuel : Nat) (s : IStream) (dict : List (Str × Bencode)) (key_list : List Str),
      (∃ e, Allocating.ParseDictLoop rec2 fuel s dict key_list = .error e) ∨
        Allocating.ParseDictLoop rec2 fuel s dict key_list
          = .ok (ParseDictLoop rec fuel s dict key_list) := by
  intro fuel
  induction fuel with
  | zero => intro s dict key_list; exact Or.inr rfl
  | succ fuel ih =>
    intro s dict key_list
    rw [Allocating.ParseDictLoop, ParseDictLoop]
    by_cases hp : s.peek ≠ some ch_e
    · rw [if_pos hp, if_pos hp]
      rcases hrec s with ⟨e, he⟩ | hok
      · rw [he]
        exact Or.inl ⟨e, rfl⟩
      · rw [hok]
        cases hr : rec s with
        | ok value =>
          obtain ⟨key, s1⟩ := value
          cases key with
          | str key =>
            dsimp only
            by_cases hpe : s1.peek = some ch_e
            · rw [if_pos hpe, if_pos hpe]
              exact Or.inr rfl
            · rw [if_neg hpe, if_neg hpe]
              rcases hrec s1 with ⟨e, he⟩ | hok1
              · rw [he]
                exact Or.inl ⟨e, rfl⟩
              · rw [hok1]
                cases hr1 : rec s1 with
                | ok value =>
                  obtain ⟨value, s2⟩ := value
                  exact ih s2 _ _
                | throw id => exact Or.inr rfl
                | outOfFuel => exact Or.inr rfl
          | null => exact Or.inr rfl
          | int _ => exact Or.inr rfl
          | list _ => exact Or.inr rfl
          | dict _ => exact Or.inr rfl
        | throw id => exact Or.inr rfl
        | outOfFuel => exact Or.inr rfl
    · rw [if_neg hp, if_neg hp]
      by_cases hs : (!is_sorted key_list) = true
      · rw [if_pos hs, if_pos hs]
        exact Or.inr rfl
      · rw [if_neg hs, if_neg hs]
        by_cases ha : (adjacent_find key_list).isSome = true
        · rw [if_pos ha, if_pos ha]
          exact Or.inr rfl
        · rw [if_neg ha, if_neg ha]
          exact Or.inr rfl

/-- The function `ParseRecursive` with the construction of the String buffers
throws an exception of the standard library or does what `ParseRecursive`
does. -/
theorem ParseRecursive_agrees (heap : Allocator) : ∀ (fuel : Nat) (s : IStream),
    (∃ e, Allocating.ParseRecursive heap fuel s = .error e) ∨
      Allocating.ParseRecursive heap fuel s = .ok (ParseRecursive fuel s) := by
  intro fuel
  induction fuel with
  | zero => intro s; exact Or.inr rfl
  | succ fuel ih =>
    intro s
    rw [Allocating.ParseRecursive, ParseRecursive]
    cases hp : s.peek with
    | none => exact Or.inr rfl
    | some c =>
      dsimp only
      by_cases h1 : isDigit c = true ∨ c = ch_minus
      · rw [if_pos h1, if_pos h1]
        exact ParseString_agrees heap s
      · rw [if_neg h1, if_neg h1]
        by_cases h2 : c = ch_i
        · rw [if_pos h2, if_pos h2]
          exact Or.inr rfl
        · rw [if_neg h2, if_neg h2]
          by_cases h3 : c = ch_l
          · rw [if_pos h3, if_pos h3]
            exact ParseListLoop_agrees _ _ ih fuel _ _
          · rw [if_neg h3, if_neg h3]
            by_cases h4 : c = ch_d
            · rw [if_pos h4, if_pos h4]
              exact ParseDictLoop_agrees _ _ ih fuel _ _ _
            · rw [if_neg h4, if_neg h4]
              exact Or.inr rfl

/-- The decoder with the construction of the String buffers throws an
exception of the standard library or does what `Parse` does: `Parse` is the
decoder of the runs in which every buffer is obtained. -/
theorem Parse_agrees (heap : Allocator) (input : Str) :
    (∃ e, Allocating.Parse heap input = .error e) ∨
      Allocating.Parse heap input = .ok (Parse input) := by
  unfold Allocating.Parse Parse
  dsimp only
  by_cases hp : IStream.peek ⟨input, false⟩ = none
  · rw [if_pos hp, if_pos hp]
    exact Or.inr rfl
  · rw [if_neg hp, if_neg hp]
    rcases ParseRecursive_agrees heap (input.length + 1) ⟨input, false⟩ with ⟨e, he⟩ | hok
    · rw [he]
      exact Or.inl ⟨e, rfl⟩
    · rw [hok]
      cases hr : ParseRecursive (input.length + 1) ⟨input, false⟩ with
      | ok value =>
        obtain ⟨root_elem, s1⟩ := value
        dsimp only
        split <;> exact Or.inr rfl
      | throw id => exact Or.inr rfl
      | outOfFuel => exact Or.inr rfl

/-- A length prefix in the range of `std::size_t` and `':'`: the decoder with
the construction of the String buffer throws what the construction of the
buffer of that length throws, and else does what `Parse` does. -/
theorem Parse_string_construct (heap : Allocator) (n : Nat) (hn1 : 1 ≤ n) (hn : n ≤ SIZE_MAX)
    (payload : Str) :
    Allocating.Parse heap (formatNat n ++ ch_colon :: payload) =
      match heap.construct n with
      | .error e => .error e
      | .ok _ => .ok (Parse (formatNat n ++ ch_colon :: payload)) := by
  obtain ⟨h1, h2, h3, h4⟩ := formatNat_spec n
  have hex := extractSizeT_formatNat n payload hn
  cases hf : formatNat n with
  | nil => exact absurd hf h1
  | cons d ds =>
    have hd : isDigit d = true := h2 d (by rw [hf]; exact List.mem_cons_self _ _)
    have hd0 : d ≠ ch_0 := by
      intro hh
      have : n = 0 := h4 (by rw [hf, hh]; rfl)
      omega
    have hdm : d ≠ ch_minus := by
      rw [isDigit_iff] at hd
      simp only [ch_minus]; omega
    rw [hf] at hex
    have hpk : IStream.peek ⟨(d :: ds) ++ ch_colon :: payload, false⟩ = some d := rfl
    have hstr : Allocating.ParseString heap ⟨(d :: ds) ++ ch_colon :: payload, false⟩ =
        match heap.construct n with
        | .error e => .error e
        | .ok _ => .ok (ParseString ⟨(d :: ds) ++ ch_colon :: payload, false⟩) := by
      have hget : (IStream.get ⟨ch_colon :: payload, false⟩).1 = some ch_colon := rfl
      simp only [Allocating.ParseString, ParseString, hpk, Option.some.injEq, hdm, hd0,
        if_false, hex]
      rw [ParseStringPayload_construct, if_neg (by rw [hget]; exact fun h => h rfl)]
    have hrec : ∀ fuel, Allocating.ParseRecursive heap (fuel + 1)
          ⟨(d :: ds) ++ ch_colon :: payload, false⟩ =
        match heap.construct n with
        | .error e => .error e
        | .ok _ => .ok (ParseRecursive (fuel + 1) ⟨(d :: ds) ++ ch_colon :: payload, false⟩) := by
      intro fuel
      simp only [Allocating.ParseRecursive, ParseRecursive, hpk, hd, true_or, if_true]
      exact hstr
    have hne : IStream.peek ⟨(d :: ds) ++ ch_colon :: payload, false⟩ ≠ none := by
      rw [hpk]
      exact fun h => by cases h
    unfold Allocating.Parse Parse
    dsimp only
    rw [if_neg hne, if_neg hne, hrec]
    cases heap.construct n with
    | error e => rfl
    | ok u =>
      dsimp only
      cases ParseRecursive (((d :: ds) ++ ch_colon :: payload).length + 1)
        ⟨(d :: ds) ++ ch_colon :: payload, false⟩ with
      | ok value =>
        obtain ⟨root_elem, s1⟩ := value
        dsimp only
        split <;> rfl
      | throw id => rfl
      | outOfFuel => rfl

/-- A length prefix above `max_size()` in the range of `std::size_t` and `':'`:
the construction of the buffer throws `std::length_error`, whatever follows. -/
theorem Parse_string_length_error (heap : Allocator) (n : Nat) (hn1 : 1 ≤ n)
    (hn : n ≤ SIZE_MAX) (hmax : heap.max_size < n) (payload : Str) :
    Allocating.Parse heap (formatNat n ++ ch_colon :: payload) = .error .length_error := by
  rw [Parse_string_construct heap n hn1 hn payload, construct_length_error heap n hmax]

/-- A length prefix up to `max_size()` in the range of `std::size_t` and `':'`,
with storage that is not obtained: the construction of the buffer throws
`std::bad_alloc`, whatever follows. -/
theorem Parse_string_bad_alloc (heap : Allocator) (n : Nat) (hn1 : 1 ≤ n)
    (hn : n ≤ SIZE_MAX) (hmax : n ≤ heap.max_size) (hobt : heap.obtains n = false)
    (payload : Str) :
    Allocating.Parse heap (formatNat n ++ ch_colon :: payload) = .error .bad_alloc := by
  have hc : heap.construct n = .error .bad_alloc := by
    have : ¬ heap.max_size < n := by omega
    simp [Allocator.construct, this, hobt]
  rw [Parse_string_construct heap n hn1 hn payload, hc]

/-- The length prefix `2^64 - 1`, the greatest of `std::size_t`, with no
payload: `max_size()` is below it, and the construction of the buffer throws
`std::length_error`. -/
theorem Parse_greatest_length_prefix (heap : Allocator) (hmax : heap.max_size < SIZE_MAX) :
    Allocating.Parse heap (bytes "18446744073709551615:") = .error .length_error :=
  Parse_string_length_error heap SIZE_MAX (by decide) (le_refl _) hmax []

/-- C12 fails as stated for a length that does not fit `std::size_t`: after
`"18446744073709551616:"` (the length 2^64 and no payload) the extraction has
failed, the `':'` is not seen and the error is `kStringMissingColon`, before
any buffer is constructed. -/
theorem C12_counterexample :
    Parse (bytes "18446744073709551616:") = .throw .kStringMissingColon ∧
      Parse (bytes "18446744073709551616:") ≠ .throw .kUnexpectedEOF ∧
      ∀ heap : Allocator, Allocating.Parse heap (bytes "18446744073709551616:")
        = .ok (.throw .kStringMissingColon) :=
  ⟨rfl, fun h => (by cases h), fun _ => rfl⟩

/-- C12 amended: for a length `n` with `1 ≤ n < 2^64` written without leading
zero, followed by `':'`, whose buffer `std::string(n, '\0')` is constructed (`n`
is at most `max_size()` and the storage is obtained), `Parse` fails with
`kUnexpectedEOF` when fewer than `n` bytes follow and returns the String of the
bytes that follow when there are exactly `n` of them. -/
theorem C12_string_payload (heap : Allocator) (n : Nat) (hn1 : 1 ≤ n) (hn : n ≤ SIZE_MAX)
    (hmax : n ≤ heap.max_size) (hobt : heap.obtains n = true) (payload : Str) :
    (payload.length < n →
      Allocating.Parse heap (formatNat n ++ ch_colon :: payload)
        = .ok (.throw .kUnexpectedEOF)) ∧
    (payload.length = n →
      Allocating.Parse heap (formatNat n ++ ch_colon :: payload)
        = .ok (.ok (.str payload))) := by
  have hparse := Parse_string_payload n hn1 hn payload
  rw [Parse_string_construct heap n hn1 hn payload, construct_obtained heap n hmax hobt]
  exact ⟨fun h => congrArg _ (hparse.1 h), fun h => congrArg _ (hparse.2 h)⟩

/-- C12 amended at the length 5, with a `max_size()` of `2^62 - 1` and a heap
that gives the 5 bytes: `"5:abc"` is truncated, `"5:abcde"` is not. -/
theorem C12_string_payload_witness :
    Allocating.Parse smallHeap (formatNat 5 ++ ch_colon :: bytes "abc")
        = .ok (.throw .kUnexpectedEOF) ∧
      Allocating.Parse smallHeap (formatNat 5 ++ ch_colon :: bytes "abcde")
        = .ok (.ok (.str (bytes "abcde"))) :=
  ⟨(C12_string_payload smallHeap 5 (by decide) (by decide) (by decide) (by decide)
      (bytes "abc")).1 (by decide),
   (C12_string_payload smallHeap 5 (by decide) (by decide) (by decide) (by decide)
      (bytes "abcde")).2 (by decide)⟩

/-- The extraction of a `long` from a `'-'` that no digit follows fails. -/
theorem extractLong_minus_nondigit (c : Nat) (hc : isDigit c = false) (rest : Str) :
    (IStream.extractLong ⟨ch_minus :: c :: rest, false⟩).2.fail = true := by
  simp [IStream.extractLong, spanDigits, hc]

/-- C13, the behaviour of the code: a byte that is not a decimal digit gives
`kIntegerNonDecimal` when it directly follows `'i'` (and is neither `'e'` nor
`'-'`), but after `"i-"` the failed extraction makes `peek` return `EOF` and
`Parse` fails with `kUnexpectedEOF`, whatever the byte and whatever follows. -/
theorem C13_integer_non_digit (c : Nat) (hc : isDigit c = false) (rest : Str) :
    (c ≠ ch_e → c ≠ ch_minus → Parse (ch_i :: c :: rest) = .throw .kIntegerNonDecimal) ∧
      Parse (ch_i :: ch_minus :: c :: rest) = .throw .kUnexpectedEOF := by
  have hi : isDigit ch_i = false := by decide
  have him : ch_i ≠ ch_minus := by decide
  constructor
  · intro he hm
    have hpk : IStream.peek ⟨ch_i :: c :: rest, false⟩ = some ch_i := rfl
    have hig : IStream.ignore ⟨ch_i :: c :: rest, false⟩ = ⟨c :: rest, false⟩ := rfl
    have hpk2 : IStream.peek ⟨c :: rest, false⟩ = some c := rfl
    simp only [Parse, hpk, ParseRecursive, hi, him, or_self, if_false, if_true, ParseInteger,
      hig, hpk2, he, hm, hc, Bool.false_eq_true]
    simp
  · have hpk : IStream.peek ⟨ch_i :: ch_minus :: c :: rest, false⟩ = some ch_i := rfl
    have hig : IStream.ignore ⟨ch_i :: ch_minus :: c :: rest, false⟩
        = ⟨ch_minus :: c :: rest, false⟩ := rfl
    have hpk2 : IStream.peek ⟨ch_minus :: c :: rest, false⟩ = some ch_minus := rfl
    have hme : ch_minus ≠ ch_e := by decide
    have hfail := extractLong_minus_nondigit c hc rest
    have hpk3 : (IStream.extractLong ⟨ch_minus :: c :: rest, false⟩).2.peek = none := by
      simp [IStream.peek, hfail]
    simp only [Parse, hpk, ParseRecursive, hi, him, or_self, if_false, if_true, ParseInteger,
      hig, hpk2, hme, true_or, hpk3, Bool.false_eq_true]
    simp

/-- C13 at the byte `'a'`: `"ia6e"` gives `kIntegerNonDecimal`, `"i-ae"` gives
`kUnexpectedEOF`. -/
theorem C13_integer_non_digit_witness :
    Parse (bytes "ia6e") = .throw .kIntegerNonDecimal ∧
      Parse (bytes "i-ae") = .throw .kUnexpectedEOF :=
  ⟨(C13_integer_non_digit 97 (by decide) (bytes "6e")).1 (by decide) (by decide),
   (C13_integer_non_digit 97 (by decide) (bytes "e")).2⟩

/-- C14: for a non-empty string `ds` of decimal digits whose value fits a signed
64-bit integer, leading zeros or not, `Parse` of `'i' ds 'e'` is the Integer
with the value of `ds` and `Parse` of `'i' '-' ds 'e'` is its negation. -/
theorem C14_integer_leading_zeros (ds : List Nat) (hne : ds ≠ [])
    (hds : ∀ d ∈ ds, isDigit d = true) (hfit : digitsValue ds ≤ 2 ^ 63 - 1) :
    Parse (ch_i :: (ds ++ [ch_e])) = .ok (.int (digitsValue ds)) ∧
      Parse (ch_i :: ch_minus :: (ds ++ [ch_e])) = .ok (.int (-(digitsValue ds : Int))) := by
  constructor
  · exact (Parse_ok_iff _ _ (by simp)).2
      ⟨ds, ⟨ds, hne, hds, Or.inl ⟨rfl, hfit, rfl⟩⟩, rfl⟩
  · exact (Parse_ok_iff _ _ (by simp)).2
      ⟨ch_minus :: ds, ⟨ds, hne, hds, Or.inr ⟨rfl, by omega, rfl⟩⟩, rfl⟩

/-- C14 at `"007"` and at `"0"`: `"i007e"` gives 7, `"i-007e"` gives -7 and
`"i-0e"` gives 0. -/
theorem C14_integer_leading_zeros_witness :
    (Parse (bytes "i007e") = .ok (.int 7) ∧ Parse (bytes "i-007e") = .ok (.int (-7))) ∧
      Parse (bytes "i-0e") = .ok (.int 0) :=
  ⟨C14_integer_leading_zeros (bytes "007") (by decide) (by decide) (by decide),
   (C14_integer_leading_zeros (bytes "0") (by decide) (by decide) (by decide)).2⟩

/-! ## Claims about the interface of `Bencode` -/

/-- C15: `push_back` turns a Null value into the one-element list and
`operator[](key)` turns it into the dictionary with the one entry `key -> Null`;
`push_back` on a String, Integer or Dictionary and `operator[](key)` on a
String, Integer or List throw `std::bad_variant_access` and leave the value as
it was. -/
theorem C15_mutators_on_null_and_other_tags (elem : Bencode) (key : Str) (v : Bencode) :
    Bencode.null.push_back elem = (.list [elem], .ok ()) ∧
    Bencode.null.indexKey key = (.dict [(key, .null)], .ok .null) ∧
    (v.Type = .kString ∨ v.Type = .kInteger ∨ v.Type = .kDictionary →
      v.push_back elem = (v, .error .bad_variant_access)) ∧
    (v.Type = .kString ∨ v.Type = .kInteger ∨ v.Type = .kList →
      v.indexKey key = (v, .error .bad_variant_access)) := by
  refine ⟨rfl, rfl, ?_, ?_⟩
  · intro h
    cases v <;> simp [Bencode.Type] at h <;> rfl
  · intro h
    cases v <;> simp [Bencode.Type] at h <;> rfl

/-- C15 at the element 10, the key `"foo"` and the String `"bar"`. -/
theorem C15_mutators_on_null_and_other_tags_witness :
    Bencode.null.push_back (.int 10) = (.list [.int 10], .ok ()) ∧
    Bencode.null.indexKey (bytes "foo") = (.dict [(bytes "foo", .null)], .ok .null) ∧
    (Bencode.str (bytes "bar")).push_back (.int 10)
      = (.str (bytes "bar"), .error .bad_variant_access) ∧
    (Bencode.str (bytes "bar")).indexKey (bytes "foo")
      = (.str (bytes "bar"), .error .bad_variant_access) :=
  have h := C15_mutators_on_null_and_other_tags (.int 10) (bytes "foo") (.str (bytes "bar"))
  ⟨h.1, h.2.1, h.2.2.1 (Or.inl rfl), h.2.2.2 (Or.inl rfl)⟩

/-- C16: each typed accessor throws `std::bad_variant_access` exactly when the
tag is not the one it needs: String for `get_string`, Integer for `get_int`,
List for `at(idx)`, `operator[](idx)` and `erase(idx)`, Dictionary for
`at(key)`, `erase(key)` and `items()`; `get_string`, `get_int`, `erase(key)`
and `items()` return exactly on that tag. -/
theorem C16_typed_accessors (v : Bencode) (idx : Nat) (key : Str) :
    ((v.get_string = .error .bad_variant_access ↔ v.Type ≠ .kString) ∧
      ((∃ s, v.get_string = .ok s) ↔ v.Type = .kString)) ∧
    ((v.get_int = .error .bad_variant_access ↔ v.Type ≠ .kInteger) ∧
      ((∃ n, v.get_int = .ok n) ↔ v.Type = .kInteger)) ∧
    (v.atIdx idx = .error .bad_variant_access ↔ v.Type ≠ .kList) ∧
    (v.indexIdx idx = .error .bad_variant_access ↔ v.Type ≠ .kList) ∧
    ((v.eraseIdx idx).2 = .error .bad_variant_access ↔ v.Type ≠ .kList) ∧
    (v.atKey key = .error .bad_variant_access ↔ v.Type ≠ .kDictionary) ∧
    (((v.eraseKey key).2 = .error .bad_variant_access ↔ v.Type ≠ .kDictionary) ∧
      ((∃ n, (v.eraseKey key).2 = .ok n) ↔ v.Type = .kDictionary)) ∧
    ((v.items = .error .bad_variant_access ↔ v.Type ≠ .kDictionary) ∧
      ((∃ entries, v.items = .ok entries) ↔ v.Type = .kDictionary)) := by
  cases v with
  | null =>
    simp [Bencode.get_string, Bencode.get_int, Bencode.atIdx, Bencode.indexIdx,
      Bencode.eraseIdx, Bencode.atKey, Bencode.eraseKey, Bencode.items, Bencode.Type]
  | str s =>
    simp [Bencode.get_string, Bencode.get_int, Bencode.atIdx, Bencode.indexIdx,
      Bencode.eraseIdx, Bencode.atKey, Bencode.eraseKey, Bencode.items, Bencode.Type]
  | int n =>
    simp [Bencode.get_string, Bencode.get_int, Bencode.atIdx, Bencode.indexIdx,
      Bencode.eraseIdx, Bencode.atKey, Bencode.eraseKey, Bencode.items, Bencode.Type]
  | list l =>
    have h1 : Bencode.atIdx (.list l) idx ≠ .error .bad_variant_access := by
      simp only [Bencode.atIdx]
      cases l[idx]? <;> simp
    have h2 : Bencode.indexIdx (.list l) idx ≠ .error .bad_variant_access := by
      simp only [Bencode.indexIdx]
      split
      · simp
      · cases l[idx]? <;> simp
    have h3 : (Bencode.eraseIdx (.list l) idx).2 ≠ .error .bad_variant_access := by
      simp only [Bencode.eraseIdx]
      split
      · simp
      · split <;> simp
    simp [Bencode.get_string, Bencode.get_int, Bencode.atKey, Bencode.eraseKey,
      Bencode.items, Bencode.Type, h1, h2, h3]
  | dict d =>
    have h1 : Bencode.atKey (.dict d) key ≠ .error .bad_variant_access := by
      simp only [Bencode.atKey]
      cases mapFind key d <;> simp
    simp [Bencode.get_string, Bencode.get_int, Bencode.atIdx, Bencode.indexIdx,
      Bencode.eraseIdx, Bencode.eraseKey, Bencode.items, Bencode.Type, h1]

/-- C17: on a List of size `n`, `at(idx)` and `operator[](idx)` throw
`std::out_of_range`, which is not the type-mismatch error, for every `idx ≥ n`
and return the element at position `idx` for every `idx < n`. -/
theorem C17_index_out_of_range (l : List Bencode) (idx : Nat) :
    (l.length ≤ idx →
      (Bencode.list l).atIdx idx = .error .out_of_range ∧
      (Bencode.list l).indexIdx idx = .error .out_of_range) ∧
    (∀ h : idx < l.length,
      (Bencode.list l).atIdx idx = .ok (l.get ⟨idx, h⟩) ∧
      (Bencode.list l).indexIdx idx = .ok (l.get ⟨idx, h⟩)) ∧
    Fault.out_of_range ≠ Fault.bad_variant_access := by
  refine ⟨?_, ?_, by decide⟩
  · intro h
    have hnone : l[idx]? = none := List.getElem?_eq_none h
    simp [Bencode.atIdx, Bencode.indexIdx, Bencode.size, hnone, h]
  · intro h
    have hsome : l[idx]? = some (l.get ⟨idx, h⟩) := by
      simp [List.getElem?_eq_getElem h]
    have hlt : ¬ (idx ≥ l.length) := by omega
    simp only [Bencode.atIdx, Bencode.indexIdx, Bencode.size, hsome, if_neg hlt, and_self]

/-- C17 on the list `[1, 2, 3]`: the indices 3 and 7 are out of range, the
index 1 gives the element 2. -/
theorem C17_index_out_of_range_witness :
    ((Bencode.list [.int 1, .int 2, .int 3]).atIdx 3 = .error .out_of_range ∧
      (Bencode.list [.int 1, .int 2, .int 3]).indexIdx 3 = .error .out_of_range) ∧
    ((Bencode.list [.int 1, .int 2, .int 3]).atIdx 7 = .error .out_of_range ∧
      (Bencode.list [.int 1, .int 2, .int 3]).indexIdx 7 = .error .out_of_range) ∧
    ((Bencode.list [.int 1, .int 2, .int 3]).atIdx 1 = .ok (.int 2) ∧
      (Bencode.list [.int 1, .int 2, .int 3]).indexIdx 1 = .ok (.int 2)) :=
  ⟨(C17_index_out_of_range [.int 1, .int 2, .int 3] 3).1 (by decide),
   (C17_index_out_of_range [.int 1, .int 2, .int 3] 7).1 (by decide),
   (C17_index_out_of_range [.int 1, .int 2, .int 3] 1).2.1 (by decide)⟩

/-- C18, the behaviour of the code: on a List of size `n`, `erase(idx)` throws
`std::out_of_range` and leaves the list as it was for `idx = n`, removes the
element for `idx < n`, and has undefined behaviour for every `idx > n`, where
no exception is promised. -/
theorem C18_erase_out_of_range (l : List Bencode) (idx : Nat) :
    (idx = l.length → (Bencode.list l).eraseIdx idx = (.list l, .error .out_of_range)) ∧
    (idx < l.length → (Bencode.list l).eraseIdx idx = (.list (l.eraseIdx idx), .ok ())) ∧
    (l.length < idx → (Bencode.list l).eraseIdx idx = (.list l, .error .undefined)) := by
  refine ⟨?_, ?_, ?_⟩
  · intro h
    have h1 : ¬ (l.length < idx) := by omega
    simp only [Bencode.eraseIdx, if_neg h1, if_pos h]
  · intro h
    have h1 : ¬ (l.length < idx) := by omega
    have h2 : ¬ (idx = l.length) := by omega
    simp only [Bencode.eraseIdx, if_neg h1, if_neg h2]
  · intro h
    simp only [Bencode.eraseIdx, if_pos h]

/-- C18 on the list `[1, 2, 3]`: `erase(3)` throws `std::out_of_range`,
`erase(1)` removes the 2, `erase(4)` is undefined behaviour. -/
theorem C18_erase_out_of_range_witness :
    (Bencode.list [.int 1, .int 2, .int 3]).eraseIdx 3
      = (.list [.int 1, .int 2, .int 3], .error .out_of_range) ∧
    (Bencode.list [.int 1, .int 2, .int 3]).eraseIdx 1 = (.list [.int 1, .int 3], .ok ()) ∧
    (Bencode.list [.int 1, .int 2, .int 3]).eraseIdx 4
      = (.list [.int 1, .int 2, .int 3], .error .undefined) :=
  ⟨(C18_erase_out_of_range [.int 1, .int 2, .int 3] 3).1 (by decide),
   (C18_erase_out_of_range [.int 1, .int 2, .int 3] 1).2.1 (by decide),
   (C18_erase_out_of_range [.int 1, .int 2, .int 3] 4).2.2 (by decide)⟩

/-! ## Lemmas: the order of the keys of a dictionary -/

theorem mem_mapAssign (key : Str) (value : Bencode) (m : List (Str × Bencode))
    (kv : Str × Bencode) (h : kv ∈ mapAssign key value m) : kv = (key, value) ∨ kv ∈ m := by
  induction m with
  | nil => simpa [mapAssign] using h
  | cons p m ih =>
    obtain ⟨k, v⟩ := p
    simp only [mapAssign] at h
    split at h
    · rcases List.mem_cons.1 h with h | h
      · exact Or.inl h
      · exact Or.inr h
    · split at h
      · rcases List.mem_cons.1 h with h | h
        · exact Or.inr (by rw [h]; exact List.mem_cons_self _ _)
        · rcases ih h with h | h
          · exact Or.inl h
          · exact Or.inr (List.mem_cons_of_mem _ h)
      · rcases List.mem_cons.1 h with h | h
        · exact Or.inl h
        · exact Or.inr (List.mem_cons_of_mem _ h)

/-- The assignment `m[key] = value` keeps the keys strictly ascending, whether
`key` was in the map or not. -/
theorem mapAssign_ascending (key : Str) (value : Bencode) (m : List (Str × Bencode))
    (hm : keysAscending (m.map Prod.fst) = true) :
    keysAscending ((mapAssign key value m).map Prod.fst) = true := by
  apply pairwise_keysAscending
  have hp := keysAscending_pairwise _ hm
  clear hm
  induction m with
  | nil => simp [mapAssign]
  | cons p m ih =>
    obtain ⟨k, v⟩ := p
    simp only [List.map_cons, List.pairwise_cons] at hp
    obtain ⟨hk, hrest⟩ := hp
    simp only [mapAssign]
    by_cases h1 : strLt key k = true
    · rw [if_pos h1]
      simp only [List.map_cons, List.pairwise_cons]
      refine ⟨?_, hk, hrest⟩
      intro a ha
      rcases List.mem_cons.1 ha with ha | ha
      · rw [ha]; exact h1
      · exact strLt_trans _ _ _ h1 (hk a ha)
    · rw [if_neg h1]
      by_cases h2 : strLt k key = true
      · rw [if_pos h2]
        simp only [List.map_cons, List.pairwise_cons]
        refine ⟨?_, ih hrest⟩
        intro a ha
        obtain ⟨kv, hkv, hfst⟩ := List.mem_map.1 ha
        rcases mem_mapAssign key value m kv hkv with h | h
        · rw [← hfst, h]; exact h2
        · exact hk a (by rw [← hfst]; exact List.mem_map_of_mem _ h)
      · rw [if_neg h2]
        have heq : key = k := strLt_total key k (by simpa using h1) (by simpa using h2)
        simp only [List.map_cons, List.pairwise_cons]
        rw [heq]
        exact ⟨hk, hrest⟩

theorem mapErase_sublist (key : Str) (m : List (Str × Bencode)) :
    (mapErase key m).Sublist m := by
  induction m with
  | nil => exact List.Sublist.slnil
  | cons p m ih =>
    obtain ⟨k, v⟩ := p
    simp only [mapErase]
    split
    · exact List.Sublist.cons _ ih
    · exact List.Sublist.cons₂ _ ih

/-- The removal of a key keeps the keys strictly ascending. -/
theorem mapErase_ascending (key : Str) (m : List (Str × Bencode))
    (hm : keysAscending (m.map Prod.fst) = true) :
    keysAscending ((mapErase key m).map Prod.fst) = true :=
  pairwise_keysAscending _
    ((keysAscending_pairwise _ hm).sublist ((mapErase_sublist key m).map Prod.fst))

theorem DictsOrderedItems_iff (d : List (Str × Bencode)) :
    DictsOrderedItems d = true ↔ ∀ kv ∈ d, kv.2.DictsOrdered = true := by
  induction d with
  | nil => simp [DictsOrderedItems]
  | cons p d ih =>
    obtain ⟨k, v⟩ := p
    simp [DictsOrderedItems, ih]

theorem DictsOrdered_dict (d : List (Str × Bencode)) :
    (Bencode.dict d).DictsOrdered = true ↔
      keysAscending (d.map Prod.fst) = true ∧ ∀ kv ∈ d, kv.2.DictsOrdered = true := by
  simp [Bencode.DictsOrdered, DictsOrderedItems_iff]

mutual
/-- A value the C++ type can hold has its dictionaries in key order. -/
theorem DictsOrdered_of_Representable : ∀ (v : Bencode), v.Representable = true →
    v.DictsOrdered = true
  | .null, _ => rfl
  | .str _, _ => rfl
  | .int _, _ => rfl
  | .list l, h => by
    simp only [Bencode.Representable] at h
    simp only [Bencode.DictsOrdered]
    exact DictsOrderedElems_of_Representable l h
  | .dict d, h => by
    simp only [Bencode.Representable, Bool.and_eq_true] at h
    simp only [Bencode.DictsOrdered, Bool.and_eq_true]
    exact ⟨h.1, DictsOrderedItems_of_Representable d h.2⟩
theorem DictsOrderedElems_of_Representable : ∀ (l : List Bencode),
    RepresentableElems l = true → DictsOrderedElems l = true
  | [], _ => rfl
  | elem :: rest, h => by
    simp only [RepresentableElems, Bool.and_eq_true] at h
    simp only [DictsOrderedElems, Bool.and_eq_true]
    exact ⟨DictsOrdered_of_Representable elem h.1, DictsOrderedElems_of_Representable rest h.2⟩
theorem DictsOrderedItems_of_Representable : ∀ (d : List (Str × Bencode)),
    RepresentableItems d = true → DictsOrderedItems d = true
  | [], _ => rfl
  | (_, value) :: rest, h => by
    simp only [RepresentableItems, Bool.and_eq_true] at h
    simp only [DictsOrderedItems, Bool.and_eq_true]
    exact ⟨DictsOrdered_of_Representable value h.1.2,
      DictsOrderedItems_of_Representable rest h.2⟩
end

theorem mapAssign_ordered (key : Str) (value : Bencode) (d : List (Str × Bencode))
    (hd : (Bencode.dict d).DictsOrdered = true) (hv : value.DictsOrdered = true) :
    (Bencode.dict (mapAssign key value d)).DictsOrdered = true := by
  rw [DictsOrdered_dict] at hd ⊢
  refine ⟨mapAssign_ascending key value d hd.1, ?_⟩
  intro kv hkv
  rcases mem_mapAssign key value d kv hkv with h | h
  · rw [h]; exact hv
  · exact hd.2 kv h

/-- The second loop of the initializer-list constructor keeps the map in key
order. -/
theorem initDict_ordered : ∀ (n : Nat) (init : List Bencode) (data : List (Str × Bencode)),
    init.length ≤ n → (∀ e ∈ init, e.DictsOrdered = true) →
    (Bencode.dict data).DictsOrdered = true →
    (Bencode.dict (initDict init data)).DictsOrdered = true := by
  intro n
  induction n with
  | zero =>
    intro init data hlen _ hd
    have : init = [] := List.length_eq_zero.1 (by omega)
    subst this
    simpa [initDict] using hd
  | succ n ih =>
    intro init data hlen hi hd
    match init, hlen, hi with
    | [], _, _ => simpa [initDict] using hd
    | [_], _, _ => simpa [initDict] using hd
    | .str key :: value :: rest, hlen, hi =>
      simp only [initDict]
      refine ih rest _ (by simp only [List.length_cons] at hlen; omega)
        (fun e he => hi e (List.mem_cons_of_mem _ (List.mem_cons_of_mem _ he)))
        (mapAssign_ordered key value data hd
          (hi value (List.mem_cons_of_mem _ (List.mem_cons_self _ _))))
    | .null :: _ :: _, _, _ => simpa [initDict] using hd
    | .int _ :: _ :: _, _, _ => simpa [initDict] using hd
    | .list _ :: _ :: _, _, _ => simpa [initDict] using hd
    | .dict _ :: _ :: _, _, _ => simpa [initDict] using hd

theorem DictsOrderedElems_iff (l : List Bencode) :
    DictsOrderedElems l = true ↔ ∀ e ∈ l, e.DictsOrdered = true := by
  induction l with
  | nil => simp [DictsOrderedElems]
  | cons e l ih => simp [DictsOrderedElems, ih]

/-- C19: the dictionaries of a value returned by `Parse`, built from an
initializer list, or changed by `operator[](key)`, by an assignment through it,
by `erase(key)` or by `clear` all have strictly ascending keys; and a
dictionary with that invariant has pairwise distinct keys, its iteration from
`begin()` to `end()` yields its keys and `items()` its entries in strictly
ascending bytewise order of the keys. -/
theorem C19_dictionary_invariant :
    (∀ (b : Str) (v : Bencode), Parse b = .ok v → v.DictsOrdered = true) ∧
    (∀ init : List Bencode, (∀ e ∈ init, e.DictsOrdered = true) →
      (Bencode.ofInitializerList init).DictsOrdered = true) ∧
    (∀ (v : Bencode) (key : Str), v.DictsOrdered = true →
      (v.indexKey key).1.DictsOrdered = true) ∧
    (∀ (v : Bencode) (key : Str) (value : Bencode), v.DictsOrdered = true →
      value.DictsOrdered = true → (v.assignKey key value).1.DictsOrdered = true) ∧
    (∀ (v : Bencode) (key : Str), v.DictsOrdered = true →
      (v.eraseKey key).1.DictsOrdered = true) ∧
    (∀ v : Bencode, v.clear.DictsOrdered = true) ∧
    (∀ d : List (Str × Bencode), (Bencode.dict d).DictsOrdered = true →
      (d.map Prod.fst).Nodup ∧
      (d.map Prod.fst).Pairwise (fun a b => List.Lex (fun x y : Nat => x < y) a b) ∧
      (Bencode.dict d).iterate = .ok ((d.map Prod.fst).map Bencode.str) ∧
      (Bencode.dict d).items = .ok d) := by
  refine ⟨?_, ?_, ?_, ?_, ?_, ?_, ?_⟩
  · intro b v h
    by_cases hb : b = []
    · subst hb
      have : v = .null := by
        have h2 : Parse [] = .ok .null := rfl
        rw [h2] at h
        cases h
        rfl
      subst this
      rfl
    · exact DictsOrdered_of_Representable v
        (Encoding_valid v b ((Parse_ok_iff b v hb).1 h)).2
  · intro init hi
    simp only [Bencode.ofInitializerList]
    split
    · simp only [Bencode.DictsOrdered]
      exact (DictsOrderedElems_iff init).2 hi
    · split
      · exact initDict_ordered init.length init [] (le_refl _) hi rfl
      · simp only [Bencode.DictsOrdered]
        exact (DictsOrderedElems_iff init).2 hi
  · intro v key hv
    cases v with
    | null => rfl
    | str s => exact hv
    | int n => exact hv
    | list l => exact hv
    | dict d =>
      simp only [Bencode.indexKey]
      split
      · exact hv
      · exact mapAssign_ordered key .null d hv rfl
  · intro v key value hv hvalue
    cases v with
    | null =>
      simp only [Bencode.assignKey]
      exact (DictsOrdered_dict _).2 ⟨rfl, by simpa using hvalue⟩
    | str s => exact hv
    | int n => exact hv
    | list l => exact hv
    | dict d => exact mapAssign_ordered key value d hv hvalue
  · intro v key hv
    cases v with
    | null => exact hv
    | str s => exact hv
    | int n => exact hv
    | list l => exact hv
    | dict d =>
      simp only [Bencode.eraseKey]
      rw [DictsOrdered_dict] at hv ⊢
      exact ⟨mapErase_ascending key d hv.1,
        fun kv hkv => hv.2 kv ((mapErase_sublist key d).subset hkv)⟩
  · intro v
    cases v <;> rfl
  · intro d hd
    rw [DictsOrdered_dict] at hd
    refine ⟨nodup_of_keysAscending _ hd.1, ?_, by simp [Bencode.iterate], rfl⟩
    exact (keysAscending_pairwise _ hd.1).imp (fun h => (strLt_iff_lex _ _).1 h)

/-- C19 on the dictionary built from the initializer list
`"foo", 10, "bar", "baz", "foo", 11`: the entry of `"foo"` is there once, and
the iteration yields `"bar"` before `"foo"`. -/
theorem C19_dictionary_invariant_witness :
    (Bencode.ofInitializerList [.str (bytes "foo"), .int 10, .str (bytes "bar"),
      .str (bytes "baz"), .str (bytes "foo"), .int 11]).DictsOrdered = true ∧
    ([(bytes "bar", Bencode.str (bytes "baz")), (bytes "foo", Bencode.int 11)].map
      Prod.fst).Nodup ∧
    (Bencode.dict [(bytes "bar", .str (bytes "baz")), (bytes "foo", .int 11)]).iterate
      = .ok [.str (bytes "bar"), .str (bytes "foo")] ∧
    (Bencode.dict [(bytes "bar", .str (bytes "baz")), (bytes "foo", .int 11)]).items
      = .ok [(bytes "bar", .str (bytes "baz")), (bytes "foo", .int 11)] :=
  have h := C19_dictionary_invariant.2.2.2.2.2.2
    [(bytes "bar", .str (bytes "baz")), (bytes "foo", .int 11)] (by decide)
  ⟨C19_dictionary_invariant.2.1 _ (by decide), h.1, h.2.2.1, h.2.2.2⟩

/-! ## Lemmas: the constructor of `Metainfo` against the list of checks -/

theorem Type_null : Bencode.null.Type = .kNull := rfl
theorem Type_str (s : Str) : (Bencode.str s).Type = .kString := rfl
theorem Type_int (n : Int) : (Bencode.int n).Type = .kInteger := rfl
theorem Type_list (l : List Bencode) : (Bencode.list l).Type = .kList := rfl
theorem Type_dict (d : List (Str × Bencode)) : (Bencode.dict d).Type = .kDictionary := rfl

theorem parse_sub_paths_eq (segs : List Bencode) : ∀ path : Str,
    parse_sub_paths segs path =
      if segs.any (fun sub => decide (sub.Type ≠ .kString)) = true then
        .error (.metainfoError .kSubPathNotString)
      else .ok (path ++ segs.flatMap (fun sub => specStr (some sub) ++ [ch_slash])) := by
  induction segs with
  | nil => intro path; simp [parse_sub_paths, pure, Except.pure]
  | cons sub rest ih =>
    intro path
    cases sub <;>
      simp [parse_sub_paths, Type_null, Type_str, Type_int, Type_list, Type_dict,
        Bencode.get_string, access, ih, specStr, bind,
        Except.bind, throw, throwThe, MonadExceptOf.throw, pure, Except.pure]

theorem parse_file_eq (file : Bencode) (total : Int) :
    parse_file file total =
      match (specFileChecks file).find? (fun check => check.2) with
      | some check => .error (.metainfoError check.1)
      | none => .ok (⟨specPath file, specInt (specField file (bytes "length")), []⟩,
          toLong (total + specInt (specField file (bytes "length")))) := by
  cases file with
  | null => rfl
  | str s => rfl
  | int n => rfl
  | list l => rfl
  | dict d =>
    cases hl : mapFind (bytes "length") d with
    | none =>
      simp [parse_file, specFileChecks, Type_dict, Bencode.contains, specField, hl, bind,
        Except.bind, throw, throwThe, MonadExceptOf.throw, pure, Except.pure]
    | some length =>
      cases hp : mapFind (bytes "path") d with
      | none =>
        cases length <;>
          simp [parse_file, specFileChecks, Type_null, Type_str, Type_int, Type_list, Type_dict,
            Bencode.contains, specField, hl, hp,
            bind, Except.bind, throw, throwThe, MonadExceptOf.throw, pure, Except.pure,
            Bencode.atKey, access, specHasType, Bencode.get_int]
      | some path =>
        cases length with
        | int n =>
          cases path with
          | list l =>
            by_cases he : l = []
            · subst he
              simp [parse_file, specFileChecks, Type_int, Type_list, Type_dict,
                Bencode.contains, specField, hl, hp, bind, Except.bind, throw, throwThe,
                MonadExceptOf.throw, pure, Except.pure, Bencode.atKey, access, specHasType,
                Bencode.get_int, Bencode.empty, specList]
            · by_cases ha : ∃ x ∈ l, ¬ x.Type = .kString
              · simp [parse_file, specFileChecks, Type_int, Type_list, Type_dict,
                  Bencode.contains, specField, hl, hp, bind, Except.bind, throw, throwThe,
                  MonadExceptOf.throw, pure, Except.pure, Bencode.atKey, access, specHasType,
                  Bencode.get_int, Bencode.empty, specList, Bencode.iterate,
                  parse_sub_paths_eq, he, ha]
              · simp [parse_file, specFileChecks, Type_int, Type_list, Type_dict,
                  Bencode.contains, specField, hl, hp, bind, Except.bind, throw, throwThe,
                  MonadExceptOf.throw, pure, Except.pure, Bencode.atKey, access, specHasType,
                  Bencode.get_int, Bencode.empty, specList, Bencode.iterate,
                  parse_sub_paths_eq, specInt, specPath, he, ha]
          | _ =>
            simp [parse_file, specFileChecks, Type_null, Type_str, Type_int, Type_dict,
              Bencode.contains, specField, hl, hp, bind, Except.bind, throw, throwThe,
              MonadExceptOf.throw, pure, Except.pure, Bencode.atKey, access, specHasType,
              Bencode.get_int]
        | _ =>
          simp [parse_file, specFileChecks, Type_null, Type_str, Type_list, Type_dict,
            Bencode.contains, specField, hl, hp, bind, Except.bind, throw, throwThe,
            MonadExceptOf.throw, pure, Except.pure, Bencode.atKey, access, specHasType]

theorem parse_files_eq (files : List Bencode) : ∀ (file_list_ : List File) (total : Int),
    parse_files files file_list_ total =
      match (files.flatMap specFileChecks).find? (fun check => check.2) with
      | some check => .error (.metainfoError check.1)
      | none => .ok (file_list_ ++ files.map
            (fun file => ⟨specPath file, specInt (specField file (bytes "length")), []⟩),
          files.foldl
            (fun total file => toLong (total + specInt (specField file (bytes "length"))))
            total) := by
  induction files with
  | nil => intro file_list_ total; simp [parse_files, pure, Except.pure]
  | cons file rest ih =>
    intro file_list_ total
    simp only [parse_files, bind, Except.bind, parse_file_eq, List.flatMap_cons,
      List.find?_append]
    cases hf : (specFileChecks file).find? (fun check => check.2) with
    | some check => simp
    | none => simp [ih]

theorem contains_eq (v : Bencode) (key : Str) :
    v.contains key = (specField v key).isSome := by
  cases v <;> rfl

theorem atKey_of_specField (v : Bencode) (key : Str) (value : Bencode)
    (h : specField v key = some value) : v.atKey key = .ok value := by
  cases v with
  | dict d =>
    simp only [specField] at h
    simp [Bencode.atKey, h]
  | _ => simp [specField] at h

theorem parse_announce_eq (top_ : Bencode) :
    parse_announce top_ =
      match specField top_ (bytes "announce") with
      | none => .error (.metainfoError .kMissingAnnounce)
      | some (.str s) => .ok s
      | some _ => .error (.metainfoError .kAnnounceNotString) := by
  cases h : specField top_ (bytes "announce") with
  | none =>
    simp [parse_announce, contains_eq, h, bind, Except.bind, throw, throwThe,
      MonadExceptOf.throw]
  | some value =>
    cases value <;>
      simp [parse_announce, contains_eq, h, atKey_of_specField _ _ _ h, bind, Except.bind,
        throw, throwThe, MonadExceptOf.throw, pure, Except.pure, Type_null, Type_str, Type_int,
        Type_list, Type_dict, Bencode.get_string, access]

theorem parse_info_eq (top_ : Bencode) :
    parse_info top_ =
      match specField top_ (bytes "info") with
      | none => .error (.metainfoError .kMissingInfo)
      | some (.dict d) => .ok (.dict d)
      | some _ => .error (.metainfoError .kInfoNotDict) := by
  cases h : specField top_ (bytes "info") with
  | none =>
    simp [parse_info, contains_eq, h, bind, Except.bind, throw, throwThe,
      MonadExceptOf.throw]
  | some value =>
    cases value <;>
      simp [parse_info, contains_eq, h, atKey_of_specField _ _ _ h, bind, Except.bind,
        throw, throwThe, MonadExceptOf.throw, pure, Except.pure, Type_null, Type_str, Type_int,
        Type_list, Type_dict, access]

theorem parse_name_eq (info_ : Bencode) :
    parse_name info_ =
      match specField info_ (bytes "name") with
      | none => .error (.metainfoError .kMissingName)
      | some (.str s) => .ok s
      | some _ => .error (.metainfoError .kNameNotString) := by
  cases h : specField info_ (bytes "name") with
  | none =>
    simp [parse_name, contains_eq, h, bind, Except.bind, throw, throwThe,
      MonadExceptOf.throw]
  | some value =>
    cases value <;>
      simp [parse_name, contains_eq, h, atKey_of_specField _ _ _ h, bind, Except.bind,
        throw, throwThe, MonadExceptOf.throw, pure, Except.pure, Type_null, Type_str, Type_int,
        Type_list, Type_dict, Bencode.get_string, access]

theorem parse_piece_length_eq (info_ : Bencode) :
    parse_piece_length info_ =
      match specField info_ (bytes "piece length") with
      | none => .error (.metainfoError .kMissingPieceLength)
      | some (.int n) =>
        if n < 1 then .error (.metainfoError .kPieceLengthInvalid) else .ok n
      | some _ => .error (.metainfoError .kPieceLengthNotInt) := by
  cases h : specField info_ (bytes "piece length") with
  | none =>
    simp [parse_piece_length, contains_eq, h, bind, Except.bind, throw, throwThe,
      MonadExceptOf.throw]
  | some value =>
    cases value with
    | int n =>
      by_cases hn : n < 1 <;>
      simp [parse_piece_length, contains_eq, h, atKey_of_specField _ _ _ h, bind, Except.bind,
        throw, throwThe, MonadExceptOf.throw, pure, Except.pure, Type_int,
        Bencode.get_int, access, hn]
    | _ =>
      simp [parse_piece_length, contains_eq, h, atKey_of_specField _ _ _ h, bind, Except.bind,
        throw, throwThe, MonadExceptOf.throw, pure, Except.pure, Type_null, Type_str,
        Type_list, Type_dict, access]

theorem atKey_of_specField_none (v : Bencode) (key : Str) (h : specField v key = none) :
    v.atKey key
      = .error (if v.Type = .kDictionary then .out_of_range else .bad_variant_access) := by
  cases v with
  | dict d =>
    simp only [specField] at h
    simp [Bencode.atKey, h, Type_dict]
  | _ => rfl

theorem parse_single_file_eq (info_ : Bencode) (name_ : Str) :
    parse_single_file info_ name_ =
      match specField info_ (bytes "length") with
      | some (.int n) =>
        if n < 1 then .error (.metainfoError .kLengthInvalid) else .ok ([⟨name_, n, []⟩], n)
      | some _ => .error (.metainfoError .kLengthNotInt)
      | none => .error (.fault
          (if info_.Type = .kDictionary then .out_of_range else .bad_variant_access)) := by
  cases h : specField info_ (bytes "length") with
  | none =>
    simp [parse_single_file, atKey_of_specField_none _ _ h, bind, Except.bind, access]
  | some value =>
    cases value with
    | int n =>
      by_cases hn : n < 1 <;>
      simp [parse_single_file, atKey_of_specField _ _ _ h, bind, Except.bind,
        throw, throwThe, MonadExceptOf.throw, pure, Except.pure, Type_int,
        Bencode.get_int, access, hn]
    | _ =>
      simp [parse_single_file, atKey_of_specField _ _ _ h, bind, Except.bind,
        throw, throwThe, MonadExceptOf.throw, pure, Except.pure, Type_null, Type_str,
        Type_list, Type_dict, access]

theorem parse_file_list_eq (info_ : Bencode) :
    parse_file_list info_ =
      match specField info_ (bytes "files") with
      | some (.list l) =>
        if l.isEmpty then .error (.metainfoError .kFilesEmpty) else parse_files l [] 0
      | some _ => .error (.metainfoError .kFilesNotList)
      | none => .error (.fault
          (if info_.Type = .kDictionary then .out_of_range else .bad_variant_access)) := by
  cases h : specField info_ (bytes "files") with
  | none =>
    simp [parse_file_list, atKey_of_specField_none _ _ h, bind, Except.bind, access]
  | some value =>
    cases value with
    | list l =>
      by_cases hn : l.isEmpty = true <;>
      simp [parse_file_list, atKey_of_specField _ _ _ h, bind, Except.bind,
        throw, throwThe, MonadExceptOf.throw, pure, Except.pure, Type_list,
        Bencode.iterate, Bencode.empty, access, hn]
    | _ =>
      simp [parse_file_list, atKey_of_specField _ _ _ h, bind, Except.bind,
        throw, throwThe, MonadExceptOf.throw, pure, Except.pure, Type_null, Type_str,
        Type_int, Type_dict, access]

theorem parse_pieces_eq (info_ : Bencode) (piece_length_ : Int) (files : List File × Int) :
    parse_pieces info_ piece_length_ files =
      match specField info_ (bytes "pieces") with
      | none => .error (.metainfoError .kMissingPieces)
      | some (.str pieces) =>
        if pieces.length = 0 ∨ pieces.length % 20 ≠ 0 then
          .error (.metainfoError .kPiecesInvalid)
        else if ceilQuotient files.2 piece_length_
            ≠ (roundToDouble (make_pieces (pieces.length / 20) pieces).length : Int) then
          .error (.metainfoError .kPiecesLengthMismatch)
        else
          match attribute_pieces (set_piece_lengths (make_pieces (pieces.length / 20) pieces)
            piece_length_ files.2) files.1 0 0 [] with
          | .ok file_list_ => .ok (file_list_, set_piece_lengths
              (make_pieces (pieces.length / 20) pieces) piece_length_ files.2)
          | .error e => .error e
      | some _ => .error (.metainfoError .kPiecesNotString) := by
  cases h : specField info_ (bytes "pieces") with
  | none =>
    simp [parse_pieces, contains_eq, h, bind, Except.bind, throw, throwThe,
      MonadExceptOf.throw]
  | some value =>
    cases value with
    | str pieces =>
      by_cases h1 : pieces.length = 0 ∨ pieces.length % 20 ≠ 0
      · simp only [parse_pieces, contains_eq, h, atKey_of_specField _ _ _ h, bind, Except.bind,
          throw, throwThe, MonadExceptOf.throw, pure, Except.pure, Type_str,
          Bencode.get_string, access, if_pos h1]
        simp
      · by_cases h2 : ceilQuotient files.2 piece_length_
            ≠ (roundToDouble (make_pieces (pieces.length / 20) pieces).length : Int)
        · simp only [parse_pieces, contains_eq, h, atKey_of_specField _ _ _ h, bind,
            Except.bind, throw, throwThe, MonadExceptOf.throw, pure, Except.pure, Type_str,
            Bencode.get_string, access, if_neg h1, if_pos h2]
          simp
        · simp only [parse_pieces, contains_eq, h, atKey_of_specField _ _ _ h, bind,
            Except.bind, throw, throwThe, MonadExceptOf.throw, pure, Except.pure, Type_str,
            Bencode.get_string, access, if_neg h1, if_neg h2]
          simp
          cases attribute_pieces (set_piece_lengths (make_pieces (pieces.length / 20) pieces)
            piece_length_ files.2) files.1 0 0 [] <;> rfl
    | _ =>
      simp [parse_pieces, contains_eq, h, atKey_of_specField _ _ _ h, bind, Except.bind,
        throw, throwThe, MonadExceptOf.throw, pure, Except.pure, Type_null, Type_int,
        Type_list, Type_dict, access]

theorem specInt_int (n : Int) : specInt (some (.int n)) = n := rfl
theorem specStr_str (s : Str) : specStr (some (.str s)) = s := rfl
theorem specList_list (l : List Bencode) : specList (some (.list l)) = l := rfl

theorem make_pieces_length (count : Nat) : ∀ pieces : Str,
    (make_pieces count pieces).length = count := by
  induction count with
  | zero => intro pieces; rfl
  | succ n ih => intro pieces; simp [make_pieces, ih]

/-- The constructor body against the checks of the specification: it throws the
error of the first check that fails, and when none fails its result is that of
the attribution of the pieces to the files. -/
theorem ofDocument_eq (top_ : Bencode) :
    Metainfo.ofDocument top_ =
      match firstFailingCheck top_ with
      | some id => .error (.metainfoError id)
      | none =>
        match attribute_pieces (specPieces (specInfo top_)) (specFiles (specInfo top_))
          0 0 [] with
        | .ok file_list_ =>
          .ok ⟨top_, specStr (specField top_ (bytes "announce")), specInfo top_,
            specStr (specField (specInfo top_) (bytes "name")), file_list_,
            specInt (specField (specInfo top_) (bytes "piece length")),
            specPieces (specInfo top_), specTotalLength (specInfo top_)⟩
        | .error e => .error e := by
  by_cases h1 : top_.Type = .kDictionary
  any_goals (
    simp [Metainfo.ofDocument, firstFailingCheck, specChecks, specInfo, specHasType,
      specInt_int, specStr_str, specList_list, Type_null, Type_str, Type_int, Type_list,
      Type_dict, parse_announce_eq, parse_info_eq, parse_name_eq, parse_piece_length_eq,
      parse_single_file_eq, parse_file_list_eq, parse_files_eq, parse_pieces_eq, contains_eq,
      bind, Except.bind, throw, throwThe, MonadExceptOf.throw, pure, Except.pure,
      specTotalLength, specFiles, specPieces, make_pieces_length, *]
    done)
  rcases ha : specField top_ (bytes "announce") with _ | (_ | announce | _ | _ | _)
  any_goals (
    simp [Metainfo.ofDocument, firstFailingCheck, specChecks, specInfo, specHasType,
      specInt_int, specStr_str, specList_list, Type_null, Type_str, Type_int, Type_list,
      Type_dict, parse_announce_eq, parse_info_eq, parse_name_eq, parse_piece_length_eq,
      parse_single_file_eq, parse_file_list_eq, parse_files_eq, parse_pieces_eq, contains_eq,
      bind, Except.bind, throw, throwThe, MonadExceptOf.throw, pure, Except.pure,
      specTotalLength, specFiles, specPieces, make_pieces_length, *]
    done)
  rcases hi : specField top_ (bytes "info") with _ | (_ | _ | _ | _ | info)
  any_goals (
    simp [Metainfo.ofDocument, firstFailingCheck, specChecks, specInfo, specHasType,
      specInt_int, specStr_str, specList_list, Type_null, Type_str, Type_int, Type_list,
      Type_dict, parse_announce_eq, parse_info_eq, parse_name_eq, parse_piece_length_eq,
      parse_single_file_eq, parse_file_list_eq, parse_files_eq, parse_pieces_eq, contains_eq,
      bind, Except.bind, throw, throwThe, MonadExceptOf.throw, pure, Except.pure,
      specTotalLength, specFiles, specPieces, make_pieces_length, *]
    done)
  rcases hn : specField (.dict info) (bytes "name") with _ | (_ | name | _ | _ | _)
  any_goals (
    simp [Metainfo.ofDocument, firstFailingCheck, specChecks, specInfo, specHasType,
      specInt_int, specStr_str, specList_list, Type_null, Type_str, Type_int, Type_list,
      Type_dict, parse_announce_eq, parse_info_eq, parse_name_eq, parse_piece_length_eq,
      parse_single_file_eq, parse_file_list_eq, parse_files_eq, parse_pieces_eq, contains_eq,
      bind, Except.bind, throw, throwThe, MonadExceptOf.throw, pure, Except.pure,
      specTotalLength, specFiles, specPieces, make_pieces_length, *]
    done)
  rcases hpl : specField (.dict info) (bytes "piece length") with
    _ | (_ | _ | piece_length | _ | _)
  any_goals (
    simp [Metainfo.ofDocument, firstFailingCheck, specChecks, specInfo, specHasType,
      specInt_int, specStr_str, specList_list, Type_null, Type_str, Type_int, Type_list,
      Type_dict, parse_announce_eq, parse_info_eq, parse_name_eq, parse_piece_length_eq,
      parse_single_file_eq, parse_file_list_eq, parse_files_eq, parse_pieces_eq, contains_eq,
      bind, Except.bind, throw, throwThe, MonadExceptOf.throw, pure, Except.pure,
      specTotalLength, specFiles, specPieces, make_pieces_length, *]
    done)
  by_cases hpl1 : piece_length < 1
  any_goals (
    simp [Metainfo.ofDocument, firstFailingCheck, specChecks, specInfo, specHasType,
      specInt_int, specStr_str, specList_list, Type_null, Type_str, Type_int, Type_list,
      Type_dict, parse_announce_eq, parse_info_eq, parse_name_eq, parse_piece_length_eq,
      parse_single_file_eq, parse_file_list_eq, parse_files_eq, parse_pieces_eq, contains_eq,
      bind, Except.bind, throw, throwThe, MonadExceptOf.throw, pure, Except.pure,
      specTotalLength, specFiles, specPieces, make_pieces_length, *]
    done)
  rcases hlen : specField (.dict info) (bytes "length") with _ | (_ | _ | length | _ | _) <;>
    rcases hfiles : specField (.dict info) (bytes "files") with _ | (_ | _ | _ | files | _)
  any_goals (
    simp [Metainfo.ofDocument, firstFailingCheck, specChecks, specInfo, specHasType,
      specInt_int, specStr_str, specList_list, Type_null, Type_str, Type_int, Type_list,
      Type_dict, parse_announce_eq, parse_info_eq, parse_name_eq, parse_piece_length_eq,
      parse_single_file_eq, parse_file_list_eq, parse_files_eq, parse_pieces_eq, contains_eq,
      bind, Except.bind, throw, throwThe, MonadExceptOf.throw, pure, Except.pure,
      specTotalLength, specFiles, specPieces, make_pieces_length, *]
    done)
  · by_cases hempty : files = []
    any_goals (
      simp [Metainfo.ofDocument, firstFailingCheck, specChecks, specInfo, specHasType,
        specInt_int, specStr_str, specList_list, Type_null, Type_str, Type_int, Type_list,
        Type_dict, parse_announce_eq, parse_info_eq, parse_name_eq, parse_piece_length_eq,
        parse_single_file_eq, parse_file_list_eq, parse_files_eq, parse_pieces_eq, contains_eq,
        bind, Except.bind, throw, throwThe, MonadExceptOf.throw, pure, Except.pure,
        specTotalLength, specFiles, specPieces, make_pieces_length, *]
      done)
    rcases hfind : (files.flatMap specFileChecks).find? (fun check => check.2) with _ | check
    any_goals (
      simp [Metainfo.ofDocument, firstFailingCheck, specChecks, specInfo, specHasType,
        specInt_int, specStr_str, specList_list, Type_null, Type_str, Type_int, Type_list,
        Type_dict, parse_announce_eq, parse_info_eq, parse_name_eq, parse_piece_length_eq,
        parse_single_file_eq, parse_file_list_eq, parse_files_eq, parse_pieces_eq, contains_eq,
        bind, Except.bind, throw, throwThe, MonadExceptOf.throw, pure, Except.pure,
        specTotalLength, specFiles, specPieces, make_pieces_length, *]
      done)
    rcases hpc : specField (.dict info) (bytes "pieces") with _ | (_ | pieces | _ | _ | _)
    any_goals (
      simp [Metainfo.ofDocument, firstFailingCheck, specChecks, specInfo, specHasType,
        specInt_int, specStr_str, specList_list, Type_null, Type_str, Type_int, Type_list,
        Type_dict, parse_announce_eq, parse_info_eq, parse_name_eq, parse_piece_length_eq,
        parse_single_file_eq, parse_file_list_eq, parse_files_eq, parse_pieces_eq, contains_eq,
        bind, Except.bind, throw, throwThe, MonadExceptOf.throw, pure, Except.pure,
        specTotalLength, specFiles, specPieces, make_pieces_length, *]
      done)
    by_cases hinv : pieces = [] ∨ ¬ pieces.length % 20 = 0
    any_goals (
      simp [Metainfo.ofDocument, firstFailingCheck, specChecks, specInfo, specHasType,
        specInt_int, specStr_str, specList_list, Type_null, Type_str, Type_int, Type_list,
        Type_dict, parse_announce_eq, parse_info_eq, parse_name_eq, parse_piece_length_eq,
        parse_single_file_eq, parse_file_list_eq, parse_files_eq, parse_pieces_eq, contains_eq,
        bind, Except.bind, throw, throwThe, MonadExceptOf.throw, pure, Except.pure,
        specTotalLength, specFiles, specPieces, make_pieces_length, *]
      done)
    by_cases hmis : ceilQuotient (files.foldl
        (fun total file => toLong (total + specInt (specField file (bytes "length")))) 0) piece_length
        = (roundToDouble (pieces.length / 20) : Int)
    any_goals (
      simp [Metainfo.ofDocument, firstFailingCheck, specChecks, specInfo, specHasType,
        specInt_int, specStr_str, specList_list, Type_null, Type_str, Type_int, Type_list,
        Type_dict, parse_announce_eq, parse_info_eq, parse_name_eq, parse_piece_length_eq,
        parse_single_file_eq, parse_file_list_eq, parse_files_eq, parse_pieces_eq, contains_eq,
        bind, Except.bind, throw, throwThe, MonadExceptOf.throw, pure, Except.pure,
        specTotalLength, specFiles, specPieces, make_pieces_length, *]
      done)
    simp [Metainfo.ofDocument, firstFailingCheck, specChecks, specInfo, specHasType,
      specInt_int, specStr_str, specList_list, Type_null, Type_str, Type_int, Type_list,
      Type_dict, parse_announce_eq, parse_info_eq, parse_name_eq, parse_piece_length_eq,
      parse_single_file_eq, parse_file_list_eq, parse_files_eq, parse_pieces_eq, contains_eq,
      bind, Except.bind, throw, throwThe, MonadExceptOf.throw, pure, Except.pure,
      specTotalLength, specFiles, specPieces, make_pieces_length, *]
    generalize attribute_pieces _ _ _ _ _ = r
    cases r <;> rfl
  · by_cases hlen1 : length < 1
    any_goals (
      simp [Metainfo.ofDocument, firstFailingCheck, specChecks, specInfo, specHasType,
        specInt_int, specStr_str, specList_list, Type_null, Type_str, Type_int, Type_list,
        Type_dict, parse_announce_eq, parse_info_eq, parse_name_eq, parse_piece_length_eq,
        parse_single_file_eq, parse_file_list_eq, parse_files_eq, parse_pieces_eq, contains_eq,
        bind, Except.bind, throw, throwThe, MonadExceptOf.throw, pure, Except.pure,
        specTotalLength, specFiles, specPieces, make_pieces_length, *]
      done)
    rcases hpc : specField (.dict info) (bytes "pieces") with _ | (_ | pieces | _ | _ | _)
    any_goals (
      simp [Metainfo.ofDocument, firstFailingCheck, specChecks, specInfo, specHasType,
        specInt_int, specStr_str, specList_list, Type_null, Type_str, Type_int, Type_list,
        Type_dict, parse_announce_eq, parse_info_eq, parse_name_eq, parse_piece_length_eq,
        parse_single_file_eq, parse_file_list_eq, parse_files_eq, parse_pieces_eq, contains_eq,
        bind, Except.bind, throw, throwThe, MonadExceptOf.throw, pure, Except.pure,
        specTotalLength, specFiles, specPieces, make_pieces_length, *]
      done)
    by_cases hinv : pieces = [] ∨ ¬ pieces.length % 20 = 0
    any_goals (
      simp [Metainfo.ofDocument, firstFailingCheck, specChecks, specInfo, specHasType,
        specInt_int, specStr_str, specList_list, Type_null, Type_str, Type_int, Type_list,
        Type_dict, parse_announce_eq, parse_info_eq, parse_name_eq, parse_piece_length_eq,
        parse_single_file_eq, parse_file_list_eq, parse_files_eq, parse_pieces_eq, contains_eq,
        bind, Except.bind, throw, throwThe, MonadExceptOf.throw, pure, Except.pure,
        specTotalLength, specFiles, specPieces, make_pieces_length, *]
      done)
    by_cases hmis : ceilQuotient (length) piece_length
        = (roundToDouble (pieces.length / 20) : Int)
    any_goals (
      simp [Metainfo.ofDocument, firstFailingCheck, specChecks, specInfo, specHasType,
        specInt_int, specStr_str, specList_list, Type_null, Type_str, Type_int, Type_list,
        Type_dict, parse_announce_eq, parse_info_eq, parse_name_eq, parse_piece_length_eq,
        parse_single_file_eq, parse_file_list_eq, parse_files_eq, parse_pieces_eq, contains_eq,
        bind, Except.bind, throw, throwThe, MonadExceptOf.throw, pure, Except.pure,
        specTotalLength, specFiles, specPieces, make_pieces_length, *]
      done)
    simp [Metainfo.ofDocument, firstFailingCheck, specChecks, specInfo, specHasType,
      specInt_int, specStr_str, specList_list, Type_null, Type_str, Type_int, Type_list,
      Type_dict, parse_announce_eq, parse_info_eq, parse_name_eq, parse_piece_length_eq,
      parse_single_file_eq, parse_file_list_eq, parse_files_eq, parse_pieces_eq, contains_eq,
      bind, Except.bind, throw, throwThe, MonadExceptOf.throw, pure, Except.pure,
      specTotalLength, specFiles, specPieces, make_pieces_length, *]
    generalize attribute_pieces _ _ _ _ _ = r
    cases r <;> rfl

/-- The `while` loop of the attribution ends: with enough `fuel` for the pieces
that remain it returns or reads past the end of `piece_list_`. -/
theorem attribute_loop_ends (piece_list_ : List Piece) : ∀ (fuel piece_idx : Nat)
    (file_length_sum : Int) (pieces : List Piece),
    piece_idx ≤ piece_list_.length → piece_list_.length < piece_idx + fuel →
    (∃ state, attribute_loop piece_list_ fuel piece_idx file_length_sum pieces = .ok state ∧
      state.1 ≤ piece_list_.length) ∨
    attribute_loop piece_list_ fuel piece_idx file_length_sum pieces
      = .error (.fault .undefined) := by
  intro fuel
  induction fuel with
  | zero => intro piece_idx _ _ h1 h2; omega
  | succ fuel ih =>
    intro piece_idx file_length_sum pieces h1 h2
    simp only [attribute_loop]
    by_cases hs : file_length_sum > 0
    · rw [if_pos hs]
      cases hget : piece_list_[piece_idx]? with
      | none => exact Or.inr rfl
      | some piece =>
        have hlt : piece_idx < piece_list_.length := by
          by_contra hge
          rw [List.getElem?_eq_none (by omega)] at hget
          cases hget
        exact ih (piece_idx + 1) _ _ (by omega) (by omega)
    · rw [if_neg hs]
      exact Or.inl ⟨_, rfl, h1⟩

/-- The attribution of the pieces to the files returns or reads outside
`piece_list_`. -/
theorem attribute_pieces_ends (piece_list_ : List Piece) : ∀ (files : List File)
    (piece_idx : Nat) (file_length_sum : Int) (done : List File),
    piece_idx ≤ piece_list_.length →
    (∃ file_list_, attribute_pieces piece_list_ files piece_idx file_length_sum done
      = .ok file_list_) ∨
    attribute_pieces piece_list_ files piece_idx file_length_sum done
      = .error (.fault .undefined) := by
  intro files
  induction files with
  | nil => intro _ _ done _; exact Or.inl ⟨done, rfl⟩
  | cons file rest ih =>
    intro piece_idx file_length_sum done hidx
    simp only [attribute_pieces]
    have hloop := fun pieces => attribute_loop_ends piece_list_ (piece_list_.length + 1)
      piece_idx (toLong (file_length_sum + file.length)) pieces hidx (by omega)
    by_cases hs : file_length_sum < 0
    · rw [if_pos hs]
      cases hget : piece_list_[(piece_idx + (2 ^ 64 - 1)) % 2 ^ 64]? with
      | none => exact Or.inr rfl
      | some piece =>
        rcases hloop (file.pieces ++ [piece]) with ⟨state, hstate, hle⟩ | herr
        · simp only [bind, Except.bind, pure, Except.pure, hstate]
          exact ih _ _ _ hle
        · simp [bind, Except.bind, pure, Except.pure, herr]
    · rw [if_neg hs]
      rcases hloop file.pieces with ⟨state, hstate, hle⟩ | herr
      · simp only [bind, Except.bind, pure, Except.pure, hstate]
        exact ih _ _ _ hle
      · simp [bind, Except.bind, pure, Except.pure, herr]

/-! ## Claims about the validation of a torrent -/

theorem floorLog2Aux_eq : ∀ (fuel n : Nat), n ≤ fuel → floorLog2Aux fuel n = Nat.log2 n := by
  intro fuel
  induction fuel with
  | zero =>
    intro n hn
    have : n = 0 := by omega
    subst this
    rw [Nat.log2]
    simp [floorLog2Aux]
  | succ fuel ih =>
    intro n hn
    rw [Nat.log2]
    by_cases h2 : n < 2
    · have : ¬ (n ≥ 2) := by omega
      simp [floorLog2Aux, h2, this]
    · have : n ≥ 2 := by omega
      simp only [floorLog2Aux, if_neg h2, if_pos this]
      rw [ih (n / 2) (by omega)]

/-- The position of the leading binary digit is the `Nat.log2` of the library. -/
theorem floorLog2_eq (n : Nat) : floorLog2 n = Nat.log2 n :=
  floorLog2Aux_eq n n (le_refl n)

set_option maxRecDepth 8000 in
/-- On the document `negativeLengthDocument` no check fails and the constructor
reads `piece_list_[1]` in a vector of one piece. -/
theorem ofDocument_negativeLength :
    firstFailingCheck negativeLengthDocument = none ∧
      Metainfo.ofDocument negativeLengthDocument = .error (.fault .undefined) :=
  ⟨by decide, rfl⟩

/-- The text `negativeLengthTorrent` decodes to `negativeLengthDocument`. -/
theorem Parse_negativeLengthTorrent :
    Parse negativeLengthTorrent = .ok negativeLengthDocument := by
  have hdump : negativeLengthDocument.Dump = .ok negativeLengthTorrent := rfl
  have henc := Encoding_of_Dump negativeLengthDocument negativeLengthTorrent (by decide) hdump
  exact (Parse_ok_iff _ _ (by decide)).2 henc

/-- C20, the behaviour of the code: the constructor throws the `MetainfoError` of
the first check, in the order of the specification, that fails on the decoded
document; when no check fails it returns or reads outside `piece_list_`, which
is undefined behaviour; and on the torrent `negativeLengthTorrent`, whose
second file has the length -5, no check fails and the constructor does not
return. -/
theorem C20_validation_order :
    (∀ (input : Str) (top_ : Bencode), Parse input = .ok top_ →
      Metainfo.construct input = Metainfo.ofDocument top_) ∧
    (∀ (top_ : Bencode) (id : MetainfoErrorID), firstFailingCheck top_ = some id →
      Metainfo.ofDocument top_ = .error (.metainfoError id)) ∧
    (∀ top_ : Bencode, firstFailingCheck top_ = none →
      (∃ metainfo, Metainfo.ofDocument top_ = .ok metainfo) ∨
        Metainfo.ofDocument top_ = .error (.fault .undefined)) ∧
    (Parse negativeLengthTorrent = .ok negativeLengthDocument ∧
      firstFailingCheck negativeLengthDocument = none ∧
      Metainfo.construct negativeLengthTorrent = .error (.fault .undefined)) := by
  have hconstruct : ∀ (input : Str) (top_ : Bencode), Parse input = .ok top_ →
      Metainfo.construct input = Metainfo.ofDocument top_ := by
    intro input top_ h
    simp only [Metainfo.construct, h]
  refine ⟨hconstruct, ?_, ?_, Parse_negativeLengthTorrent, ofDocument_negativeLength.1, ?_⟩
  · intro top_ id h
    rw [ofDocument_eq, h]
  · intro top_ h
    rw [ofDocument_eq, h]
    rcases attribute_pieces_ends (specPieces (specInfo top_)) (specFiles (specInfo top_))
      0 0 [] (Nat.zero_le _) with ⟨file_list_, hok⟩ | herr
    · rw [hok]
      exact Or.inl ⟨_, rfl⟩
    · rw [herr]
      exact Or.inr rfl
  · rw [hconstruct _ _ Parse_negativeLengthTorrent]
    exact ofDocument_negativeLength.2

set_option maxRecDepth 8000 in
/-- C20 on three documents: with a second file that has no `path` the error is
`kFileMissingPath` although `pieces` is missing too; with the files of the
lengths 7 and 8, a piece length of 5 and three pieces no check fails and the
constructor returns; with the lengths 10 and -5 it does not return. -/
theorem C20_validation_order_witness :
    Metainfo.ofDocument (.dict [(bytes "announce", .str (bytes "x")),
      (bytes "info", .dict [
        (bytes "files", .list [
          .dict [(bytes "length", .int 10), (bytes "path", .list [.str (bytes "a")])],
          .dict [(bytes "length", .int 5)]]),
        (bytes "name", .str (bytes "n")),
        (bytes "piece length", .int 5)])])
      = .error (.metainfoError .kFileMissingPath) ∧
    ((∃ metainfo, Metainfo.ofDocument (.dict [(bytes "announce", .str (bytes "x")),
      (bytes "info", .dict [
        (bytes "files", .list [
          .dict [(bytes "length", .int 7), (bytes "path", .list [.str (bytes "a")])],
          .dict [(bytes "length", .int 8), (bytes "path", .list [.str (bytes "b")])]]),
        (bytes "name", .str (bytes "n")),
        (bytes "piece length", .int 5),
        (bytes "pieces", .str (List.replicate 60 97))])]) = .ok metainfo) ∨
     Metainfo.ofDocument (.dict [(bytes "announce", .str (bytes "x")),
      (bytes "info", .dict [
        (bytes "files", .list [
          .dict [(bytes "length", .int 7), (bytes "path", .list [.str (bytes "a")])],
          .dict [(bytes "length", .int 8), (bytes "path", .list [.str (bytes "b")])]]),
        (bytes "name", .str (bytes "n")),
        (bytes "piece length", .int 5),
        (bytes "pieces", .str (List.replicate 60 97))])]) = .error (.fault .undefined)) ∧
    Metainfo.construct negativeLengthTorrent = .error (.fault .undefined) :=
  ⟨C20_validation_order.2.1 _ .kFileMissingPath (by decide),
   C20_validation_order.2.2.1 _ (by decide),
   C20_validation_order.2.2.2.2.2⟩

/-! ## Lemmas: the fields of a document that passes the checks -/

theorem firstFailingCheck_none (top : Bencode) :
    firstFailingCheck top = none ↔ ∀ check ∈ specChecks top, check.2 = false := by
  simp [firstFailingCheck, List.find?_eq_none]

theorem specHasType_kString (v : Option Bencode) (h : specHasType .kString v = true) :
    ∃ s, v = some (.str s) := by
  rcases v with _ | (_ | s | _ | _ | _) <;> simp [specHasType, Bencode.Type] at h
  exact ⟨s, rfl⟩

theorem specHasType_kInteger (v : Option Bencode) (h : specHasType .kInteger v = true) :
    ∃ n, v = some (.int n) := by
  rcases v with _ | (_ | _ | n | _ | _) <;> simp [specHasType, Bencode.Type] at h
  exact ⟨n, rfl⟩

theorem specHasType_kList (v : Option Bencode) (h : specHasType .kList v = true) :
    ∃ l, v = some (.list l) := by
  rcases v with _ | (_ | _ | _ | l | _) <;> simp [specHasType, Bencode.Type] at h
  exact ⟨l, rfl⟩

theorem specHasType_kDictionary (v : Option Bencode) (h : specHasType .kDictionary v = true) :
    ∃ d, v = some (.dict d) := by
  rcases v with _ | (_ | _ | _ | _ | d) <;> simp [specHasType, Bencode.Type] at h
  exact ⟨d, rfl⟩

/-- The checks on a file are the seven file checks, which the specification
lists after `kFilesEmpty` and before `kMissingPieces`. -/
theorem specFileChecks_index (file : Bencode) : ∀ check ∈ specFileChecks file,
    16 ≤ check.1.toCtorIdx ∧ check.1.toCtorIdx ≤ 22 := by
  intro check hcheck
  simp only [specFileChecks, List.mem_cons, List.mem_singleton, List.not_mem_nil,
    or_false] at hcheck
  rcases hcheck with h | h | h | h | h | h | h <;> subst h <;> dsimp only <;>
    exact ⟨by decide, by decide⟩

theorem checksPassBefore_mono (id id' : MetainfoErrorID) (top : Bencode)
    (hle : id'.toCtorIdx ≤ id.toCtorIdx) (h : checksPassBefore id top) :
    checksPassBefore id' top :=
  fun check hcheck hlt => h check hcheck (Nat.lt_of_lt_of_le hlt hle)

/-- The fields of a document that passes the root, announce, info, name and
piece length checks. -/
theorem head_fields (top : Bencode) (h : checksPassBefore .kMissingLengthAndFiles top) :
    ∃ (announce : Str) (info : List (Str × Bencode)) (name : Str) (piece_length : Int),
      top.Type = .kDictionary ∧
      specField top (bytes "announce") = some (.str announce) ∧
      specField top (bytes "info") = some (.dict info) ∧
      specInfo top = .dict info ∧
      specField (.dict info) (bytes "name") = some (.str name) ∧
      specField (.dict info) (bytes "piece length") = some (.int piece_length) ∧
      1 ≤ piece_length := by
  simp only [checksPassBefore, specChecks, List.forall_mem_append, List.forall_mem_cons] at h
  obtain ⟨⟨⟨h1, _, h3, _, h5, _, h7, _, h9, h10, _⟩, _⟩, _⟩ := h
  have h1 := h1 (by decide)
  obtain ⟨announce, ha⟩ := specHasType_kString _ (by simpa using h3 (by decide))
  obtain ⟨info, hi⟩ := specHasType_kDictionary _ (by simpa using h5 (by decide))
  have hinfo : specInfo top = .dict info := by simp [specInfo, hi]
  rw [hinfo] at h7 h9 h10
  obtain ⟨name, hn⟩ := specHasType_kString _ (by simpa using h7 (by decide))
  obtain ⟨piece_length, hpl⟩ := specHasType_kInteger _ (by simpa using h9 (by decide))
  have h10 := h10 (by decide)
  rw [hpl] at h10
  exact ⟨announce, info, name, piece_length, by simpa using h1, ha, hi, hinfo, hn, hpl,
    by simpa [specInt_int] using h10⟩

/-- The checks of the specification are those before the `pieces` checks,
followed by the four `pieces` checks. -/
theorem specChecks_split (top : Bencode) : ∃ pre : List (MetainfoErrorID × Bool),
    specChecks top = pre ++
      [(.kMissingPieces, (specField (specInfo top) (bytes "pieces")).isNone),
       (.kPiecesNotString, !specHasType .kString (specField (specInfo top) (bytes "pieces"))),
       (.kPiecesInvalid,
         decide ((specStr (specField (specInfo top) (bytes "pieces"))).length = 0 ∨
           (specStr (specField (specInfo top) (bytes "pieces"))).length % 20 ≠ 0)),
       (.kPiecesLengthMismatch,
         decide (ceilQuotient (specTotalLength (specInfo top))
           (specInt (specField (specInfo top) (bytes "piece length")))
             ≠ (roundToDouble
               ((specStr (specField (specInfo top) (bytes "pieces"))).length / 20) : Int)))] ∧
    ∀ check ∈ pre, check.1.toCtorIdx ≤ 22 := by
  refine ⟨_, rfl, ?_⟩
  intro check hcheck
  simp only [List.mem_append] at hcheck
  rcases hcheck with hcheck | hcheck
  · simp only [List.mem_cons, List.mem_singleton, List.not_mem_nil, or_false] at hcheck
    rcases hcheck with h | h | h | h | h | h | h | h | h | h | h | h <;> subst h <;>
      dsimp only <;> decide
  · split at hcheck
    · simp only [List.mem_cons, List.mem_singleton, List.not_mem_nil, or_false] at hcheck
      rcases hcheck with h | h <;> subst h <;> dsimp only <;> decide
    · simp only [List.mem_append, List.mem_cons, List.mem_singleton, List.not_mem_nil,
        or_false, List.mem_flatMap] at hcheck
      rcases hcheck with (h | h) | ⟨file, _, h⟩
      · subst h; dsimp only; decide
      · subst h; dsimp only; decide
      · exact (specFileChecks_index file check h).2

theorem find_after_passing (pre post : List (MetainfoErrorID × Bool))
    (hpre : ∀ check ∈ pre, check.2 = false) :
    (pre ++ post).find? (fun check => check.2) = post.find? (fun check => check.2) := by
  induction pre with
  | nil => rfl
  | cons c pre ih =>
    have hc : c.2 = false := hpre c (List.mem_cons_self _ _)
    simp only [List.cons_append, List.find?_cons, hc]
    exact ih (fun check h => hpre check (List.mem_cons_of_mem _ h))

/-- The first failing check of a document that passes the checks before
`kPiecesInvalid`. -/
theorem firstFailingCheck_pieces (top : Bencode) (hpass : checksPassBefore .kPiecesInvalid top) :
    firstFailingCheck top =
      if (specStr (specField (specInfo top) (bytes "pieces"))).length = 0 ∨
          (specStr (specField (specInfo top) (bytes "pieces"))).length % 20 ≠ 0 then
        some .kPiecesInvalid
      else if ceilQuotient (specTotalLength (specInfo top))
          (specInt (specField (specInfo top) (bytes "piece length")))
            ≠ (roundToDouble ((specStr (specField (specInfo top) (bytes "pieces"))).length / 20)
              : Int) then
        some .kPiecesLengthMismatch
      else none := by
  obtain ⟨pre, hsplit, hidx⟩ := specChecks_split top
  have hpre : ∀ check ∈ pre, check.2 = false := by
    intro check hc
    refine hpass check (by rw [hsplit]; exact List.mem_append_left _ hc) ?_
    have := hidx check hc
    show check.1.toCtorIdx < 25
    omega
  have h1 : (specField (specInfo top) (bytes "pieces")).isNone = false :=
    hpass (.kMissingPieces, (specField (specInfo top) (bytes "pieces")).isNone)
      (by rw [hsplit]; simp) (by dsimp only; decide)
  have h2 : (!specHasType .kString (specField (specInfo top) (bytes "pieces"))) = false :=
    hpass (.kPiecesNotString, !specHasType .kString (specField (specInfo top) (bytes "pieces")))
      (by rw [hsplit]; simp) (by dsimp only; decide)
  rw [firstFailingCheck, hsplit, find_after_passing pre _ hpre,
    List.find?_cons_of_neg _ (by simp [h1]), List.find?_cons_of_neg _ (by simpa using h2)]
  by_cases hinv : (specStr (specField (specInfo top) (bytes "pieces"))).length = 0 ∨
      (specStr (specField (specInfo top) (bytes "pieces"))).length % 20 ≠ 0
  · rw [List.find?_cons_of_pos _ (by simpa using hinv), if_pos hinv]
    rfl
  · rw [List.find?_cons_of_neg _ (by simpa using hinv), if_neg hinv]
    by_cases hmis : ceilQuotient (specTotalLength (specInfo top))
        (specInt (specField (specInfo top) (bytes "piece length")))
          ≠ (roundToDouble ((specStr (specField (specInfo top) (bytes "pieces"))).length / 20)
            : Int)
    · rw [List.find?_cons_of_pos _ (by simpa using hmis), if_pos hmis]
      rfl
    · rw [List.find?_cons_of_neg _ (by simpa using hmis), if_neg hmis]
      rfl

theorem checksPassBefore_of_none (top : Bencode) (id : MetainfoErrorID)
    (h : firstFailingCheck top = none) : checksPassBefore id top :=
  fun check hcheck _ => (firstFailingCheck_none top).1 h check hcheck

/-- The `length` or `files` of a document that passes the checks before
`kMissingPieces`. -/
theorem files_fields (top : Bencode) (info : List (Str × Bencode))
    (hinfo : specInfo top = .dict info) (h : checksPassBefore .kMissingPieces top) :
    (∃ length, specField (.dict info) (bytes "length") = some (.int length) ∧ 1 ≤ length ∧
        specField (.dict info) (bytes "files") = none) ∨
    (∃ files, specField (.dict info) (bytes "length") = none ∧
        specField (.dict info) (bytes "files") = some (.list files) ∧ files ≠ [] ∧
        ∀ file ∈ files, ∀ check ∈ specFileChecks file, check.2 = false) := by
  simp only [checksPassBefore, specChecks, List.forall_mem_append, List.forall_mem_cons,
    hinfo] at h
  obtain ⟨⟨⟨_, _, _, _, _, _, _, _, _, _, hneither, hboth, _⟩, hstage⟩, _⟩ := h
  have hneither := hneither (by decide)
  have hboth := hboth (by decide)
  rcases hlen : specField (.dict info) (bytes "length") with _ | length
  · right
    simp only [hlen, Option.isSome_none, Bool.false_eq_true, if_false, List.forall_mem_append,
      List.forall_mem_cons, List.mem_flatMap] at hstage
    obtain ⟨⟨hlist, hempty, _⟩, hfiles⟩ := hstage
    obtain ⟨files, hf⟩ := specHasType_kList _ (by simpa using hlist (by decide))
    have hempty := hempty (by decide)
    rw [hf, specList_list] at hempty
    refine ⟨files, rfl, hf, by simpa using hempty, ?_⟩
    intro file hfile check hcheck
    refine hfiles check ⟨file, by rw [hf, specList_list]; exact hfile, hcheck⟩ ?_
    have := (specFileChecks_index file check hcheck).2
    show check.1.toCtorIdx < 23
    omega
  · left
    simp only [hlen, Option.isSome_some, if_true, List.forall_mem_cons] at hstage
    obtain ⟨hint, hpos, _⟩ := hstage
    obtain ⟨n, hn⟩ := specHasType_kInteger _ (by simpa using hint (by decide))
    have hpos := hpos (by decide)
    simp only [Option.some.injEq] at hn
    subst hn
    simp only [hlen, Option.isSome_some, Bool.true_and] at hboth
    refine ⟨n, rfl, by simpa [specInt_int] using hpos, by simpa using hboth⟩

/-- The fields of an element of `files` on which no file check fails. -/
theorem file_fields (file : Bencode) (h : ∀ check ∈ specFileChecks file, check.2 = false) :
    ∃ (length : Int) (segments : List Bencode),
      specField file (bytes "length") = some (.int length) ∧
      specField file (bytes "path") = some (.list segments) ∧ segments ≠ [] ∧
      ∀ sub ∈ segments, ∃ s, sub = .str s := by
  simp only [specFileChecks, List.forall_mem_cons] at h
  obtain ⟨_, _, hint, _, hlist, hempty, hsub, _⟩ := h
  obtain ⟨length, hl⟩ := specHasType_kInteger _ (by simpa using hint)
  obtain ⟨segments, hp⟩ := specHasType_kList _ (by simpa using hlist)
  rw [hp, specList_list] at hempty hsub
  refine ⟨length, segments, hl, hp, by simpa using hempty, ?_⟩
  intro sub hmem
  have := List.any_eq_false.1 hsub sub hmem
  cases sub <;> simp [Bencode.Type] at this
  exact ⟨_, rfl⟩

/-- The pieces string of a document that passes the checks before
`kPiecesInvalid`. -/
theorem pieces_fields (top : Bencode) (h : checksPassBefore .kPiecesInvalid top) :
    ∃ pieces, specField (specInfo top) (bytes "pieces") = some (.str pieces) := by
  obtain ⟨pre, hsplit, _⟩ := specChecks_split top
  have h2 : (!specHasType .kString (specField (specInfo top) (bytes "pieces"))) = false :=
    h (.kPiecesNotString, !specHasType .kString (specField (specInfo top) (bytes "pieces")))
      (by rw [hsplit]; simp) (by dsimp only; decide)
  exact specHasType_kString _ (by simpa using h2)

/-- What the constructor has built when it returns. -/
theorem accepted_of_ok (top : Bencode) (m : Metainfo) (h : Metainfo.ofDocument top = .ok m) :
    firstFailingCheck top = none ∧
    attribute_pieces (specPieces (specInfo top)) (specFiles (specInfo top)) 0 0 []
      = .ok m.file_list_ ∧
    m.info_ = specInfo top ∧
    m.announce_ = specStr (specField top (bytes "announce")) ∧
    m.name_ = specStr (specField (specInfo top) (bytes "name")) ∧
    m.piece_length_ = specInt (specField (specInfo top) (bytes "piece length")) ∧
    m.piece_list_ = specPieces (specInfo top) ∧
    m.total_length_ = specTotalLength (specInfo top) := by
  rw [ofDocument_eq] at h
  cases hf : firstFailingCheck top with
  | some id => simp [hf] at h
  | none =>
    simp only [hf] at h
    cases ha : attribute_pieces (specPieces (specInfo top)) (specFiles (specInfo top)) 0 0 []
      with
    | error e => simp [ha] at h
    | ok file_list_ =>
      simp only [ha, Except.ok.injEq] at h
      subst h
      exact ⟨rfl, rfl, rfl, rfl, rfl, rfl, rfl, rfl⟩

theorem make_pieces_getElem? : ∀ (count : Nat) (pieces : Str) (i : Nat), i < count →
    (make_pieces count pieces)[i]? = some ⟨(pieces.drop (20 * i)).take 20, 0⟩ := by
  intro count
  induction count with
  | zero => intro _ i h; omega
  | succ n ih =>
    intro pieces i h
    cases i with
    | zero => simp [make_pieces]
    | succ i =>
      simp only [make_pieces, List.getElem?_cons_succ]
      rw [ih (pieces.drop 20) i (by omega), List.drop_drop]
      have : 20 + 20 * i = 20 * (i + 1) := by ring
      rw [this]

theorem set_piece_lengths_length (piece_list_ : List Piece) (piece_length_ total_length_ : Int) :
    (set_piece_lengths piece_list_ piece_length_ total_length_).length = piece_list_.length := by
  simp only [set_piece_lengths, List.length_append, List.length_map, List.length_take,
    List.length_drop]
  omega

theorem set_piece_lengths_hash (piece_list_ : List Piece) (piece_length_ total_length_ : Int) :
    (set_piece_lengths piece_list_ piece_length_ total_length_).map (fun piece => piece.hash)
      = piece_list_.map (fun piece => piece.hash) := by
  simp only [set_piece_lengths, List.map_append, List.map_map]
  have h1 : ((fun piece : Piece => piece.hash) ∘ fun piece : Piece =>
      (⟨piece.hash, piece_length_⟩ : Piece)) = fun piece => piece.hash := rfl
  have h2 : ((fun piece : Piece => piece.hash) ∘ fun piece : Piece =>
      (⟨piece.hash, toLong (total_length_ - ((piece_list_.length : Int) - 1) * piece_length_)⟩
        : Piece)) = fun piece => piece.hash := rfl
  rw [h1, h2, ← List.map_append, List.take_append_drop]

/-- What one round of the loop over the files does when the attribution
returns. -/
theorem attribute_pieces_cons_ok (piece_list_ : List Piece) (file : File) (rest : List File)
    (piece_idx : Nat) (file_length_sum : Int) (done out : List File)
    (h : attribute_pieces piece_list_ (file :: rest) piece_idx file_length_sum done = .ok out) :
    ∃ (pieces : List Piece) (state : Nat × Int × List Piece),
      (if file_length_sum < 0 then
          (piece_list_[(piece_idx + (2 ^ 64 - 1)) % 2 ^ 64]?).map (fun piece => file.pieces ++ [piece])
        else some file.pieces) = some pieces ∧
      attribute_loop piece_list_ (piece_list_.length + 1) piece_idx
        (toLong (file_length_sum + file.length)) pieces = .ok state ∧
      attribute_pieces piece_list_ rest state.1 state.2.1
        (done ++ [⟨file.path, file.length, state.2.2⟩]) = .ok out := by
  rw [attribute_pieces] at h
  by_cases hs : file_length_sum < 0
  · rw [if_pos hs] at h
    rw [if_pos hs]
    cases hget : piece_list_[(piece_idx + (2 ^ 64 - 1)) % 2 ^ 64]? with
    | none =>
      rw [hget] at h
      simp [bind, Except.bind, throw, throwThe, MonadExceptOf.throw] at h
    | some piece =>
      rw [hget] at h
      simp only [bind, Except.bind, pure, Except.pure] at h
      cases hloop : attribute_loop piece_list_ (piece_list_.length + 1) piece_idx
          (toLong (file_length_sum + file.length)) (file.pieces ++ [piece]) with
      | error e => simp [hloop] at h
      | ok state =>
        simp only [hloop] at h
        exact ⟨_, state, rfl, hloop, h⟩
  · rw [if_neg hs] at h
    rw [if_neg hs]
    simp only [bind, Except.bind, pure, Except.pure] at h
    cases hloop : attribute_loop piece_list_ (piece_list_.length + 1) piece_idx
        (toLong (file_length_sum + file.length)) file.pieces with
    | error e => simp [hloop] at h
    | ok state =>
      simp only [hloop] at h
      exact ⟨_, state, rfl, hloop, h⟩

/-- The attribution of the pieces leaves the paths and lengths of the files as
they are, in their order. -/
theorem attribute_pieces_keeps (piece_list_ : List Piece) : ∀ (files : List File)
    (piece_idx : Nat) (file_length_sum : Int) (done out : List File),
    attribute_pieces piece_list_ files piece_idx file_length_sum done = .ok out →
    out.map (fun file => (file.path, file.length))
      = (done ++ files).map (fun file => (file.path, file.length)) := by
  intro files
  induction files with
  | nil =>
    intro _ _ done out h
    simp only [attribute_pieces, pure, Except.pure, Except.ok.injEq] at h
    rw [← h, List.append_nil]
  | cons file rest ih =>
    intro piece_idx file_length_sum done out h
    obtain ⟨pieces, state, _, _, hrest⟩ := attribute_pieces_cons_ok _ _ _ _ _ _ _ h
    rw [ih _ _ _ _ hrest]
    simp

/-- Appending a separator to every part and dropping the last byte joins the
parts with the separator. -/
theorem flatMap_dropLast_eq_intercalate (c : Nat) : ∀ parts : List Str, parts ≠ [] →
    (parts.flatMap (fun part => part ++ [c])).dropLast = List.intercalate [c] parts
  | [], h => absurd rfl h
  | [part], _ => by simp [List.intercalate]
  | part :: next :: rest, _ => by
    have ih := flatMap_dropLast_eq_intercalate c (next :: rest) (by simp)
    have hne : (next :: rest).flatMap (fun part => part ++ [c]) ≠ [] := by simp
    rw [List.flatMap_cons, List.dropLast_append_of_ne_nil _ hne, ih]
    simp [List.intercalate]

/-- The paths and lengths of the files of an accepted multi-file document. -/
theorem accepted_multi_file (top : Bencode) (m : Metainfo) (files : List Bencode)
    (h : Metainfo.ofDocument top = .ok m)
    (hfiles : specField (specInfo top) (bytes "files") = some (.list files)) :
    specField (specInfo top) (bytes "length") = none ∧
    (∀ file ∈ files, ∀ check ∈ specFileChecks file, check.2 = false) ∧
    m.file_list_.map (fun file => (file.path, file.length))
      = files.map (fun file => (specPath file, specInt (specField file (bytes "length")))) := by
  obtain ⟨hnone, hattr, _⟩ := accepted_of_ok top m h
  obtain ⟨_, info, _, _, _, _, _, hinfo, _⟩ :=
    head_fields top (checksPassBefore_of_none top _ hnone)
  rw [hinfo] at hfiles
  have hlen : specField (specInfo top) (bytes "length") = none := by
    rw [hinfo]
    rcases files_fields top info hinfo (checksPassBefore_of_none top _ hnone) with
      ⟨_, _, _, hf⟩ | ⟨_, hl, _⟩
    · rw [hf] at hfiles
      cases hfiles
    · exact hl
  refine ⟨hlen, ?_, ?_⟩
  · rcases files_fields top info hinfo (checksPassBefore_of_none top _ hnone) with
      ⟨_, _, _, hf⟩ | ⟨files', _, hf, _, hall⟩
    · rw [hf] at hfiles
      cases hfiles
    · rw [hf] at hfiles
      cases hfiles
      exact hall
  · rw [attribute_pieces_keeps _ _ _ _ _ _ hattr]
    rw [hinfo] at hlen
    simp [specFiles, hlen, hinfo, hfiles, specList_list]

/-- A value in the range of `long` is its own `long`. -/
theorem toLong_of_range (x : Int) (h1 : -(2 ^ 63) ≤ x) (h2 : x < 2 ^ 63) : toLong x = x := by
  unfold toLong
  rw [Int.emod_eq_of_lt (by omega) (by omega)]
  omega

/-- The range of `toLong`. -/
theorem toLong_range (x : Int) : -(2 ^ 63) ≤ toLong x ∧ toLong x < 2 ^ 63 := by
  unfold toLong
  have h1 := Int.emod_nonneg (x + 2 ^ 63) (by norm_num : (2 ^ 64 : Int) ≠ 0)
  have h2 := Int.emod_lt_of_pos (x + 2 ^ 63) (by norm_num : (0 : Int) < 2 ^ 64)
  constructor <;> omega

/-- Wrapping after every addition is wrapping once. -/
theorem toLong_add_toLong (a b : Int) : toLong (toLong a + b) = toLong (a + b) := by
  unfold toLong
  have : (a + 2 ^ 63) % 2 ^ 64 - 2 ^ 63 + b + 2 ^ 63 = (a + 2 ^ 63) % 2 ^ 64 + b := by ring
  rw [this, Int.emod_add_emod]
  congr 2
  ring

/-- The sum of the lengths as the loop over the files computes it. -/
theorem foldl_toLong (f : Bencode → Int) : ∀ (files : List Bencode) (total : Int),
    files.foldl (fun total file => toLong (total + f file)) (toLong total)
      = toLong (total + (files.map f).sum)
  | [], total => by simp
  | file :: rest, total => by
    rw [List.foldl_cons, toLong_add_toLong, foldl_toLong f rest (total + f file)]
    simp [add_assoc]

/-- The constructor on a text that decodes is the constructor on the decoded
document. -/
theorem construct_of_Parse (input : Str) (top_ : Bencode) (h : Parse input = .ok top_) :
    Metainfo.construct input = Metainfo.ofDocument top_ := by
  simp only [Metainfo.construct, h]

set_option maxRecDepth 20000 in
/-- The text `nonPositiveLengthTorrent` decodes to `nonPositiveLengthDocument`. -/
theorem Parse_nonPositiveLengthTorrent :
    Parse nonPositiveLengthTorrent = .ok nonPositiveLengthDocument := by
  have hdump : nonPositiveLengthDocument.Dump = .ok nonPositiveLengthTorrent := rfl
  have henc := Encoding_of_Dump nonPositiveLengthDocument nonPositiveLengthTorrent
    (by decide) hdump
  exact (Parse_ok_iff _ _ (by decide)).2 henc

/-- The file of an accepted single-file document has a length of at least 1. -/
theorem accepted_single_file (top : Bencode) (m : Metainfo) (length : Bencode)
    (h : Metainfo.ofDocument top = .ok m)
    (hlength : specField (specInfo top) (bytes "length") = some length) :
    ∃ n : Int, length = .int n ∧ 1 ≤ n ∧
      m.file_list_.map (fun file => (file.path, file.length))
        = [(specStr (specField (specInfo top) (bytes "name")), n)] := by
  obtain ⟨hnone, hattr, _⟩ := accepted_of_ok top m h
  obtain ⟨_, info, _, _, _, _, _, hinfo, _⟩ :=
    head_fields top (checksPassBefore_of_none top _ hnone)
  rw [hinfo] at hlength
  rcases files_fields top info hinfo (checksPassBefore_of_none top _ hnone) with
    ⟨n, hl, hpos, _⟩ | ⟨_, hl, _⟩
  · rw [hl] at hlength
    cases hlength
    refine ⟨n, rfl, hpos, ?_⟩
    rw [attribute_pieces_keeps _ _ _ _ _ _ hattr]
    simp [specFiles, hinfo, hl, specInt_int]
  · rw [hl] at hlength
    cases hlength

theorem pieceOffset_zero (ps : List Piece) : pieceOffset ps 0 = 0 := by
  simp [pieceOffset]

theorem pieceOffset_succ (ps : List Piece) (i : Nat) (h : i < ps.length) :
    pieceOffset ps (i + 1) = pieceOffset ps i + (ps.get ⟨i, h⟩).length := by
  simp only [pieceOffset, List.take_succ, List.getElem?_eq_getElem h, Option.toList,
    List.map_append, List.sum_append, List.map_cons, List.map_nil, List.sum_cons, List.sum_nil,
    add_zero, List.get_eq_getElem]

/-- The slice from `i` on is piece `i` followed by the slice from `i + 1` on. -/
theorem slice_cons (ps : List Piece) (i k : Nat) (h : i < ps.length) :
    (ps.drop i).take (k + 1) = ps.get ⟨i, h⟩ :: (ps.drop (i + 1)).take k := by
  rw [List.drop_eq_getElem_cons h, List.take_succ_cons]
  rfl

/-- The loop over the pieces of one file, when the lengths are in range: it
appends the pieces from `piece_idx` up to the first one at or after the end `e`
of the file. -/
theorem attribute_loop_spec (ps : List Piece) (T e : Int) (hT : T < 2 ^ 63) (he : e ≤ T)
    (hpos : ∀ (i : Nat) (h : i < ps.length), pieceOffset ps i < T →
      1 ≤ (ps.get ⟨i, h⟩).length ∧ (ps.get ⟨i, h⟩).length < 2 ^ 63)
    (hoff : ∀ i, i < ps.length → 0 ≤ pieceOffset ps i) :
    ∀ (fuel i : Nat) (c : Int) (acc : List Piece) (state : Nat × Int × List Piece),
    i ≤ ps.length → c = e - pieceOffset ps i →
    attribute_loop ps fuel i c acc = .ok state →
    i ≤ state.1 ∧ state.1 ≤ ps.length ∧ state.2.1 = e - pieceOffset ps state.1 ∧
      state.2.1 ≤ 0 ∧ state.2.2 = acc ++ (ps.drop i).take (state.1 - i) ∧
      ∀ j, i ≤ j → j < state.1 → pieceOffset ps j < e := by
  intro fuel
  induction fuel with
  | zero =>
    intro i c acc state _ _ h
    simp [attribute_loop] at h
  | succ fuel ih =>
    intro i c acc state hi hc h
    rw [attribute_loop] at h
    by_cases hs : c > 0
    · rw [if_pos hs] at h
      cases hget : ps[i]? with
      | none => simp [hget] at h
      | some piece =>
        have hlt : i < ps.length := by
          by_contra hge
          rw [List.getElem?_eq_none (by omega)] at hget
          cases hget
        have hpiece : piece = ps.get ⟨i, hlt⟩ := by
          rw [List.getElem?_eq_getElem hlt] at hget
          exact (Option.some.inj hget).symm
        simp only [hget] at h
        have hlen := hpos i hlt (by omega)
        have h0 := hoff i hlt
        have hsucc := pieceOffset_succ ps i hlt
        rw [← hpiece] at hlen hsucc
        have hnew : toLong (c - piece.length) = e - pieceOffset ps (i + 1) := by
          rw [toLong_of_range _ (by omega) (by omega)]
          omega
        obtain ⟨h1, h2, h3, h4, h5, h6⟩ := ih (i + 1) _ _ state (by omega) hnew h
        refine ⟨by omega, h2, h3, h4, ?_, ?_⟩
        · rw [h5, List.append_assoc]
          congr 1
          have : state.1 - i = (state.1 - (i + 1)) + 1 := by omega
          rw [this, slice_cons ps i _ hlt, ← hpiece]
          rfl
        · intro j hj1 hj2
          by_cases hji : j = i
          · subst hji
            omega
          · exact h6 j (by omega) hj2
    · rw [if_neg hs] at h
      simp only [Except.ok.injEq] at h
      subst h
      exact ⟨le_refl _, hi, hc, (by show c ≤ 0; omega), by simp, fun j h1 h2 => absurd h2 (by omega)⟩

/-- Filtering an enumerated list by a condition that holds exactly on the
indices from `lo` up to `hi` gives the slice from `lo` up to `hi`. -/
theorem filter_enumFrom_slice (q : Nat × Piece → Bool) (lo hi : Nat) (hlh : lo ≤ hi) :
    ∀ (ps : List Piece) (s : Nat),
    (∀ (j : Nat) (p : Piece), ps[j]? = some p → (q (s + j, p) = true ↔ lo ≤ s + j ∧ s + j < hi)) →
    ((ps.enumFrom s).filter q).map Prod.snd = (ps.drop (lo - s)).take (hi - max lo s)
  | [], s, _ => by simp
  | p :: rest, s, hq => by
    have ih := filter_enumFrom_slice q lo hi hlh rest (s + 1) (by
      intro j p' hget
      have := hq (j + 1) p' (by simpa using hget)
      rw [show s + 1 + j = s + (j + 1) by omega]
      exact this)
    have h0 := hq 0 p (by simp)
    rw [List.enumFrom_cons]
    by_cases hin : lo ≤ s ∧ s < hi
    · have hq0 : q (s, p) = true := by simpa using h0.2 (by simpa using hin)
      rw [List.filter_cons_of_pos hq0, List.map_cons, ih]
      have h1 : lo - s = 0 := by omega
      have h2 : hi - max lo s = (hi - max lo (s + 1)) + 1 := by omega
      have h3 : lo - (s + 1) = 0 := by omega
      rw [h1, h2, h3]
      simp
    · have hq0 : ¬ (q (s, p) = true) := by
        intro hc
        exact hin (by simpa using h0.1 (by simpa using hc))
      rw [List.filter_cons_of_neg hq0, ih]
      by_cases hlo : s < lo
      · have h1 : lo - s = (lo - (s + 1)) + 1 := by omega
        have h2 : hi - max lo s = hi - max lo (s + 1) := by omega
        rw [h1, h2]
        simp
      · have h1 : hi - max lo s = 0 := by omega
        have h2 : hi - max lo (s + 1) = 0 := by omega
        rw [h1, h2]
        simp

/-- The pieces in the range of a file are a slice of the piece list when the
ranges that intersect are those of the indices from `lo` up to `hi`. -/
theorem piecesInRange_slice (starts : Nat → Int) (ps : List Piece) (start length : Int)
    (lo hi : Nat) (hlh : lo ≤ hi)
    (hq : ∀ (j : Nat) (h : j < ps.length),
      max (starts j) start < min (starts j + (ps.get ⟨j, h⟩).length) (start + length) ↔
        lo ≤ j ∧ j < hi) :
    piecesInRange starts ps start length = (ps.drop lo).take (hi - lo) := by
  have := filter_enumFrom_slice (fun jp =>
    decide (max (starts jp.1) start < min (starts jp.1 + jp.2.length) (start + length)))
    lo hi hlh ps 0 (by
      intro j p hget
      have hlt : j < ps.length := by
        by_contra hge
        rw [List.getElem?_eq_none (by omega)] at hget
        cases hget
      rw [List.getElem?_eq_getElem hlt] at hget
      have hp : p = ps.get ⟨j, hlt⟩ := (Option.some.inj hget).symm
      subst hp
      simpa using hq j hlt)
  simpa [piecesInRange, List.enum] using this

/-- The offsets of the pieces ascend as long as the pieces before the last one
have a length of at least 1. -/
theorem pieceOffset_mono (ps : List Piece)
    (hmono : ∀ (i : Nat) (h : i < ps.length), i + 1 < ps.length → 1 ≤ (ps.get ⟨i, h⟩).length)
    (i : Nat) : ∀ j : Nat, i ≤ j → j < ps.length → pieceOffset ps i ≤ pieceOffset ps j := by
  intro j
  induction j with
  | zero =>
    intro h _
    have : i = 0 := by omega
    rw [this]
  | succ j ih =>
    intro h hj
    by_cases hij : i = j + 1
    · rw [hij]
    · have := ih (by omega) (by omega)
      have h1 := pieceOffset_succ ps j (by omega)
      have h2 := hmono j (by omega) hj
      omega

theorem sum_lengths_nonneg : ∀ files : List File, (∀ f ∈ files, 1 ≤ f.length ∧ f.pieces = []) →
    0 ≤ (files.map (fun file => file.length)).sum
  | [], _ => by simp
  | f :: rest, h => by
    have h1 := (h f (by simp)).1
    have h2 := sum_lengths_nonneg rest (fun g hg => h g (by simp [hg]))
    simp only [List.map_cons, List.sum_cons]
    omega

/-- One round of the loop over the files, when no length leaves the range of
`long`: a file of `file.length` bytes from the offset `s` on, met with
`piece_idx = i` and `file_length_sum = s - pieceOffset ps i`, gets the pieces
whose range intersects its own; they are the slice of the piece list from
`i - 1` or from `i` on, as the file starts inside piece `i - 1` or not. -/
theorem attribute_file_spec (ps : List Piece) (T : Int) (hT : T < 2 ^ 63)
    (hn : ps.length < 2 ^ 64)
    (hpos : ∀ (i : Nat) (h : i < ps.length), pieceOffset ps i < T →
      1 ≤ (ps.get ⟨i, h⟩).length ∧ (ps.get ⟨i, h⟩).length < 2 ^ 63)
    (hmono : ∀ (i : Nat) (h : i < ps.length), i + 1 < ps.length →
      1 ≤ (ps.get ⟨i, h⟩).length)
    (file : File) (i : Nat) (c s : Int) (pieces : List Piece) (state : Nat × Int × List Piece)
    (hfile : 1 ≤ file.length ∧ file.pieces = []) (hend : s + file.length ≤ T)
    (hi : i ≤ ps.length) (hc : c = s - pieceOffset ps i) (hc0 : c ≤ 0) (hs : 0 ≤ s)
    (hprev : 0 < i → pieceOffset ps (i - 1) < s)
    (hpre : (if c < 0 then
          (ps[(i + (2 ^ 64 - 1)) % 2 ^ 64]?).map (fun piece => file.pieces ++ [piece])
        else some file.pieces) = some pieces)
    (hloop : attribute_loop ps (ps.length + 1) i (toLong (c + file.length)) pieces
      = .ok state) :
    i ≤ state.1 ∧ state.1 ≤ ps.length ∧ 0 < state.1 ∧
    state.2.1 = (s + file.length) - pieceOffset ps state.1 ∧ state.2.1 ≤ 0 ∧
    pieceOffset ps (state.1 - 1) < s + file.length ∧
    state.2.2.drop (if c < 0 then 1 else 0) = (ps.drop i).take (state.1 - i) ∧
    (if c < 0 then 1 else 0) ≤ state.2.2.length ∧
    state.2.2 = piecesInRange (pieceOffset ps) ps s file.length := by
  have hoff : ∀ i, i < ps.length → 0 ≤ pieceOffset ps i := by
    intro i hi
    have := pieceOffset_mono ps hmono 0 i (Nat.zero_le _) hi
    rw [pieceOffset_zero] at this
    exact this
  have hi0 : i = 0 → c = 0 := by
    intro h0
    rw [h0, pieceOffset_zero] at hc
    omega
  have hcr : -(2 ^ 63) < c := by
    by_cases h0 : i = 0
    · rw [hi0 h0]
      norm_num
    · have h1 := hprev (by omega)
      have h2 := pieceOffset_succ ps (i - 1) (by omega)
      have h3 := hpos (i - 1) (by omega) (by omega)
      rw [show i - 1 + 1 = i by omega] at h2
      omega
  have hc1 : toLong (c + file.length) = (s + file.length) - pieceOffset ps i := by
    rw [toLong_of_range _ (by omega) (by omega)]
    omega
  rw [hc1] at hloop
  obtain ⟨h1, h2, h3, h4, h5, h6⟩ := attribute_loop_spec ps T (s + file.length) hT
    (by omega) hpos hoff _ i _ pieces state hi rfl hloop
  -- the first piece of the file
  have hlo : ∃ lo, lo ≤ i ∧ pieces ++ (ps.drop i).take (state.1 - i)
      = (ps.drop lo).take (state.1 - lo) ∧ pieceOffset ps lo ≤ s ∧
      (lo < i → s < pieceOffset ps i) ∧ (lo = i → s = pieceOffset ps i) ∧ lo + 1 ≥ i ∧
      pieces.length = (if c < 0 then 1 else 0) := by
    by_cases hneg : c < 0
    · have hipos : 0 < i := by
        by_contra h0
        have := hi0 (by omega)
        omega
      have hidx : (i + (2 ^ 64 - 1)) % 2 ^ 64 = i - 1 := by omega
      rw [if_pos hneg, hidx, List.getElem?_eq_getElem (by omega : i - 1 < ps.length)] at hpre
      simp only [Option.map_some', Option.some.injEq, hfile.2, List.nil_append] at hpre
      refine ⟨i - 1, by omega, ?_, le_of_lt (hprev hipos), fun _ => by omega,
        fun h => by omega, by omega, by rw [← hpre, if_pos hneg]; rfl⟩
      rw [← hpre, show state.1 - (i - 1) = (state.1 - i) + 1 by omega,
        slice_cons ps (i - 1) _ (by omega), show i - 1 + 1 = i by omega]
      rfl
    · rw [if_neg hneg] at hpre
      simp only [Option.some.injEq, hfile.2] at hpre
      refine ⟨i, le_refl _, by rw [← hpre]; rfl, by omega, fun h => by omega,
        fun _ => by omega, by omega, by rw [← hpre, if_neg hneg]; rfl⟩
  obtain ⟨lo, hlo1, hlo2, hlo3, hlo4, hlo5, hlo6, hlo7⟩ := hlo
  -- the loop has taken a piece when the file starts at the offset 0
  have hstate : 0 < state.1 := by
    by_contra h0
    have h00 : state.1 = 0 := by omega
    rw [h00, pieceOffset_zero] at h3
    omega
  have hnext : pieceOffset ps (state.1 - 1) < s + file.length := by
    by_cases hmove : i < state.1
    · exact h6 (state.1 - 1) (by omega) (by omega)
    · have : state.1 = i := by omega
      rw [this]
      have := hprev (by omega)
      omega
  refine ⟨h1, h2, hstate, h3, h4, hnext, ?_, ?_, ?_⟩
  · rw [h5, ← hlo7, List.drop_left]
  · rw [h5, List.length_append]
    omega
  · rw [h5, hlo2]
    symm
    apply piecesInRange_slice (pieceOffset ps) ps s file.length lo state.1 (by omega)
    intro j hj
    have hsuccj := pieceOffset_succ ps j hj
    rw [lt_min_iff, max_lt_iff, max_lt_iff]
    constructor
    · rintro ⟨⟨hj1, hj2⟩, hj3, _⟩
      constructor
      · -- the pieces before `lo` end at or before the start of the file
        by_contra hjlo
        have hjlo : j + 1 ≤ lo := by omega
        by_cases hlon : lo < ps.length
        · have := pieceOffset_mono ps hmono (j + 1) lo hjlo hlon
          omega
        · by_cases hjn : j + 1 = lo
          · rw [hjn] at hsuccj
            omega
          · have := pieceOffset_mono ps hmono (j + 1) (i - 1) (by omega) (by omega)
            have := hprev (by omega)
            omega
      · by_contra hjhi
        have := pieceOffset_mono ps hmono state.1 j (by omega) hj
        omega
    · rintro ⟨hj1, hj2⟩
      by_cases hji : j < i
      · have hjlo : j = lo := by omega
        have hlt := hlo4 (by omega)
        have : j + 1 = i := by omega
        rw [this] at hsuccj
        subst hjlo
        refine ⟨⟨by omega, by omega⟩, by omega, by omega⟩
      · have hje := h6 j (by omega) hj2
        have hjl := (hpos j hj (by omega)).1
        have hij := pieceOffset_mono ps hmono i j (by omega) hj
        have hsi : s ≤ pieceOffset ps i := by omega
        refine ⟨⟨by omega, by omega⟩, by omega, by omega⟩

/-- The lengths that `set_piece_lengths` gives the pieces. -/
theorem set_piece_lengths_get (l : List Piece) (pl T : Int) (j : Nat)
    (h : j < (set_piece_lengths l pl T).length) :
    ((set_piece_lengths l pl T).get ⟨j, h⟩).length
      = if j + 1 < l.length then pl else toLong (T - ((l.length : Int) - 1) * pl) := by
  have hlen := set_piece_lengths_length l pl T
  have hj : j < l.length := by omega
  simp only [List.get_eq_getElem, set_piece_lengths]
  by_cases hlast : j + 1 < l.length
  · rw [if_pos hlast, List.getElem_append_left (by simp; omega)]
    simp
  · rw [if_neg hlast, List.getElem_append_right (by simp; omega)]
    simp

/-- The pieces before the last one start at the multiples of the piece length. -/
theorem pieceOffset_eq (ps : List Piece) (pl : Int)
    (hpl : ∀ (i : Nat) (h : i < ps.length), i + 1 < ps.length → (ps.get ⟨i, h⟩).length = pl) :
    ∀ j : Nat, j < ps.length → pieceOffset ps j = (j : Int) * pl := by
  intro j
  induction j with
  | zero => intro _; simp [pieceOffset_zero]
  | succ j ih =>
    intro hj
    rw [pieceOffset_succ ps j (by omega), ih (by omega), hpl j (by omega) hj]
    push_cast
    ring

/-- A text on which the constructor returns decodes to a document that the C++
types can hold and on which the constructor body returns. -/
theorem construct_ok (input : Str) (m : Metainfo) (h : Metainfo.construct input = .ok m) :
    ∃ top_ : Bencode, Parse input = .ok top_ ∧ top_.Representable = true ∧
      Metainfo.ofDocument top_ = .ok m := by
  by_cases hb : input = []
  · subst hb
    cases h
  · simp only [Metainfo.construct] at h
    cases hp : Parse input with
    | ok top_ =>
      rw [hp] at h
      exact ⟨top_, rfl, (Encoding_valid _ _ ((Parse_ok_iff input top_ hb).1 hp)).2, h⟩
    | throw id => rw [hp] at h; cases h
    | outOfFuel => rw [hp] at h; cases h

/-- A field of a value that the C++ types can hold is one too. -/
theorem Representable_field (v x : Bencode) (key : Str) (hv : v.Representable = true)
    (h : specField v key = some x) : x.Representable = true := by
  cases v with
  | dict d =>
    simp only [Bencode.Representable, Bool.and_eq_true] at hv
    have hall := (RepresentableItems_iff d).1 hv.2
    simp only [specField] at h
    clear hv
    induction d with
    | nil => simp [mapFind] at h
    | cons kv rest ih =>
      obtain ⟨k, value⟩ := kv
      simp only [mapFind] at h
      by_cases hk : k = key
      · rw [if_pos hk] at h
        cases h
        exact (hall (k, x) (by simp)).2
      · rw [if_neg hk] at h
        exact ih h (fun kv hkv => hall kv (List.mem_cons_of_mem _ hkv))
  | _ => simp [specField] at h

/-- What an accepted torrent consists of: the piece list cut from `pieces` with
its lengths set, the piece length in the range of `long` and at least 1, the
comparison of the number of pieces with the quotient in `double`, the files
before and after the attribution of the pieces, and the total length. -/
theorem accepted_structure (input : Str) (m : Metainfo)
    (h : Metainfo.construct input = .ok m) :
    ∃ (pieces : Str) (files : List File),
      1 ≤ pieces.length / 20 ∧ pieces.length / 20 < 2 ^ 64 ∧
      m.piece_list_ = set_piece_lengths (make_pieces (pieces.length / 20) pieces)
        m.piece_length_ m.total_length_ ∧
      m.piece_list_.length = pieces.length / 20 ∧
      1 ≤ m.piece_length_ ∧ m.piece_length_ < 2 ^ 63 ∧
      ceilQuotient m.total_length_ m.piece_length_
        = (roundToDouble (pieces.length / 20) : Int) ∧
      attribute_pieces m.piece_list_ files 0 0 [] = .ok m.file_list_ ∧
      (∀ f ∈ files, f.pieces = []) ∧
      files.map (fun file => file.length) = m.file_list_.map (fun file => file.length) ∧
      m.total_length_ = toLong (m.file_list_.map (fun file => file.length)).sum := by
  obtain ⟨top, _, hrep, hok⟩ := construct_ok input m h
  obtain ⟨hnone, hattr, _, _, _, hpl, hps, htotal⟩ := accepted_of_ok top m hok
  obtain ⟨_, info, _, piece_length, _, _, htopinfo, hinfo, _, hplf, hpl1⟩ :=
    head_fields top (checksPassBefore_of_none top _ hnone)
  obtain ⟨pieces, hpieces⟩ := pieces_fields top (checksPassBefore_of_none top _ hnone)
  have hchecks := firstFailingCheck_pieces top (checksPassBefore_of_none top _ hnone)
  rw [hnone, hpieces, specStr_str] at hchecks
  have hinforep : (specInfo top).Representable = true := by
    rw [hinfo]
    exact Representable_field top _ _ hrep htopinfo
  have hplrep := Representable_field _ _ _ hinforep (hinfo ▸ hplf)
  have hpiecesrep := Representable_field _ _ _ hinforep hpieces
  simp only [Bencode.Representable, Bool.and_eq_true, decide_eq_true_eq, LONG_MAX, LONG_MIN,
    SIZE_MAX] at hplrep hpiecesrep
  have hplv : m.piece_length_ = piece_length := by rw [hpl, hinfo, hplf, specInt_int]
  by_cases hinv : pieces.length = 0 ∨ pieces.length % 20 ≠ 0
  · rw [if_pos hinv] at hchecks
    cases hchecks
  rw [if_neg hinv] at hchecks
  by_cases hmis : ceilQuotient (specTotalLength (specInfo top))
      (specInt (specField (specInfo top) (bytes "piece length")))
        ≠ (roundToDouble (pieces.length / 20) : Int)
  · rw [if_pos hmis] at hchecks
    cases hchecks
  have hps2 : m.piece_list_ = set_piece_lengths (make_pieces (pieces.length / 20) pieces)
      m.piece_length_ m.total_length_ := by
    rw [hps, specPieces, hpieces, specStr_str, hpl, htotal]
  have htl : m.total_length_ = toLong (m.file_list_.map (fun file => file.length)).sum := by
    rcases hlen : specField (specInfo top) (bytes "length") with _ | length
    · rcases files_fields top info hinfo (checksPassBefore_of_none top _ hnone) with
        ⟨_, hl, _⟩ | ⟨files, _, hfiles, _⟩
      · rw [hinfo, hl] at hlen
        cases hlen
      · rw [← hinfo] at hfiles
        obtain ⟨_, _, hmap⟩ := accepted_multi_file top m files hok hfiles
        have h2 := congrArg (List.map Prod.snd) hmap
        simp only [List.map_map] at h2
        have h3 : m.file_list_.map (fun file => file.length)
            = files.map (fun file => specInt (specField file (bytes "length"))) := h2
        rw [h3, htotal]
        simp only [specTotalLength, hlen, hfiles, specList_list]
        have := foldl_toLong (fun file => specInt (specField file (bytes "length"))) files 0
        rw [toLong_of_range 0 (by norm_num) (by norm_num), zero_add] at this
        exact this
    · obtain ⟨n, hn, _, hmap⟩ := accepted_single_file top m length hok hlen
      have h2 := congrArg (List.map Prod.snd) hmap
      simp only [List.map_map] at h2
      have h3 : m.file_list_.map (fun file => file.length) = [n] := h2
      have hlenrep := Representable_field _ _ _ hinforep hlen
      rw [hn] at hlenrep
      simp only [Bencode.Representable, Bool.and_eq_true, decide_eq_true_eq, LONG_MAX,
        LONG_MIN] at hlenrep
      rw [h3, htotal]
      simp only [specTotalLength, hlen, hn, specInt_int, List.sum_cons, List.sum_nil, add_zero]
      rw [toLong_of_range _ (by omega) (by omega)]
  refine ⟨pieces, specFiles (specInfo top), by omega, by omega, hps2, ?_, by omega, by omega,
    ?_, ?_, ?_, ?_, htl⟩
  · rw [hps2, set_piece_lengths_length, make_pieces_length]
  · rw [htotal, hpl]
    exact not_not.1 hmis
  · rw [hps]
    exact hattr
  · intro f hf
    simp only [specFiles] at hf
    split at hf
    · simp only [List.mem_singleton] at hf
      rw [hf]
    · simp only [List.mem_map] at hf
      obtain ⟨_, _, hf⟩ := hf
      rw [← hf]
  · have := attribute_pieces_keeps _ _ _ _ _ _ hattr
    have h2 := congrArg (List.map Prod.snd) this
    simp only [List.map_map, List.nil_append] at h2
    exact h2.symm

/-- The lengths of the pieces of an accepted torrent. -/
theorem accepted_piece_lengths (input : Str) (m : Metainfo)
    (h : Metainfo.construct input = .ok m) (j : Nat) (hj : j < m.piece_list_.length) :
    (m.piece_list_.get ⟨j, hj⟩).length
      = if j + 1 < m.piece_list_.length then m.piece_length_
        else toLong (m.total_length_ - ((m.piece_list_.length : Int) - 1) * m.piece_length_) := by
  obtain ⟨pieces, _, _, _, hps, hn, _⟩ := accepted_structure input m h
  have hgen : ∀ (ps : List Piece) (hps : ps = set_piece_lengths
      (make_pieces (pieces.length / 20) pieces) m.piece_length_ m.total_length_)
      (hj : j < ps.length),
      (ps.get ⟨j, hj⟩).length = if j + 1 < pieces.length / 20 then m.piece_length_
        else toLong (m.total_length_ - ((pieces.length / 20 : Nat) - 1) * m.piece_length_) := by
    intro ps hps hj
    subst hps
    rw [set_piece_lengths_get, make_pieces_length]
  rw [hgen m.piece_list_ hps hj, hn]

/-- The conditions under which the loop over the files keeps every length in
the range of `long`, for an accepted torrent whose files have at least one byte
each and less than `2 ^ 63` bytes together. -/
theorem accepted_in_range (input : Str) (m : Metainfo)
    (h : Metainfo.construct input = .ok m)
    (hlen : ∀ file ∈ m.file_list_, 1 ≤ file.length)
    (hsum : (m.file_list_.map (fun file => file.length)).sum < 2 ^ 63) :
    m.total_length_ = (m.file_list_.map (fun file => file.length)).sum ∧
    m.piece_list_.length < 2 ^ 64 ∧
    (∀ j, j < m.piece_list_.length → pieceOffset m.piece_list_ j = (j : Int) * m.piece_length_) ∧
    (∀ (i : Nat) (h : i < m.piece_list_.length), pieceOffset m.piece_list_ i < m.total_length_ →
      1 ≤ (m.piece_list_.get ⟨i, h⟩).length ∧ (m.piece_list_.get ⟨i, h⟩).length < 2 ^ 63) ∧
    (∀ (i : Nat) (h : i < m.piece_list_.length), i + 1 < m.piece_list_.length →
      1 ≤ (m.piece_list_.get ⟨i, h⟩).length) := by
  obtain ⟨pieces, files, hn1, hn2, _, hn, hpl1, hpl2, _, _, hnil, hlens, htotal⟩ :=
    accepted_structure input m h
  have hnn : 0 ≤ (m.file_list_.map (fun file => file.length)).sum := by
    apply List.sum_nonneg
    intro x hx
    obtain ⟨file, hfile, rfl⟩ := List.mem_map.1 hx
    have := hlen file hfile
    omega
  have hT : m.total_length_ = (m.file_list_.map (fun file => file.length)).sum := by
    rw [htotal, toLong_of_range _ (by omega) hsum]
  have hget := accepted_piece_lengths input m h
  have hpl : ∀ (i : Nat) (h : i < m.piece_list_.length), i + 1 < m.piece_list_.length →
      (m.piece_list_.get ⟨i, h⟩).length = m.piece_length_ := by
    intro i hi hi1
    rw [hget i hi, if_pos hi1]
  have hoff := pieceOffset_eq m.piece_list_ m.piece_length_ hpl
  refine ⟨hT, by omega, hoff, ?_, ?_⟩
  · intro i hi hlt
    by_cases hi1 : i + 1 < m.piece_list_.length
    · rw [hpl i hi hi1]
      exact ⟨hpl1, hpl2⟩
    · rw [hget i hi, if_neg hi1]
      rw [hoff i hi] at hlt
      have hin : (m.piece_list_.length : Int) - 1 = (i : Int) := by omega
      rw [hin]
      have h0 : 0 ≤ (i : Int) * m.piece_length_ := by positivity
      rw [toLong_of_range _ (by omega) (by omega)]
      omega
  · intro i hi hi1
    rw [hpl i hi hi1]
    exact hpl1

set_option maxRecDepth 20000 in
/-- The text `smallFilesTorrent` decodes to `smallFilesDocument`. -/
theorem Parse_smallFilesTorrent : Parse smallFilesTorrent = .ok smallFilesDocument := by
  have hdump : smallFilesDocument.Dump = .ok smallFilesTorrent := rfl
  have henc := Encoding_of_Dump smallFilesDocument smallFilesTorrent (by decide) hdump
  exact (Parse_ok_iff _ _ (by decide)).2 henc

/-- A start offset after piece `i - 1` and at or before piece `i` is a multiple
of the piece length exactly when it is the start of piece `i`. -/
theorem start_multiple_iff (pl s B : Int) (i : Nat)
    (h1 : ((i : Int) - 1) * pl < s) (h2 : s ≤ B) (h3 : B ≤ (i : Int) * pl)
    (h4 : B < (i : Int) * pl → s < B) :
    s % pl = 0 ↔ ¬ (s < B) := by
  have hd : s % pl = (s - ((i : Int) - 1) * pl) % pl := by
    have : s = (s - ((i : Int) - 1) * pl) + ((i : Int) - 1) * pl := by ring
    conv_lhs => rw [this]
    exact Int.add_mul_emod_self
  have hexp : (i : Int) * pl = ((i : Int) - 1) * pl + pl := by ring
  by_cases hlt : s - ((i : Int) - 1) * pl < pl
  · rw [hd, Int.emod_eq_of_lt (by omega) hlt]
    constructor
    · intro h0
      omega
    · intro hsb
      have : B < (i : Int) * pl := by omega
      exact absurd (h4 this) hsb
  · have : s - ((i : Int) - 1) * pl = pl := by omega
    rw [hd, this, Int.emod_self]
    constructor
    · intro _
      omega
    · intro _
      rfl

/-- The loop over the files, when the number of pieces is the quotient of the
total length by the piece length, rounded up: the piece lists of the files,
each without its first piece when the file starts inside a piece, make up the
piece list from `piece_idx` on. -/
theorem attribute_pieces_cover (ps : List Piece) (pl T : Int) (hT : T < 2 ^ 63)
    (hn : ps.length < 2 ^ 64)
    (hpos : ∀ (i : Nat) (h : i < ps.length), pieceOffset ps i < T →
      1 ≤ (ps.get ⟨i, h⟩).length ∧ (ps.get ⟨i, h⟩).length < 2 ^ 63)
    (hmono : ∀ (i : Nat) (h : i < ps.length), i + 1 < ps.length →
      1 ≤ (ps.get ⟨i, h⟩).length)
    (hoff : ∀ j, j < ps.length → pieceOffset ps j = (j : Int) * pl)
    (hoffn : pieceOffset ps ps.length = T)
    (hlast : pieceOffset ps (ps.length - 1) < T) (hexact : T ≤ (ps.length : Int) * pl) :
    ∀ (files : List File) (i : Nat) (c s : Int) (done out : List File),
    (∀ f ∈ files, 1 ≤ f.length ∧ f.pieces = []) →
    s + (files.map (fun file => file.length)).sum = T →
    i ≤ ps.length → c = s - pieceOffset ps i → c ≤ 0 → 0 ≤ s →
    (0 < i → pieceOffset ps (i - 1) < s) → (files = [] → i = ps.length) →
    attribute_pieces ps files i c done = .ok out →
    ∃ tail, out = done ++ tail ∧ withoutOverlaps pl tail s = ps.drop i ∧
      (tail.map (fun file => file.pieces.length)).sum
        = (ps.length - i) + overlapCount pl tail s := by
  intro files
  induction files with
  | nil =>
    intro i c s done out _ _ _ _ _ _ _ hnil h
    simp only [attribute_pieces, pure, Except.pure, Except.ok.injEq] at h
    refine ⟨[], by simp [h], ?_, ?_⟩
    · rw [hnil rfl]
      simp [withoutOverlaps]
    · rw [hnil rfl]
      simp [overlapCount]
  | cons file rest ih =>
    intro i c s done out hfiles hsum hi hc hc0 hs hprev _ h
    obtain ⟨pieces, state, hpre, hloop, hrest⟩ := attribute_pieces_cons_ok _ _ _ _ _ _ _ h
    have hfile := hfiles file (by simp)
    have hrestnn := sum_lengths_nonneg rest (fun g hg => hfiles g (by simp [hg]))
    simp only [List.map_cons, List.sum_cons] at hsum
    obtain ⟨h1, h2, h0, h3, h4, hnext, hdrop, hfirst, _⟩ := attribute_file_spec ps T hT hn hpos
      hmono file i c s pieces state hfile (by omega) hi hc hc0 hs hprev hpre hloop
    have hend : rest = [] → state.1 = ps.length := by
      intro hr
      rw [hr] at hsum
      simp only [List.map_nil, List.sum_nil, add_zero] at hsum
      by_contra hne
      have := pieceOffset_mono ps hmono state.1 (ps.length - 1) (by omega) (by omega)
      omega
    obtain ⟨tail, htail, hcat, hcount⟩ := ih state.1 state.2.1 (s + file.length)
      (done ++ [⟨file.path, file.length, state.2.2⟩]) out
      (fun g hg => hfiles g (by simp [hg])) (by omega) h2 h3 h4 (by omega)
      (fun _ => hnext) hend hrest
    -- the file starts inside a piece exactly when its start is no multiple
    have hmult : s % pl = 0 ↔ ¬ (c < 0) := by
      by_cases hi0 : i = 0
      · rw [hi0, pieceOffset_zero] at hc
        have : s = 0 := by omega
        rw [this]
        simp only [Int.zero_emod, true_iff]
        omega
      · have hp := hprev (by omega)
        rw [hoff (i - 1) (by omega)] at hp
        have hcast : ((i - 1 : Nat) : Int) = (i : Int) - 1 := by omega
        rw [hcast] at hp
        have hB : pieceOffset ps i ≤ (i : Int) * pl := by
          by_cases hin : i < ps.length
          · rw [hoff i hin]
          · have : i = ps.length := by omega
            rw [this, hoffn]
            exact hexact
        have hB2 : pieceOffset ps i < (i : Int) * pl → s < pieceOffset ps i := by
          intro hlt
          by_cases hin : i < ps.length
          · rw [hoff i hin] at hlt
            omega
          · have : i = ps.length := by omega
            rw [this, hoffn]
            omega
        rw [start_multiple_iff pl s (pieceOffset ps i) i hp (by omega) hB hB2]
        constructor <;> intro hh <;> omega
    refine ⟨⟨file.path, file.length, state.2.2⟩ :: tail, by rw [htail]; simp, ?_, ?_⟩
    · simp only [withoutOverlaps, hcat]
      have hslice : (ps.drop i).take (state.1 - i) ++ ps.drop state.1 = ps.drop i := by
        have := List.take_append_drop (state.1 - i) (ps.drop i)
        rw [List.drop_drop] at this
        rw [show i + (state.1 - i) = state.1 by omega] at this
        exact this
      by_cases hneg : c < 0
      · rw [if_neg (fun hm => (hmult.1 hm) hneg)]
        rw [if_pos hneg] at hdrop
        rw [hdrop, hslice]
      · rw [if_pos (hmult.2 hneg)]
        rw [if_neg hneg] at hdrop
        simp only [List.drop_zero] at hdrop
        rw [hdrop, hslice]
    · simp only [List.map_cons, List.sum_cons, overlapCount, hcount]
      have hlen := congrArg List.length hdrop
      simp only [List.length_drop, List.length_take] at hlen
      by_cases hneg : c < 0
      · rw [if_neg (fun hm => (hmult.1 hm) hneg)]
        rw [if_pos hneg] at hlen hfirst
        omega
      · rw [if_pos (hmult.2 hneg)]
        rw [if_neg hneg] at hlen hfirst
        omega

/-- The rounding of a quotient to a multiple of `E`, when `j * b < a` and
`a ≤ (j + 1) * b`: the rounded value is above `j * P` and at most
`(j + 1) * P`, where `P` is the scale of the quotient and a multiple of `E`. -/
theorem round_quotient_core (a b j P E G q r N S : Nat)
    (hP : P = E * G) (hE : 1 ≤ E)
    (hN : b * N + S = a * P) (hS : S < b)
    (hq : E * q + r = N) (hr : r < E)
    (hja : j * b < a) (haj : a ≤ (j + 1) * b)
    (hq1 : 1 ≤ q)
    (hbig : 1 ≤ j → q = j * G → ∃ H, E = 2 * H ∧ H * b < P) :
    j * P < (if E < 2 * r ∨ (2 * r = E ∧ (0 < S ∨ q % 2 = 1)) then (q + 1) * E else q * E) ∧
    (if E < 2 * r ∨ (2 * r = E ∧ (0 < S ∨ q % 2 = 1)) then (q + 1) * E else q * E)
      ≤ (j + 1) * P := by
  have hb : 1 ≤ b := by omega
  -- the quotient lies between `j * P` and `(j + 1) * P`
  have hNup : N ≤ (j + 1) * P := by
    have h1 : b * N ≤ b * ((j + 1) * P) := by
      calc b * N ≤ a * P := by omega
        _ ≤ ((j + 1) * b) * P := Nat.mul_le_mul_right P haj
        _ = b * ((j + 1) * P) := by ring
    exact Nat.le_of_mul_le_mul_left h1 (by omega)
  have hNlow : j * P ≤ N := by
    by_contra hlt
    have h1 : N + 1 ≤ j * P := by omega
    have h2 : b * (N + 1) ≤ b * (j * P) := Nat.mul_le_mul_left b h1
    have h3 : b * (j * P) ≤ a * P := by
      calc b * (j * P) = (j * b) * P := by ring
        _ ≤ a * P := Nat.mul_le_mul_right P (le_of_lt hja)
    have h4 : b * (N + 1) = b * N + b := by ring
    omega
  have hqup : q ≤ (j + 1) * G := by
    have h1 : E * q ≤ E * ((j + 1) * G) := by
      calc E * q ≤ N := by omega
        _ ≤ (j + 1) * P := hNup
        _ = E * ((j + 1) * G) := by rw [hP]; ring
    exact Nat.le_of_mul_le_mul_left h1 (by omega)
  have hqlow : j * G ≤ q := by
    by_contra hlt
    have h1 : q + 1 ≤ j * G := by omega
    have h2 : E * (q + 1) ≤ E * (j * G) := Nat.mul_le_mul_left E h1
    have h3 : E * (j * G) = j * P := by rw [hP]; ring
    have h4 : E * (q + 1) = E * q + E := by ring
    omega
  have hqE : q * E = E * q := by ring
  have hq1E : (q + 1) * E = E * q + E := by ring
  constructor
  · -- the lower bound
    by_cases hj : j = 0
    · subst hj
      have : 1 ≤ E * q := Nat.mul_pos (by omega) (by omega)
      split <;> omega
    · by_cases hqj : q = j * G
      · obtain ⟨H, hEH, hHb⟩ := hbig (by omega) hqj
        have hEq : E * q = j * P := by rw [hqj, hP]; ring
        -- the remainder is at least half of `E`
        have hrH : H ≤ r := by
          by_contra hlt
          have h1 : N + 1 ≤ j * P + H := by omega
          have h2 : b * (N + 1) ≤ b * (j * P + H) := Nat.mul_le_mul_left b h1
          have h3 : b * (j * P + H) < (j * b + 1) * P := by
            have : b * (j * P + H) = (j * b) * P + H * b := by ring
            have h5 : (j * b + 1) * P = (j * b) * P + P := by ring
            omega
          have h4 : (j * b + 1) * P ≤ a * P := Nat.mul_le_mul_right P (by omega)
          have h6 : b * (N + 1) = b * N + b := by ring
          omega
        have hup : E < 2 * r ∨ (2 * r = E ∧ (0 < S ∨ q % 2 = 1)) := by
          by_cases hgt : E < 2 * r
          · exact Or.inl hgt
          · right
            have hrH2 : r = H := by omega
            refine ⟨by omega, Or.inl ?_⟩
            by_contra hS0
            have hS0 : S = 0 := by omega
            have h1 : b * N = a * P := by omega
            have h2 : N = j * P + H := by omega
            have h3 : b * (j * P + H) = (j * b) * P + H * b := by ring
            have h4 : (j * b + 1) * P ≤ a * P := Nat.mul_le_mul_right P (by omega)
            have h5 : (j * b + 1) * P = (j * b) * P + P := by ring
            rw [h2, h3] at h1
            omega
        rw [if_pos hup]
        omega
      · have h1 : j * G + 1 ≤ q := by omega
        have h2 : E * (j * G + 1) ≤ E * q := Nat.mul_le_mul_left E h1
        have h3 : E * (j * G + 1) = j * P + E := by rw [hP]; ring
        split <;> omega
  · -- the upper bound
    by_cases hqj : q = (j + 1) * G
    · have hEq : E * q = (j + 1) * P := by rw [hqj, hP]; ring
      have hr0 : r = 0 := by omega
      have : ¬ (E < 2 * r ∨ (2 * r = E ∧ (0 < S ∨ q % 2 = 1))) := by
        rw [hr0]
        omega
      rw [if_neg this]
      omega
    · have h1 : q + 1 ≤ (j + 1) * G := by omega
      have h2 : E * (q + 1) ≤ E * ((j + 1) * G) := Nat.mul_le_mul_left E h1
      have h3 : E * ((j + 1) * G) = (j + 1) * P := by rw [hP]; ring
      have h4 : E * (q + 1) = E * q + E := by ring
      split <;> omega

/-- The leading binary digit of a positive number. -/
theorem floorLog2_spec (n : Nat) (hn : n ≠ 0) :
    2 ^ floorLog2 n ≤ n ∧ n < 2 ^ (floorLog2 n + 1) := by
  rw [floorLog2_eq]
  exact ⟨Nat.log2_self_le hn, Nat.lt_log2_self⟩

/-- The significand of a positive number has at most 53 bits, and exactly 53
when bits are dropped. -/
theorem significand_bounds (n : Nat) (hn : n ≠ 0) :
    n / 2 ^ (floorLog2 n - 52) < 2 ^ 53 ∧
    (1 ≤ floorLog2 n - 52 → 2 ^ 52 ≤ n / 2 ^ (floorLog2 n - 52)) ∧
    (floorLog2 n - 52 = 0 → n < 2 ^ 53) := by
  obtain ⟨h1, h2⟩ := floorLog2_spec n hn
  have hpos : 0 < 2 ^ (floorLog2 n - 52) := Nat.pos_pow_of_pos _ (by norm_num)
  refine ⟨?_, ?_, ?_⟩
  · rw [Nat.div_lt_iff_lt_mul hpos]
    by_cases hl : floorLog2 n ≤ 52
    · have : floorLog2 n - 52 = 0 := by omega
      rw [this, pow_zero, mul_one]
      calc n < 2 ^ (floorLog2 n + 1) := h2
        _ ≤ 2 ^ 53 := Nat.pow_le_pow_right (by norm_num) (by omega)
    · rw [← pow_add]
      have : 53 + (floorLog2 n - 52) = floorLog2 n + 1 := by omega
      rw [this]
      exact h2
  · intro he
    rw [Nat.le_div_iff_mul_le hpos, ← pow_add]
    have : 52 + (floorLog2 n - 52) = floorLog2 n := by omega
    rw [this]
    exact h1
  · intro he
    calc n < 2 ^ (floorLog2 n + 1) := h2
      _ ≤ 2 ^ 53 := Nat.pow_le_pow_right (by norm_num) (by omega)

/-- When the significand `j * G` of a quotient has 53 bits and `j * b` fewer,
half of the unit `E` of the significand times `b` is below the scale `P`. -/
theorem half_unit_bound (j b P E G H : Nat) (hP : P = E * G) (hP0 : 0 < P) (hEH : E = 2 * H)
    (hq52 : 2 ^ 52 ≤ j * G) (hjb : j * b < 2 ^ 53) : H * b < P := by
  have h1 : E * 2 ^ 52 ≤ j * P := by
    calc E * 2 ^ 52 ≤ E * (j * G) := Nat.mul_le_mul_left _ hq52
      _ = j * P := by rw [hP]; ring
  have h2 : (E * 2 ^ 52) * b ≤ (j * P) * b := Nat.mul_le_mul_right b h1
  have h3 : (j * P) * b = (j * b) * P := by ring
  have h4 : (j * b) * P ≤ (2 ^ 53 - 1) * P := Nat.mul_le_mul_right _ (by omega)
  have h5 : (E * 2 ^ 52) * b = 2 ^ 53 * (H * b) := by rw [hEH]; ring
  have h6 : (2 ^ 53 - 1) * P < 2 ^ 53 * P := Nat.mul_lt_mul_of_pos_right (by norm_num) hP0
  have h7 : 2 ^ 53 * (H * b) < 2 ^ 53 * P := by omega
  exact Nat.lt_of_mul_lt_mul_left h7

/-- The quotient of a number below `2 ^ 53` by a positive number, rounded to a
`double`, lies above `j` and at most at `j + 1` when `j * b < a ≤ (j + 1) * b`:
the rounding does not cross an integer. -/
theorem divDouble_bounds (a b j : Nat) (ha : a < 2 ^ 53) (hb1 : 1 ≤ b) (hb : b ≤ 2 ^ 128)
    (hja : j * b < a) (haj : a ≤ (j + 1) * b) :
    j * 2 ^ 128 < (divDouble a b).1 * 2 ^ (divDouble a b).2 ∧
    (divDouble a b).1 * 2 ^ (divDouble a b).2 ≤ (j + 1) * 2 ^ 128 := by
  have ha1 : 1 ≤ a := by omega
  have hN1 : 1 ≤ a * 2 ^ 128 / b := by
    rw [Nat.le_div_iff_mul_le (by omega)]
    calc 1 * b ≤ 2 ^ 128 := by omega
      _ ≤ a * 2 ^ 128 := Nat.le_mul_of_pos_left _ (by omega)
  have hNlt : a * 2 ^ 128 / b < 2 ^ 181 := by
    calc a * 2 ^ 128 / b ≤ a * 2 ^ 128 := Nat.div_le_self _ _
      _ < 2 ^ 53 * 2 ^ 128 := Nat.mul_lt_mul_of_pos_right ha (by norm_num)
      _ = 2 ^ 181 := by norm_num
  have hdiv := Nat.div_add_mod (a * 2 ^ 128) b
  have hmod := Nat.mod_lt (a * 2 ^ 128) (by omega : b > 0)
  simp only [divDouble]
  generalize a * 2 ^ 128 / b = N at hN1 hNlt hdiv ⊢
  generalize a * 2 ^ 128 % b = S at hdiv hmod ⊢
  have hN0 : N ≠ 0 := by omega
  obtain ⟨hs1, hs2, hs3⟩ := significand_bounds N hN0
  obtain ⟨hl1, hl2⟩ := floorLog2_spec N hN0
  have hlog : floorLog2 N < 181 := by
    by_contra hge
    have : 2 ^ 181 ≤ 2 ^ floorLog2 N := Nat.pow_le_pow_right (by norm_num) (by omega)
    omega
  have he : floorLog2 N - 52 ≤ 128 := by omega
  generalize floorLog2 N - 52 = e at hs1 hs2 hs3 he ⊢
  have hE : 1 ≤ 2 ^ e := Nat.one_le_two_pow
  have hP : 2 ^ 128 = 2 ^ e * 2 ^ (128 - e) := by
    rw [← pow_add]
    congr 1
    omega
  have hcore := round_quotient_core a b j (2 ^ 128) (2 ^ e) (2 ^ (128 - e))
    (N / 2 ^ e) (N % 2 ^ e) N S hP hE hdiv hmod (Nat.div_add_mod _ _)
    (Nat.mod_lt _ (by omega)) hja haj
    (by
      by_cases h0 : e = 0
      · rw [h0, pow_zero, Nat.div_one]
        exact hN1
      · have := hs2 (by omega)
        omega)
    (by
      intro hj hq
      have he1 : 1 ≤ e := by
        by_contra h0
        have h0 : e = 0 := by omega
        have hlt := hs3 h0
        rw [h0, pow_zero, Nat.div_one, Nat.sub_zero] at hq
        have : 2 ^ 128 ≤ j * 2 ^ 128 := Nat.le_mul_of_pos_left _ (by omega)
        have h53 : (2 : Nat) ^ 53 ≤ 2 ^ 128 := Nat.pow_le_pow_right (by norm_num) (by norm_num)
        omega
      have hq52 := hs2 he1
      rw [hq] at hq52
      refine ⟨2 ^ (e - 1), ?_, half_unit_bound j b (2 ^ 128) (2 ^ e) (2 ^ (128 - e))
        (2 ^ (e - 1)) hP (by norm_num) ?_ hq52 (by omega)⟩
      · rw [← pow_succ']
        congr 1
        omega
      · rw [← pow_succ']
        congr 1
        omega)
  split
  · rename_i hc
    rw [if_pos hc] at hcore
    exact hcore
  · rename_i hc
    rw [if_neg hc] at hcore
    exact hcore

/-- A number below `2 ^ 53` is a `double`. -/
theorem roundToDouble_small (n : Nat) (h : n < 2 ^ 53) : roundToDouble n = n := by
  have he : floorLog2 n - 52 = 0 := by
    by_cases hn : n = 0
    · subst hn
      rfl
    · obtain ⟨h1, _⟩ := floorLog2_spec n hn
      by_contra hne
      have : 2 ^ 53 ≤ 2 ^ floorLog2 n := Nat.pow_le_pow_right (by norm_num) (by omega)
      omega
  simp [roundToDouble, he, Nat.mod_one]

/-- The `double` nearest to a number from `2 ^ 53` on is at least `2 ^ 53` and
at most twice the number. -/
theorem roundToDouble_large (n : Nat) (h : 2 ^ 53 ≤ n) :
    2 ^ 53 ≤ roundToDouble n ∧ roundToDouble n ≤ 2 * n := by
  have hn : n ≠ 0 := by
    have : 0 < 2 ^ 53 := by norm_num
    omega
  obtain ⟨_, hl2⟩ := floorLog2_spec n hn
  obtain ⟨_, hs2, hs3⟩ := significand_bounds n hn
  have he1 : 1 ≤ floorLog2 n - 52 := by
    by_contra h0
    have := hs3 (by omega)
    omega
  have hq := hs2 he1
  have hdiv := Nat.div_add_mod n (2 ^ (floorLog2 n - 52))
  have hmod := Nat.mod_lt n (Nat.pos_pow_of_pos (floorLog2 n - 52) (by norm_num) : 2 ^ (floorLog2 n - 52) > 0)
  have hE : 2 ≤ 2 ^ (floorLog2 n - 52) := by
    calc 2 = 2 ^ 1 := by norm_num
      _ ≤ 2 ^ (floorLog2 n - 52) := Nat.pow_le_pow_right (by norm_num) he1
  simp only [roundToDouble]
  generalize floorLog2 n - 52 = e at hq hdiv hmod hE ⊢
  generalize n / 2 ^ e = q at hq hdiv ⊢
  generalize n % 2 ^ e = r at hdiv hmod ⊢
  generalize 2 ^ e = E at hdiv hmod hE ⊢
  have h1 : 2 ^ 52 * E ≤ q * E := Nat.mul_le_mul_right E hq
  have h2 : 2 ^ 52 * 2 ≤ 2 ^ 52 * E := Nat.mul_le_mul_left _ hE
  have h3 : E ≤ q * E := Nat.le_mul_of_pos_left _ (by omega)
  have h4 : q * E = E * q := by ring
  have h5 : (q + 1) * E = E * q + E := by ring
  split <;> constructor <;> omega

/-- For a total length from 1 to below `2 ^ 53` and a piece length from 1 to
below `2 ^ 64`, the quotient computed in `double` and rounded up is the exact
one. -/
theorem ceilQuotient_nat (t p : Nat) (ht1 : 1 ≤ t) (ht : t < 2 ^ 53) (hp1 : 1 ≤ p)
    (hp : p < 2 ^ 64) :
    ((divDouble t (roundToDouble p)).1 * 2 ^ (divDouble t (roundToDouble p)).2
      + (2 ^ 128 - 1)) / 2 ^ 128 = (t + p - 1) / p := by
  by_cases hsmall : p < 2 ^ 53
  · rw [roundToDouble_small p hsmall]
    have hdm := Nat.div_add_mod (t - 1) p
    have hml := Nat.mod_lt (t - 1) (by omega : p > 0)
    have hq : (t + p - 1) / p = (t - 1) / p + 1 := by
      have : t + p - 1 = (t - 1) + p := by omega
      rw [this, Nat.add_div_right _ (by omega)]
    rw [hq]
    have e1 : (t - 1) / p * p = p * ((t - 1) / p) := by ring
    have e2 : ((t - 1) / p + 1) * p = p * ((t - 1) / p) + p := by ring
    obtain ⟨h1, h2⟩ := divDouble_bounds t p ((t - 1) / p) ht hp1
      (by have : (2 : Nat) ^ 64 ≤ 2 ^ 128 := by norm_num
          omega) (by omega) (by omega)
    generalize (divDouble t p).1 * 2 ^ (divDouble t p).2 = V at h1 h2 ⊢
    generalize (t - 1) / p = j at h1 h2 ⊢
    omega
  · obtain ⟨hb1, hb2⟩ := roundToDouble_large p (by omega)
    obtain ⟨h1, h2⟩ := divDouble_bounds t (roundToDouble p) 0 ht (by omega)
      (by have : (2 : Nat) ^ 65 ≤ 2 ^ 128 := by norm_num
          omega) (by omega) (by omega)
    have hq : (t + p - 1) / p = 1 := by
      have : t + p - 1 = (t - 1) + p := by omega
      rw [this, Nat.add_div_right _ (by omega), Nat.div_eq_of_lt (by omega)]
    rw [hq]
    generalize (divDouble t (roundToDouble p)).1 * 2 ^ (divDouble t (roundToDouble p)).2 = V
      at h1 h2 ⊢
    omega

/-- For a total length from 1 to below `2 ^ 53` and a piece length from 1 to
below `2 ^ 64`, `ceilQuotient` is the exact quotient rounded up. -/
theorem ceilQuotient_exact (T pl : Int) (hT1 : 1 ≤ T) (hT : T < 2 ^ 53) (hpl1 : 1 ≤ pl)
    (hpl : pl < 2 ^ 64) : ceilQuotient T pl = specCeilQuotient T pl := by
  obtain ⟨t, rfl⟩ := Int.eq_ofNat_of_zero_le (by omega : 0 ≤ T)
  obtain ⟨p, rfl⟩ := Int.eq_ofNat_of_zero_le (by omega : 0 ≤ pl)
  have ht1 : 1 ≤ t := by omega
  have ht : t < 2 ^ 53 := by exact_mod_cast hT
  have hp1 : 1 ≤ p := by omega
  have hp : p < 2 ^ 64 := by exact_mod_cast hpl
  have h0 : ¬ ((t : Int) = 0) := by omega
  have h1 : ¬ ((t : Int) < 0) := by omega
  unfold ceilQuotient specCeilQuotient
  dsimp only
  rw [if_neg h0, if_neg h1, Int.natAbs_ofNat, Int.natAbs_ofNat, roundToDouble_small t ht]
  refine (congrArg Nat.cast (ceilQuotient_nat t p ht1 ht hp1 hp)).trans ?_
  have : ((t : Int) + (p : Int) - 1) = ((t + p - 1 : Nat) : Int) := by omega
  rw [this]
  exact Int.natCast_div _ _

/-- For a total length of 0 or below `ceilQuotient` is 0 or below. -/
theorem ceilQuotient_nonpos (T pl : Int) (hT : T ≤ 0) : ceilQuotient T pl ≤ 0 := by
  simp only [ceilQuotient]
  split
  · exact le_refl _
  · split
    · omega
    · omega

/-- The bounds of the exact quotient rounded up. -/
theorem specCeilQuotient_spec (T pl : Int) (hpl1 : 1 ≤ pl) :
    (specCeilQuotient T pl - 1) * pl < T ∧ T ≤ specCeilQuotient T pl * pl := by
  have h1 := Int.emod_add_ediv (T + pl - 1) pl
  have h2 := Int.emod_nonneg (T + pl - 1) (by omega : pl ≠ 0)
  have h3 := Int.emod_lt_of_pos (T + pl - 1) (by omega : 0 < pl)
  simp only [specCeilQuotient]
  generalize (T + pl - 1) / pl = k at h1
  generalize (T + pl - 1) % pl = r at h1 h2 h3
  have e1 : (k - 1) * pl = pl * k - pl := by ring
  have e2 : k * pl = pl * k := by ring
  constructor <;> omega

/-- For a total length below `2 ^ 53` the comparison of the number of pieces
with the quotient in `double` is the comparison with the exact quotient. -/
theorem mismatch_iff_exact (T pl : Int) (n : Nat) (hT : T < 2 ^ 53) (hpl1 : 1 ≤ pl)
    (hpl : pl < 2 ^ 64) (hn : 1 ≤ n) :
    ceilQuotient T pl ≠ (roundToDouble n : Int) ↔ (n : Int) ≠ specCeilQuotient T pl := by
  obtain ⟨hs1, hs2⟩ := specCeilQuotient_spec T pl hpl1
  have hkT : 1 ≤ T → specCeilQuotient T pl ≤ T := by
    intro hT1
    by_contra hgt
    have h1 : T * pl ≤ (specCeilQuotient T pl - 1) * pl :=
      Int.mul_le_mul_of_nonneg_right (by omega) (by omega)
    have h2 : T * 1 ≤ T * pl := Int.mul_le_mul_of_nonneg_left hpl1 (by omega)
    omega
  have hrd : (n < 2 ^ 53 ∧ roundToDouble n = n) ∨ (2 ^ 53 ≤ n ∧ 2 ^ 53 ≤ roundToDouble n) := by
    by_cases hsmall : n < 2 ^ 53
    · exact Or.inl ⟨hsmall, roundToDouble_small n hsmall⟩
    · exact Or.inr ⟨by omega, (roundToDouble_large n (by omega)).1⟩
  by_cases hT1 : 1 ≤ T
  · rw [ceilQuotient_exact T pl hT1 hT hpl1 hpl]
    have := hkT hT1
    rcases hrd with ⟨_, h⟩ | ⟨h1, h2⟩
    · rw [h]
      exact ⟨fun h e => h e.symm, fun h e => h e.symm⟩
    · constructor <;> intro _ <;> omega
  · have h1 := ceilQuotient_nonpos T pl (by omega)
    have h2 : specCeilQuotient T pl ≤ 0 := by
      by_contra hgt
      have : 1 * pl ≤ (specCeilQuotient T pl) * pl :=
        Int.mul_le_mul_of_nonneg_right (by omega) (by omega)
      have e : (specCeilQuotient T pl - 1) * pl = specCeilQuotient T pl * pl - pl := by ring
      omega
    have h3 : 1 ≤ roundToDouble n := by
      rcases hrd with ⟨_, h⟩ | ⟨_, h⟩
      · omega
      · have : (1 : Nat) ≤ 2 ^ 53 := by norm_num
        omega
    constructor <;> intro _ <;> omega

set_option maxRecDepth 20000 in
/-- The text `roundedQuotientTorrent` decodes to `roundedQuotientDocument`. -/
theorem Parse_roundedQuotientTorrent :
    Parse roundedQuotientTorrent = .ok roundedQuotientDocument := by
  have hdump : roundedQuotientDocument.Dump = .ok roundedQuotientTorrent := rfl
  have henc := Encoding_of_Dump roundedQuotientDocument roundedQuotientTorrent
    (by decide) hdump
  exact (Parse_ok_iff _ _ (by decide)).2 henc

/-- An accepted torrent of less than `2 ^ 53` bytes has the exact number of
pieces: the quotient of the total length by the piece length, rounded up. -/
theorem accepted_exact (input : Str) (m : Metainfo) (h : Metainfo.construct input = .ok m)
    (hT : m.total_length_ < 2 ^ 53) :
    (m.piece_list_.length : Int) = specCeilQuotient m.total_length_ m.piece_length_ ∧
    ((m.piece_list_.length : Int) - 1) * m.piece_length_ < m.total_length_ ∧
    m.total_length_ ≤ (m.piece_list_.length : Int) * m.piece_length_ := by
  obtain ⟨pieces, _, hn1, _, _, hn, hpl1, hpl2, hceil, _⟩ := accepted_structure input m h
  have hiff := mismatch_iff_exact m.total_length_ m.piece_length_ (pieces.length / 20) hT hpl1
    (by omega) hn1
  have heq : (m.piece_list_.length : Int) = specCeilQuotient m.total_length_ m.piece_length_ := by
    rw [hn]
    by_contra hne
    exact hiff.2 hne hceil
  obtain ⟨h1, h2⟩ := specCeilQuotient_spec m.total_length_ m.piece_length_ hpl1
  rw [← heq] at h1 h2
  exact ⟨heq, h1, h2⟩

/-- The sum of the lengths of all pieces. -/
theorem pieceOffset_length (ps : List Piece) :
    pieceOffset ps ps.length = (ps.map (fun piece => piece.length)).sum := by
  simp [pieceOffset]

/-- The last piece of an accepted torrent with the exact number of pieces holds
what the pieces before it leave of the total length. -/
theorem accepted_last_piece (input : Str) (m : Metainfo)
    (h : Metainfo.construct input = .ok m)
    (h1 : ((m.piece_list_.length : Int) - 1) * m.piece_length_ < m.total_length_)
    (hT : m.total_length_ < 2 ^ 63) (hn : 0 < m.piece_list_.length) :
    (m.piece_list_.get ⟨m.piece_list_.length - 1, by omega⟩).length
      = m.total_length_ - ((m.piece_list_.length : Int) - 1) * m.piece_length_ ∧
    pieceOffset m.piece_list_ m.piece_list_.length = m.total_length_ := by
  obtain ⟨_, _, _, _, _, _, hpl1, _⟩ := accepted_structure input m h
  have hget := accepted_piece_lengths input m h (m.piece_list_.length - 1) (by omega)
  rw [if_neg (by omega)] at hget
  have h0 : 0 ≤ ((m.piece_list_.length : Int) - 1) * m.piece_length_ :=
    Int.mul_nonneg (by omega) (by omega)
  rw [toLong_of_range (m.total_length_ - ((m.piece_list_.length : Int) - 1) * m.piece_length_)
    (by omega) (by omega)] at hget
  refine ⟨hget, ?_⟩
  have hpl : ∀ (i : Nat) (h : i < m.piece_list_.length), i + 1 < m.piece_list_.length →
      (m.piece_list_.get ⟨i, h⟩).length = m.piece_length_ := by
    intro i hi hi1
    rw [accepted_piece_lengths input m h i hi, if_pos hi1]
  have hoff := pieceOffset_eq m.piece_list_ m.piece_length_ hpl (m.piece_list_.length - 1)
    (by omega)
  have hsucc := pieceOffset_succ m.piece_list_ (m.piece_list_.length - 1) (by omega)
  rw [show m.piece_list_.length - 1 + 1 = m.piece_list_.length by omega] at hsucc
  rw [hsucc, hoff, hget]
  have : ((m.piece_list_.length - 1 : Nat) : Int) = (m.piece_list_.length : Int) - 1 := by omega
  rw [this]
  ring

/-- A decoded document is one that the C++ types can hold. -/
theorem Representable_of_Parse (input : Str) (top_ : Bencode) (h : Parse input = .ok top_) :
    top_.Representable = true := by
  by_cases hb : input = []
  · subst hb
    have : Parse [] = .ok .null := rfl
    rw [this] at h
    cases h
    rfl
  · exact (Encoding_valid _ _ ((Parse_ok_iff input top_ hb).1 h)).2

/-- On a document that passes the checks before `kPiecesLengthMismatch` the
constructor body throws that error exactly when the comparison in `double`
finds the number of pieces different from the quotient, and otherwise returns
or reads outside `piece_list_`. -/
theorem ofDocument_mismatch (top_ : Bencode) (pieces : Str)
    (hpass : checksPassBefore .kPiecesLengthMismatch top_)
    (hpieces : specField (specInfo top_) (bytes "pieces") = some (.str pieces)) :
    (Metainfo.ofDocument top_ = .error (.metainfoError .kPiecesLengthMismatch) ↔
      ceilQuotient (specTotalLength (specInfo top_))
        (specInt (specField (specInfo top_) (bytes "piece length")))
          ≠ (roundToDouble (pieces.length / 20) : Int)) ∧
    (Metainfo.ofDocument top_ ≠ .error (.metainfoError .kPiecesLengthMismatch) →
      (∃ m, Metainfo.ofDocument top_ = .ok m) ∨
        Metainfo.ofDocument top_ = .error (.fault .undefined)) ∧
    1 ≤ pieces.length / 20 := by
  have hfirst := firstFailingCheck_pieces top_
    (checksPassBefore_mono _ _ top_ (by decide) hpass)
  rw [hpieces, specStr_str] at hfirst
  obtain ⟨pre, hsplit, _⟩ := specChecks_split top_
  have hinv : ¬ (pieces.length = 0 ∨ pieces.length % 20 ≠ 0) := by
    have := hpass (.kPiecesInvalid,
      decide ((specStr (specField (specInfo top_) (bytes "pieces"))).length = 0 ∨
        (specStr (specField (specInfo top_) (bytes "pieces"))).length % 20 ≠ 0))
      (by rw [hsplit]; simp) (by dsimp only; decide)
    rw [hpieces, specStr_str] at this
    simpa using this
  rw [if_neg hinv] at hfirst
  have hends := attribute_pieces_ends (specPieces (specInfo top_)) (specFiles (specInfo top_))
    0 0 [] (Nat.zero_le _)
  rw [ofDocument_eq, hfirst]
  by_cases hmis : ceilQuotient (specTotalLength (specInfo top_))
      (specInt (specField (specInfo top_) (bytes "piece length")))
        ≠ (roundToDouble (pieces.length / 20) : Int)
  · rw [if_pos hmis]
    exact ⟨⟨fun _ => hmis, fun _ => rfl⟩, fun h => absurd rfl h, by omega⟩
  · rw [if_neg hmis]
    dsimp only
    rcases hends with ⟨file_list_, hok⟩ | herr
    · rw [hok]
      exact ⟨⟨fun h => (by cases h), fun h => absurd h hmis⟩, fun _ => Or.inl ⟨_, rfl⟩, by omega⟩
    · rw [herr]
      exact ⟨⟨fun h => (by cases h), fun h => absurd h hmis⟩, fun _ => Or.inr rfl, by omega⟩

/-- A digest of SHA-1 has 20 bytes. -/
theorem SHA1_length (message : Str) : (SHA1 message).length = 20 := by
  simp [SHA1, be32]

set_option maxRecDepth 20000 in
/-- The digests of the messages `abc` and the empty message, as FIPS 180 gives
them. -/
theorem SHA1_examples :
    SHA1 (bytes "abc") = [0xa9, 0x99, 0x3e, 0x36, 0x47, 0x06, 0x81, 0x6a, 0xba, 0x3e,
      0x25, 0x71, 0x78, 0x50, 0xc2, 0x6c, 0x9c, 0xd0, 0xd8, 0x9d] ∧
    SHA1 [] = [0xda, 0x39, 0xa3, 0xee, 0x5e, 0x6b, 0x4b, 0x0d, 0x32, 0x55,
      0xbf, 0xef, 0x95, 0x60, 0x18, 0x90, 0xaf, 0xd8, 0x07, 0x09] := by
  constructor <;> decide

/-- A field of a value without Null holds no Null. -/
theorem NullFree_field (v x : Bencode) (key : Str) (hv : v.NullFree = true)
    (h : specField v key = some x) : x.NullFree = true := by
  cases v with
  | dict d =>
    simp only [Bencode.NullFree] at hv
    have hall := (NullFreeItems_iff d).1 hv
    simp only [specField] at h
    clear hv
    induction d with
    | nil => simp [mapFind] at h
    | cons kv rest ih =>
      obtain ⟨k, value⟩ := kv
      simp only [mapFind] at h
      by_cases hk : k = key
      · rw [if_pos hk] at h
        cases h
        exact hall (k, x) (by simp)
      · rw [if_neg hk] at h
        exact ih h (fun kv hkv => hall kv (List.mem_cons_of_mem _ hkv))
  | _ => simp [specField] at h

/-- The loop over the pieces of one file returns when the pieces hold the
total length `T` and the file ends at or before `T`. -/
theorem attribute_loop_returns (ps : List Piece) (T e : Int) (hT : T < 2 ^ 63) (he : e ≤ T)
    (hpos : ∀ (i : Nat) (h : i < ps.length), pieceOffset ps i < T →
      1 ≤ (ps.get ⟨i, h⟩).length ∧ (ps.get ⟨i, h⟩).length < 2 ^ 63)
    (hoff : ∀ i, i < ps.length → 0 ≤ pieceOffset ps i)
    (hoffn : pieceOffset ps ps.length = T) :
    ∀ (fuel i : Nat) (c : Int) (acc : List Piece),
    i ≤ ps.length → ps.length < i + fuel → c = e - pieceOffset ps i →
    ∃ state, attribute_loop ps fuel i c acc = .ok state := by
  intro fuel
  induction fuel with
  | zero => intro i c acc h1 h2; omega
  | succ fuel ih =>
    intro i c acc hi hfuel hc
    rw [attribute_loop]
    by_cases hs : c > 0
    · rw [if_pos hs]
      have hlt : i < ps.length := by
        by_contra hge
        have : i = ps.length := by omega
        rw [this, hoffn] at hc
        omega
      rw [List.getElem?_eq_getElem hlt]
      have hlen := hpos i hlt (by omega)
      have h0 := hoff i hlt
      have hsucc := pieceOffset_succ ps i hlt
      simp only [List.get_eq_getElem] at hlen hsucc
      have hnew : toLong (c - ps[i].length) = e - pieceOffset ps (i + 1) := by
        rw [toLong_of_range (c - ps[i].length) (by omega) (by omega)]
        omega
      exact ih (i + 1) _ _ (by omega) (by omega) hnew
    · rw [if_neg hs]
      exact ⟨_, rfl⟩

/-- The loop over the files returns when the pieces hold the total length `T`,
every file has at least one byte and the files end at or before `T`. -/
theorem attribute_pieces_returns (ps : List Piece) (T : Int) (hT : T < 2 ^ 63)
    (hn : ps.length < 2 ^ 64)
    (hpos : ∀ (i : Nat) (h : i < ps.length), pieceOffset ps i < T →
      1 ≤ (ps.get ⟨i, h⟩).length ∧ (ps.get ⟨i, h⟩).length < 2 ^ 63)
    (hmono : ∀ (i : Nat) (h : i < ps.length), i + 1 < ps.length →
      1 ≤ (ps.get ⟨i, h⟩).length)
    (hoffn : pieceOffset ps ps.length = T) :
    ∀ (files : List File) (i : Nat) (c s : Int) (done : List File),
    (∀ f ∈ files, 1 ≤ f.length ∧ f.pieces = []) →
    s + (files.map (fun file => file.length)).sum ≤ T →
    i ≤ ps.length → c = s - pieceOffset ps i → c ≤ 0 → 0 ≤ s →
    (0 < i → pieceOffset ps (i - 1) < s) →
    ∃ out, attribute_pieces ps files i c done = .ok out := by
  have hoff : ∀ i, i < ps.length → 0 ≤ pieceOffset ps i := by
    intro i hi
    have := pieceOffset_mono ps hmono 0 i (Nat.zero_le _) hi
    rw [pieceOffset_zero] at this
    exact this
  intro files
  induction files with
  | nil => intro _ _ _ done _ _ _ _ _ _ _; exact ⟨done, rfl⟩
  | cons file rest ih =>
    intro i c s done hfiles hsum hi hc hc0 hs hprev
    have hfile := hfiles file (by simp)
    have hrestnn := sum_lengths_nonneg rest (fun g hg => hfiles g (by simp [hg]))
    simp only [List.map_cons, List.sum_cons] at hsum
    -- the piece before `piece_idx`, for a file that starts inside it
    have hpre : ∃ pieces, (if c < 0 then
          (ps[(i + (2 ^ 64 - 1)) % 2 ^ 64]?).map (fun piece => file.pieces ++ [piece])
        else some file.pieces) = some pieces := by
      by_cases hneg : c < 0
      · have hipos : 0 < i := by
          by_contra h0
          have h00 : i = 0 := by omega
          rw [h00, pieceOffset_zero] at hc
          omega
        have hidx : (i + (2 ^ 64 - 1)) % 2 ^ 64 = i - 1 := by omega
        rw [if_pos hneg, hidx, List.getElem?_eq_getElem (by omega : i - 1 < ps.length)]
        exact ⟨_, rfl⟩
      · rw [if_neg hneg]
        exact ⟨_, rfl⟩
    obtain ⟨pieces, hpre⟩ := hpre
    have hcr : -(2 ^ 63) < c := by
      by_cases h0 : i = 0
      · rw [h0, pieceOffset_zero] at hc
        omega
      · have h1 := hprev (by omega)
        have h2 := pieceOffset_succ ps (i - 1) (by omega)
        have h3 := hpos (i - 1) (by omega) (by omega)
        rw [show i - 1 + 1 = i by omega] at h2
        omega
    have hc1 : toLong (c + file.length) = (s + file.length) - pieceOffset ps i := by
      rw [toLong_of_range (c + file.length) (by omega) (by omega)]
      omega
    obtain ⟨state, hloop⟩ := attribute_loop_returns ps T (s + file.length) hT (by omega) hpos
      hoff hoffn (ps.length + 1) i (toLong (c + file.length)) pieces hi (by omega) hc1
    obtain ⟨_, h2, _, h3, h4, hnext, _⟩ := attribute_file_spec ps T hT hn hpos hmono
      file i c s pieces state hfile (by omega) hi hc hc0 hs hprev hpre hloop
    obtain ⟨out, hout⟩ := ih state.1 state.2.1 (s + file.length)
      (done ++ [⟨file.path, file.length, state.2.2⟩])
      (fun g hg => hfiles g (by simp [hg])) (by omega) h2 h3 h4 (by omega) (fun _ => hnext)
    refine ⟨out, ?_⟩
    rw [attribute_pieces]
    by_cases hneg : c < 0
    · rw [if_pos hneg] at hpre ⊢
      cases hget : ps[(i + (2 ^ 64 - 1)) % 2 ^ 64]? with
      | none => rw [hget] at hpre; cases hpre
      | some piece =>
        rw [hget] at hpre
        simp only [Option.map_some', Option.some.injEq] at hpre
        simp only [bind, Except.bind, pure, Except.pure, hpre, hloop]
        exact hout
    · rw [if_neg hneg] at hpre ⊢
      simp only [Option.some.injEq] at hpre
      simp only [bind, Except.bind, pure, Except.pure, hpre, hloop]
      exact hout

/-- A piece list with the lengths that `set_piece_lengths` sets, whose last
piece starts before the total length `T`: the pieces that start before `T` have
lengths from 1 on in the range of `long`, and the pieces hold `T` bytes. -/
theorem tiling_facts (ps : List Piece) (pl T : Int)
    (hget : ∀ (j : Nat) (hj : j < ps.length), (ps.get ⟨j, hj⟩).length
      = if j + 1 < ps.length then pl else toLong (T - ((ps.length : Int) - 1) * pl))
    (hn1 : 1 ≤ ps.length) (hpl1 : 1 ≤ pl) (hpl2 : pl < 2 ^ 63)
    (hlow : ((ps.length : Int) - 1) * pl < T) (hT : T < 2 ^ 63) :
    (∀ (i : Nat) (h : i < ps.length), pieceOffset ps i < T →
      1 ≤ (ps.get ⟨i, h⟩).length ∧ (ps.get ⟨i, h⟩).length < 2 ^ 63) ∧
    (∀ (i : Nat) (h : i < ps.length), i + 1 < ps.length → 1 ≤ (ps.get ⟨i, h⟩).length) ∧
    pieceOffset ps ps.length = T := by
  have hpl : ∀ (i : Nat) (h : i < ps.length), i + 1 < ps.length →
      (ps.get ⟨i, h⟩).length = pl := by
    intro i hi hi1
    rw [hget i hi, if_pos hi1]
  have hoff := pieceOffset_eq ps pl hpl
  have h0 : 0 ≤ ((ps.length : Int) - 1) * pl := Int.mul_nonneg (by omega) (by omega)
  have hlastv : (ps.get ⟨ps.length - 1, by omega⟩).length
      = T - ((ps.length : Int) - 1) * pl := by
    rw [hget _ (by omega), if_neg (by omega),
      toLong_of_range (T - ((ps.length : Int) - 1) * pl) (by omega) (by omega)]
  refine ⟨?_, ?_, ?_⟩
  · intro i hi hlt
    by_cases hi1 : i + 1 < ps.length
    · rw [hpl i hi hi1]
      exact ⟨hpl1, hpl2⟩
    · have hin : i = ps.length - 1 := by omega
      subst hin
      rw [hlastv]
      omega
  · intro i hi hi1
    rw [hpl i hi hi1]
    exact hpl1
  · have hsucc := pieceOffset_succ ps (ps.length - 1) (by omega)
    rw [show ps.length - 1 + 1 = ps.length by omega] at hsucc
    rw [hsucc, hoff _ (by omega), hlastv]
    have : ((ps.length - 1 : Nat) : Int) = (ps.length : Int) - 1 := by omega
    rw [this]
    ring

/-- The total length of a document is the sum of the lengths of its files,
reduced into the range of `long`. -/
theorem specTotalLength_of_sum (info : Bencode)
    (h1 : 0 ≤ ((specFiles info).map (fun file => file.length)).sum)
    (h2 : ((specFiles info).map (fun file => file.length)).sum < 2 ^ 63) :
    specTotalLength info = ((specFiles info).map (fun file => file.length)).sum := by
  rcases hlen : specField info (bytes "length") with _ | length
  · simp only [specTotalLength, specFiles, hlen, List.map_map] at h1 h2 ⊢
    have e : ((fun file : File => file.length) ∘ fun file : Bencode =>
      (⟨specPath file, specInt (specField file (bytes "length")), []⟩ : File))
        = fun file => specInt (specField file (bytes "length")) := rfl
    rw [e] at h1 h2 ⊢
    have := foldl_toLong (fun file => specInt (specField file (bytes "length")))
      (specList (specField info (bytes "files"))) 0
    rw [toLong_of_range 0 (by norm_num) (by norm_num), zero_add] at this
    rw [this]
    exact toLong_of_range _ (by omega) h2
  · simp [specTotalLength, specFiles, hlen]

/-- The files of a document before the attribution have no pieces. -/
theorem specFiles_pieces (info : Bencode) : ∀ f ∈ specFiles info, f.pieces = [] := by
  intro f hf
  simp only [specFiles] at hf
  split at hf
  · simp only [List.mem_singleton] at hf
    rw [hf]
  · simp only [List.mem_map] at hf
    obtain ⟨_, _, hf⟩ := hf
    rw [← hf]

/-- The constructor body returns on a decoded document that passes the checks
before `kPiecesLengthMismatch`, whose files have at least one byte each and
less than `2 ^ 53` bytes together, and whose number of pieces is the exact
quotient of the total length by the piece length, rounded up. -/
theorem ofDocument_returns (top_ : Bencode) (pieces : Str)
    (hrep : top_.Representable = true)
    (hpass : checksPassBefore .kPiecesLengthMismatch top_)
    (hpieces : specField (specInfo top_) (bytes "pieces") = some (.str pieces))
    (hlen : ∀ file ∈ specFiles (specInfo top_), 1 ≤ file.length)
    (hsum : ((specFiles (specInfo top_)).map (fun file => file.length)).sum < 2 ^ 53)
    (hcount : ((pieces.length / 20 : Nat) : Int)
      = specCeilQuotient (specTotalLength (specInfo top_))
          (specInt (specField (specInfo top_) (bytes "piece length")))) :
    ∃ m, Metainfo.ofDocument top_ = .ok m := by
  obtain ⟨h1, h2, hn1⟩ := ofDocument_mismatch top_ pieces hpass hpieces
  obtain ⟨_, info, _, piece_length, _, _, htopinfo, hinfo, _, hplf, hpl1⟩ :=
    head_fields top_ (checksPassBefore_mono _ _ top_ (by decide) hpass)
  have hinforep := Representable_field top_ _ _ hrep htopinfo
  have hplrep := Representable_field _ _ _ hinforep hplf
  have hpiecesrep := Representable_field _ _ _ hinforep (hinfo ▸ hpieces)
  simp only [Bencode.Representable, Bool.and_eq_true, decide_eq_true_eq, LONG_MAX, LONG_MIN,
    SIZE_MAX] at hplrep hpiecesrep
  have hpl : specInt (specField (specInfo top_) (bytes "piece length")) = piece_length := by
    rw [hinfo, hplf, specInt_int]
  have hfiles : ∀ f ∈ specFiles (specInfo top_), 1 ≤ f.length ∧ f.pieces = [] :=
    fun f hf => ⟨hlen f hf, specFiles_pieces _ f hf⟩
  have hnn := sum_lengths_nonneg _ hfiles
  have hT := specTotalLength_of_sum (specInfo top_) hnn (by omega)
  rw [hpl] at hcount h1
  obtain ⟨hlow, hup⟩ := specCeilQuotient_spec (specTotalLength (specInfo top_)) piece_length hpl1
  rw [← hcount] at hlow hup
  have hnomis : ¬ (ceilQuotient (specTotalLength (specInfo top_)) piece_length
      ≠ (roundToDouble (pieces.length / 20) : Int)) := by
    intro hmis
    exact (mismatch_iff_exact _ _ _ (by omega) hpl1 (by omega) hn1).1 hmis hcount
  rcases h2 (fun herr => hnomis (h1.1 herr)) with hok | herr
  · exact hok
  · exfalso
    -- the attribution of the pieces returns
    have hlenps : (specPieces (specInfo top_)).length = pieces.length / 20 := by
      rw [specPieces, set_piece_lengths_length, make_pieces_length, hpieces, specStr_str]
    have heq : specPieces (specInfo top_) = set_piece_lengths
        (make_pieces (pieces.length / 20) pieces) piece_length
        (specTotalLength (specInfo top_)) := by
      rw [specPieces, hpieces, specStr_str, hpl]
    have hgen : ∀ ps : List Piece, ps = set_piece_lengths
        (make_pieces (pieces.length / 20) pieces) piece_length
        (specTotalLength (specInfo top_)) →
        ∀ (j : Nat) (hj : j < ps.length), (ps.get ⟨j, hj⟩).length
          = if j + 1 < ps.length then piece_length
            else toLong (specTotalLength (specInfo top_)
              - ((ps.length : Int) - 1) * piece_length) := by
      intro ps hps j hj
      subst hps
      rw [set_piece_lengths_get, set_piece_lengths_length]
    have hget := hgen _ heq
    obtain ⟨hpos, hmono, hoffn⟩ := tiling_facts (specPieces (specInfo top_)) piece_length
      (specTotalLength (specInfo top_)) hget (by omega) hpl1 (by omega)
      (by rw [hlenps]; exact hlow) (by omega)
    obtain ⟨out, hout⟩ := attribute_pieces_returns (specPieces (specInfo top_))
      (specTotalLength (specInfo top_)) (by omega) (by omega) hpos hmono hoffn
      (specFiles (specInfo top_)) 0 0 0 [] hfiles (by omega) (Nat.zero_le _)
      (by rw [pieceOffset_zero]; rfl) (le_refl _) (le_refl _) (fun h => absurd h (by omega))
    obtain ⟨hnone, _⟩ : firstFailingCheck top_ = none ∧ True := by
      have hfirst := firstFailingCheck_pieces top_
        (checksPassBefore_mono _ _ top_ (by decide) hpass)
      rw [hpieces, specStr_str, hpl] at hfirst
      refine ⟨?_, trivial⟩
      rw [hfirst, if_neg hnomis]
      have hinv : ¬ (pieces.length = 0 ∨ pieces.length % 20 ≠ 0) := by
        intro hinv
        rw [if_pos hinv] at hfirst
        have herr2 := herr
        rw [ofDocument_eq, hfirst] at herr2
        cases herr2
      rw [if_neg hinv]
    rw [ofDocument_eq, hnone] at herr
    simp only [hout] at herr
    cases herr

/-- A byte that opens no value: the decoder throws `kBadPrefix`, whatever
follows. -/
theorem ParseRecursive_bad_prefix (c : Nat) (rest : Str) (hdigit : isDigit c = false)
    (hminus : c ≠ ch_minus) (hi : c ≠ ch_i) (hl : c ≠ ch_l) (hd : c ≠ ch_d) :
    ∀ fuel, (c :: rest).length < fuel →
      ParseRecursive fuel ⟨c :: rest, false⟩ = .throw .kBadPrefix := by
  intro fuel hf
  cases fuel with
  | zero => simp at hf
  | succ f => simp [ParseRecursive, IStream.peek, hdigit, hminus, hi, hl, hd]

/-- The dictionary loop at a key that decodes to a value that is no String. -/
theorem ParseDictLoop_key_not_string (rec : IStream → Outcome (Bencode × IStream)) (g : Nat)
    (s s1 : IStream) (v : Bencode) (m : List (Str × Bencode)) (ks : List Str)
    (hp : s.peek ≠ some ch_e) (hk : rec s = .ok (v, s1)) (hv : v.Type ≠ .kString) :
    ParseDictLoop rec (g + 1) s m ks = .throw .kDictKeyNotString := by
  cases v with
  | str x => exact absurd rfl hv
  | null => simp [ParseDictLoop, hp, hk]
  | int n => simp [ParseDictLoop, hp, hk]
  | list l => simp [ParseDictLoop, hp, hk]
  | dict d => simp [ParseDictLoop, hp, hk]

/-- A dictionary in which, after entries that decode, the bytes of a value that
is no String stand where a key is read: the decoder throws `kDictKeyNotString`,
whatever comes after. -/
theorem ParseRecursive_key_not_string (pairs : List (Str × Str)) (hpairs : PairsDecode pairs)
    (key : Str) (v : Bencode) (hkey : Encoding v key) (hv : v.Type ≠ .kString) (rest : Str) :
    ∀ fuel, (ch_d :: (pairsBytes pairs ++ (key ++ rest))).length < fuel →
      ParseRecursive fuel ⟨ch_d :: (pairsBytes pairs ++ (key ++ rest)), false⟩
        = .throw .kDictKeyNotString := by
  intro fuel hf
  simp only [List.length_cons, List.length_append] at hf
  have hlen := pairsBytes_length pairs hpairs
  obtain ⟨hhead, hrun⟩ := ParseRecursive_Encoding v key hkey
  cases fuel with
  | zero => omega
  | succ f =>
    obtain ⟨g, hg⟩ : ∃ g, f = pairs.length + (g + 1) := ⟨f - pairs.length - 1, by omega⟩
    obtain ⟨m', hm'⟩ := ParseDictLoop_pairs pairs hpairs f (g + 1) (key ++ rest) (by omega) [] []
    rw [ParseRecursive_dict]
    conv => lhs; arg 2; rw [hg]
    rw [hm']
    exact ParseDictLoop_key_not_string _ g _ ⟨rest, false⟩ v m' _
      (peek_append_ne_e _ _ hhead) (hrun f rest (by omega)) hv

/-- The frames of a context followed by one more frame decode. -/
theorem context_snoc_decodes (ctx : List Frame) (hctx : ∀ frame ∈ ctx, frame.Decodes)
    (last : Frame) (hlast : last.Decodes) : ∀ frame ∈ ctx ++ [last], frame.Decodes := by
  intro frame hmem
  rcases List.mem_append.1 hmem with hmem | hmem
  · exact hctx frame hmem
  · simp only [List.mem_singleton] at hmem
    subst hmem
    exact hlast

/-- The checks with the ids `kMissingAnnounce` and `kAnnounceNotString` are the
two checks on `announce`. -/
theorem specChecks_announce (top : Bencode) : ∀ check ∈ specChecks top,
    (check.1 = .kMissingAnnounce → check.2 = (specField top (bytes "announce")).isNone) ∧
    (check.1 = .kAnnounceNotString →
      check.2 = !specHasType .kString (specField top (bytes "announce"))) := by
  intro check hcheck
  simp only [specChecks, List.mem_append] at hcheck
  rcases hcheck with (hcheck | hcheck) | hcheck
  · simp only [List.mem_cons, List.mem_singleton, List.not_mem_nil, or_false] at hcheck
    rcases hcheck with h | h | h | h | h | h | h | h | h | h | h | h <;> subst h <;>
      simp
  · split at hcheck
    · simp only [List.mem_cons, List.mem_singleton, List.not_mem_nil, or_false] at hcheck
      rcases hcheck with h | h <;> subst h <;> simp
    · simp only [List.mem_append, List.mem_cons, List.mem_singleton, List.not_mem_nil,
        or_false, List.mem_flatMap] at hcheck
      rcases hcheck with (h | h) | ⟨file, _, h⟩
      · subst h; simp
      · subst h; simp
      · have := (specFileChecks_index file check h).1
        constructor <;> intro hid <;> rw [hid] at this <;> exact absurd this (by decide)
  · simp only [List.mem_cons, List.mem_singleton, List.not_mem_nil, or_false] at hcheck
    rcases hcheck with h | h | h | h <;> subst h <;> simp

/-- The check that fails first has failed. -/
theorem firstFailingCheck_some (top : Bencode) (id : MetainfoErrorID)
    (h : firstFailingCheck top = some id) : (id, true) ∈ specChecks top := by
  simp only [firstFailingCheck, Option.map_eq_some'] at h
  obtain ⟨check, hfind, hid⟩ := h
  have hmem := List.mem_of_find?_eq_some hfind
  have htrue := List.find?_some hfind
  obtain ⟨id', b⟩ := check
  simp only at hid htrue
  subst hid
  subst htrue
  exact hmem

/-- C21: on a document that passes the root, announce, info, name and piece
length checks, the constructor throws `kMissingLengthAndFiles` when `info` has
neither the key `length` nor the key `files`, and `kBothLengthAndFiles` when it
has both, whatever is stored under them. -/
theorem C21_length_xor_files (top_ : Bencode)
    (hpass : checksPassBefore .kMissingLengthAndFiles top_) :
    ((specInfo top_).contains (bytes "length") = false ∧
        (specInfo top_).contains (bytes "files") = false →
      Metainfo.ofDocument top_ = .error (.metainfoError .kMissingLengthAndFiles)) ∧
    ((specInfo top_).contains (bytes "length") = true ∧
        (specInfo top_).contains (bytes "files") = true →
      Metainfo.ofDocument top_ = .error (.metainfoError .kBothLengthAndFiles)) := by
  obtain ⟨announce, info, name, piece_length, h1, ha, hi, hinfo, hn, hpl, hpl1⟩ :=
    head_fields top_ hpass
  have hpl1' : ¬ piece_length < 1 := by omega
  rw [hinfo]
  constructor
  · rintro ⟨hl, hf⟩
    rw [contains_eq] at hl hf
    rcases hlv : specField (.dict info) (bytes "length") with _ | length <;>
      rcases hfv : specField (.dict info) (bytes "files") with _ | files <;>
      simp [hlv, hfv] at hl hf
    rw [ofDocument_eq]
    simp [firstFailingCheck, specChecks, h1, ha, hi, hinfo, hn, hpl, hpl1', hlv, hfv,
      specHasType, Type_str, Type_int, Type_dict, specInt_int]
  · rintro ⟨hl, hf⟩
    rw [contains_eq] at hl hf
    rcases hlv : specField (.dict info) (bytes "length") with _ | length <;>
      rcases hfv : specField (.dict info) (bytes "files") with _ | files <;>
      simp [hlv, hfv] at hl hf
    rw [ofDocument_eq]
    simp [firstFailingCheck, specChecks, h1, ha, hi, hinfo, hn, hpl, hpl1', hlv, hfv,
      specHasType, Type_str, Type_int, Type_dict, specInt_int]

/-- C21 on two documents: an `info` with only `name` and `piece length`, and one
that also has a String under `length` and an Integer under `files`. -/
theorem C21_length_xor_files_witness :
    Metainfo.ofDocument (.dict [(bytes "announce", .str (bytes "x")),
      (bytes "info", .dict [(bytes "name", .str (bytes "n")),
        (bytes "piece length", .int 5)])])
      = .error (.metainfoError .kMissingLengthAndFiles) ∧
    Metainfo.ofDocument (.dict [(bytes "announce", .str (bytes "x")),
      (bytes "info", .dict [(bytes "files", .int 3), (bytes "length", .str (bytes "abc")),
        (bytes "name", .str (bytes "n")), (bytes "piece length", .int 5)])])
      = .error (.metainfoError .kBothLengthAndFiles) :=
  ⟨(C21_length_xor_files _ (by unfold checksPassBefore; decide)).1 ⟨by decide, by decide⟩,
   (C21_length_xor_files _ (by unfold checksPassBefore; decide)).2 ⟨by decide, by decide⟩⟩

/-- C30: on a document that passes the checks before `kPiecesInvalid`, and so
holds a String under `pieces`, the constructor throws `kPiecesInvalid` exactly
when the length of that string is 0 or no multiple of 20; and when the
constructor returns, the piece list has a twentieth of that length as its
number of entries and piece `i` has the bytes from `20 * i` to `20 * i + 20`
of the string as its hash. -/
theorem C30_piece_hashes (top_ : Bencode) (pieces : Str)
    (hpass : checksPassBefore .kPiecesInvalid top_)
    (hpieces : specField (specInfo top_) (bytes "pieces") = some (.str pieces)) :
    (Metainfo.ofDocument top_ = .error (.metainfoError .kPiecesInvalid) ↔
      pieces.length = 0 ∨ pieces.length % 20 ≠ 0) ∧
    (∀ m : Metainfo, Metainfo.ofDocument top_ = .ok m →
      m.piece_list_.length = pieces.length / 20 ∧
      ∀ (i : Nat) (h : i < m.piece_list_.length),
        (m.piece_list_.get ⟨i, h⟩).hash = (pieces.drop (20 * i)).take 20) := by
  have hfirst := firstFailingCheck_pieces top_ hpass
  rw [hpieces, specStr_str] at hfirst
  constructor
  · rw [ofDocument_eq, hfirst]
    by_cases hinv : pieces.length = 0 ∨ pieces.length % 20 ≠ 0
    · rw [if_pos hinv]
      exact ⟨fun _ => hinv, fun _ => rfl⟩
    · rw [if_neg hinv]
      refine ⟨fun h => ?_, fun h => absurd h hinv⟩
      exfalso
      by_cases hmis : ceilQuotient (specTotalLength (specInfo top_))
          (specInt (specField (specInfo top_) (bytes "piece length")))
            ≠ (roundToDouble (pieces.length / 20) : Int)
      · rw [if_pos hmis] at h
        cases h
      · rw [if_neg hmis] at h
        dsimp only at h
        rcases attribute_pieces_ends (specPieces (specInfo top_)) (specFiles (specInfo top_))
          0 0 [] (Nat.zero_le _) with ⟨file_list_, hok⟩ | herr
        · rw [hok] at h
          cases h
        · rw [herr] at h
          cases h
  · intro m hm
    obtain ⟨_, _, _, _, _, _, hlist, _⟩ := accepted_of_ok top_ m hm
    have hlen : m.piece_list_.length = pieces.length / 20 := by
      rw [hlist, specPieces, set_piece_lengths_length, make_pieces_length, hpieces, specStr_str]
    refine ⟨hlen, ?_⟩
    intro i h
    have hmap := set_piece_lengths_hash
      (make_pieces ((specStr (specField (specInfo top_) (bytes "pieces"))).length / 20)
        (specStr (specField (specInfo top_) (bytes "pieces"))))
      (specInt (specField (specInfo top_) (bytes "piece length")))
      (specTotalLength (specInfo top_))
    rw [hpieces, specStr_str] at hmap
    have hget : (m.piece_list_.map (fun piece => piece.hash))[i]?
        = some ((pieces.drop (20 * i)).take 20) := by
      rw [hlist, specPieces, hpieces, specStr_str, hmap, List.getElem?_map,
        make_pieces_getElem? _ _ i (by omega)]
      rfl
    rw [List.getElem?_map, List.getElem?_eq_getElem h] at hget
    simpa using hget

set_option maxRecDepth 8000 in
/-- C30 on `twoPieceDocument`: it is accepted, its piece list has two entries,
and the second hash is the second chunk of twenty bytes. -/
theorem C30_piece_hashes_witness :
    ∃ m : Metainfo, Metainfo.ofDocument twoPieceDocument = .ok m ∧
      m.piece_list_.length = 2 ∧
      ∀ h : 1 < m.piece_list_.length, (m.piece_list_.get ⟨1, h⟩).hash = List.replicate 20 98 :=
  ⟨_, rfl,
    ((C30_piece_hashes twoPieceDocument (List.replicate 20 97 ++ List.replicate 20 98)
      (by unfold checksPassBefore; decide) rfl).2 _ rfl).1,
    fun h => ((C30_piece_hashes twoPieceDocument (List.replicate 20 97 ++ List.replicate 20 98)
      (by unfold checksPassBefore; decide) rfl).2 _ rfl).2 1 h⟩

set_option maxRecDepth 20000 in
/-- C22, the behaviour of the code: the file of an accepted single-file
document has a length of at least 1, as `parse_single_file` checks; the
multi-file torrent `nonPositiveLengthTorrent` is accepted with the file lengths
7, -2, 0 and 5, as `parse_file_list` checks no length. -/
theorem C22_file_lengths :
    (∀ (top_ : Bencode) (m : Metainfo) (length : Bencode),
      Metainfo.ofDocument top_ = .ok m →
      specField (specInfo top_) (bytes "length") = some length →
      ∀ file ∈ m.file_list_, 1 ≤ file.length) ∧
    (∃ m : Metainfo, Metainfo.construct nonPositiveLengthTorrent = .ok m ∧
      m.file_list_.map (fun file => file.length) = [7, -2, 0, 5]) := by
  constructor
  · intro top_ m length h hlength file hmem
    obtain ⟨n, _, hpos, hmap⟩ := accepted_single_file top_ m length h hlength
    have : (file.path, file.length) ∈ m.file_list_.map (fun file => (file.path, file.length)) :=
      List.mem_map.2 ⟨file, hmem, rfl⟩
    rw [hmap] at this
    simp only [List.mem_singleton, Prod.mk.injEq] at this
    omega
  · rw [construct_of_Parse _ _ Parse_nonPositiveLengthTorrent]
    exact ⟨_, rfl, by decide⟩

/-- C29: in every accepted multi-file document the path of each file, in the
order of `files`, is its segments joined with one `'/'` between consecutive
segments, nothing before the first and nothing after the last. -/
theorem C29_path_joining (top_ : Bencode) (m : Metainfo) (files : List Bencode)
    (h : Metainfo.ofDocument top_ = .ok m)
    (hfiles : specField (specInfo top_) (bytes "files") = some (.list files)) :
    m.file_list_.map (fun file => file.path)
      = files.map (fun file => List.intercalate [ch_slash]
          ((specList (specField file (bytes "path"))).map (fun sub => specStr (some sub)))) := by
  obtain ⟨_, hall, hmap⟩ := accepted_multi_file top_ m files h hfiles
  have h1 : m.file_list_.map (fun file => file.path)
      = (m.file_list_.map (fun file => (file.path, file.length))).map Prod.fst := by
    simp
  rw [h1, hmap, List.map_map]
  apply List.map_congr_left
  intro file hmem
  obtain ⟨_, segments, _, hpath, hne, _⟩ := file_fields file (hall file hmem)
  have := flatMap_dropLast_eq_intercalate ch_slash
    (segments.map (fun sub => specStr (some sub))) (by simpa using hne)
  simp only [Function.comp, specPath, hpath, specList_list]
  rw [← this, List.flatMap_map]

set_option maxRecDepth 8000 in
/-- C29 on `pathsDocument`, a torrent of two files with the segments `dir`,
`sub`, `a.txt` and the one segment `b`. -/
theorem C29_path_joining_witness :
    ∃ m : Metainfo, Metainfo.ofDocument pathsDocument = .ok m ∧
      m.file_list_.map (fun file => file.path) = [bytes "dir/sub/a.txt", bytes "b"] :=
  ⟨_, rfl, (C29_path_joining pathsDocument _ pathsFiles rfl rfl).trans (by decide)⟩

/-- C23, as amended: on a decoded document that passes the checks before
`kPiecesLengthMismatch`, the constructor throws `kPiecesLengthMismatch` exactly
when the comparison in `double` finds the number of 20-byte chunks of `pieces`
different from the quotient of the total length by the piece length; for a
total length below `2 ^ 53` that is exactly when the number of chunks differs
from the exact quotient rounded up; without that error the constructor returns
or reads outside `piece_list_`; every accepted Metainfo with a total length
below `2 ^ 53` has the exact quotient rounded up as its number of pieces; and
when every file has a length of at least 1 and the lengths add up to less than
`2 ^ 53`, the constructor returns exactly when the number of chunks is the
exact quotient rounded up. -/
theorem C23_piece_count (input : Str) (top_ : Bencode) (pieces : Str)
    (hparse : Parse input = .ok top_)
    (hpass : checksPassBefore .kPiecesLengthMismatch top_)
    (hpieces : specField (specInfo top_) (bytes "pieces") = some (.str pieces)) :
    (Metainfo.construct input = .error (.metainfoError .kPiecesLengthMismatch) ↔
      ceilQuotient (specTotalLength (specInfo top_))
        (specInt (specField (specInfo top_) (bytes "piece length")))
          ≠ (roundToDouble (pieces.length / 20) : Int)) ∧
    (specTotalLength (specInfo top_) < 2 ^ 53 →
      (Metainfo.construct input = .error (.metainfoError .kPiecesLengthMismatch) ↔
        ((pieces.length / 20 : Nat) : Int) ≠ specCeilQuotient (specTotalLength (specInfo top_))
          (specInt (specField (specInfo top_) (bytes "piece length"))))) ∧
    (Metainfo.construct input ≠ .error (.metainfoError .kPiecesLengthMismatch) →
      (∃ m, Metainfo.construct input = .ok m) ∨
        Metainfo.construct input = .error (.fault .undefined)) ∧
    (∀ m : Metainfo, Metainfo.construct input = .ok m → m.total_length_ < 2 ^ 53 →
      (m.piece_list_.length : Int) = specCeilQuotient m.total_length_ m.piece_length_) ∧
    ((∀ file ∈ specFiles (specInfo top_), 1 ≤ file.length) →
      ((specFiles (specInfo top_)).map (fun file => file.length)).sum < 2 ^ 53 →
      ((∃ m, Metainfo.construct input = .ok m) ↔
        ((pieces.length / 20 : Nat) : Int) = specCeilQuotient (specTotalLength (specInfo top_))
          (specInt (specField (specInfo top_) (bytes "piece length"))))) := by
  obtain ⟨h1, h2, hn1⟩ := ofDocument_mismatch top_ pieces hpass hpieces
  have hrep := Representable_of_Parse input top_ hparse
  obtain ⟨_, info, _, piece_length, _, _, htopinfo, hinfo, _, hplf, hpl1⟩ :=
    head_fields top_ (checksPassBefore_mono _ _ top_ (by decide) hpass)
  have hplrep := Representable_field _ _ _ (Representable_field top_ _ _ hrep htopinfo) hplf
  simp only [Bencode.Representable, Bool.and_eq_true, decide_eq_true_eq, LONG_MAX,
    LONG_MIN] at hplrep
  have hpl : specInt (specField (specInfo top_) (bytes "piece length")) = piece_length := by
    rw [hinfo, hplf, specInt_int]
  have hexact : specTotalLength (specInfo top_) < 2 ^ 53 →
      (Metainfo.ofDocument top_ = .error (.metainfoError .kPiecesLengthMismatch) ↔
        ((pieces.length / 20 : Nat) : Int) ≠ specCeilQuotient (specTotalLength (specInfo top_))
          (specInt (specField (specInfo top_) (bytes "piece length")))) := by
    intro hT
    rw [h1]
    exact mismatch_iff_exact _ _ _ hT (by rw [hpl]; exact hpl1) (by rw [hpl]; omega) hn1
  rw [construct_of_Parse input top_ hparse]
  refine ⟨h1, hexact, h2, ?_, ?_⟩
  · intro m hm hT
    exact (accepted_exact input m ((construct_of_Parse input top_ hparse).trans hm) hT).1
  · intro hlen hsum
    have hfiles : ∀ f ∈ specFiles (specInfo top_), 1 ≤ f.length ∧ f.pieces = [] :=
      fun f hf => ⟨hlen f hf, specFiles_pieces _ f hf⟩
    have hT := specTotalLength_of_sum (specInfo top_) (sum_lengths_nonneg _ hfiles) (by omega)
    constructor
    · rintro ⟨m, hm⟩
      by_contra hne
      rw [(hexact (by omega)).2 hne] at hm
      cases hm
    · intro hcount
      exact ofDocument_returns top_ pieces hrep hpass hpieces hlen hsum hcount

set_option maxRecDepth 20000 in
/-- C23 on `smallFilesTorrent`, a torrent of 11 bytes in three pieces of 5
bytes: the error `kPiecesLengthMismatch` is not thrown, as 3 is the quotient of
11 by 5 rounded up. -/
theorem C23_piece_count_witness :
    (Metainfo.construct smallFilesTorrent = .error (.metainfoError .kPiecesLengthMismatch) ↔
      (((List.replicate 20 97 ++ List.replicate 20 98 ++ List.replicate 20 99).length / 20 : Nat)
        : Int) ≠ specCeilQuotient (specTotalLength (specInfo smallFilesDocument))
          (specInt (specField (specInfo smallFilesDocument) (bytes "piece length")))) ∧
    specCeilQuotient (specTotalLength (specInfo smallFilesDocument))
      (specInt (specField (specInfo smallFilesDocument) (bytes "piece length"))) = 3 :=
  ⟨(C23_piece_count smallFilesTorrent smallFilesDocument
      (List.replicate 20 97 ++ List.replicate 20 98 ++ List.replicate 20 99)
      Parse_smallFilesTorrent (by unfold checksPassBefore; decide) rfl).2.1 (by decide),
    by decide⟩

set_option maxRecDepth 20000 in
/-- C23 as stated fails on `roundedQuotientTorrent`: the torrent is accepted
with four pieces, and the quotient of its total length by its piece length is
exactly 3. -/
theorem C23_counterexample :
    ∃ m : Metainfo, Metainfo.construct roundedQuotientTorrent = .ok m ∧
      m.piece_list_.length = 4 ∧ m.total_length_ = 3 * m.piece_length_ ∧
      specCeilQuotient m.total_length_ m.piece_length_ = 3 :=
  ⟨_, (construct_of_Parse _ _ Parse_roundedQuotientTorrent).trans rfl, by decide, by decide,
    by decide⟩

/-- C24, as amended: in every accepted Metainfo every piece except the last has
the length `piece_length_`, and the last has the length
`total_length_ - (n - 1) * piece_length_` reduced modulo `2 ^ 64` into the
range of `long`; when `total_length_` is below `2 ^ 53`, the last length is
`total_length_ - (n - 1) * piece_length_` itself, it is between 1 and
`piece_length_`, it is `piece_length_` when `piece_length_` divides
`total_length_`, and the lengths of all pieces add up to `total_length_`. -/
theorem C24_piece_lengths (input : Str) (m : Metainfo)
    (h : Metainfo.construct input = .ok m) :
    (∀ (j : Nat) (hj : j < m.piece_list_.length), j + 1 < m.piece_list_.length →
      (m.piece_list_.get ⟨j, hj⟩).length = m.piece_length_) ∧
    (∀ hn : m.piece_list_.length - 1 < m.piece_list_.length,
      (m.piece_list_.get ⟨m.piece_list_.length - 1, hn⟩).length
        = toLong (m.total_length_ - ((m.piece_list_.length : Int) - 1) * m.piece_length_)) ∧
    (m.total_length_ < 2 ^ 53 →
      (∀ hn : m.piece_list_.length - 1 < m.piece_list_.length,
        (m.piece_list_.get ⟨m.piece_list_.length - 1, hn⟩).length
          = m.total_length_ - ((m.piece_list_.length : Int) - 1) * m.piece_length_ ∧
        1 ≤ (m.piece_list_.get ⟨m.piece_list_.length - 1, hn⟩).length ∧
        (m.piece_list_.get ⟨m.piece_list_.length - 1, hn⟩).length ≤ m.piece_length_ ∧
        (m.piece_length_ ∣ m.total_length_ →
          (m.piece_list_.get ⟨m.piece_list_.length - 1, hn⟩).length = m.piece_length_)) ∧
      (m.piece_list_.map (fun piece => piece.length)).sum = m.total_length_) := by
  have hget := accepted_piece_lengths input m h
  obtain ⟨_, _, hn1, _, _, hn, hpl1, _⟩ := accepted_structure input m h
  refine ⟨?_, ?_, ?_⟩
  · intro j hj hj1
    rw [hget j hj, if_pos hj1]
  · intro hlast
    rw [hget _ hlast, if_neg (by omega)]
  · intro hT
    obtain ⟨_, hlow, hup⟩ := accepted_exact input m h hT
    obtain ⟨hlastv, hsum⟩ := accepted_last_piece input m h hlow (by omega) (by omega)
    refine ⟨?_, ?_⟩
    · intro hlast
      have hexp : (m.piece_list_.length : Int) * m.piece_length_
          = ((m.piece_list_.length : Int) - 1) * m.piece_length_ + m.piece_length_ := by ring
      refine ⟨hlastv, by omega, by omega, ?_⟩
      intro hdvd
      rw [hlastv]
      have hd : m.piece_length_ ∣
          m.total_length_ - ((m.piece_list_.length : Int) - 1) * m.piece_length_ :=
        Dvd.dvd.sub hdvd (Dvd.intro_left _ rfl)
      have := Int.le_of_dvd (by omega) hd
      omega
    · rw [← pieceOffset_length]
      exact hsum

set_option maxRecDepth 20000 in
/-- C24 on `smallFilesTorrent`, a torrent of 11 bytes in pieces of 5 bytes: the
lengths of the pieces are 5, 5 and 1. -/
theorem C24_piece_lengths_witness :
    ∃ m : Metainfo, Metainfo.construct smallFilesTorrent = .ok m ∧
      m.piece_list_.map (fun piece => piece.length) = [5, 5, 1] ∧
      (m.piece_list_.map (fun piece => piece.length)).sum = m.total_length_ :=
  ⟨_, (construct_of_Parse _ _ Parse_smallFilesTorrent).trans rfl, by decide,
    ((C24_piece_lengths smallFilesTorrent _
      ((construct_of_Parse _ _ Parse_smallFilesTorrent).trans rfl)).2.2 (by decide)).2⟩

set_option maxRecDepth 20000 in
/-- C24 as stated fails on `roundedQuotientTorrent`: the torrent is accepted,
its piece length divides its total length, and its last piece has the length
0. -/
theorem C24_counterexample :
    ∃ m : Metainfo, Metainfo.construct roundedQuotientTorrent = .ok m ∧
      m.total_length_ % m.piece_length_ = 0 ∧
      m.piece_list_.map (fun piece => piece.length)
        = [m.piece_length_, m.piece_length_, m.piece_length_, 0] ∧
      (0 : Int) ≠ m.piece_length_ :=
  ⟨_, (construct_of_Parse _ _ Parse_roundedQuotientTorrent).trans rfl, by decide, by decide,
    by decide⟩

/-- C26, as amended: in every accepted Metainfo in which every file has a length
of at least 1 and the lengths of the files add up to less than `2 ^ 53`, the
numbers of pieces of the files add up to the number of pieces plus the number
of files whose start offset is no multiple of `piece_length_` (the first file
starts at 0 and is none of them), and the piece lists of the files,
concatenated in file order without the first piece of each such file, are
`piece_list_`. -/
theorem C26_file_coverage (input : Str) (m : Metainfo)
    (h : Metainfo.construct input = .ok m)
    (hlen : ∀ file ∈ m.file_list_, 1 ≤ file.length)
    (hsum : (m.file_list_.map (fun file => file.length)).sum < 2 ^ 53) :
    (m.file_list_.map (fun file => file.pieces.length)).sum
      = m.piece_list_.length + overlapCount m.piece_length_ m.file_list_ 0 ∧
    withoutOverlaps m.piece_length_ m.file_list_ 0 = m.piece_list_ := by
  obtain ⟨hT, hn, hoff, hpos, hmono⟩ := accepted_in_range input m h hlen (by omega)
  obtain ⟨_, files, hn1, _, _, hnl, hpl1, _, _, hattr, hnil, hlens, _⟩ :=
    accepted_structure input m h
  obtain ⟨_, hlow, hup⟩ := accepted_exact input m h (by omega)
  obtain ⟨_, hoffn⟩ := accepted_last_piece input m h hlow (by omega) (by omega)
  have hfiles : ∀ f ∈ files, 1 ≤ f.length ∧ f.pieces = [] := by
    intro f hf
    refine ⟨?_, hnil f hf⟩
    have : f.length ∈ m.file_list_.map (fun file => file.length) := by
      rw [← hlens]
      exact List.mem_map.2 ⟨f, hf, rfl⟩
    obtain ⟨g, hg, hgl⟩ := List.mem_map.1 this
    rw [← hgl]
    exact hlen g hg
  have hlast : pieceOffset m.piece_list_ (m.piece_list_.length - 1) < m.total_length_ := by
    rw [hoff _ (by omega)]
    have : ((m.piece_list_.length - 1 : Nat) : Int) = (m.piece_list_.length : Int) - 1 := by
      omega
    rw [this]
    exact hlow
  have h0 : 0 ≤ ((m.piece_list_.length : Int) - 1) * m.piece_length_ :=
    Int.mul_nonneg (by omega) (by omega)
  obtain ⟨tail, htail, hcat, hcount⟩ := attribute_pieces_cover m.piece_list_ m.piece_length_
    m.total_length_ (by omega) hn hpos hmono hoff hoffn hlast hup files 0 0 0 []
    m.file_list_ hfiles (by rw [hlens]; omega) (Nat.zero_le _)
    (by rw [pieceOffset_zero]; rfl) (le_refl _) (le_refl _) (fun h => absurd h (by omega))
    (by
      intro hempty
      rw [hempty] at hlens
      rw [← hlens] at hT
      simp only [List.map_nil, List.sum_nil] at hT
      omega) hattr
  rw [List.nil_append] at htail
  subst htail
  exact ⟨by rw [hcount]; omega, by rw [hcat]; rfl⟩

set_option maxRecDepth 20000 in
/-- C26 on `smallFilesTorrent`: the files of 2, 2 and 7 bytes have one, one and
three pieces, five in all, for three pieces and two files that start inside a
piece. -/
theorem C26_file_coverage_witness :
    ∃ m : Metainfo, Metainfo.construct smallFilesTorrent = .ok m ∧
      m.file_list_.map (fun file => file.pieces.length) = [1, 1, 3] ∧
      overlapCount m.piece_length_ m.file_list_ 0 = 2 ∧
      (m.file_list_.map (fun file => file.pieces.length)).sum
        = m.piece_list_.length + overlapCount m.piece_length_ m.file_list_ 0 ∧
      withoutOverlaps m.piece_length_ m.file_list_ 0 = m.piece_list_ :=
  ⟨_, (construct_of_Parse _ _ Parse_smallFilesTorrent).trans rfl, by decide, by decide,
    C26_file_coverage smallFilesTorrent _
      ((construct_of_Parse _ _ Parse_smallFilesTorrent).trans rfl) (by decide) (by decide)⟩

set_option maxRecDepth 20000 in
/-- C26 as stated fails on `roundedQuotientTorrent`: the torrent is accepted,
its one file has a length of at least 1 and three pieces, and the piece list
has four pieces. -/
theorem C26_counterexample :
    ∃ m : Metainfo, Metainfo.construct roundedQuotientTorrent = .ok m ∧
      (∀ file ∈ m.file_list_, 1 ≤ file.length) ∧
      (m.file_list_.map (fun file => file.pieces.length)).sum = 3 ∧
      m.piece_list_.length + overlapCount m.piece_length_ m.file_list_ 0 = 4 :=
  ⟨_, (construct_of_Parse _ _ Parse_roundedQuotientTorrent).trans rfl, by decide, by decide,
    by decide⟩

/-- C27, against the info hash as the specification describes it: for every
accepted torrent, `get_info_hash` returns the SHA-1 digest of the canonical
encoding `Dump` of the decoded `info` dictionary, which exists, and the digest
has exactly 20 bytes. -/
theorem C27_info_hash (input : Str) (m : Metainfo) (h : Metainfo.construct input = .ok m) :
    ∃ (top_ info : Bencode) (text : Str), Parse input = .ok top_ ∧
      specField top_ (bytes "info") = some info ∧ m.info_ = info ∧
      info.Dump = .ok text ∧ m.get_info_hash = .ok (SHA1 text) ∧
      (SHA1 text).length = 20 := by
  obtain ⟨top_, hparse, _, hok⟩ := construct_ok input m h
  have hb : input ≠ [] := by
    intro hb
    subst hb
    cases h
  have hnull := (Encoding_valid _ _ ((Parse_ok_iff input top_ hb).1 hparse)).1
  obtain ⟨hnone, _, hinfo, _⟩ := accepted_of_ok top_ m hok
  obtain ⟨_, info, _, _, _, _, htopinfo, hspec, _⟩ :=
    head_fields top_ (checksPassBefore_of_none top_ _ hnone)
  have hnf := NullFree_field top_ _ _ hnull htopinfo
  obtain ⟨text, hdump⟩ := (Dump_ok_iff_NullFree (.dict info)).2 hnf
  refine ⟨top_, .dict info, text, hparse, htopinfo, by rw [hinfo, hspec], hdump, ?_,
    SHA1_length text⟩
  simp only [Metainfo.get_info_hash, hinfo, hspec, hdump]

set_option maxRecDepth 20000 in
/-- C27 on `smallFilesTorrent`: the info hash is the digest
`7fd01fa585da02dd8dbe51aa6fe2e8da43993074` of the encoding of its `info`. -/
theorem C27_info_hash_witness :
    ∃ m : Metainfo, Metainfo.construct smallFilesTorrent = .ok m ∧
      m.get_info_hash = .ok [127, 208, 31, 165, 133, 218, 2, 221, 141, 190, 81, 170, 111, 226,
        232, 218, 67, 153, 48, 116] ∧
      ∃ (top_ info : Bencode) (text : Str), Parse smallFilesTorrent = .ok top_ ∧
        specField top_ (bytes "info") = some info ∧ m.info_ = info ∧
        info.Dump = .ok text ∧ m.get_info_hash = .ok (SHA1 text) ∧
        (SHA1 text).length = 20 :=
  ⟨_, (construct_of_Parse _ _ Parse_smallFilesTorrent).trans rfl, rfl,
    C27_info_hash smallFilesTorrent _
      ((construct_of_Parse _ _ Parse_smallFilesTorrent).trans rfl)⟩

/-! ## Claims about the root of a torrent, the errors of the decoder and Null -/

/-- C31: the constructor throws `kTopLevelNotDict` on every input that decodes
to a value whose tag is not Dictionary, the empty input, which decodes to Null,
among them; and on an input on which `Parse` throws a `ParseError` the
constructor ends with that `ParseError`. -/
theorem C31_root_not_dictionary (input : Str) :
    (∀ top_ : Bencode, Parse input = .ok top_ → top_.Type ≠ .kDictionary →
      Metainfo.construct input = .error (.metainfoError .kTopLevelNotDict)) ∧
    (input = [] → Metainfo.construct input = .error (.metainfoError .kTopLevelNotDict)) ∧
    (∀ id : ParseErrorID, Parse input = .throw id →
      Metainfo.construct input = .error (.parseError id)) := by
  refine ⟨?_, ?_, ?_⟩
  · intro top_ hparse htype
    rw [construct_of_Parse input top_ hparse]
    simp [Metainfo.ofDocument, htype, throw, throwThe, MonadExceptOf.throw, bind, Except.bind]
  · intro h
    subst h
    rfl
  · intro id hparse
    simp only [Metainfo.construct, hparse]

/-- C31 on the inputs `"le"`, `"i5e"`, `"3:abc"`, the empty input and `"a"`. -/
theorem C31_root_not_dictionary_witness :
    Metainfo.construct (bytes "le") = .error (.metainfoError .kTopLevelNotDict) ∧
    Metainfo.construct (bytes "i5e") = .error (.metainfoError .kTopLevelNotDict) ∧
    Metainfo.construct (bytes "3:abc") = .error (.metainfoError .kTopLevelNotDict) ∧
    Metainfo.construct [] = .error (.metainfoError .kTopLevelNotDict) ∧
    Metainfo.construct (bytes "a") = .error (.parseError .kBadPrefix) :=
  ⟨(C31_root_not_dictionary (bytes "le")).1 (.list []) rfl (by decide),
    (C31_root_not_dictionary (bytes "i5e")).1 (.int 5) rfl (by decide),
    (C31_root_not_dictionary (bytes "3:abc")).1 (.str (bytes "abc")) rfl (by decide),
    (C31_root_not_dictionary []).2.1 rfl,
    (C31_root_not_dictionary (bytes "a")).2.2 .kBadPrefix rfl⟩

/-- C34: in a dictionary at any depth of nesting, after entries that decode
and whose keys are in any order, repeated or not, `Parse` fails with the error
of what comes next and not with `kDictBadOrder` or `kDictDuplicateKeys` for the
keys read: with the error `id` that the decoder throws on the bytes `y` at the
place of the next key, or at the place of the value after a next key; with
`kUnexpectedEOF` when the input ends at either place; with `kDictIncompletePair`
when `'e'` follows a key; and with `kDictKeyNotString` when a value that is no
String stands at the place of a key. -/
theorem C34_order_checked_last (ctx : List Frame) (hctx : ∀ frame ∈ ctx, frame.Decodes)
    (pairs : List (Str × Str)) (hpairs : PairsDecode pairs) :
    (∀ (y : Str) (id : ParseErrorID), y.head? ≠ some ch_e →
      (∀ fuel, y.length < fuel → ParseRecursive fuel ⟨y, false⟩ = .throw id) →
      Parse (contextBytes ctx ++ ch_d :: (pairsBytes pairs ++ y)) = .throw id ∧
      ∀ key : Str, key.length ≤ SIZE_MAX →
        Parse (contextBytes ctx ++ ch_d :: (pairsBytes pairs ++ (DumpString key ++ y)))
          = .throw id) ∧
    Parse (contextBytes ctx ++ ch_d :: pairsBytes pairs) = .throw .kUnexpectedEOF ∧
    (∀ key : Str, key.length ≤ SIZE_MAX →
      Parse (contextBytes ctx ++ ch_d :: (pairsBytes pairs ++ DumpString key))
        = .throw .kUnexpectedEOF ∧
      ∀ rest : Str,
        Parse (contextBytes ctx ++ ch_d :: (pairsBytes pairs ++ (DumpString key ++ ch_e :: rest)))
          = .throw .kDictIncompletePair) ∧
    (∀ (key : Str) (v : Bencode) (rest : Str), Encoding v key → v.Type ≠ .kString →
      Parse (contextBytes ctx ++ ch_d :: (pairsBytes pairs ++ (key ++ rest)))
        = .throw .kDictKeyNotString) := by
  have hgen : ∀ (y : Str) (id : ParseErrorID), y.head? ≠ some ch_e →
      (∀ fuel, y.length < fuel → ParseRecursive fuel ⟨y, false⟩ = .throw id) →
      Parse (contextBytes ctx ++ ch_d :: (pairsBytes pairs ++ y)) = .throw id ∧
      ∀ key : Str, key.length ≤ SIZE_MAX →
        Parse (contextBytes ctx ++ ch_d :: (pairsBytes pairs ++ (DumpString key ++ y)))
          = .throw id := by
    intro y id hy herr
    constructor
    · have := Parse_throw_in_context (ctx ++ [Frame.inDictKey pairs])
        (context_snoc_decodes ctx hctx _ hpairs) y id hy herr
        (by simp [contextBytes_append, contextBytes, Frame.bytes])
      simpa [contextBytes_append, contextBytes, Frame.bytes] using this
    · intro key hkey
      have := Parse_throw_in_context (ctx ++ [Frame.inDictValue pairs key])
        (context_snoc_decodes ctx hctx _ ⟨hpairs, hkey⟩) y id hy herr
        (by simp [contextBytes_append, contextBytes, Frame.bytes])
      simpa [contextBytes_append, contextBytes, Frame.bytes] using this
  have heof : ∀ fuel, ([] : Str).length < fuel →
      ParseRecursive fuel ⟨[], false⟩ = .throw .kUnexpectedEOF := by
    intro fuel hf
    cases fuel with
    | zero => simp at hf
    | succ f => exact ParseRecursive_eof f
  have hend := hgen [] .kUnexpectedEOF (by simp) heof
  refine ⟨hgen, by simpa using hend.1, ?_, ?_⟩
  · intro key hkey
    refine ⟨by simpa using hend.2 key hkey, ?_⟩
    intro rest
    exact Parse_throw_in_context ctx hctx _ _ (by simp [ch_d, ch_e])
      (ParseRecursive_key_then_e pairs hpairs key hkey rest) (by simp)
  · intro key v rest henc hv
    exact Parse_throw_in_context ctx hctx _ _ (by simp [ch_d, ch_e])
      (ParseRecursive_key_not_string pairs hpairs key v henc hv rest) (by simp)

/-- C34 on the inputs `"d1:bi0e1:a"` and `"d1:bi0e1:aie"`, whose keys `b` and
`a` are misordered, and on `"d1:ai0e1:a"`, whose key `a` is repeated: the input
that ends after the second key gives `kUnexpectedEOF`, the value `"ie"`
gives `kIntegerEmpty`. -/
theorem C34_order_checked_last_witness :
    Parse (bytes "d1:bi0e1:a") = .throw .kUnexpectedEOF ∧
    Parse (bytes "d1:bi0e1:aie") = .throw .kIntegerEmpty ∧
    Parse (bytes "d1:ai0e1:a") = .throw .kUnexpectedEOF ∧
    is_sorted [bytes "b", bytes "a"] = false ∧
    (adjacent_find [bytes "a", bytes "a"]).isSome = true :=
  ⟨((C34_order_checked_last [] (fun _ h => absurd h (List.not_mem_nil _))
      [(bytes "b", bytes "i0e")]
      (by
        intro p hp
        simp only [List.mem_singleton] at hp
        subst hp
        exact ⟨by decide, by decide, _, rfl⟩)).2.2.1 (bytes "a") (by decide)).1,
    ((C34_order_checked_last [] (fun _ h => absurd h (List.not_mem_nil _))
      [(bytes "b", bytes "i0e")]
      (by
        intro p hp
        simp only [List.mem_singleton] at hp
        subst hp
        exact ⟨by decide, by decide, _, rfl⟩)).1 (bytes "ie") .kIntegerEmpty (by decide)
        (by
          intro fuel hf
          cases fuel with
          | zero => simp at hf
          | succ f => rfl)).2 (bytes "a") (by decide),
    ((C34_order_checked_last [] (fun _ h => absurd h (List.not_mem_nil _))
      [(bytes "a", bytes "i0e")]
      (by
        intro p hp
        simp only [List.mem_singleton] at hp
        subst hp
        exact ⟨by decide, by decide, _, rfl⟩)).2.2.1 (bytes "a") (by decide)).1,
    by decide, by decide⟩

/-- C35: in a dictionary at any depth of nesting, after entries that decode,
bytes that decode to an Integer, a List or a Dictionary where a key is read make
`Parse` fail with `kDictKeyNotString`, whatever follows them. -/
theorem C35_dict_key_not_string (ctx : List Frame) (hctx : ∀ frame ∈ ctx, frame.Decodes)
    (pairs : List (Str × Str)) (hpairs : PairsDecode pairs)
    (key : Str) (v : Bencode) (hne : key ≠ []) (hkey : Parse key = .ok v)
    (hv : v.Type = .kInteger ∨ v.Type = .kList ∨ v.Type = .kDictionary) (rest : Str) :
    Parse (contextBytes ctx ++ ch_d :: (pairsBytes pairs ++ (key ++ rest)))
      = .throw .kDictKeyNotString := by
  have henc := (Parse_ok_iff key v hne).1 hkey
  have hns : v.Type ≠ .kString := by
    rcases hv with h | h | h <;> rw [h] <;> decide
  exact Parse_throw_in_context ctx hctx _ _ (by simp [ch_d, ch_e])
    (ParseRecursive_key_not_string pairs hpairs key v henc hns rest) (by simp)

/-- C35 on `"di1e3:fooe"`, `"dlei0ee"` and, inside a list and after an entry,
`"ld1:ai0ededxyz"`. -/
theorem C35_dict_key_not_string_witness :
    Parse (bytes "di1e3:fooe") = .throw .kDictKeyNotString ∧
    Parse (bytes "dlei0ee") = .throw .kDictKeyNotString ∧
    Parse (bytes "ld1:ai0ededxyz") = .throw .kDictKeyNotString :=
  ⟨C35_dict_key_not_string [] (fun _ h => absurd h (List.not_mem_nil _)) []
      (fun _ h => absurd h (List.not_mem_nil _)) (bytes "i1e") (.int 1) (by decide) rfl
      (Or.inl rfl) (bytes "3:fooe"),
    C35_dict_key_not_string [] (fun _ h => absurd h (List.not_mem_nil _)) []
      (fun _ h => absurd h (List.not_mem_nil _)) (bytes "le") (.list []) (by decide) rfl
      (Or.inr (Or.inl rfl)) (bytes "i0ee"),
    C35_dict_key_not_string [Frame.inList []]
      (by
        intro frame hmem
        simp only [List.mem_singleton] at hmem
        subst hmem
        intro e he
        exact absurd he (List.not_mem_nil _))
      [(bytes "a", bytes "i0e")]
      (by
        intro p hp
        simp only [List.mem_singleton] at hp
        subst hp
        exact ⟨by decide, by decide, _, rfl⟩)
      (bytes "de") (.dict []) (by decide) rfl (Or.inr (Or.inr rfl)) (bytes "dxyz")⟩

/-- C36: where a value is read, at the root of the input or at any depth of
nesting as an element of a list, as a key or as a value of a dictionary, a byte
that is no decimal digit and none of `'-'`, `'i'`, `'l'`, `'d'` makes `Parse`
fail with `kBadPrefix`, whatever follows; inside a list or dictionary the byte
`'e'` is left out, at the root it is not. -/
theorem C36_bad_prefix_thrown (ctx : List Frame) (hctx : ∀ frame ∈ ctx, frame.Decodes)
    (c : Nat) (rest : Str) (hdigit : isDigit c = false) (hminus : c ≠ ch_minus)
    (hi : c ≠ ch_i) (hl : c ≠ ch_l) (hd : c ≠ ch_d) (he : ctx ≠ [] → c ≠ ch_e) :
    Parse (contextBytes ctx ++ c :: rest) = .throw .kBadPrefix := by
  have herr := ParseRecursive_bad_prefix c rest hdigit hminus hi hl hd
  cases ctx with
  | nil =>
    have hrun := herr ((c :: rest).length + 1) (by omega)
    simp only [contextBytes, List.nil_append, Parse, hrun]
    simp [IStream.peek]
  | cons frame inner =>
    exact Parse_throw_in_context (frame :: inner) hctx _ _
      (by simpa using he (by simp)) herr (by simp)

/-- C36 on `"e"` and `"x3:foo"` at the root, `"li1e!"` in a list, `"d1:ai0e?"`
at a key and `"d1:a:"` at a value of a dictionary. -/
theorem C36_bad_prefix_thrown_witness :
    Parse (bytes "e") = .throw .kBadPrefix ∧
    Parse (bytes "x3:foo") = .throw .kBadPrefix ∧
    Parse (bytes "li1e!") = .throw .kBadPrefix ∧
    Parse (bytes "d1:ai0e?") = .throw .kBadPrefix ∧
    Parse (bytes "d1:a:") = .throw .kBadPrefix :=
  ⟨C36_bad_prefix_thrown [] (fun _ h => absurd h (List.not_mem_nil _)) ch_e [] (by decide)
      (by decide) (by decide) (by decide) (by decide) (fun h => absurd rfl h),
    C36_bad_prefix_thrown [] (fun _ h => absurd h (List.not_mem_nil _)) 120 (bytes "3:foo")
      (by decide) (by decide) (by decide) (by decide) (by decide) (fun h => absurd rfl h),
    C36_bad_prefix_thrown [Frame.inList [bytes "i1e"]]
      (by
        intro frame hmem
        simp only [List.mem_singleton] at hmem
        subst hmem
        intro e he
        simp only [List.mem_singleton] at he
        subst he
        exact ⟨by decide, _, rfl⟩)
      33 [] (by decide) (by decide) (by decide) (by decide) (by decide) (fun _ => by decide),
    C36_bad_prefix_thrown [Frame.inDictKey [(bytes "a", bytes "i0e")]]
      (by
        intro frame hmem
        simp only [List.mem_singleton] at hmem
        subst hmem
        intro p hp
        simp only [List.mem_singleton] at hp
        subst hp
        exact ⟨by decide, by decide, _, rfl⟩)
      63 [] (by decide) (by decide) (by decide) (by decide) (by decide) (fun _ => by decide),
    C36_bad_prefix_thrown [Frame.inDictValue [] (bytes "a")]
      (by
        intro frame hmem
        simp only [List.mem_singleton] at hmem
        subst hmem
        exact ⟨fun _ h => absurd h (List.not_mem_nil _), by decide⟩)
      58 [] (by decide) (by decide) (by decide) (by decide) (by decide) (fun _ => by decide)⟩

/-- C37: `Dump` fails, with `DumpError` `kNull`, exactly on the values that are
Null or hold a Null at some depth as a list element or as a dictionary value,
and succeeds on every value without Null. -/
theorem C37_dump_fails_on_null (v : Bencode) :
    (v.Dump = .error .kNull ↔ v.NullFree = false) ∧
    (v.NullFree = true → ∃ b, v.Dump = .ok b) ∧
    (v.NullFree = false ↔ v = .null ∨
      (∃ l, v = .list l ∧ ∃ elem ∈ l, elem.NullFree = false) ∨
      (∃ d, v = .dict d ∧ ∃ kv ∈ d, kv.2.NullFree = false)) := by
  have hiff := Dump_ok_iff_NullFree v
  refine ⟨?_, fun h => hiff.2 h, ?_⟩
  · constructor
    · intro herr
      cases hnf : v.NullFree with
      | false => rfl
      | true =>
        obtain ⟨b, hb⟩ := hiff.2 hnf
        rw [hb] at herr
        cases herr
    · intro hnf
      cases hd : v.Dump with
      | ok b =>
        have := hiff.1 ⟨b, hd⟩
        rw [hnf] at this
        cases this
      | error id => cases id; rfl
  · clear hiff
    cases v with
    | null => simp [Bencode.NullFree]
    | str s => simp [Bencode.NullFree]
    | int n => simp [Bencode.NullFree]
    | list l =>
      simp only [Bencode.NullFree, reduceCtorEq, false_or, Bencode.list.injEq,
        exists_eq_left', false_and, exists_false, or_false]
      induction l with
      | nil => simp [NullFreeElems]
      | cons elem rest ih =>
        simp only [NullFreeElems, Bool.and_eq_false_iff, ih, List.mem_cons, exists_eq_or_imp]
    | dict d =>
      simp only [Bencode.NullFree, reduceCtorEq, false_or, Bencode.dict.injEq,
        exists_eq_left', false_and, exists_false]
      induction d with
      | nil => simp [NullFreeItems]
      | cons kv rest ih =>
        obtain ⟨k, value⟩ := kv
        simp only [NullFreeItems, Bool.and_eq_false_iff, ih, List.mem_cons, exists_eq_or_imp]

/-- C40: on a non-empty input on which `Parse` succeeds the value returned is
not Null and holds no Null at any depth, and `Dump` of it succeeds. -/
theorem C40_decoded_null_free (input : Str) (v : Bencode) (hne : input ≠ [])
    (h : Parse input = .ok v) :
    v ≠ .null ∧ v.NullFree = true ∧ ∃ b, v.Dump = .ok b := by
  have hnf := (Encoding_valid v input ((Parse_ok_iff input v hne).1 h)).1
  refine ⟨?_, hnf, (Dump_ok_iff_NullFree v).2 hnf⟩
  intro hnull
  rw [hnull] at hnf
  cases hnf

/-- C40 on the input `"d1:ali1e0:ee"`. -/
theorem C40_decoded_null_free_witness :
    Bencode.dict [(bytes "a", .list [.int 1, .str []])] ≠ .null ∧
    (Bencode.dict [(bytes "a", .list [.int 1, .str []])]).NullFree = true ∧
    ∃ b, (Bencode.dict [(bytes "a", .list [.int 1, .str []])]).Dump = .ok b :=
  C40_decoded_null_free (bytes "d1:ali1e0:ee") _ (by decide) rfl

/-! ## Claims about the single-file form, `announce` and the pieces -/

/-- C32: on a document that passes the checks before `kLengthNotInt` and has
`length` and not `files` in `info`, the constructor throws `kLengthNotInt` when
the value under `length` is no Integer and `kLengthInvalid` when it is an
Integer below 1; and when the constructor returns, the file list has exactly
one file, whose path is `info.name` and whose length is `info.length`, and
`total_length_` is `info.length`. -/
theorem C32_single_file (top_ : Bencode) (length : Bencode)
    (hpass : checksPassBefore .kLengthNotInt top_)
    (hlength : specField (specInfo top_) (bytes "length") = some length)
    (hfiles : specField (specInfo top_) (bytes "files") = none) :
    (length.Type ≠ .kInteger →
      Metainfo.ofDocument top_ = .error (.metainfoError .kLengthNotInt)) ∧
    (∀ n : Int, length = .int n → n < 1 →
      Metainfo.ofDocument top_ = .error (.metainfoError .kLengthInvalid)) ∧
    (∀ m : Metainfo, Metainfo.ofDocument top_ = .ok m →
      ∃ n : Int, length = .int n ∧ 1 ≤ n ∧ m.file_list_.length = 1 ∧
        m.file_list_.map (fun file => (file.path, file.length))
          = [(specStr (specField (specInfo top_) (bytes "name")), n)] ∧
        m.get_name = specStr (specField (specInfo top_) (bytes "name")) ∧
        m.total_length_ = n) := by
  obtain ⟨announce, info, name, piece_length, h1, ha, hi, hinfo, hn, hpl, hpl1⟩ :=
    head_fields top_ (checksPassBefore_mono _ _ top_ (by decide) hpass)
  have hpl1' : ¬ piece_length < 1 := by omega
  rw [hinfo] at hlength hfiles
  refine ⟨?_, ?_, ?_⟩
  · intro htype
    rw [ofDocument_eq]
    cases length <;>
      simp [firstFailingCheck, specChecks, h1, ha, hi, hinfo, hn, hpl, hpl1', hlength, hfiles,
        specHasType, Type_str, Type_int, Type_dict, Type_null, Type_list, specInt_int] at htype ⊢
  · intro n hln hlt
    subst hln
    rw [ofDocument_eq]
    simp [firstFailingCheck, specChecks, h1, ha, hi, hinfo, hn, hpl, hpl1', hlength, hfiles,
      specHasType, Type_str, Type_int, Type_dict, specInt_int, hlt]
  · intro m hm
    obtain ⟨n, hn1, hpos, hmap⟩ := accepted_single_file top_ m length hm (hinfo ▸ hlength)
    obtain ⟨_, _, _, _, hname, _, _, htotal⟩ := accepted_of_ok top_ m hm
    refine ⟨n, hn1, hpos, ?_, hmap, hname, ?_⟩
    · have := congrArg List.length hmap
      simpa using this
    · rw [htotal, hinfo]
      simp only [specTotalLength, hlength, hn1, specInt_int]

set_option maxRecDepth 8000 in
/-- C32 on `singleFileDocument` with the String `abc`, the Integer 0 and the
Integer 7 under `length`. -/
theorem C32_single_file_witness :
    Metainfo.ofDocument (singleFileDocument (.str (bytes "abc")))
      = .error (.metainfoError .kLengthNotInt) ∧
    Metainfo.ofDocument (singleFileDocument (.int 0))
      = .error (.metainfoError .kLengthInvalid) ∧
    ∃ m : Metainfo, Metainfo.ofDocument (singleFileDocument (.int 7)) = .ok m ∧
      ∃ n : Int, Bencode.int 7 = .int n ∧ 1 ≤ n ∧ m.file_list_.length = 1 ∧
        m.file_list_.map (fun file => (file.path, file.length))
          = [(specStr (specField (specInfo (singleFileDocument (.int 7))) (bytes "name")), n)] ∧
        m.get_name = specStr (specField (specInfo (singleFileDocument (.int 7))) (bytes "name")) ∧
        m.total_length_ = n :=
  ⟨(C32_single_file (singleFileDocument (.str (bytes "abc"))) (.str (bytes "abc"))
      (by unfold checksPassBefore; decide) rfl rfl).1 (by decide),
    (C32_single_file (singleFileDocument (.int 0)) (.int 0)
      (by unfold checksPassBefore; decide) rfl rfl).2.1 0 rfl (by decide),
    _, rfl, (C32_single_file (singleFileDocument (.int 7)) (.int 7)
      (by unfold checksPassBefore; decide) rfl rfl).2.2 _ rfl⟩

/-- C33: on a document with a Dictionary at the root the constructor throws
`kMissingAnnounce` when there is no `announce` and `kAnnounceNotString` when the
value under `announce` is no String; with a String under `announce` it throws
neither, `get_announce` returns that String as it is when the constructor
returns, and what the constructor does is the same for every other String
under `announce`: it returns for the one exactly when it returns for the
other, with the same members apart from `top_` and `announce_`, and it ends
with the same error otherwise. -/
theorem C33_announce_uninterpreted (top_ : Bencode) (hdict : top_.Type = .kDictionary) :
    (specField top_ (bytes "announce") = none →
      Metainfo.ofDocument top_ = .error (.metainfoError .kMissingAnnounce)) ∧
    (∀ v : Bencode, specField top_ (bytes "announce") = some v → v.Type ≠ .kString →
      Metainfo.ofDocument top_ = .error (.metainfoError .kAnnounceNotString)) ∧
    (∀ announce : Str, specField top_ (bytes "announce") = some (.str announce) →
      Metainfo.ofDocument top_ ≠ .error (.metainfoError .kMissingAnnounce) ∧
      Metainfo.ofDocument top_ ≠ .error (.metainfoError .kAnnounceNotString) ∧
      (∀ m : Metainfo, Metainfo.ofDocument top_ = .ok m → m.get_announce = announce) ∧
      (∀ (other : Bencode) (announce' : Str), other.Type = .kDictionary →
        specField other (bytes "info") = specField top_ (bytes "info") →
        specField other (bytes "announce") = some (.str announce') →
        (∀ m : Metainfo, Metainfo.ofDocument top_ = .ok m →
          Metainfo.ofDocument other = .ok ⟨other, announce', m.info_, m.name_, m.file_list_,
            m.piece_length_, m.piece_list_, m.total_length_⟩) ∧
        (∀ e : Raised, Metainfo.ofDocument top_ = .error e →
          Metainfo.ofDocument other = .error e))) := by
  refine ⟨?_, ?_, ?_⟩
  · intro hnone
    rw [ofDocument_eq]
    simp [firstFailingCheck, specChecks, hdict, hnone]
  · intro v hv htype
    rw [ofDocument_eq]
    cases v <;>
      simp [firstFailingCheck, specChecks, hdict, hv, specHasType, Type_str, Type_int,
        Type_dict, Type_null, Type_list] at htype ⊢
  · intro announce hann
    have hnot : ∀ id : MetainfoErrorID, (id = .kMissingAnnounce ∨ id = .kAnnounceNotString) →
        Metainfo.ofDocument top_ ≠ .error (.metainfoError id) := by
      intro id hid herr
      rw [ofDocument_eq] at herr
      cases hfirst : firstFailingCheck top_ with
      | some id' =>
        rw [hfirst] at herr
        simp only [Except.error.injEq, Raised.metainfoError.injEq] at herr
        subst herr
        have hmem := firstFailingCheck_some top_ id' hfirst
        obtain ⟨h1, h2⟩ := specChecks_announce top_ _ hmem
        rcases hid with hid | hid
        · have := h1 hid
          simp [hann] at this
        · have := h2 hid
          simp [hann, specHasType, Type_str] at this
      | none =>
        rw [hfirst] at herr
        rcases attribute_pieces_ends (specPieces (specInfo top_)) (specFiles (specInfo top_))
          0 0 [] (Nat.zero_le _) with ⟨file_list_, hok⟩ | hfault
        · rw [hok] at herr
          cases herr
        · rw [hfault] at herr
          cases herr
    refine ⟨hnot _ (Or.inl rfl), hnot _ (Or.inr rfl), ?_, ?_⟩
    · intro m hm
      obtain ⟨_, _, _, hannounce, _⟩ := accepted_of_ok top_ m hm
      rw [Metainfo.get_announce, hannounce, hann, specStr_str]
    · intro other announce' hother hinfo hann'
      have hspecinfo : specInfo other = specInfo top_ := by
        simp only [specInfo, hinfo]
      have hchecks : specChecks other = specChecks top_ := by
        simp only [specChecks, hspecinfo, hinfo, hother, hdict, hann, hann', specHasType,
          Type_str, Option.isNone_some]
      have hfirst : firstFailingCheck other = firstFailingCheck top_ := by
        simp only [firstFailingCheck, hchecks]
      constructor
      · intro m hm
        obtain ⟨hnone, hattr, hi, _, hname, hpl, hps, htotal⟩ := accepted_of_ok top_ m hm
        rw [ofDocument_eq, hfirst, hnone, hspecinfo]
        simp only [hattr, hann', specStr_str]
        rw [hi, hname, hpl, hps, htotal]
      · intro e herr
        rw [ofDocument_eq] at herr
        rw [ofDocument_eq, hfirst, hspecinfo]
        cases hf : firstFailingCheck top_ with
        | some id =>
          rw [hf] at herr
          exact herr
        | none =>
          rw [hf] at herr
          simp only at herr ⊢
          cases hattr : attribute_pieces (specPieces (specInfo top_))
              (specFiles (specInfo top_)) 0 0 [] with
          | ok file_list_ =>
            rw [hattr] at herr
            cases herr
          | error e' =>
            rw [hattr] at herr
            exact herr

set_option maxRecDepth 8000 in
/-- C33 on `announceDocument`: with the Integer 3 under `announce` the error is
`kAnnounceNotString`, and the constructor returns with the String `x`, with the
empty String and with a String of a scheme, blanks and braces, `get_announce`
being that String. -/
theorem C33_announce_uninterpreted_witness :
    Metainfo.ofDocument (announceDocument (.int 3))
      = .error (.metainfoError .kAnnounceNotString) ∧
    ∃ m : Metainfo, Metainfo.ofDocument (announceDocument (.str (bytes "x"))) = .ok m ∧
      m.get_announce = bytes "x" ∧
      Metainfo.ofDocument (announceDocument (.str []))
        = .ok ⟨announceDocument (.str []), [], m.info_, m.name_, m.file_list_,
            m.piece_length_, m.piece_list_, m.total_length_⟩ ∧
      Metainfo.ofDocument (announceDocument (.str (bytes "ftp://a b/\x7bc\x7d")))
        = .ok ⟨announceDocument (.str (bytes "ftp://a b/\x7bc\x7d")),
            bytes "ftp://a b/\x7bc\x7d", m.info_, m.name_, m.file_list_,
            m.piece_length_, m.piece_list_, m.total_length_⟩ :=
  ⟨(C33_announce_uninterpreted (announceDocument (.int 3)) rfl).2.1 (.int 3) rfl (by decide),
    _, rfl,
    ((C33_announce_uninterpreted (announceDocument (.str (bytes "x"))) rfl).2.2
      (bytes "x") rfl).2.2.1 _ rfl,
    (((C33_announce_uninterpreted (announceDocument (.str (bytes "x"))) rfl).2.2
      (bytes "x") rfl).2.2.2 (announceDocument (.str [])) [] rfl rfl rfl).1 _ rfl,
    (((C33_announce_uninterpreted (announceDocument (.str (bytes "x"))) rfl).2.2
      (bytes "x") rfl).2.2.2 (announceDocument (.str (bytes "ftp://a b/\x7bc\x7d")))
        (bytes "ftp://a b/\x7bc\x7d") rfl rfl rfl).1 _ rfl⟩

/-! ## Claims about the reads of the piece list and the lengths of the pieces -/

/-- C39 (amended): in every accepted Metainfo `total_length_` is at least 1,
every piece except the last has a length from 1 to `piece_length_` (it is
`piece_length_`), and when `total_length_` is below `2 ^ 53` every piece has a
length from 1 to `piece_length_`. -/
theorem C39_piece_length_bounds (input : Str) (m : Metainfo)
    (h : Metainfo.construct input = .ok m) :
    1 ≤ m.total_length_ ∧
    (∀ (j : Nat) (hj : j < m.piece_list_.length), j + 1 < m.piece_list_.length →
      1 ≤ (m.piece_list_.get ⟨j, hj⟩).length ∧
        (m.piece_list_.get ⟨j, hj⟩).length ≤ m.piece_length_) ∧
    (m.total_length_ < 2 ^ 53 → ∀ p ∈ m.piece_list_, 1 ≤ p.length ∧ p.length ≤ m.piece_length_) := by
  have hget := accepted_piece_lengths input m h
  obtain ⟨pieces, _, hn1, _, _, hn, hpl1, _, hceil, _⟩ := accepted_structure input m h
  have hmost : ∀ (j : Nat) (hj : j < m.piece_list_.length), j + 1 < m.piece_list_.length →
      1 ≤ (m.piece_list_.get ⟨j, hj⟩).length ∧
        (m.piece_list_.get ⟨j, hj⟩).length ≤ m.piece_length_ := by
    intro j hj hj1
    rw [hget j hj, if_pos hj1]
    exact ⟨hpl1, le_refl _⟩
  refine ⟨?_, hmost, ?_⟩
  · by_contra hT
    have hle := ceilQuotient_nonpos m.total_length_ m.piece_length_ (by omega)
    rw [hceil] at hle
    by_cases hsmall : pieces.length / 20 < 2 ^ 53
    · rw [roundToDouble_small _ hsmall] at hle
      omega
    · have := roundToDouble_large (pieces.length / 20) (by omega)
      omega
  · intro hT p hp
    obtain ⟨j, hj, hpj⟩ := List.getElem_of_mem hp
    subst hpj
    by_cases hj1 : j + 1 < m.piece_list_.length
    · exact hmost j hj hj1
    · have hjn : j = m.piece_list_.length - 1 := by omega
      subst hjn
      obtain ⟨_, hlow, hup⟩ := accepted_exact input m h hT
      obtain ⟨hlastv, _⟩ := accepted_last_piece input m h hlow (by omega) (by omega)
      have hexp : (m.piece_list_.length : Int) * m.piece_length_
          = ((m.piece_list_.length : Int) - 1) * m.piece_length_ + m.piece_length_ := by ring
      simp only [List.get_eq_getElem] at hlastv
      rw [hlastv]
      omega

set_option maxRecDepth 20000 in
/-- C39 at `smallFilesTorrent`, a torrent of 11 bytes in pieces of 5 bytes. -/
theorem C39_piece_length_bounds_witness :
    ∃ m : Metainfo, Metainfo.construct smallFilesTorrent = .ok m ∧
      m.piece_list_.map (fun piece => piece.length) = [5, 5, 1] ∧
      ∀ p ∈ m.piece_list_, 1 ≤ p.length ∧ p.length ≤ m.piece_length_ :=
  ⟨_, (construct_of_Parse _ _ Parse_smallFilesTorrent).trans rfl, by decide,
    (C39_piece_length_bounds smallFilesTorrent _
      ((construct_of_Parse _ _ Parse_smallFilesTorrent).trans rfl)).2.2 (by decide)⟩

set_option maxRecDepth 20000 in
/-- C39 as stated fails on `roundedQuotientTorrent`: the torrent is accepted
and the last of its four pieces has the length 0. -/
theorem C39_counterexample :
    ∃ m : Metainfo, Metainfo.construct roundedQuotientTorrent = .ok m ∧
      ∃ p ∈ m.piece_list_, ¬ (1 ≤ p.length ∧ p.length ≤ m.piece_length_) :=
  ⟨_, (construct_of_Parse _ _ Parse_roundedQuotientTorrent).trans rfl,
    ⟨⟨[97, 97, 97, 97, 97, 97, 97, 97, 97, 97, 97, 97, 97, 97, 97, 97, 97, 97, 97, 97], 0⟩,
      by decide, by decide⟩⟩

end Ftor
